import Mathlib

/-!
# xv6 with a stride + MLFQ scheduler: `proc.c`

A shallow embedding of `src/xv6-public/proc.c`: the CPU-share admission call
`set_cpu_share`, one iteration of `scheduler` (stride scan, stride dispatch,
MLFQ branch with its epoch wrap and the three level sweeps), and the life
cycle of a task (`userinit`, `allocproc`, `fork`, `exit`, `wait`, `kill`,
`yield`, `sleep`, `wakeup`, `getlev`, `thread_create`, `thread_exit`,
`thread_join`).

Conventions of the embedding.

* `struct proc` becomes the structure `proc`; a `struct proc *` into
  `ptable.proc` becomes the slot index (`Nat`), the null pointer `none`.
* The process table is a `List proc`; `NPROC` is its length.
* C `int` is `Int`.  Signed overflow is undefined in C and is not modelled;
  a division by zero (the x86 divide error) and an out-of-range array index
  are modelled as a `Fault`.
* `TOTALTICKET` comes from a header that is not part of the sources at hand,
  so every function that uses it takes it as its first argument.
* `swtch` hands the CPU to a process and comes back when that process
  re-enters the scheduler; what the process did in between is a parameter
  `swtch : Nat → Kernel → Kernel` of the scheduler.
* The scheduler additionally returns a log of what it did (which branch it
  took, which slot it dispatched); the log is not read by the code.
-/

namespace Xv6

/-- The `enum procstate` of the kernel. -/
inductive procstate where
  | UNUSED
  | EMBRYO
  | SLEEPING
  | RUNNABLE
  | RUNNING
  | ZOMBIE
  deriving DecidableEq

/-- A sleep channel (`void *chan`): the address of a table slot, or any other
kernel address. -/
inductive Chan where
  | slot (i : Nat)
  | addr (a : Nat)
  deriving DecidableEq

/-- The fields of `struct proc` that `proc.c` reads and writes.  Pointers into
the table (`parent`) are slot indices. -/
structure proc where
  sz : Int
  pgdir : Nat
  kstack : Nat
  state : procstate
  pid : Int
  parent : Option Nat
  chan : Option Chan
  killed : Int
  isMLFQ : Bool
  quantum : Int
  ticks : Int
  level : Int
  isStride : Bool
  share : Int
  stride : Int
  pass : Int
  tid : Int
  num_of_threads : Int
  sum_of_threads : Int
  retval : Int
  deriving DecidableEq

/-- The globals of `proc.c`: `ptable.proc`, the pseudo-process `mlfq`,
`nextpid` and `initproc`. -/
structure Kernel where
  ptable : List proc
  mlfq : proc
  nextpid : Int
  initproc : Option Nat
  deriving DecidableEq

/-- The ways in which the modelled C code can stop instead of returning: a
trap (division by zero, bad array index, null pointer), or a call of
`panic`. -/
inductive Fault where
  | divide_error
  | bad_index
  | null_proc
  | panic
  deriving DecidableEq

/-- C integer division `a / b`: truncating, and a divide error when `b` is 0. -/
def cdiv (a b : Int) : Except Fault Int :=
  if b = 0 then .error .divide_error else .ok (Int.tdiv a b)

/-- An array read `a[i]` with a C `int` index. -/
def cindex (a : List Int) (i : Int) : Except Fault Int :=
  if i < 0 then .error .bad_index
  else
    match a[i.toNat]? with
    | some v => .ok v
    | none => .error .bad_index

/-- The array `int time_quantum[3] = {1, 2, 4}`. -/
def time_quantum : List Int := [1, 2, 4]

/-- The array `int time_allotment[3] = {5, 10, 100}`. -/
def time_allotment : List Int := [5, 10, 100]

/-! ## `set_cpu_share` -/

/-- The first loop of `set_cpu_share`: starting from 987654321, the lowest
`pass` found in a slot whose `isStride` is set. -/
def lowest_pass_scan (ps : List proc) : Int :=
  ps.foldl
    (fun lowest_pass p =>
      if p.isStride then
        if lowest_pass > p.pass then p.pass else lowest_pass
      else lowest_pass)
    987654321

/-- The second loop of `set_cpu_share` (caller is a process with threads):
every slot with `parent == curproc && tid != 0` becomes a stride task with
`share / curproc->num_of_threads`. -/
def share_threads (TOTALTICKET share num_of_threads : Int) (cur : Nat) (pass : Int) :
    List proc → Except Fault (List proc)
  | [] => .ok []
  | p :: ps =>
    if p.parent = some cur ∧ p.tid ≠ 0 then do
      let sh ← cdiv share num_of_threads
      let st ← cdiv TOTALTICKET sh
      let rest ← share_threads TOTALTICKET share num_of_threads cur pass ps
      pure ({ p with isStride := true, share := sh, stride := st, pass := pass } :: rest)
    else do
      let rest ← share_threads TOTALTICKET share num_of_threads cur pass ps
      pure (p :: rest)

/-- The middle part of `set_cpu_share`: the three cases on the caller
(`curproc`, in slot `cur`) that make it, and its threads if it is a process
that has some, stride tasks.  Returns the new table. -/
def share_tasks (TOTALTICKET : Int) (ps : List proc) (cur : Nat) (curproc : proc)
    (share pass : Int) : Except Fault (List proc) :=
  if curproc.tid = 0 then
    if curproc.num_of_threads ≠ 0 then do
      let sh ← cdiv share curproc.num_of_threads
      let st ← cdiv TOTALTICKET sh
      let c1 : proc :=
        { curproc with isStride := true, share := sh, stride := st, pass := pass }
      share_threads TOTALTICKET share c1.num_of_threads cur c1.pass (ps.set cur c1)
    else do
      let st ← cdiv TOTALTICKET share
      pure (ps.set cur
        { curproc with isStride := true, share := share, stride := st, pass := pass })
  else do
    let st ← cdiv TOTALTICKET share
    pure (ps.set cur
      { curproc with isStride := true, share := share, stride := st, pass := pass })

/-- The system call `set_cpu_share(share)` made by the task in slot `cur`.
Returns the C return value and the new globals. -/
def set_cpu_share (TOTALTICKET : Int) (k : Kernel) (cur : Nat) (share : Int) :
    Except Fault (Int × Kernel) :=
  if share ≤ 0 then .ok (-1, k)
  else if k.mlfq.share - share < 20 then .ok (-1, k)
  else
    match k.ptable[cur]? with
    | none => .error .null_proc
    | some curproc =>
      let lowest_pass := lowest_pass_scan k.ptable
      let pass := if lowest_pass < k.mlfq.pass then lowest_pass else k.mlfq.pass
      do
        let ptable ← share_tasks TOTALTICKET k.ptable cur curproc share pass
        let mshare := k.mlfq.share - share
        let mstride ← cdiv TOTALTICKET mshare
        pure (share,
          { k with ptable := ptable, mlfq := { k.mlfq with share := mshare, stride := mstride } })

/-- The sum of `share` over the slots whose `isStride` is set. -/
def stride_share_sum (ps : List proc) : Int :=
  (ps.map (fun p => if p.isStride then p.share else 0)).sum

/-- The entry pass as the code computes it: `r` is the least element of the
set made of `mlfq.pass` and the `pass` of every slot whose `isStride` is set,
whatever the state of the slot. -/
def IsEntryPass (ps : List proc) (mlfq_pass r : Int) : Prop :=
  r ≤ mlfq_pass ∧ (∀ p ∈ ps, p.isStride = true → r ≤ p.pass) ∧
    (r = mlfq_pass ∨ ∃ p ∈ ps, p.isStride = true ∧ r = p.pass)

/-! ## `scheduler` -/

/-- What the scheduler did, in order: it entered the MLFQ branch, it
dispatched the MLFQ task of a slot (at which level, charging which quantum),
or it dispatched the stride task of a slot. -/
inductive Event where
  | mlfq_pass
  | mlfq_run (slot : Nat) (level : Int) (quantum : Int)
  | stride_run (slot : Nat)
  deriving DecidableEq

/-- The first loop of `scheduler`, from slot index `i` on, with the current
values of `lowest_pass` and `selectedproc`. -/
def stride_scan : List proc → Nat → Int → Option Nat → Option Nat
  | [], _, _, selectedproc => selectedproc
  | p :: ps, i, lowest_pass, selectedproc =>
    if p.state ≠ .RUNNABLE then stride_scan ps (i + 1) lowest_pass selectedproc
    else if p.isStride = false then stride_scan ps (i + 1) lowest_pass selectedproc
    else if lowest_pass > p.pass then stride_scan ps (i + 1) p.pass (some i)
    else stride_scan ps (i + 1) lowest_pass selectedproc

/-- The `selectedproc` of one scheduler iteration. -/
def stride_winner (k : Kernel) : Option Nat :=
  stride_scan k.ptable 0 987654321 none

/-- The start of the MLFQ branch: `mlfq.pass += mlfq.stride` and the epoch
wrap. -/
def mlfq_advance (k : Kernel) : Kernel :=
  let pass := k.mlfq.pass + k.mlfq.stride
  if pass ≥ 100000000 then
    { k with
      mlfq := { k.mlfq with pass := 0 }
      ptable := k.ptable.map (fun p => if p.isStride then { p with pass := 0 } else p) }
  else
    { k with mlfq := { k.mlfq with pass := pass } }

/-- The state of a level sweep: the globals, the flag `found`, the log. -/
structure Sweep where
  k : Kernel
  found : Bool
  log : List Event
  deriving DecidableEq

/-- The body of a level sweep for the slot `i` that passed the test of the loop
(`p` is its content): charge the quantum, mark it RUNNING, `swtch` to it, and
on return demote it (level 0 and 1: `level++`, level 2: `level = 0`) when
the allotment of its level is used up. -/
def mlfq_dispatch (swtch : Nat → Kernel → Kernel) (lvl : Int) (i : Nat) (p : proc)
    (s : Sweep) : Except Fault Sweep := do
  let q ← cindex time_quantum p.level
  let k1 : Kernel :=
    { s.k with ptable := s.k.ptable.set i { p with ticks := p.ticks + q, state := .RUNNING } }
  let k2 := swtch i k1
  match k2.ptable[i]? with
  | none => .error .null_proc
  | some p2 =>
    let a ← cindex time_allotment p2.level
    let k3 : Kernel :=
      if p2.ticks ≥ a then
        { k2 with
          ptable := k2.ptable.set i
            { p2 with ticks := 0, level := if lvl = 2 then 0 else p2.level + 1 } }
      else k2
    pure { k := k3, found := true, log := s.log ++ [Event.mlfq_run i p.level q] }

/-- One level sweep of the MLFQ branch: the `for` loop over the slots `i`,
`i + 1`, ... (`n` of them) for level `lvl`. -/
def mlfq_sweep (swtch : Nat → Kernel → Kernel) (lvl : Int) :
    Nat → Nat → Sweep → Except Fault Sweep
  | 0, _, s => .ok s
  | n + 1, i, s =>
    match s.k.ptable[i]? with
    | none => mlfq_sweep swtch lvl n (i + 1) s
    | some p =>
      if p.state ≠ .RUNNABLE ∨ p.isStride = true ∨ p.level ≠ lvl then
        mlfq_sweep swtch lvl n (i + 1) s
      else do
        let s1 ← mlfq_dispatch swtch lvl i p s
        mlfq_sweep swtch lvl n (i + 1) s1

/-- The sweeps of level 1 and level 2 are guarded by `if(!found)`. -/
def sweep_unless_found (swtch : Nat → Kernel → Kernel) (lvl : Int) (n : Nat) (s : Sweep) :
    Except Fault Sweep :=
  if s.found = false then mlfq_sweep swtch lvl n 0 s else .ok s

/-- The three level sweeps of the MLFQ branch, run on the state `k0` that the
pass update and epoch wrap left. -/
def mlfq_sweeps (swtch : Nat → Kernel → Kernel) (k0 : Kernel) :
    Except Fault (Kernel × List Event) := do
  let n := k0.ptable.length
  let s0 ← mlfq_sweep swtch 0 n 0 { k := k0, found := false, log := [Event.mlfq_pass] }
  let s1 ← sweep_unless_found swtch 1 n s0
  let s2 ← sweep_unless_found swtch 2 n s1
  pure (s2.k, s2.log)

/-- The MLFQ branch of one scheduler iteration. -/
def mlfq_branch (swtch : Nat → Kernel → Kernel) (k : Kernel) :
    Except Fault (Kernel × List Event) :=
  mlfq_sweeps swtch (mlfq_advance k)

/-- The stride branch up to its `swtch`: the selected task in slot `i` (`sel`
is its content) is marked RUNNING and its pass advanced by its stride. -/
def stride_dispatch (k : Kernel) (i : Nat) (sel : proc) : Kernel :=
  { k with ptable := k.ptable.set i { sel with state := .RUNNING, pass := sel.pass + sel.stride } }

/-- One iteration of the `for(;;)` loop of `scheduler`. -/
def scheduler (swtch : Nat → Kernel → Kernel) (k : Kernel) :
    Except Fault (Kernel × List Event) :=
  match stride_winner k with
  | none => mlfq_branch swtch k
  | some i =>
    match k.ptable[i]? with
    | none => .error .null_proc
    | some selectedproc =>
      if selectedproc.pass > k.mlfq.pass then mlfq_branch swtch k
      else .ok (swtch i (stride_dispatch k i selectedproc), [Event.stride_run i])

/-- A run of `n` scheduler iterations, with the concatenated log. -/
def scheduler_run (swtch : Nat → Kernel → Kernel) : Nat → Kernel →
    Except Fault (Kernel × List Event)
  | 0, k => .ok (k, [])
  | n + 1, k => do
    let r1 ← scheduler swtch k
    let r2 ← scheduler_run swtch n r1.1
    pure (r2.1, r1.2 ++ r2.2)

/-- The dispatched process never runs: the scheduler's own effect. -/
def swtch_none : Nat → Kernel → Kernel := fun _ k => k

/-- The dispatched process runs until the timer makes it call `yield`, which
sets its state back to RUNNABLE. -/
def swtch_yield : Nat → Kernel → Kernel := fun i k =>
  match k.ptable[i]? with
  | none => k
  | some p => { k with ptable := k.ptable.set i { p with state := .RUNNABLE } }

/-- Number of times the stride task of slot `i` was dispatched in a log. -/
def stride_runs (i : Nat) (log : List Event) : Nat :=
  log.count (Event.stride_run i)

/-- Number of dispatches (of either kind) in a log. -/
def dispatches (log : List Event) : Nat :=
  (log.filter (fun e => decide (e ≠ Event.mlfq_pass))).length

/-- Ticks charged to slot `i` by the MLFQ sweeps in a log. -/
def charged_ticks (i : Nat) : List Event → Int
  | [] => 0
  | Event.mlfq_run j _ q :: es => (if j = i then q else 0) + charged_ticks i es
  | _ :: es => charged_ticks i es

/-! ## Concrete states -/

/-- A zeroed `struct proc`: the content of a slot that was never used, and of
the global `mlfq` before `userinit`. -/
def proc_zero : proc :=
  { sz := 0, pgdir := 0, kstack := 0, state := .UNUSED, pid := 0, parent := none,
    chan := none, killed := 0, isMLFQ := false, quantum := 0, ticks := 0, level := 0,
    isStride := false, share := 0, stride := 0, pass := 0, tid := 0, num_of_threads := 0,
    sum_of_threads := 0, retval := 0 }

/-- The global `mlfq` as `userinit` leaves it: share 100, stride
`TOTALTICKET / 100`, pass 0. -/
def mlfq_boot (TOTALTICKET : Int) : proc :=
  { proc_zero with
    isMLFQ := true, isStride := true, share := 100, stride := Int.tdiv TOTALTICKET 100,
    pass := 0 }

/-- A state after boot in which no task has asked for a CPU share yet: init in
slot 0 (asleep in `wait`), three runnable child processes A, B, C in the slots
1, 2, 3 and four unused slots. -/
def boot_state (TOTALTICKET : Int) : Kernel :=
  { ptable :=
      [ { proc_zero with sz := 4096, pgdir := 1, kstack := 1, state := .SLEEPING, pid := 1,
                         chan := some (Chan.slot 0) },
        { proc_zero with sz := 4096, pgdir := 2, kstack := 2, state := .RUNNABLE, pid := 2,
                         parent := some 0 },
        { proc_zero with sz := 4096, pgdir := 3, kstack := 3, state := .RUNNABLE, pid := 3,
                         parent := some 0 },
        { proc_zero with sz := 4096, pgdir := 4, kstack := 4, state := .RUNNABLE, pid := 4,
                         parent := some 0 },
        proc_zero, proc_zero, proc_zero, proc_zero ]
    mlfq := mlfq_boot TOTALTICKET
    nextpid := 5
    initproc := some 0 }

/-- The calls of the stride admission scenario, made from state `k` by the
tasks in the slots `a`, `b` and `c`; the list of the five return values. -/
def admission_scenario (TOTALTICKET : Int) (k : Kernel) (a b c : Nat) :
    Except Fault (List Int) := do
  let r1 ← set_cpu_share TOTALTICKET k a 40
  let r2 ← set_cpu_share TOTALTICKET r1.2 b 40
  let r3 ← set_cpu_share TOTALTICKET r2.2 c 25
  let r4 ← set_cpu_share TOTALTICKET r3.2 c 20
  let r5 ← set_cpu_share TOTALTICKET r4.2 c 19
  pure [r1.1, r2.1, r3.1, r4.1, r5.1]

/-- The caller of `set_cpu_share` as the two branches for a caller without
threads leave it: a stride task with the requested share, entering with pass
`e`. -/
def joined (TOTALTICKET : Int) (c : proc) (s e : Int) : proc :=
  { c with isStride := true, share := s, stride := Int.tdiv TOTALTICKET s, pass := e }

/-- A state after boot in which the process in slot 1 has two live threads, in
the slots 2 and 3 (each with `tid = pid`, sharing the page directory of the
process); no task has asked for a CPU share yet. -/
def thread_state (TOTALTICKET : Int) : Kernel :=
  { ptable :=
      [ { proc_zero with sz := 4096, pgdir := 1, kstack := 1, state := .SLEEPING, pid := 1,
                         chan := some (Chan.slot 0) },
        { proc_zero with sz := 20480, pgdir := 2, kstack := 2, state := .RUNNING, pid := 2,
                         parent := some 0, num_of_threads := 2, sum_of_threads := 2 },
        { proc_zero with sz := 12288, pgdir := 2, kstack := 3, state := .RUNNABLE, pid := 3,
                         parent := some 1, tid := 3 },
        { proc_zero with sz := 20480, pgdir := 2, kstack := 4, state := .RUNNABLE, pid := 4,
                         parent := some 1, tid := 4 },
        proc_zero, proc_zero, proc_zero, proc_zero ]
    mlfq := mlfq_boot TOTALTICKET
    nextpid := 5
    initproc := some 0 }

/-- A state with three runnable stride tasks in the slots 1, 2, 3 (shares 20
each, `TOTALTICKET` 10000), the last two tied on the lowest pass. -/
def tie_state : Kernel :=
  { ptable :=
      [ { proc_zero with sz := 4096, pgdir := 1, kstack := 1, state := .SLEEPING, pid := 1,
                         chan := some (Chan.slot 0) },
        { proc_zero with sz := 4096, pgdir := 2, kstack := 2, state := .RUNNABLE, pid := 2,
                         parent := some 0, isStride := true, share := 20, stride := 500,
                         pass := 1000 },
        { proc_zero with sz := 4096, pgdir := 3, kstack := 3, state := .RUNNABLE, pid := 3,
                         parent := some 0, isStride := true, share := 20, stride := 500,
                         pass := 500 },
        { proc_zero with sz := 4096, pgdir := 4, kstack := 4, state := .RUNNABLE, pid := 4,
                         parent := some 0, isStride := true, share := 20, stride := 500,
                         pass := 500 },
        proc_zero, proc_zero, proc_zero, proc_zero ]
    mlfq := { mlfq_boot 10000 with share := 40, stride := 250, pass := 750 }
    nextpid := 5
    initproc := some 0 }

/-- A table whose only runnable stride task (slot 1) has pass 987654321, the
start value of `lowest_pass` in the scan. -/
def high_pass_state : Kernel :=
  { ptable :=
      [ { proc_zero with sz := 4096, pgdir := 1, kstack := 1, state := .SLEEPING, pid := 1,
                         chan := some (Chan.slot 0) },
        { proc_zero with sz := 4096, pgdir := 2, kstack := 2, state := .RUNNABLE, pid := 2,
                         parent := some 0, isStride := true, share := 1, stride := 987654321,
                         pass := 987654321 } ]
    mlfq := { mlfq_boot 987654321 with share := 99, stride := 9976306, pass := 0 }
    nextpid := 3
    initproc := some 0 }

/-- How `high_pass_state` comes about when `TOTALTICKET` is 987654321: in the
boot state task A (slot 1) asks for a share of 1, then one scheduler iteration
runs (the dispatched task yields).  Returns the log of that iteration, the
(state, isStride, pass) of slot 1 afterwards and the selection of the next
scan. -/
def high_pass_run : Except Fault (List Event × Option (procstate × Bool × Int) × Option Nat) := do
  let r1 ← set_cpu_share 987654321 (boot_state 987654321) 1 1
  let r2 ← scheduler swtch_yield r1.2
  pure (r2.2, r2.1.ptable[1]?.map (fun p => (p.state, p.isStride, p.pass)), stride_winner r2.1)

/-- The accounting of one MLFQ dispatch at which the task yields, on the pair
(level, ticks) of the task: the quantum charged, and the new pair.  It is what
`mlfq_dispatch` does to these two fields when the sweep level is the level of
the task. -/
def mlfq_account (lt : Int × Int) : Except Fault (Int × (Int × Int)) := do
  let q ← cindex time_quantum lt.1
  let a ← cindex time_allotment lt.1
  pure (q, if lt.2 + q ≥ a then (if lt.1 = 2 then 0 else lt.1 + 1, 0) else (lt.1, lt.2 + q))

/-- The accounting of `n` successive dispatches: the total of the quanta charged
and the final (level, ticks). -/
def mlfq_account_run : Nat → Int × Int → Except Fault (Int × (Int × Int))
  | 0, lt => .ok (0, lt)
  | n + 1, lt => do
    let r1 ← mlfq_account lt
    let r2 ← mlfq_account_run n r1.2
    pure (r1.1 + r2.1, r2.2)

/-- Slot `i` holds `p`, and no other slot of the table is RUNNABLE. -/
def Solo (k : Kernel) (i : Nat) (p : proc) : Prop :=
  k.ptable[i]? = some p ∧ ∀ j q, j ≠ i → k.ptable[j]? = some q → q.state ≠ .RUNNABLE

/-- A state after boot with one CPU-bound process (slot 1, at level 0 with no
ticks used) while init sleeps in `wait`. -/
def solo_state : Kernel :=
  { ptable :=
      [ { proc_zero with sz := 4096, pgdir := 1, kstack := 1, state := .SLEEPING, pid := 1,
                         chan := some (Chan.slot 0) },
        { proc_zero with sz := 4096, pgdir := 2, kstack := 2, state := .RUNNABLE, pid := 2,
                         parent := some 0 },
        proc_zero, proc_zero ]
    mlfq := mlfq_boot 10000
    nextpid := 3
    initproc := some 0 }

/-! ## Stride fairness -/

/-- The bound "(s / 100) * T - k <= n <= (s / 100) * T + k" on a number `n` of
dispatches, multiplied by 100 so as to stay in the integers. -/
def FairCount (share : Int) (T : Nat) (k : Int) (n : Nat) : Prop :=
  share * T - 100 * k ≤ 100 * n ∧ 100 * n ≤ share * T + 100 * k

/-- The number of slots whose `isStride` is set. -/
def stride_count (ps : List proc) : Int :=
  (ps.map (fun p => if p.isStride then 1 else 0)).sum

/-- A static set of always-Runnable stride tasks whose strides are exact:
every isStride slot is RUNNABLE with `stride * share = TOTALTICKET`, the same
holds for the pseudo-task `mlfq`, and the shares add up to 100. -/
def StaticStride (TOTALTICKET : Int) (k : Kernel) : Prop :=
  0 < TOTALTICKET ∧
  (∀ p ∈ k.ptable, p.isStride = true →
    p.state = .RUNNABLE ∧ 0 < p.share ∧ p.stride * p.share = TOTALTICKET) ∧
  0 < k.mlfq.share ∧ k.mlfq.stride * k.mlfq.share = TOTALTICKET ∧
  k.mlfq.share + stride_share_sum k.ptable = 100

/-- No client of the stride race is more than one of its strides ahead of
another one (the clients are the isStride slots and `mlfq`).  It holds when
all passes are equal, and every scheduler iteration keeps it. -/
def Lag (k : Kernel) : Prop :=
  (∀ p ∈ k.ptable, p.isStride = true →
    p.pass - p.stride ≤ k.mlfq.pass ∧ k.mlfq.pass - k.mlfq.stride ≤ p.pass) ∧
  (∀ p ∈ k.ptable, p.isStride = true → ∀ p' ∈ k.ptable, p'.isStride = true →
    p.pass - p.stride ≤ p'.pass)

/-- Within `T` iterations `mlfq.pass` cannot reach the epoch-wrap bound
100000000: the window contains no epoch wrap. -/
def NoEpochWrap (k : Kernel) (T : Nat) : Prop :=
  k.mlfq.pass + T * k.mlfq.stride < 100000000

/-- A state of a long run with `TOTALTICKET` 10000: stride task A (slot 1, share
80, stride 125) and `mlfq` (share 20, stride 500) started from equal passes and
are now one MLFQ turn before the epoch wrap; slot 2 holds a runnable MLFQ task
at level 0. -/
def wrap_state : Kernel :=
  { ptable :=
      [ { proc_zero with sz := 4096, pgdir := 1, kstack := 1, state := .SLEEPING, pid := 1,
                         chan := some (Chan.slot 0) },
        { proc_zero with sz := 4096, pgdir := 2, kstack := 2, state := .RUNNABLE, pid := 2,
                         parent := some 0, isStride := true, share := 80, stride := 125,
                         pass := 99999625 },
        { proc_zero with sz := 4096, pgdir := 3, kstack := 3, state := .RUNNABLE, pid := 3,
                         parent := some 0 },
        proc_zero ]
    mlfq := { mlfq_boot 10000 with share := 20, stride := 500, pass := 99999500 }
    nextpid := 4
    initproc := some 0 }

/-- The content of a slot after the scheduler iterations logged in `log`, in a
static set of stride tasks: a stride slot is as before with its pass advanced
by one stride per dispatch. -/
def advanced (p : proc) (runs : Nat) : proc :=
  { p with pass := p.pass + p.stride * runs }

/-- What the iterations logged in `log` have done to the clients of the stride
race, when there was no epoch wrap: `mlfq.pass` advanced by one stride per
MLFQ turn, every stride slot by one stride per dispatch, no other slot became
a stride slot or was dispatched as one, and the turns add up to `T`. -/
def StrideEffect (T : Nat) (k k' : Kernel) (log : List Event) : Prop :=
  k'.ptable.length = k.ptable.length ∧
  k'.mlfq = { k.mlfq with pass := k.mlfq.pass + k.mlfq.stride * log.count Event.mlfq_pass } ∧
  (∀ (j : Nat) (p : proc), k.ptable[j]? = some p →
    ∃ p', k'.ptable[j]? = some p' ∧
      (p.isStride = true → p' = advanced p (stride_runs j log)) ∧
      (p.isStride = false → p'.isStride = false ∧ stride_runs j log = 0)) ∧
  (∀ j, k.ptable.length ≤ j → stride_runs j log = 0) ∧
  ((log.count Event.mlfq_pass : Int) +
    Finset.sum (Finset.range k.ptable.length) (fun j => (stride_runs j log : Int)) = T)

/-- The frame of the MLFQ sweeps: `mlfq` and every stride slot are untouched,
and no other slot becomes a stride slot. -/
def MlfqFrame (k k' : Kernel) : Prop :=
  k'.mlfq = k.mlfq ∧ k'.ptable.length = k.ptable.length ∧
  ∀ (j : Nat) (p : proc), k.ptable[j]? = some p →
    ∃ p', k'.ptable[j]? = some p' ∧ (p.isStride = true → p' = p) ∧
      (p.isStride = false → p'.isStride = false)

/-- Only entries `mlfq_run` are in a list of events. -/
def OnlyMlfqRuns (l : List Event) : Prop :=
  ∀ e ∈ l, ∃ j lv q, e = Event.mlfq_run j lv q

/-- The invariant of a window of `T` iterations over a static set of stride
tasks: every stride slot is RUNNABLE, no stride is negative, the passes are
within one stride of each other and the window contains no epoch wrap. -/
def RaceInv (k : Kernel) (T : Nat) : Prop :=
  (∀ p ∈ k.ptable, p.isStride = true → p.state = .RUNNABLE ∧ 0 ≤ p.stride) ∧
  0 ≤ k.mlfq.stride ∧ Lag k ∧ NoEpochWrap k T

/-- The share of slot `j` if it is a stride slot, else 0. -/
def slot_share (ps : List proc) (j : Nat) : Int :=
  match ps[j]? with
  | some p => if p.isStride then p.share else 0
  | none => 0

/-- The number 1 if slot `j` is a stride slot, else 0. -/
def slot_ind (ps : List proc) (j : Nat) : Int :=
  match ps[j]? with
  | some p => if p.isStride then 1 else 0
  | none => 0

/-- What a part of an iteration did to the runnable MLFQ task `p` of slot `i`:
nothing, or one dispatch with the accounting of `mlfq_account`. -/
def Tracked (i : Nat) (p : proc) (k' : Kernel) (charged : Int) : Prop :=
  (k'.ptable[i]? = some p ∧ charged = 0) ∨
  (∃ q l' t', mlfq_account (p.level, p.ticks) = .ok (q, (l', t')) ∧
    k'.ptable[i]? = some { p with state := .RUNNABLE, level := l', ticks := t' } ∧
    charged = q)

/-- The level that goes with a number of charged ticks, as the claim on
demotion and boost has it: level 1 at 5 ticks, level 2 at 15 ticks and not
before, level 0 at 115 ticks. -/
def LevelAtTicks (charged level : Int) : Prop :=
  (charged = 5 → level = 1) ∧ (charged = 15 → level = 2) ∧
  (charged < 15 → level ≠ 2) ∧ (charged = 115 → level = 0)

/-- Whether the accounting of `m` dispatches from (level 0, ticks 0) agrees
with `LevelAtTicks`. -/
def level_at_ticks_after (m : Nat) : Bool :=
  match mlfq_account_run m (0, 0) with
  | .ok (c, (l, _)) =>
    decide ((c = 5 → l = 1) ∧ (c = 15 → l = 2) ∧ (c < 15 → l ≠ 2) ∧ (c = 115 → l = 0))
  | .error _ => true

/-! ## The life cycle: `wakeup`, `kill`, `allocproc`, `fork`, `exit`, `wait` and the thread calls

Conventions of this part.

* The memory functions (`kalloc`, `copyuvm`, `allocuvm`, `deallocuvm`,
  `copyout`) and the header constants `PGSIZE`, `PGROUNDUP` are not part of the
  sources at hand; a call takes them in an `Env`.  A null pointer is 0, as in C.
* The calls that give memory back (`kfree`, `freevm`) are returned as a list of
  `MemCall`, in the order in which the code makes them.
* The open files, the working directory, the name, the trap frame and the
  context of a task are not modelled.  `uint` sizes are `Int`; the shrink
  target `sz - 2 * sum_of_threads * PGSIZE`, which can go below 0, wraps
  modulo 2^32 as in C (`usub`).
* `exit` and `thread_exit` end in `sched()` and never return: their result is
  the state in which the caller enters the scheduler.  `wait` and
  `thread_join` are modelled up to the point at which they first return or
  block in `sleep`.
-/

/-- What one call takes from the rest of the kernel: the page size, the
rounding macro, the pointer that `kalloc()` returns, and the functions
`copyuvm(pgdir, sz)`, `allocuvm(pgdir, oldsz, newsz)`,
`deallocuvm(pgdir, oldsz, newsz)` and `copyout(pgdir, va, ..)` as functions of
the arguments that `proc.c` passes. -/
structure Env where
  PGSIZE : Int
  PGROUNDUP : Int → Int
  kalloc : Nat
  copyuvm : Nat → Int → Nat
  allocuvm : Nat → Int → Int → Int
  deallocuvm : Nat → Int → Int → Int
  copyout : Nat → Int → Int

/-- A call that gives memory back: `kfree(kstack)` or `freevm(pgdir)`. -/
inductive MemCall where
  | kfree (kstack : Nat)
  | freevm (pgdir : Nat)
  deriving DecidableEq

/-- How a call that can block ends: it returns a value, or it sleeps. -/
inductive Outcome where
  | returned (v : Int)
  | asleep
  deriving DecidableEq

/-- Writes through a pointer to slot `i`: the fields of the slot are changed
by `f`. -/
def store (ps : List proc) (i : Nat) (f : proc → proc) : List proc :=
  match ps[i]? with
  | some p => ps.set i (f p)
  | none => ps

/-- A pointer to a slot, as a sleep channel (`void *`). -/
def chan_of (ptr : Option Nat) : Option Chan :=
  ptr.map Chan.slot

/-- The loop of `wakeup1(chan)`. -/
def wakeup1 (chan : Option Chan) (ps : List proc) : List proc :=
  ps.map (fun p =>
    if p.state = .SLEEPING ∧ p.chan = chan then { p with state := .RUNNABLE } else p)

/-- The call `wakeup(chan)`. -/
def wakeup (k : Kernel) (chan : Option Chan) : Kernel :=
  { k with ptable := wakeup1 chan k.ptable }

/-- The loop of `kill(pid)`: the table after the first slot with that pid has
been marked, or `none` when the loop runs to its end. -/
def kill_scan (pid : Int) : List proc → Option (List proc)
  | [] => none
  | p :: ps =>
    if p.pid = pid then
      some ({ p with killed := 1,
                     state := if p.state = .SLEEPING then .RUNNABLE else p.state } :: ps)
    else
      match kill_scan pid ps with
      | some ps1 => some (p :: ps1)
      | none => none

/-- The call `kill(pid)`. -/
def kill (k : Kernel) (pid : Int) : Int × Kernel :=
  match kill_scan pid k.ptable with
  | some ps => (0, { k with ptable := ps })
  | none => (-1, k)

/-- The scan of `allocproc` from slot index `i` on: the first slot whose state
is UNUSED, with its content. -/
def unused_slot : List proc → Nat → Option (Nat × proc)
  | [], _ => none
  | p :: ps, i => if p.state = .UNUSED then some (i, p) else unused_slot ps (i + 1)

/-- The call `allocproc()`, `kalloc` being what `kalloc()` returns in it.
Returns the pointer to the claimed slot (`none` for 0). -/
def allocproc (kalloc : Nat) (k : Kernel) : Option Nat × Kernel :=
  match unused_slot k.ptable 0 with
  | none => (none, k)
  | some (i, p) =>
    let p1 : proc :=
      { p with state := .EMBRYO, pid := k.nextpid, isMLFQ := false, quantum := 0, ticks := 0,
               level := 0, isStride := false, share := 0, stride := 0, pass := 0, tid := 0,
               num_of_threads := 0, sum_of_threads := 0, retval := 0, kstack := kalloc }
    if kalloc = 0 then
      (none, { k with nextpid := k.nextpid + 1, ptable := k.ptable.set i { p1 with state := .UNUSED } })
    else
      (some i, { k with nextpid := k.nextpid + 1, ptable := k.ptable.set i p1 })

/-- The call `fork()` made by the task in slot `cur`. -/
def fork (env : Env) (k : Kernel) (cur : Nat) : Except Fault (Int × Kernel × List MemCall) :=
  match allocproc env.kalloc k with
  | (none, k1) => .ok (-1, k1, [])
  | (some np, k1) =>
    match k1.ptable[cur]? with
    | none => .error .null_proc
    | some curproc =>
      match k1.ptable[np]? with
      | none => .error .null_proc
      | some n =>
        let pgdir := env.copyuvm curproc.pgdir curproc.sz
        if pgdir = 0 then
          .ok (-1,
            { k1 with ptable := k1.ptable.set np { n with pgdir := 0, kstack := 0, state := .UNUSED } },
            [MemCall.kfree n.kstack])
        else
          .ok (n.pid,
            { k1 with ptable := k1.ptable.set np { n with pgdir := pgdir, sz := curproc.sz, parent := some cur, state := .RUNNABLE } },
            [])

/-- The scan of `wait` from slot index `i` on, `havekids` being the flag so
far: the first ZOMBIE child of slot `cur` (left), or the flag at the end of
the table (right). -/
def wait_scan (cur : Nat) : List proc → Nat → Bool → Sum (Nat × proc) Bool
  | [], _, havekids => .inr havekids
  | p :: ps, i, havekids =>
    if p.parent ≠ some cur then wait_scan cur ps (i + 1) havekids
    else if p.state = .ZOMBIE then .inl (i, p)
    else wait_scan cur ps (i + 1) true

/-- The body of `wait` for the ZOMBIE child `p` found in slot `i`. -/
def wait_reap (TOTALTICKET : Int) (k : Kernel) (i : Nat) (p : proc) :
    Except Fault (Int × Kernel × List MemCall) := do
  let mshare := k.mlfq.share + p.share
  let mstride ← cdiv TOTALTICKET mshare
  pure (p.pid,
    { k with
      ptable := k.ptable.set i
        { p with kstack := 0, pid := 0, parent := none, killed := 0, state := .UNUSED,
                 isMLFQ := false, quantum := 0, ticks := 0, level := 0, isStride := false,
                 share := 0, stride := 0, pass := 0, tid := 0, num_of_threads := 0,
                 sum_of_threads := 0, retval := 0 }
      mlfq := { k.mlfq with share := mshare, stride := mstride } },
    [MemCall.kfree p.kstack, MemCall.freevm p.pgdir])

/-- The call `wait()` made by the task in slot `cur`, up to its first return
or `sleep`. -/
def wait (TOTALTICKET : Int) (k : Kernel) (cur : Nat) :
    Except Fault (Outcome × Kernel × List MemCall) :=
  match wait_scan cur k.ptable 0 false with
  | .inl (i, p) => do
    let r ← wait_reap TOTALTICKET k i p
    pure (Outcome.returned r.1, r.2.1, r.2.2)
  | .inr havekids =>
    if havekids = false then .ok (Outcome.returned (-1), k, [])
    else
      match k.ptable[cur]? with
      | none => .error .null_proc
      | some curproc =>
        if curproc.killed ≠ 0 then .ok (Outcome.returned (-1), k, [])
        else
          .ok (Outcome.asleep,
            { k with ptable := k.ptable.set cur { curproc with chan := some (Chan.slot cur), state := .SLEEPING } },
            [])

/-- The loop "pass abandoned children to init" of `exitProcAndProc` and
`thread_exit`, over the slots `i`, `i + 1`, ... (`n` of them). -/
def reparent (initproc : Option Nat) (cur : Nat) : Nat → Nat → List proc → List proc
  | 0, _, ps => ps
  | n + 1, i, ps =>
    match ps[i]? with
    | none => reparent initproc cur n (i + 1) ps
    | some p =>
      if p.parent = some cur then
        let ps1 := ps.set i { p with parent := initproc }
        reparent initproc cur n (i + 1)
          (if p.state = .ZOMBIE then wakeup1 (chan_of initproc) ps1 else ps1)
      else reparent initproc cur n (i + 1) ps

/-- The function `exitProcAndProc(curproc)`, up to its `sched()`; `curproc` is
the content of slot `cur`. -/
def exitProcAndProc (k : Kernel) (cur : Nat) (curproc : proc) : Kernel :=
  let ps1 := wakeup1 (chan_of curproc.parent) k.ptable
  let ps2 := reparent k.initproc cur ps1.length 0 ps1
  { k with ptable := store ps2 cur (fun c => { c with state := .ZOMBIE }) }

/-- The difference `a - b` of a `uint` and an `int` in C: the `int` is converted
and the subtraction wraps, so the result is the difference modulo 2^32. -/
def usub (a b : Int) : Int :=
  (a - b) % 4294967296

/-- The statements `pp->num_of_threads--` and, when the counter has reached 0,
the shrink of the address space by `2 * sum_of_threads` pages (to a target
computed in `uint`), of `exitProcAndLWP`. -/
def drop_thread (env : Env) (pp : proc) : proc :=
  let pp1 : proc := { pp with num_of_threads := pp.num_of_threads - 1 }
  if pp1.num_of_threads = 0 then
    { pp1 with
      sz := env.deallocuvm pp1.pgdir pp1.sz (usub pp1.sz (2 * pp1.sum_of_threads * env.PGSIZE))
      sum_of_threads := 0 }
  else pp1

/-- The fields that the two exit paths with threads reset in a thread slot. -/
def thread_cleared (p : proc) : proc :=
  { p with kstack := 0, pid := 0, parent := none, killed := 0, level := 0, quantum := 0,
           tid := 0, share := 0, stride := 0, state := .UNUSED, num_of_threads := 0,
           retval := 0 }

/-- The first loop of `exitProcAndLWP`, over the slots `i`, `i + 1`, ... (`n` of
them): every thread of slot `cur` is torn down. -/
def exitProcAndLWP_loop (TOTALTICKET : Int) (env : Env) (cur : Nat) :
    Nat → Nat → Kernel × List MemCall → Except Fault (Kernel × List MemCall)
  | 0, _, s => .ok s
  | n + 1, i, s =>
    match s.1.ptable[i]? with
    | none => exitProcAndLWP_loop TOTALTICKET env cur n (i + 1) s
    | some p =>
      if p.parent = some cur ∧ p.tid > 0 then
        match s.1.ptable[cur]? with
        | none => .error .null_proc
        | some _ => do
          let ps1 := store s.1.ptable cur (drop_thread env)
          let mshare := s.1.mlfq.share + p.share
          let mstride ← cdiv TOTALTICKET mshare
          exitProcAndLWP_loop TOTALTICKET env cur n (i + 1)
            ({ s.1 with ptable := store ps1 i thread_cleared, mlfq := { s.1.mlfq with share := mshare, stride := mstride } },
              s.2 ++ [MemCall.kfree p.kstack])
      else exitProcAndLWP_loop TOTALTICKET env cur n (i + 1) s

/-- The function `exitProcAndLWP(curproc)`, up to its `sched()`. -/
def exitProcAndLWP (TOTALTICKET : Int) (env : Env) (k : Kernel) (cur : Nat) :
    Except Fault (Kernel × List MemCall) := do
  let s ← exitProcAndLWP_loop TOTALTICKET env cur k.ptable.length 0 (k, [])
  match s.1.ptable[cur]? with
  | none => .error .null_proc
  | some curproc =>
    let ps1 := wakeup1 (chan_of curproc.parent) s.1.ptable
    pure ({ s.1 with ptable := store ps1 cur (fun c => { c with state := .ZOMBIE }) }, s.2)

/-- The first loop of `exitLWPAndLWP`, over the slots `i`, `i + 1`, ... (`n` of
them): every other thread with the parent `pp` of the caller is torn down. -/
def exitLWPAndLWP_loop (TOTALTICKET : Int) (cur : Nat) (pp : Option Nat) :
    Nat → Nat → Kernel × List MemCall → Except Fault (Kernel × List MemCall)
  | 0, _, s => .ok s
  | n + 1, i, s =>
    match s.1.ptable[i]? with
    | none => exitLWPAndLWP_loop TOTALTICKET cur pp n (i + 1) s
    | some p =>
      if p.parent = pp ∧ p.tid > 0 ∧ i ≠ cur then
        match pp with
        | none => .error .null_proc
        | some j =>
          match s.1.ptable[j]? with
          | none => .error .null_proc
          | some _ => do
            let ps1 := store s.1.ptable j
              (fun q => { q with num_of_threads := q.num_of_threads - 1 })
            let mshare := s.1.mlfq.share + p.share
            let mstride ← cdiv TOTALTICKET mshare
            exitLWPAndLWP_loop TOTALTICKET cur pp n (i + 1)
              ({ s.1 with ptable := store ps1 i thread_cleared, mlfq := { s.1.mlfq with share := mshare, stride := mstride } },
                s.2 ++ [MemCall.kfree p.kstack])
      else exitLWPAndLWP_loop TOTALTICKET cur pp n (i + 1) s

/-- The statements of `exitLWPAndLWP` on the parent after its loop:
`num_of_threads--` and, when the counter has reached 0 and `sum_of_threads` is
positive, the shrink by `2 * (sum_of_threads - 1)` pages (to a target computed
in `uint`). -/
def drop_caller (env : Env) (pp : proc) : proc :=
  let pp1 : proc := { pp with num_of_threads := pp.num_of_threads - 1 }
  if pp1.num_of_threads = 0 ∧ pp1.sum_of_threads > 0 then
    { pp1 with
      sz := env.deallocuvm pp1.pgdir pp1.sz (usub pp1.sz (2 * (pp1.sum_of_threads - 1) * env.PGSIZE))
      sum_of_threads := 0 }
  else pp1

/-- The function `exitLWPAndLWP(curproc)`, up to its `sched()`; `curproc` is
the content of slot `cur`. -/
def exitLWPAndLWP (TOTALTICKET : Int) (env : Env) (k : Kernel) (cur : Nat) (curproc : proc) :
    Except Fault (Kernel × List MemCall) := do
  let s ← exitLWPAndLWP_loop TOTALTICKET cur curproc.parent k.ptable.length 0 (k, [])
  match curproc.parent with
  | none => .error .null_proc
  | some j =>
    match s.1.ptable[j]? with
    | none => .error .null_proc
    | some _ =>
      let ps1 := store s.1.ptable j (drop_caller env)
      let ps2 := store ps1 cur (fun c => { c with state := .ZOMBIE, parent := some cur })
      match ps2[j]? with
      | none => .error .null_proc
      | some pp =>
        let ps3 := wakeup1 (chan_of pp.parent) ps2
        pure ({ s.1 with ptable := store ps3 j (fun q => { q with state := .ZOMBIE }) }, s.2)

/-- The call `exit()` made by the task in slot `cur`, up to the `sched()` that
does not return. -/
def exit (TOTALTICKET : Int) (env : Env) (k : Kernel) (cur : Nat) :
    Except Fault (Kernel × List MemCall) :=
  if some cur = k.initproc then .error .panic
  else
    match k.ptable[cur]? with
    | none => .error .null_proc
    | some curproc =>
      if curproc.tid = 0 ∧ curproc.num_of_threads = 0 then
        .ok (exitProcAndProc k cur curproc, [])
      else if curproc.tid = 0 ∧ curproc.num_of_threads ≠ 0 then
        exitProcAndLWP TOTALTICKET env k cur
      else exitLWPAndLWP TOTALTICKET env k cur curproc

/-- The last loop of `thread_create`: every thread of slot `cur` gets the share
and the pass of the process. -/
def thread_shares (TOTALTICKET : Int) (cur : Nat) (share pass : Int) :
    List proc → Except Fault (List proc)
  | [] => .ok []
  | p :: ps =>
    if p.parent = some cur ∧ p.tid > 0 then do
      let st ← cdiv TOTALTICKET share
      let rest ← thread_shares TOTALTICKET cur share pass ps
      pure ({ p with isStride := true, share := share, stride := st, pass := pass } :: rest)
    else do
      let rest ← thread_shares TOTALTICKET cur share pass ps
      pure (p :: rest)

/-- The end of `thread_create`, entered when the parent (slot `cur`, content
`par`) has `isStride` set: the share of the parent is recomputed and handed to
its threads. -/
def thread_create_shares (TOTALTICKET : Int) (ps : List proc) (cur : Nat) (par : proc) :
    Except Fault (List proc) := do
  let sh ←
    if par.num_of_threads > 0 then cdiv (par.share * par.num_of_threads) par.num_of_threads
    else cdiv par.share 2
  let st ← cdiv TOTALTICKET sh
  thread_shares TOTALTICKET cur sh par.pass (ps.set cur { par with share := sh, stride := st })

/-- The call `thread_create(thread, start_routine, arg)` made by the task in
slot `cur`.  Returns the C return value, what was written to `*thread` (if
anything) and the new globals. -/
def thread_create (TOTALTICKET : Int) (env : Env) (k : Kernel) (cur : Nat) :
    Except Fault (Int × Option Int × Kernel) :=
  match allocproc env.kalloc k with
  | (none, k1) => .ok (-1, none, k1)
  | (some np, k1) =>
    match k1.ptable[cur]? with
    | none => .error .null_proc
    | some curproc =>
      let sz := env.allocuvm curproc.pgdir (env.PGROUNDUP curproc.sz)
        (env.PGROUNDUP curproc.sz + 2 * env.PGSIZE)
      let ps1 := k1.ptable.set cur { curproc with sz := sz }
      if sz = 0 then .ok (-1, none, { k1 with ptable := ps1 })
      else
        let ps2 := store ps1 np
          (fun n => { n with pgdir := curproc.pgdir, sz := sz, parent := some cur, tid := n.pid })
        match ps2[np]? with
        | none => .error .null_proc
        | some n =>
          let ps3 := store ps2 cur
            (fun c => { c with num_of_threads := c.num_of_threads + 1, sum_of_threads := c.sum_of_threads + 1 })
          if env.copyout n.pgdir (sz - 8) < 0 then .ok (-1, some n.tid, { k1 with ptable := ps3 })
          else
            let ps4 := store ps3 np (fun q => { q with state := .RUNNABLE })
            match ps4[cur]? with
            | none => .error .null_proc
            | some par =>
              if par.isStride then do
                let ps5 ← thread_create_shares TOTALTICKET ps4 cur par
                pure (0, some n.tid, { k1 with ptable := ps5 })
              else .ok (0, some n.tid, { k1 with ptable := ps4 })

/-- The call `thread_exit(retval)` made by the task in slot `cur`, up to the
`sched()` that does not return. -/
def thread_exit (k : Kernel) (cur : Nat) (retval : Int) : Except Fault Kernel :=
  if some cur = k.initproc then .error .panic
  else
    match k.ptable[cur]? with
    | none => .error .null_proc
    | some curproc =>
      let ps1 := wakeup1 (chan_of curproc.parent) k.ptable
      let ps2 := reparent k.initproc cur ps1.length 0 ps1
      .ok { k with ptable := store ps2 cur (fun c => { c with state := .ZOMBIE, retval := retval }) }

/-- The scan of `thread_join` from slot index `i` on, `havekids` being the flag
so far: the first ZOMBIE child of slot `cur` with tid `thread` (left), or the
flag at the end of the table (right). -/
def join_scan (cur : Nat) (thread : Int) : List proc → Nat → Bool → Sum (Nat × proc) Bool
  | [], _, havekids => .inr havekids
  | p :: ps, i, havekids =>
    if p.parent ≠ some cur ∨ p.tid ≠ thread then join_scan cur thread ps (i + 1) havekids
    else if p.state = .ZOMBIE then .inl (i, p)
    else join_scan cur thread ps (i + 1) true

/-- The fields that `thread_join` resets in the slot it reaps. -/
def join_cleared (p : proc) : proc :=
  { p with kstack := 0, pid := 0, parent := none, killed := 0, state := .UNUSED, level := 0,
           quantum := 0, share := 0, stride := 0, tid := 0, num_of_threads := 0, retval := 0 }

/-- The body of `thread_join` for the ZOMBIE child `p` found in slot `i`; its
parent is the caller, slot `cur`.  Returns the C return value, what was
written to `*retval` (if anything), the new globals and the memory given
back. -/
def join_reap (TOTALTICKET : Int) (env : Env) (k : Kernel) (cur i : Nat) (p : proc) :
    Except Fault (Int × Option Int × Kernel × List MemCall) :=
  match k.ptable[cur]? with
  | none => .error .null_proc
  | some pp =>
    let pp1 : proc := { pp with num_of_threads := pp.num_of_threads - 1 }
    let sz := env.deallocuvm pp1.pgdir pp1.sz (usub pp1.sz (2 * pp1.sum_of_threads * env.PGSIZE))
    if pp1.num_of_threads = 0 ∧ sz = 0 then
      .ok (-1, none, { k with ptable := k.ptable.set cur { pp1 with sz := sz } }, [])
    else do
      let ps1 := k.ptable.set cur
        (if pp1.num_of_threads = 0 then { pp1 with sz := sz, sum_of_threads := 0 } else pp1)
      let mshare := k.mlfq.share + p.share
      let mstride ← cdiv TOTALTICKET mshare
      pure (p.pid, some p.retval,
        { k with ptable := store ps1 i join_cleared, mlfq := { k.mlfq with share := mshare, stride := mstride } },
        [MemCall.kfree p.kstack])

/-- The call `thread_join(thread, retval)` made by the task in slot `cur`, up
to its first return or `sleep`.  Returns how it ended, what was written to
`*retval` (if anything), the new globals and the memory given back. -/
def thread_join (TOTALTICKET : Int) (env : Env) (k : Kernel) (cur : Nat) (thread : Int) :
    Except Fault (Outcome × Option Int × Kernel × List MemCall) :=
  match join_scan cur thread k.ptable 0 false with
  | .inl (i, p) => do
    let r ← join_reap TOTALTICKET env k cur i p
    pure (Outcome.returned r.1, r.2.1, r.2.2.1, r.2.2.2)
  | .inr havekids =>
    if havekids = false then .ok (Outcome.returned (-1), none, k, [])
    else
      match k.ptable[cur]? with
      | none => .error .null_proc
      | some curproc =>
        if curproc.killed ≠ 0 then .ok (Outcome.returned (-1), none, k, [])
        else
          .ok (Outcome.asleep, none,
            { k with ptable := k.ptable.set cur { curproc with chan := some (Chan.slot cur), state := .SLEEPING } },
            [])

/-! ## Concrete environments and states of the life cycle -/

/-- The number of slots whose state is UNUSED. -/
def unused_count (ps : List proc) : Nat :=
  ps.countP (fun p => decide (p.state = .UNUSED))

/-- An environment with pages of 4096 bytes in which every allocation succeeds:
`kalloc` and `copyuvm` return the address 9, `allocuvm` returns the new size,
`deallocuvm` returns the new size when it is below the old one (the old one
otherwise), `copyout` returns 0. -/
def env_ok : Env :=
  { PGSIZE := 4096
    PGROUNDUP := fun sz => (sz + 4095) / 4096 * 4096
    kalloc := 9
    copyuvm := fun _ _ => 9
    allocuvm := fun _ _ newsz => newsz
    deallocuvm := fun _ oldsz newsz => if newsz ≥ oldsz then oldsz else newsz
    copyout := fun _ _ => 0 }

/-- The environment `env_ok` out of kernel stacks: `kalloc` returns 0. -/
def env_no_kstack : Env :=
  { env_ok with kalloc := 0 }

/-- The environment `env_ok` out of user pages: `allocuvm` returns 0. -/
def env_no_pages : Env :=
  { env_ok with allocuvm := fun _ _ _ => 0 }

/-- The environment `env_ok` with a `copyout` that fails. -/
def env_no_copyout : Env :=
  { env_ok with copyout := fun _ _ => -1 }

/-- A state in which process P (slot 1, pid 2, running) has an exited child
(slot 2, ZOMBIE, pid 3); init sleeps in `wait`, the slots 3 and 4 are
unused. -/
def zombie_child_state : Kernel :=
  { ptable :=
      [ { proc_zero with sz := 4096, pgdir := 1, kstack := 1, state := .SLEEPING, pid := 1,
                         chan := some (Chan.slot 0) },
        { proc_zero with sz := 4096, pgdir := 2, kstack := 2, state := .RUNNING, pid := 2,
                         parent := some 0 },
        { proc_zero with sz := 4096, pgdir := 3, kstack := 3, state := .ZOMBIE, pid := 3,
                         parent := some 1 },
        proc_zero, proc_zero ]
    mlfq := mlfq_boot 10000
    nextpid := 4
    initproc := some 0 }

/-- A state in which process P (slot 1) has one thread (slot 2, tid 3, sharing
the page directory of P) that has called `thread_exit(11)`; P has given a page
back since it created the thread, and its size is 8192. -/
def last_thread_state : Kernel :=
  { ptable :=
      [ { proc_zero with sz := 4096, pgdir := 1, kstack := 1, state := .SLEEPING, pid := 1,
                         chan := some (Chan.slot 0) },
        { proc_zero with sz := 8192, pgdir := 2, kstack := 2, state := .RUNNING, pid := 2,
                         parent := some 0, num_of_threads := 1, sum_of_threads := 1 },
        { proc_zero with sz := 12288, pgdir := 2, kstack := 3, state := .ZOMBIE, pid := 3,
                         parent := some 1, tid := 3, retval := 11 },
        proc_zero, proc_zero ]
    mlfq := mlfq_boot 10000
    nextpid := 4
    initproc := some 0 }

/-- The state `thread_state 10000` after the thread in slot 2 has called
`thread_exit(11)`: process P (slot 1) has the threads of slot 2 (ZOMBIE,
tid 3, retval 11) and slot 3 (RUNNABLE, tid 4), which share its page
directory. -/
def zombie_thread_state : Kernel :=
  { ptable :=
      [ { proc_zero with sz := 4096, pgdir := 1, kstack := 1, state := .SLEEPING, pid := 1,
                         chan := some (Chan.slot 0) },
        { proc_zero with sz := 20480, pgdir := 2, kstack := 2, state := .RUNNING, pid := 2,
                         parent := some 0, num_of_threads := 2, sum_of_threads := 2 },
        { proc_zero with sz := 12288, pgdir := 2, kstack := 3, state := .ZOMBIE, pid := 3,
                         parent := some 1, tid := 3, retval := 11 },
        { proc_zero with sz := 20480, pgdir := 2, kstack := 4, state := .RUNNABLE, pid := 4,
                         parent := some 1, tid := 4 },
        proc_zero, proc_zero, proc_zero, proc_zero ]
    mlfq := mlfq_boot 10000
    nextpid := 5
    initproc := some 0 }

/-- The slot of a child as a successful `fork` leaves it: `p` is the UNUSED
slot that `allocproc` claimed, `pid` the value of `nextpid`, `kstack` and
`pgdir` what `kalloc` and `copyuvm` returned, `sz` the size of the parent in
slot `parent`. -/
def forked (p : proc) (pid : Int) (kstack pgdir : Nat) (sz : Int) (parent : Nat) : proc :=
  { p with state := .RUNNABLE, pid := pid, kstack := kstack, pgdir := pgdir, sz := sz,
           parent := some parent, isMLFQ := false, quantum := 0, ticks := 0, level := 0,
           isStride := false, share := 0, stride := 0, pass := 0, tid := 0,
           num_of_threads := 0, sum_of_threads := 0, retval := 0 }

/-- The boot-and-exit round trip from state `k`: the task in slot `cur` forks,
the child (slot `child`) exits, the task in slot `cur` calls `wait`.  Returns
what `fork` returned, how `wait` ended and the final table. -/
def fork_exit_wait (TOTALTICKET : Int) (env : Env) (k : Kernel) (cur child : Nat) :
    Except Fault (Int × Outcome × List proc) := do
  let r1 ← fork env k cur
  let r2 ← exit TOTALTICKET env r1.2.1 child
  let r3 ← wait TOTALTICKET r2.1 cur
  pure (r1.1, r3.1, r3.2.1.ptable)

/-- The (state, pid, tid, parent, pgdir) of a slot. -/
def slot_view (k : Kernel) (i : Nat) : Option (procstate × Int × Int × Option Nat × Nat) :=
  k.ptable[i]?.map (fun p => (p.state, p.pid, p.tid, p.parent, p.pgdir))

/-- Whether the parent pointer of `p` leads to a slot with tid 0 that has the
page directory of `p`. -/
def process_parent_ok (k : Kernel) (p : proc) : Bool :=
  match p.parent with
  | none => false
  | some j =>
    match k.ptable[j]? with
    | none => false
    | some pp => decide (pp.tid = 0 ∧ pp.pgdir = p.pgdir)

/-- Invariant I1 on a state: every slot that is not UNUSED and has `tid > 0`
has a parent whose tid is 0 and whose page directory is its own. -/
def ThreadGroupInv (k : Kernel) : Prop :=
  ∀ p ∈ k.ptable, p.state ≠ .UNUSED → p.tid > 0 → process_parent_ok k p = true

/-- The environment `env_ok` with a `copyuvm` that fails. -/
def env_no_copy : Env :=
  { env_ok with copyuvm := fun _ _ => 0 }

/-- From the boot state, process A (slot 1) calls `thread_create`, and the new
thread (slot 4) calls `thread_create` in turn.  Returns the state after the
first call and the state after the second. -/
def nested_threads : Except Fault (Kernel × Kernel) := do
  let r1 ← thread_create 10000 env_ok (boot_state 10000) 1
  let r2 ← thread_create 10000 { env_ok with kalloc := 10 } r1.2.2 4
  pure (r1.2.2, r2.2.2)

/-- From the boot state, process A (slot 1) calls `thread_create`, the new
thread (slot 4) calls `thread_exit(11)`, and A calls `wait`.  Returns the state
in which A calls `wait` and what `wait` returns. -/
def wait_for_thread : Except Fault (Kernel × Outcome × Kernel × List MemCall) := do
  let r1 ← thread_create 10000 env_ok (boot_state 10000) 1
  let k2 ← thread_exit r1.2.2 4 11
  let r3 ← wait 10000 k2 1
  pure (k2, r3)

/-! ## Scenarios of exit and reaping -/

/-- From the boot state, process A (slot 1) creates a thread (slot 4) and
forks a child process (slot 5), and then calls `exit`.  Returns the state in
which A calls `exit` and the state in which A enters the scheduler. -/
def exit_with_thread_and_child : Except Fault (Kernel × Kernel) := do
  let r1 ← thread_create 10000 env_ok (boot_state 10000) 1
  let r2 ← fork { env_ok with kalloc := 10, copyuvm := fun _ _ => 11 } r1.2.2 1
  let r3 ← exit 10000 env_ok r2.2.1 1
  pure (r2.2.1, r3.1)

/-- Every UNUSED slot has `isStride = FALSE` and `pass = 0`. -/
def UnusedOutOfStride (k : Kernel) : Prop :=
  ∀ p ∈ k.ptable, p.state = .UNUSED → p.isStride = false ∧ p.pass = 0

/-- The (state, isStride, pass) of a slot. -/
def stride_view (k : Kernel) (i : Nat) : Option (procstate × Bool × Int) :=
  k.ptable[i]?.map (fun p => (p.state, p.isStride, p.pass))

/-- In `thread_state 10000` process P (slot 1, with its threads in the slots 2
and 3) calls `set_cpu_share(40)`, and six scheduler iterations run in which the
dispatched task yields.  Then the thread of slot 2 calls `thread_exit` and P
reaps it with `thread_join`; or else P calls `exit`, which tears its threads
down.  Returns the state after the six iterations, the state after the
`thread_join` and the state after the `exit`. -/
def reap_stride_threads : Except Fault (Kernel × Kernel × Kernel) := do
  let r1 ← set_cpu_share 10000 (thread_state 10000) 1 40
  let r2 ← scheduler_run swtch_yield 6 r1.2
  let k3 ← thread_exit r2.1 2 11
  let r4 ← thread_join 10000 env_ok k3 1 3
  let r5 ← exit 10000 env_ok r2.1 1
  pure (r2.1, r4.2.2.1, r5.1)

/-! ## Thread children -/

/-- Whether a slot is a thread child of slot `cur`: the test
`p->parent == curproc && p->tid > 0` of `exitProcAndLWP`. -/
def is_thread_of (cur : Nat) (p : proc) : Bool :=
  decide (p.parent = some cur ∧ p.tid > 0)

/-- The number of thread children of slot `cur` in a table. -/
def thread_count (cur : Nat) (ps : List proc) : Int :=
  ((ps.filter (is_thread_of cur)).length : Int)

/-- The sum of the shares of the thread children of slot `cur` in a table. -/
def thread_share_sum (cur : Nat) (ps : List proc) : Int :=
  ((ps.filter (is_thread_of cur)).map (fun p => p.share)).sum

/-- The state of the first loop of `exitProcAndLWP` when it reaches slot `i`,
in terms of the state `k0` in which the caller (slot `cur`, content `c`) called
`exit`: the threads of the caller before slot `i` have been cleared, the caller
has been through `drop_thread` once for each of them, `mlfq.share` has grown by
their shares, and the other slots are as they were. -/
def TeardownInv (env : Env) (cur : Nat) (k0 : Kernel) (c : proc) (i : Nat)
    (s : Kernel × List MemCall) : Prop :=
  s.1.ptable.length = k0.ptable.length ∧
  (∀ (j : Nat) (p : proc), k0.ptable[j]? = some p → j ≠ cur →
    s.1.ptable[j]? =
      some (if j < i ∧ is_thread_of cur p = true then thread_cleared p else p)) ∧
  s.1.ptable[cur]? =
    some ((drop_thread env)^[((k0.ptable.take i).filter (is_thread_of cur)).length] c) ∧
  s.1.mlfq.share = k0.mlfq.share + thread_share_sum cur (k0.ptable.take i) ∧
  0 ≤ thread_share_sum cur (k0.ptable.take i) ∧
  s.1.initproc = k0.initproc

/-! ## The batched sweep -/

/-- Whether slot `i` of a table passes the test of the sweep of level `lvl`:
it is RUNNABLE, not a stride task, and at that level. -/
def passes (lvl : Int) (ps : List proc) (i : Nat) : Bool :=
  match ps[i]? with
  | some p => decide (p.state = .RUNNABLE ∧ p.isStride = false ∧ p.level = lvl)
  | none => false

/-- The slots of a table that pass the test of the sweep of level `lvl`, in
table-index order. -/
def eligible_slots (lvl : Int) (ps : List proc) : List Nat :=
  (List.range ps.length).filter (passes lvl ps)

/-- The log entries of a sweep of level `lvl` (quantum `q`) that dispatches the
slots of `eligible_slots`, in that order. -/
def sweep_events (lvl q : Int) (ps : List proc) : List Event :=
  (eligible_slots lvl ps).map (fun i => Event.mlfq_run i lvl q)

/-- A dispatched task that touches no slot but its own, and leaves its level as
it is or resets it to 0: what `swtch` does when the task only computes, yields,
sleeps or exits without children. -/
def LocalSwtch (swtch : Nat → Kernel → Kernel) : Prop :=
  ∀ (i : Nat) (k : Kernel),
    (swtch i k).ptable.length = k.ptable.length ∧
    (∀ j, j ≠ i → (swtch i k).ptable[j]? = k.ptable[j]?) ∧
    (∀ p p', k.ptable[i]? = some p → (swtch i k).ptable[i]? = some p' →
      p'.level = p.level ∨ p'.level = 0)

/-- The boot state after some running: A (slot 1) and C (slot 3) have been
demoted to level 1, B (slot 2) to level 2; all three are RUNNABLE. -/
def demoted_state : Kernel :=
  { boot_state 10000 with
    ptable := (boot_state 10000).ptable.mapIdx
      (fun i p => if i = 1 ∨ i = 3 then { p with level := 1 }
        else if i = 2 then { p with level := 2 } else p) }

/-! ## Slot-by-slot relations between tables -/

/-- Two tables of the same length whose slots are related by `R`, slot by
slot. -/
def Pointwise (R : proc → proc → Prop) (ps ps' : List proc) : Prop :=
  ps'.length = ps.length ∧
  ∀ (j : Nat) (p p' : proc), ps[j]? = some p → ps'[j]? = some p' → R p p'

/-- The level of a slot is kept, or reset to 0. -/
def level_kept (p p' : proc) : Prop :=
  p'.level = p.level ∨ p'.level = 0

/-- The size and the thread counters of a slot are kept. -/
def size_kept (p p' : proc) : Prop :=
  p'.sz = p.sz ∧ p'.num_of_threads = p.num_of_threads ∧ p'.sum_of_threads = p.sum_of_threads

/-- Every slot of a table has a level of 0, 1 or 2. -/
def LevelsInRange (ps : List proc) : Prop :=
  ∀ p ∈ ps, p.level = 0 ∨ p.level = 1 ∨ p.level = 2

/-! ## The thread stack round trip -/

/-- Slot `cur` has the same size and thread counters in `k'` as in `k`: what
the activity between two calls of the task in slot `cur` (the scheduler, other
tasks, its threads running and exiting) leaves of it when nothing else changes
its size. -/
def SizeKept (cur : Nat) (k k' : Kernel) : Prop :=
  ∃ c c', k.ptable[cur]? = some c ∧ k'.ptable[cur]? = some c' ∧ size_kept c c'

/-- The task in slot `cur` can make a call: its slot is neither UNUSED nor
ZOMBIE. -/
def Alive (cur : Nat) (k : Kernel) : Prop :=
  ∃ c, k.ptable[cur]? = some c ∧ c.state ≠ .UNUSED ∧ c.state ≠ .ZOMBIE

/-- The state `k'` is reached from `k` by `n` calls of `thread_create` by
the task in slot `cur` that all return 0, with activity before each call that
keeps its size and thread counters. -/
inductive Creates (TT : Int) (env : Env) (cur : Nat) : Nat → Kernel → Kernel → Prop
  | zero (k : Kernel) : Creates TT env cur 0 k k
  | create (n : Nat) (k k1 k2 k3 : Kernel) (t : Option Int) :
      Creates TT env cur n k k1 → SizeKept cur k1 k2 → Alive cur k2 →
      thread_create TT env k2 cur = .ok (0, t, k3) → Creates TT env cur (n + 1) k k3

/-- The state `k'` is reached from `k` by `n` calls of `thread_join` by the
task in slot `cur` that all reap a thread (they return after freeing its kernel
stack), with activity before each call that keeps its size and thread
counters. -/
inductive Joins (TT : Int) (env : Env) (cur : Nat) : Nat → Kernel → Kernel → Prop
  | zero (k : Kernel) : Joins TT env cur 0 k k
  | join (n : Nat) (k k1 k2 k3 : Kernel) (thread v : Int) (rv : Option Int) (ks : Nat) :
      Joins TT env cur n k k1 → SizeKept cur k1 k2 → Alive cur k2 →
      thread_join TT env k2 cur thread = .ok (Outcome.returned v, rv, k3, [MemCall.kfree ks]) →
      Joins TT env cur (n + 1) k k3

/-- The boot state with process A (slot 1) RUNNING and of size 5000. -/
def round_trip_start : Kernel :=
  { boot_state 10000 with
    ptable := store (boot_state 10000).ptable 1 (fun p => { p with state := .RUNNING, sz := 5000 }) }

/-- From `round_trip_start` process A (slot 1) creates two threads (slots 4 and
5, tids 5 and 6); the threads exit; A joins both.  Returns the states after
the first and the second create, after the two exits, and after the first and
the second join. -/
def two_threads_round_trip : Except Fault (Kernel × Kernel × Kernel × Kernel × Kernel) := do
  let r1 ← thread_create 10000 env_ok round_trip_start 1
  let r2 ← thread_create 10000 env_ok r1.2.2 1
  let k3 ← thread_exit r2.2.2 4 7
  let k4 ← thread_exit k3 5 8
  let r5 ← thread_join 10000 env_ok k4 1 5
  let r6 ← thread_join 10000 env_ok r5.2.2.1 1 6
  pure (r1.2.2, r2.2.2, k4, r5.2.2.1, r6.2.2.1)

/-! ## Reachable states -/

/-- The system call `getlev()` made by the task in slot `cur`. -/
def getlev (k : Kernel) (cur : Nat) : Except Fault Int :=
  match k.ptable[cur]? with
  | none => .error .null_proc
  | some p => .ok p.level

/-- The function `yield()` called by the task in slot `cur`, up to its
`sched()`. -/
def yield (k : Kernel) (cur : Nat) : Except Fault Kernel :=
  match k.ptable[cur]? with
  | none => .error .null_proc
  | some p => .ok { k with ptable := k.ptable.set cur { p with state := .RUNNABLE } }

/-- The function `sleep(chan, lk)` called by the task in slot `cur`, up to its
`sched()`; `lk` is the address of the lock, 0 for a null pointer. -/
def sleep (k : Kernel) (cur : Nat) (chan : Option Chan) (lk : Nat) : Except Fault Kernel :=
  match k.ptable[cur]? with
  | none => .error .panic
  | some p =>
    if lk = 0 then .error .panic
    else .ok { k with ptable := k.ptable.set cur { p with chan := chan, state := .SLEEPING } }

/-- The function `userinit()`; `setupkvm` is what `setupkvm()` returns in
it. -/
def userinit (TOTALTICKET : Int) (env : Env) (setupkvm : Nat) (k : Kernel) :
    Except Fault Kernel :=
  match allocproc env.kalloc k with
  | (none, _) => .error .null_proc
  | (some p, k1) =>
    if setupkvm = 0 then .error .panic
    else do
      let mstride ← cdiv TOTALTICKET 100
      pure { k1 with
        initproc := some p
        ptable := store k1.ptable p (fun q => { q with pgdir := setupkvm, sz := env.PGSIZE, state := .RUNNABLE, isMLFQ := false, quantum := 0, ticks := 0, level := 0, isStride := false, stride := 0, pass := 0, tid := 0, num_of_threads := 0, sum_of_threads := 0 })
        mlfq := { k1.mlfq with isMLFQ := true, isStride := true, share := 100, stride := mstride, pass := 0 } }

/-- The globals of `proc.c` when the kernel starts: a table of `NPROC` zeroed
slots, a zeroed `mlfq`, `nextpid = 1`, no `initproc`. -/
def initial_state (NPROC : Nat) : Kernel :=
  { ptable := List.replicate NPROC proc_zero, mlfq := proc_zero, nextpid := 1, initproc := none }

/-- One lifecycle operation that returns (or reaches its `sched()`), made by
any task with any arguments, takes the globals from `k` to `k'`. -/
inductive Lifecycle (TT : Int) : Kernel → Kernel → Prop
  | userinit_op (env : Env) (setupkvm : Nat) (k k' : Kernel) :
      userinit TT env setupkvm k = .ok k' → Lifecycle TT k k'
  | allocproc_op (kalloc : Nat) (k : Kernel) : Lifecycle TT k (allocproc kalloc k).2
  | fork_op (env : Env) (k : Kernel) (cur : Nat) (r : Int × Kernel × List MemCall) :
      fork env k cur = .ok r → Lifecycle TT k r.2.1
  | exit_op (env : Env) (k : Kernel) (cur : Nat) (r : Kernel × List MemCall) :
      exit TT env k cur = .ok r → Lifecycle TT k r.1
  | wait_op (k : Kernel) (cur : Nat) (r : Outcome × Kernel × List MemCall) :
      wait TT k cur = .ok r → Lifecycle TT k r.2.1
  | kill_op (k : Kernel) (pid : Int) : Lifecycle TT k (kill k pid).2
  | yield_op (k : Kernel) (cur : Nat) (k' : Kernel) : yield k cur = .ok k' → Lifecycle TT k k'
  | sleep_op (k : Kernel) (cur : Nat) (chan : Option Chan) (lk : Nat) (k' : Kernel) :
      sleep k cur chan lk = .ok k' → Lifecycle TT k k'
  | wakeup_op (k : Kernel) (chan : Option Chan) : Lifecycle TT k (wakeup k chan)
  | thread_create_op (env : Env) (k : Kernel) (cur : Nat) (r : Int × Option Int × Kernel) :
      thread_create TT env k cur = .ok r → Lifecycle TT k r.2.2
  | thread_exit_op (k : Kernel) (cur : Nat) (retval : Int) (k' : Kernel) :
      thread_exit k cur retval = .ok k' → Lifecycle TT k k'
  | thread_join_op (env : Env) (k : Kernel) (cur : Nat) (thread : Int)
      (r : Outcome × Option Int × Kernel × List MemCall) :
      thread_join TT env k cur thread = .ok r → Lifecycle TT k r.2.2.1
  | set_cpu_share_op (k : Kernel) (cur : Nat) (share : Int) (r : Int × Kernel) :
      set_cpu_share TT k cur share = .ok r → Lifecycle TT k r.2

/-- What happens between a `swtch` to a task and the `swtch` back to the
scheduler is a sequence of lifecycle operations. -/
def Legal (TT : Int) (swtch : Nat → Kernel → Kernel) : Prop :=
  ∀ (i : Nat) (k : Kernel), Relation.ReflTransGen (Lifecycle TT) k (swtch i k)

/-- The states reachable from the start of the kernel by lifecycle operations
and scheduler iterations. -/
inductive Reachable (TT : Int) : Kernel → Prop
  | boot (NPROC : Nat) : Reachable TT (initial_state NPROC)
  | op (k k' : Kernel) : Reachable TT k → Lifecycle TT k k' → Reachable TT k'
  | sched (swtch : Nat → Kernel → Kernel) (k : Kernel) (r : Kernel × List Event) :
      Reachable TT k → Legal TT swtch → scheduler swtch k = .ok r → Reachable TT r.1

/-- From the start with 8 slots: `userinit`, a `fork` by init, and six
scheduler iterations in which the dispatched task yields. -/
def small_run : Except Fault (Kernel × Kernel × Kernel) := do
  let k1 ← userinit 10000 env_ok 1 (initial_state 8)
  let r2 ← fork env_ok k1 0
  let r3 ← scheduler_run swtch_yield 6 r2.2.1
  pure (k1, r2.2.1, r3.1)

/-! ## Requests and calls that meet a free slot -/

/-- Whether a slot holds a stride task: its state is not UNUSED and its
`isStride` is set. -/
def is_stride_task (p : proc) : Bool :=
  decide (p.state ≠ .UNUSED ∧ p.isStride = true)

/-- In `thread_state 10000` process P (slot 1, threads in the slots 2 and 3)
calls `set_cpu_share(40)`, six scheduler iterations run in which the
dispatched task yields, P calls `exit` and init (slot 0) reaps it with `wait`;
then init calls `set_cpu_share(10)`.  Returns the state in which init makes
its request and the state after it. -/
def request_after_reap : Except Fault (Kernel × Kernel) := do
  let r1 ← set_cpu_share 10000 (thread_state 10000) 1 40
  let r2 ← scheduler_run swtch_yield 6 r1.2
  let r3 ← exit 10000 env_ok r2.1 1
  let r4 ← wait 10000 r3.1 0
  let r5 ← set_cpu_share 10000 r4.2.1 0 10
  pure (r4.2.1, r5.2)

/-- As `request_after_reap`, but init creates a thread (slot 1) before it calls
`set_cpu_share(10)`.  Returns the state in which init makes its request and
the state after it. -/
def threaded_request_after_reap : Except Fault (Kernel × Kernel) := do
  let r1 ← set_cpu_share 10000 (thread_state 10000) 1 40
  let r2 ← scheduler_run swtch_yield 6 r1.2
  let r3 ← exit 10000 env_ok r2.1 1
  let r4 ← wait 10000 r3.1 0
  let r5 ← thread_create 10000 env_ok r4.2.1 0
  let r6 ← set_cpu_share 10000 r5.2.2 0 10
  pure (r5.2.2, r6.2)

/-- In the boot state `kill(0)` is called, and then process A (slot 1) forks.
Returns the value of `kill`, the state after it and the state after the
`fork`. -/
def kill_zero_then_fork : Except Fault (Int × Kernel × Kernel) := do
  let r1 := kill (boot_state 10000) 0
  let r2 ← fork env_ok r1.2 1
  pure (r1.1, r1.2, r2.2.1)

/-- In the boot state process A (slot 1, size 4096) creates a thread (slot 4);
a second `thread_create` finds no memory (`allocuvm` returns 0, which becomes
the size of A); then A calls `exit`.  Returns the value of the second
`thread_create`, the state in which A calls `exit` and the state after it. -/
def failed_create_then_exit : Except Fault (Int × Kernel × Kernel) := do
  let r1 ← thread_create 10000 env_ok (boot_state 10000) 1
  let r2 ← thread_create 10000 env_no_pages r1.2.2 1
  let r3 ← exit 10000 env_ok r2.2.2 1
  pure (r2.1, r2.2.2, r3.1)

/-- The state `thread_state 10000` with a process P (slot 1) of three pages
only, less than the four pages of its two thread stacks. -/
def cramped_state : Kernel :=
  { thread_state 10000 with
    ptable := store (thread_state 10000).ptable 1 (fun p => { p with sz := 12288 }) }

/-- The (size, `num_of_threads`, `sum_of_threads`) of a slot. -/
def size_view (k : Kernel) (i : Nat) : Option (Int × Int × Int) :=
  k.ptable[i]?.map (fun p => (p.sz, p.num_of_threads, p.sum_of_threads))

/-! ## Windows of the stride race -/

/-- The boot state after process A (slot 1) has been given a share of 80 by
`set_cpu_share`: A is a stride task (stride 125, pass 0), `mlfq` holds 20
(stride 500, pass 0), and B and C (slots 2 and 3) are runnable MLFQ tasks. -/
def shared_turn_state : Kernel :=
  { boot_state 10000 with
    ptable := store (boot_state 10000).ptable 1
      (fun p => { p with isStride := true, share := 80, stride := 125, pass := 0 })
    mlfq := { (boot_state 10000).mlfq with share := 20, stride := 500, pass := 0 } }

/-- A static set with `TOTALTICKET` 10000 whose strides are truncated: stride
task A (slot 1, share 27, stride 10000 / 27 = 370) and `mlfq` (share 73, stride
10000 / 73 = 136) with equal passes; slot 2 holds a runnable MLFQ task. -/
def truncated_state : Kernel :=
  { wrap_state with
    ptable := store wrap_state.ptable 1 (fun p => { p with share := 27, stride := 370, pass := 0 })
    mlfq := { wrap_state.mlfq with share := 73, stride := 136, pass := 0 } }

/-- A static set with exact strides in which the stride task has fallen behind
(it was asleep while MLFQ ran): stride task A (slot 1, share 20, stride 500) has
pass 0 and `mlfq` (share 80, stride 125) has pass 5000; slot 2 holds a runnable
MLFQ task. -/
def lagging_state : Kernel :=
  { wrap_state with
    ptable := store wrap_state.ptable 1 (fun p => { p with share := 20, stride := 500, pass := 0 })
    mlfq := { wrap_state.mlfq with share := 80, stride := 125, pass := 5000 } }

/-! # Theorems -/

/-! ## Helper lemmas -/

/-- A `bind` in `Except` returns exactly when both of its parts do. -/
theorem bind_eq_ok {ε α β : Type} {x : Except ε α} {f : α → Except ε β} {b : β} :
    (x >>= f) = .ok b ↔ ∃ a, x = .ok a ∧ f a = .ok b := by
  cases x with
  | error e => simp [bind, Except.bind]
  | ok a => simp [bind, Except.bind]

/-- A division by a non-zero divisor returns the truncated quotient. -/
theorem cdiv_ok {a b : Int} (hb : b ≠ 0) : cdiv a b = .ok (Int.tdiv a b) := by
  simp [cdiv, hb]

/-- A division that returns had a non-zero divisor. -/
theorem cdiv_eq_ok {a b r : Int} (h : cdiv a b = .ok r) : b ≠ 0 ∧ r = Int.tdiv a b := by
  unfold cdiv at h
  by_cases hb : b = 0
  · rw [if_pos hb] at h; cases h
  · rw [if_neg hb] at h; cases h; exact ⟨hb, rfl⟩

/-- The scan for the lowest pass, started at any value: the result is a lower
bound of the start value and of every stride pass, and it is one of them. -/
theorem lowest_pass_fold (ps : List proc) (init : Int) :
    let r := ps.foldl
      (fun lowest_pass p =>
        if p.isStride then
          if lowest_pass > p.pass then p.pass else lowest_pass
        else lowest_pass) init
    r ≤ init ∧ (∀ p ∈ ps, p.isStride = true → r ≤ p.pass) ∧
      (r = init ∨ ∃ p ∈ ps, p.isStride = true ∧ r = p.pass) := by
  induction ps generalizing init with
  | nil => simp
  | cons p ps ih =>
    simp only [List.foldl_cons]
    have hcase : ∀ a : Int,
        a = (if p.isStride then if init > p.pass then p.pass else init else init) →
        a ≤ init ∧ (p.isStride = true → a ≤ p.pass) ∧
          (a = init ∨ (p.isStride = true ∧ a = p.pass)) := by
      intro a ha
      by_cases hp : p.isStride = true
      · rw [if_pos hp] at ha
        by_cases hlt : init > p.pass
        · rw [if_pos hlt] at ha
          exact ⟨by omega, fun _ => by omega, Or.inr ⟨hp, ha⟩⟩
        · rw [if_neg hlt] at ha
          exact ⟨by omega, fun _ => by omega, Or.inl ha⟩
      · rw [if_neg hp] at ha
        exact ⟨by omega, fun h => absurd h hp, Or.inl ha⟩
    generalize (if p.isStride then if init > p.pass then p.pass else init else init) = a
      at hcase ⊢
    obtain ⟨c1, c2, c3⟩ := hcase a rfl
    obtain ⟨h1, h2, h3⟩ := ih a
    refine ⟨le_trans h1 c1, ?_, ?_⟩
    · intro q hq hqs
      rcases List.mem_cons.mp hq with rfl | hq
      · exact le_trans h1 (c2 hqs)
      · exact h2 q hq hqs
    · rcases h3 with h3 | ⟨q, hq, hqs, hqr⟩
      · rcases c3 with c3 | ⟨hp, c3⟩
        · exact Or.inl (h3.trans c3)
        · exact Or.inr ⟨p, List.mem_cons_self _ _, hp, h3.trans c3⟩
      · exact Or.inr ⟨q, List.mem_cons_of_mem _ hq, hqs, hqr⟩

/-- The pass given to a joining task is the least of `mlfq.pass` and the stride
passes, as long as `mlfq.pass` is not above the start value of the scan. -/
theorem entry_pass_is_min (ps : List proc) (q : Int) (hq : q ≤ 987654321) :
    IsEntryPass ps q (if lowest_pass_scan ps < q then lowest_pass_scan ps else q) := by
  obtain ⟨h1, h2, h3⟩ := lowest_pass_fold ps 987654321
  change lowest_pass_scan ps ≤ _ at h1
  change ∀ p ∈ ps, p.isStride = true → lowest_pass_scan ps ≤ p.pass at h2
  change (lowest_pass_scan ps = _ ∨ ∃ p ∈ ps, p.isStride = true ∧ lowest_pass_scan ps = p.pass) at h3
  by_cases hlt : lowest_pass_scan ps < q
  · rw [if_pos hlt]
    refine ⟨le_of_lt hlt, h2, ?_⟩
    rcases h3 with h3 | h3
    · omega
    · exact Or.inr h3
  · rw [if_neg hlt]
    refine ⟨le_refl _, fun p hp hps => le_trans (not_lt.mp hlt) (h2 p hp hps), Or.inl rfl⟩

/-- What a call that passes both admission checks and returns has done. -/
theorem set_cpu_share_admitted {TT : Int} {k : Kernel} {cur : Nat} {s r : Int}
    {k' : Kernel} (hs : ¬ s ≤ 0) (hm : ¬ k.mlfq.share - s < 20)
    (h : set_cpu_share TT k cur s = .ok (r, k')) :
    ∃ c ps st, k.ptable[cur]? = some c ∧
      share_tasks TT k.ptable cur c s
        (if lowest_pass_scan k.ptable < k.mlfq.pass then lowest_pass_scan k.ptable
          else k.mlfq.pass) = .ok ps ∧
      cdiv TT (k.mlfq.share - s) = .ok st ∧ r = s ∧
      k' = { k with ptable := ps,
                    mlfq := { k.mlfq with share := k.mlfq.share - s, stride := st } } := by
  unfold set_cpu_share at h
  rw [if_neg hs, if_neg hm] at h
  cases hc : k.ptable[cur]? with
  | none => rw [hc] at h; cases h
  | some c =>
    rw [hc] at h
    simp only [bind_eq_ok] at h
    obtain ⟨ps, hps, st, hst, hret⟩ := h
    simp only [pure, Except.pure, Except.ok.injEq, Prod.mk.injEq] at hret
    exact ⟨c, ps, st, rfl, hps, hst, hret.1.symm, hret.2.symm⟩

/-- A call that passes both admission checks, once the middle part has
produced its table. -/
theorem set_cpu_share_of_tasks {TT : Int} {k : Kernel} {cur : Nat} {s : Int} {c : proc}
    {ps : List proc} (hs : 0 < s) (hm : 20 ≤ k.mlfq.share - s)
    (hc : k.ptable[cur]? = some c)
    (hps : share_tasks TT k.ptable cur c s
        (if lowest_pass_scan k.ptable < k.mlfq.pass then lowest_pass_scan k.ptable
          else k.mlfq.pass) = .ok ps) :
    set_cpu_share TT k cur s = .ok (s,
      { k with ptable := ps,
               mlfq := { k.mlfq with share := k.mlfq.share - s,
                                     stride := Int.tdiv TT (k.mlfq.share - s) } }) := by
  unfold set_cpu_share
  rw [if_neg (by omega), if_neg (by omega), hc]
  simp only [hps, cdiv_ok (show k.mlfq.share - s ≠ 0 by omega), bind, Except.bind, pure,
    Except.pure]

/-- A rejected request returns -1 and leaves the globals as they are. -/
theorem set_cpu_share_rejected {TT : Int} {k : Kernel} {cur : Nat} {s : Int}
    (h : s ≤ 0 ∨ k.mlfq.share - s < 20) : set_cpu_share TT k cur s = .ok (-1, k) := by
  unfold set_cpu_share
  by_cases hs : s ≤ 0
  · rw [if_pos hs]
  · rw [if_neg hs, if_pos (h.resolve_left hs)]

/-- The middle part of `set_cpu_share` for a caller without threads. -/
theorem share_tasks_single {TT : Int} {ps : List proc} {cur : Nat} {c : proc} {s e : Int}
    (hnt : (c.tid = 0 ∧ c.num_of_threads = 0) ∨ c.tid ≠ 0) (hs : s ≠ 0) :
    share_tasks TT ps cur c s e = .ok (ps.set cur (joined TT c s e)) := by
  unfold share_tasks
  rcases hnt with ⟨h0, hn⟩ | h0
  · rw [if_pos h0, if_neg (by simp [hn])]
    simp only [cdiv_ok hs, bind, Except.bind, pure, Except.pure, joined]
  · rw [if_neg h0]
    simp only [cdiv_ok hs, bind, Except.bind, pure, Except.pure, joined]

/-- The whole call for a caller without threads. -/
theorem set_cpu_share_single_ok {TT : Int} {k : Kernel} {cur : Nat} {c : proc} {s : Int}
    (hc : k.ptable[cur]? = some c)
    (hnt : (c.tid = 0 ∧ c.num_of_threads = 0) ∨ c.tid ≠ 0)
    (hs : 0 < s) (hm : 20 ≤ k.mlfq.share - s) :
    set_cpu_share TT k cur s = .ok (s,
      { k with
        ptable := k.ptable.set cur (joined TT c s
          (if lowest_pass_scan k.ptable < k.mlfq.pass then lowest_pass_scan k.ptable
            else k.mlfq.pass))
        mlfq := { k.mlfq with share := k.mlfq.share - s,
                              stride := Int.tdiv TT (k.mlfq.share - s) } }) :=
  set_cpu_share_of_tasks hs hm hc (share_tasks_single hnt (by omega))

/-- The loop over the threads, when both of its divisions are defined: every
slot with `parent == curproc && tid != 0` is rewritten, the others are kept. -/
theorem share_threads_ok {TT s n : Int} {cur : Nat} {e : Int} (hn : n ≠ 0)
    (hsh : Int.tdiv s n ≠ 0) (ps : List proc) :
    share_threads TT s n cur e ps = .ok (ps.map (fun p =>
      if p.parent = some cur ∧ p.tid ≠ 0 then joined TT p (Int.tdiv s n) e else p)) := by
  induction ps with
  | nil => rfl
  | cons p ps ih =>
    unfold share_threads
    by_cases hp : p.parent = some cur ∧ p.tid ≠ 0
    · rw [if_pos hp]
      simp only [cdiv_ok hn, cdiv_ok hsh, ih, bind, Except.bind, pure, Except.pure,
        List.map_cons, if_pos hp, joined]
    · rw [if_neg hp]
      simp only [ih, bind, Except.bind, pure, Except.pure, List.map_cons, if_neg hp]

/-- The middle part of `set_cpu_share` for a process with threads: it returns
exactly when `share / num_of_threads` is not 0, and then with this table. -/
theorem share_tasks_threads {TT : Int} {ps : List proc} {cur : Nat} {c : proc} {s e : Int}
    (h0 : c.tid = 0) (hn : c.num_of_threads ≠ 0) :
    (Int.tdiv s c.num_of_threads ≠ 0 →
      share_tasks TT ps cur c s e = .ok
        ((ps.set cur (joined TT c (Int.tdiv s c.num_of_threads) e)).map (fun p =>
          if p.parent = some cur ∧ p.tid ≠ 0 then
            joined TT p (Int.tdiv s c.num_of_threads) e else p))) ∧
    (∀ ps', share_tasks TT ps cur c s e = .ok ps' → Int.tdiv s c.num_of_threads ≠ 0) := by
  constructor
  · intro hsh
    unfold share_tasks
    rw [if_pos h0, if_pos hn]
    simp only [cdiv_ok hn, cdiv_ok hsh, bind, Except.bind]
    exact share_threads_ok hn hsh _
  · intro ps' h
    unfold share_tasks at h
    rw [if_pos h0, if_pos hn] at h
    simp only [bind_eq_ok] at h
    obtain ⟨sh, hsh, st, hst, _⟩ := h
    have h1 := (cdiv_eq_ok hsh).2
    have h2 := (cdiv_eq_ok hst).1
    rw [h1] at h2
    exact h2

/-! ## Claims about `set_cpu_share` -/

/-- C1: `set_cpu_share(s)` returns -1 exactly when `s <= 0` or
`mlfq.share - s < 20`, and in that case the globals it returns are the ones it
was given: `mlfq` (share, stride, pass) and every slot of the table are
unchanged. -/
theorem set_cpu_share_fails_iff (TT : Int) (k : Kernel) (cur : Nat) (s : Int) :
    ((∃ k', set_cpu_share TT k cur s = .ok (-1, k')) ↔ (s ≤ 0 ∨ k.mlfq.share - s < 20)) ∧
    ((s ≤ 0 ∨ k.mlfq.share - s < 20) → set_cpu_share TT k cur s = .ok (-1, k)) := by
  refine ⟨⟨?_, fun h => ⟨k, set_cpu_share_rejected h⟩⟩, set_cpu_share_rejected⟩
  rintro ⟨k', hk'⟩
  by_contra hcon
  push_neg at hcon
  obtain ⟨_, _, _, _, _, _, hr, _⟩ :=
    set_cpu_share_admitted (not_le.mpr hcon.1) (not_lt.mpr hcon.2) hk'
  omega

/-- What `set_cpu_share` does for a caller without threads (a process with
`num_of_threads == 0`, or a thread) and a request `s > 0` with
`mlfq.share - s >= 20`, in a state whose `mlfq.pass` is not above the start
value 987654321 of the scan (the epoch wrap keeps it below 100000000): it
returns `s`; afterwards the caller is a stride task with share `s`, stride
`TOTALTICKET / s` and pass the minimum of `mlfq.pass` and the passes of the
slots whose `isStride` is set, whatever their state (an UNUSED slot that kept
its `isStride` counts); `mlfq.share` is reduced by exactly `s`, is still at
least 20, and `mlfq.stride` is `TOTALTICKET / mlfq.share`.  Nothing else
changes. -/
theorem set_cpu_share_no_threads (TT : Int) (k : Kernel) (cur : Nat) (c : proc) (s : Int)
    (hc : k.ptable[cur]? = some c)
    (hnt : (c.tid = 0 ∧ c.num_of_threads = 0) ∨ c.tid ≠ 0)
    (hs : 0 < s) (hm : 20 ≤ k.mlfq.share - s) (hq : k.mlfq.pass ≤ 987654321) :
    ∃ k' c', set_cpu_share TT k cur s = .ok (s, k') ∧ k'.ptable[cur]? = some c' ∧
      c'.isStride = true ∧ c'.share = s ∧ c'.stride = Int.tdiv TT s ∧
      IsEntryPass k.ptable k.mlfq.pass c'.pass ∧
      k'.mlfq.share = k.mlfq.share - s ∧ 20 ≤ k'.mlfq.share ∧
      k'.mlfq.stride = Int.tdiv TT k'.mlfq.share ∧ k'.mlfq.pass = k.mlfq.pass ∧
      (∀ j, j ≠ cur → k'.ptable[j]? = k.ptable[j]?) := by
  have hlen : cur < k.ptable.length := by
    rcases List.getElem?_eq_some_iff.mp hc with ⟨h, _⟩
    exact h
  refine ⟨_, joined TT c s (if lowest_pass_scan k.ptable < k.mlfq.pass then
      lowest_pass_scan k.ptable else k.mlfq.pass),
    set_cpu_share_single_ok hc hnt hs hm, ?_, rfl, rfl, rfl,
    entry_pass_is_min k.ptable k.mlfq.pass hq, rfl, hm, rfl, rfl, ?_⟩
  · simp [List.getElem?_set, hlen]
  · intro j hj
    simp [List.getElem?_set, Ne.symm hj]

/-- The request of 40 by task A (slot 1) of the boot state. -/
theorem set_cpu_share_no_threads_witness :
    ∃ k' c', set_cpu_share 10000 (boot_state 10000) 1 40 = .ok (40, k') ∧
      k'.ptable[1]? = some c' ∧
      c'.isStride = true ∧ c'.share = 40 ∧ c'.stride = Int.tdiv 10000 40 ∧
      IsEntryPass (boot_state 10000).ptable (boot_state 10000).mlfq.pass c'.pass ∧
      k'.mlfq.share = (boot_state 10000).mlfq.share - 40 ∧ 20 ≤ k'.mlfq.share ∧
      k'.mlfq.stride = Int.tdiv 10000 k'.mlfq.share ∧
      k'.mlfq.pass = (boot_state 10000).mlfq.pass ∧
      (∀ j, j ≠ 1 → k'.ptable[j]? = (boot_state 10000).ptable[j]?) :=
  set_cpu_share_no_threads 10000 (boot_state 10000) 1 _ 40 rfl (by decide) (by decide)
    (by decide) (by decide)

/-- The first request of the boot state: task A (slot 1) asks for 40. -/
theorem boot_first_forty (TT : Int) :
    ∃ k1, set_cpu_share TT (boot_state TT) 1 40 = .ok (40, k1) ∧
      k1.mlfq.share = 60 ∧ k1.mlfq.pass = 0 ∧
      k1.ptable = (boot_state TT).ptable.set 1
        { proc_zero with sz := 4096, pgdir := 2, kstack := 2, state := .RUNNABLE, pid := 2,
                         parent := some 0, isStride := true, share := 40,
                         stride := Int.tdiv TT 40, pass := 0 } := by
  have hA := @set_cpu_share_single_ok TT (boot_state TT) 1 _ 40
    rfl (Or.inl ⟨rfl, rfl⟩) (by decide) (by simp [boot_state, mlfq_boot])
  refine ⟨_, hA, ?_, rfl, ?_⟩
  · simp [boot_state, mlfq_boot]
  · simp [boot_state, mlfq_boot, proc_zero, joined, lowest_pass_scan]

/-- C3 (evaluation of the code at the failing input): from the boot state
(`mlfq.share` 100, no stride task) task A asks for 40 twice.  Both calls
succeed; after the first the shares add up to 100, after the second
`mlfq.share` is 20 and A holds 40, so they add up to 60. -/
theorem share_sum_after_second_request (TT : Int) :
    (boot_state TT).mlfq.share + stride_share_sum (boot_state TT).ptable = 100 ∧
    ∃ k1 k2, set_cpu_share TT (boot_state TT) 1 40 = .ok (40, k1) ∧
      k1.mlfq.share + stride_share_sum k1.ptable = 100 ∧
      set_cpu_share TT k1 1 40 = .ok (40, k2) ∧
      k2.mlfq.share + stride_share_sum k2.ptable = 60 := by
  obtain ⟨k1, hA, hs1, hp1, ht1⟩ := boot_first_forty TT
  have hc1 : k1.ptable[1]? = some
      { proc_zero with sz := 4096, pgdir := 2, kstack := 2, state := .RUNNABLE, pid := 2,
                       parent := some 0, isStride := true, share := 40,
                       stride := Int.tdiv TT 40, pass := 0 } := by
    rw [ht1]; rfl
  have hB := @set_cpu_share_single_ok TT k1 1 _ 40
    hc1 (Or.inl ⟨rfl, rfl⟩) (by decide) (by omega)
  refine ⟨by simp [boot_state, mlfq_boot, proc_zero, stride_share_sum], k1, _, hA, ?_, hB, ?_⟩
  · rw [hs1, ht1]
    simp [boot_state, proc_zero, stride_share_sum]
  · simp only [hs1, ht1]
    simp [boot_state, proc_zero, stride_share_sum, joined]

/-- Two successful requests of 40 from `mlfq.share = 100` leave `mlfq.share`
at 20. -/
theorem mlfq_share_after_two_forties {TT : Int} {k k1 k2 : Kernel} {a b : Nat}
    (h100 : k.mlfq.share = 100)
    (hA : set_cpu_share TT k a 40 = .ok (40, k1))
    (hB : set_cpu_share TT k1 b 40 = .ok (40, k2)) : k2.mlfq.share = 20 := by
  obtain ⟨_, _, _, _, _, _, _, rfl⟩ :=
    set_cpu_share_admitted (by omega) (by omega) hA
  obtain ⟨_, _, _, _, _, _, _, rfl⟩ :=
    set_cpu_share_admitted (by omega) (by simp only [h100]; omega) hB
  simp only [h100]
  rfl

/-- The scenario's return values, when the requests of A and B succeed. -/
theorem admission_scenario_values {TT : Int} {k k1 k2 : Kernel} {a b c : Nat}
    (h100 : k.mlfq.share = 100)
    (hA : set_cpu_share TT k a 40 = .ok (40, k1))
    (hB : set_cpu_share TT k1 b 40 = .ok (40, k2)) :
    admission_scenario TT k a b c = .ok [40, 40, -1, -1, -1] := by
  have h20 := mlfq_share_after_two_forties h100 hA hB
  have h : ∀ s : Int, 0 < s → set_cpu_share TT k2 c s = .ok (-1, k2) := fun s hs =>
    set_cpu_share_rejected (Or.inr (by omega))
  unfold admission_scenario
  simp only [hA, hB, h 25 (by decide), h 20 (by decide), h 19 (by decide), bind, Except.bind,
    pure, Except.pure]

/-- The requests of A and B in the boot state succeed. -/
theorem boot_two_forties (TT : Int) :
    ∃ k1 k2, set_cpu_share TT (boot_state TT) 1 40 = .ok (40, k1) ∧
      set_cpu_share TT k1 2 40 = .ok (40, k2) := by
  obtain ⟨k1, hA, hs1, hp1, ht1⟩ := boot_first_forty TT
  have hc1 : k1.ptable[2]? = some
      { proc_zero with sz := 4096, pgdir := 3, kstack := 3, state := .RUNNABLE, pid := 3,
                       parent := some 0 } := by
    rw [ht1]; rfl
  exact ⟨k1, _, hA, set_cpu_share_single_ok hc1 (Or.inl ⟨rfl, rfl⟩) (by decide) (by omega)⟩

/-- C4 (counterexample): in the boot state, with A, B, C in the slots 1, 2, 3,
the scenario returns 40, 40, -1, -1, -1 whatever `TOTALTICKET` is: the last
request, `set_cpu_share(19)`, returns -1 and not 19. -/
theorem admission_scenario_last_is_rejected :
    admission_scenario 10000 (boot_state 10000) 1 2 3 = .ok [40, 40, -1, -1, -1] ∧
    ¬ ∃ TT : Int, admission_scenario TT (boot_state TT) 1 2 3 = .ok [40, 40, -1, -1, 19] := by
  constructor
  · obtain ⟨k1, k2, hA, hB⟩ := boot_two_forties 10000
    exact admission_scenario_values rfl hA hB
  · rintro ⟨TT, h⟩
    obtain ⟨k1, k2, hA, hB⟩ := boot_two_forties TT
    rw [admission_scenario_values rfl hA hB] at h
    simp at h

/-- C4 (amended): starting from `mlfq.share = 100`, after A's
`set_cpu_share(40)` and B's `set_cpu_share(40)` have succeeded, `mlfq.share` is
20, and C's `set_cpu_share(25)`, `set_cpu_share(20)` and `set_cpu_share(19)`
all return -1 and change nothing. -/
theorem admission_scenario_all_rejected (TT : Int) (k k1 k2 : Kernel) (a b c : Nat)
    (h100 : k.mlfq.share = 100)
    (hA : set_cpu_share TT k a 40 = .ok (40, k1))
    (hB : set_cpu_share TT k1 b 40 = .ok (40, k2)) :
    k2.mlfq.share = 20 ∧
    set_cpu_share TT k2 c 25 = .ok (-1, k2) ∧
    set_cpu_share TT k2 c 20 = .ok (-1, k2) ∧
    set_cpu_share TT k2 c 19 = .ok (-1, k2) ∧
    admission_scenario TT k a b c = .ok [40, 40, -1, -1, -1] := by
  have h20 := mlfq_share_after_two_forties h100 hA hB
  exact ⟨h20, set_cpu_share_rejected (Or.inr (by omega)),
    set_cpu_share_rejected (Or.inr (by omega)), set_cpu_share_rejected (Or.inr (by omega)),
    admission_scenario_values h100 hA hB⟩

/-- C4 (amended), at a concrete input: the boot state with A, B, C in the slots
1, 2, 3. -/
theorem admission_scenario_all_rejected_witness :
    ∃ k1 k2, (boot_state 10000).mlfq.share = 100 ∧
      set_cpu_share 10000 (boot_state 10000) 1 40 = .ok (40, k1) ∧
      set_cpu_share 10000 k1 2 40 = .ok (40, k2) ∧
      (k2.mlfq.share = 20 ∧
        set_cpu_share 10000 k2 3 25 = .ok (-1, k2) ∧
        set_cpu_share 10000 k2 3 20 = .ok (-1, k2) ∧
        set_cpu_share 10000 k2 3 19 = .ok (-1, k2) ∧
        admission_scenario 10000 (boot_state 10000) 1 2 3 = .ok [40, 40, -1, -1, -1]) := by
  obtain ⟨k1, k2, hA, hB⟩ := boot_two_forties 10000
  exact ⟨k1, k2, rfl, hA, hB,
    admission_scenario_all_rejected 10000 (boot_state 10000) k1 k2 1 2 3 rfl hA hB⟩

/-- A positive request that is at least the number of threads has a non-zero
quotient. -/
theorem tdiv_ne_zero_of_le {s n : Int} (hn : 0 < n) (hsn : n ≤ s) : Int.tdiv s n ≠ 0 := by
  rw [Int.tdiv_eq_ediv (by omega) (by omega)]
  have : 1 ≤ s / n := Int.le_ediv_of_mul_le hn (by omega)
  omega

/-- What `set_cpu_share` does when the caller is a process (`tid == 0`) with
`n = num_of_threads > 0` and the request passes the admission checks (`s > 0`,
`mlfq.share - s >= 20`); `mlfq.pass` is not above the start value of the scan.
If `n <= s` the call returns `s`.  Whenever it returns `s`, the caller and
every slot with `parent == caller` and `tid != 0` are stride tasks with share
`s / n`, stride `TOTALTICKET / share`, and one common pass: the minimum of
`mlfq.pass` and the passes of the slots whose `isStride` is set, whatever
their state. -/
theorem set_cpu_share_with_threads (TT : Int) (k : Kernel) (cur : Nat) (c : proc) (s : Int)
    (hc : k.ptable[cur]? = some c) (h0 : c.tid = 0) (hn : 0 < c.num_of_threads)
    (hs : 0 < s) (hm : 20 ≤ k.mlfq.share - s) (hq : k.mlfq.pass ≤ 987654321) :
    (c.num_of_threads ≤ s → ∃ k', set_cpu_share TT k cur s = .ok (s, k')) ∧
    (∀ k', set_cpu_share TT k cur s = .ok (s, k') →
      ∃ e, IsEntryPass k.ptable k.mlfq.pass e ∧ (∃ c', k'.ptable[cur]? = some c') ∧
        ∀ j p', k'.ptable[j]? = some p' →
          (j = cur ∨ (p'.parent = some cur ∧ p'.tid ≠ 0)) →
          p'.isStride = true ∧ p'.share = Int.tdiv s c.num_of_threads ∧
            p'.stride = Int.tdiv TT p'.share ∧ p'.pass = e) := by
  have hlen : cur < k.ptable.length := (List.getElem?_eq_some_iff.mp hc).1
  have hn0 : c.num_of_threads ≠ 0 := by omega
  obtain ⟨hto, hfrom⟩ := @share_tasks_threads TT k.ptable cur c s
    (if lowest_pass_scan k.ptable < k.mlfq.pass then lowest_pass_scan k.ptable
      else k.mlfq.pass) h0 hn0
  constructor
  · intro hsn
    exact ⟨_, set_cpu_share_of_tasks hs hm hc (hto (tdiv_ne_zero_of_le hn hsn))⟩
  · intro k' hk'
    obtain ⟨c0, ps, st, hc0, hps, _, _, rfl⟩ :=
      set_cpu_share_admitted (by omega) (by omega) hk'
    rw [hc] at hc0
    cases hc0
    have hsh := hfrom ps hps
    rw [hto hsh] at hps
    cases hps
    refine ⟨_, entry_pass_is_min k.ptable k.mlfq.pass hq, ?_, ?_⟩
    · simp [List.getElem?_map, List.getElem?_set, hlen]
    · intro j p' hj hwho
      simp only [List.getElem?_map, List.getElem?_set] at hj
      by_cases hjc : cur = j
      · rw [if_pos hjc, if_pos hlen] at hj
        simp only [Option.map_some', Option.some.injEq] at hj
        rw [if_neg (by simp [joined, h0])] at hj
        subst hj
        exact ⟨rfl, rfl, rfl, rfl⟩
      · rw [if_neg hjc] at hj
        cases hpj : k.ptable[j]? with
        | none => rw [hpj] at hj; cases hj
        | some p0 =>
          rw [hpj] at hj
          simp only [Option.map_some', Option.some.injEq] at hj
          by_cases hp0 : p0.parent = some cur ∧ p0.tid ≠ 0
          · rw [if_pos hp0] at hj
            subst hj
            exact ⟨rfl, rfl, rfl, rfl⟩
          · rw [if_neg hp0] at hj
            subst hj
            rcases hwho with h | h
            · exact absurd h.symm hjc
            · exact absurd h hp0

/-- The process in slot 1 of `thread_state`, which has two threads, asks for
40; it and its two threads get share 20 each. -/
theorem set_cpu_share_with_threads_witness :
    ∃ k', set_cpu_share 10000 (thread_state 10000) 1 40 = .ok (40, k') ∧
      ∃ e, IsEntryPass (thread_state 10000).ptable (thread_state 10000).mlfq.pass e ∧
        (∃ c', k'.ptable[1]? = some c') ∧
        ∀ j p', k'.ptable[j]? = some p' →
          (j = 1 ∨ (p'.parent = some 1 ∧ p'.tid ≠ 0)) →
          p'.isStride = true ∧ p'.share = Int.tdiv 40 2 ∧
            p'.stride = Int.tdiv 10000 p'.share ∧ p'.pass = e := by
  have h := set_cpu_share_with_threads 10000 (thread_state 10000) 1 _ 40 rfl rfl
    (by decide) (by decide) (by decide) (by decide)
  obtain ⟨k', hk'⟩ := h.1 (by decide)
  exact ⟨k', hk', h.2 k' hk'⟩

/-! ## The stride scan -/

/-- The scan from any loop state: if no eligible slot lies below `lowest_pass`
the selection is kept; otherwise the scan selects the first eligible slot of
least pass. -/
theorem stride_scan_spec (ps : List proc) : ∀ (i : Nat) (lo : Int) (sel : Option Nat),
    ((∀ p ∈ ps, p.state = .RUNNABLE → p.isStride = true → lo ≤ p.pass) →
      stride_scan ps i lo sel = sel) ∧
    ((∃ p ∈ ps, p.state = .RUNNABLE ∧ p.isStride = true ∧ p.pass < lo) →
      ∃ j w, stride_scan ps i lo sel = some (i + j) ∧ ps[j]? = some w ∧
        w.state = .RUNNABLE ∧ w.isStride = true ∧ w.pass < lo ∧
        ∀ j' p, ps[j']? = some p → p.state = .RUNNABLE → p.isStride = true →
          w.pass ≤ p.pass ∧ (p.pass = w.pass → j ≤ j')) := by
  induction ps with
  | nil =>
    intro i lo sel
    exact ⟨fun _ => rfl, fun ⟨p, hp, _⟩ => absurd hp (List.not_mem_nil p)⟩
  | cons p ps ih =>
    intro i lo sel
    by_cases hel : p.state = .RUNNABLE ∧ p.isStride = true
    · obtain ⟨hst, hstr⟩ := hel
      by_cases hlt : lo > p.pass
      · -- `p` becomes the selection
        have hscan : stride_scan (p :: ps) i lo sel = stride_scan ps (i + 1) p.pass (some i) := by
          rw [stride_scan, if_neg (by simp [hst]), if_neg (by simp [hstr]), if_pos hlt]
        rw [hscan]
        constructor
        · intro h
          have := h p (List.mem_cons_self _ _) hst hstr
          omega
        · intro _
          by_cases hex : ∃ q ∈ ps, q.state = .RUNNABLE ∧ q.isStride = true ∧ q.pass < p.pass
          · obtain ⟨j, w, hj, hw, hws, hwi, hwlt, hmin⟩ := (ih (i + 1) p.pass (some i)).2 hex
            refine ⟨j + 1, w, by rw [hj]; congr 1; omega, by simpa using hw, hws, hwi,
              by omega, ?_⟩
            intro j' q hq hqs hqi
            cases j' with
            | zero =>
              simp only [List.getElem?_cons_zero, Option.some.injEq] at hq
              subst hq
              exact ⟨by omega, fun h => by omega⟩
            | succ j' =>
              simp only [List.getElem?_cons_succ] at hq
              obtain ⟨h1, h2⟩ := hmin j' q hq hqs hqi
              exact ⟨h1, fun h => by have := h2 h; omega⟩
          · push_neg at hex
            have hkeep := (ih (i + 1) p.pass (some i)).1
              (fun q hq hqs hqi => hex q hq hqs hqi)
            refine ⟨0, p, by rw [hkeep]; rfl, by simp, hst, hstr, hlt, ?_⟩
            intro j' q hq hqs hqi
            cases j' with
            | zero =>
              simp only [List.getElem?_cons_zero, Option.some.injEq] at hq
              subst hq
              exact ⟨le_refl _, fun _ => le_refl _⟩
            | succ j' =>
              simp only [List.getElem?_cons_succ] at hq
              exact ⟨hex q (List.getElem?_mem hq) hqs hqi, fun _ => Nat.zero_le _⟩
      · -- `p` is eligible but not below `lowest_pass`
        have hscan : stride_scan (p :: ps) i lo sel = stride_scan ps (i + 1) lo sel := by
          rw [stride_scan, if_neg (by simp [hst]), if_neg (by simp [hstr]), if_neg hlt]
        rw [hscan]
        constructor
        · intro h
          exact (ih (i + 1) lo sel).1 (fun q hq => h q (List.mem_cons_of_mem _ hq))
        · rintro ⟨q, hq, hqs, hqi, hqlt⟩
          have hq' : q ∈ ps := by
            rcases List.mem_cons.mp hq with rfl | hq'
            · omega
            · exact hq'
          obtain ⟨j, w, hj, hw, hws, hwi, hwlt, hmin⟩ :=
            (ih (i + 1) lo sel).2 ⟨q, hq', hqs, hqi, hqlt⟩
          refine ⟨j + 1, w, by rw [hj]; congr 1; omega, by simpa using hw, hws, hwi, hwlt, ?_⟩
          intro j' r hr hrs hri
          cases j' with
          | zero =>
            simp only [List.getElem?_cons_zero, Option.some.injEq] at hr
            subst hr
            exact ⟨by omega, fun h => by omega⟩
          | succ j' =>
            simp only [List.getElem?_cons_succ] at hr
            obtain ⟨h1, h2⟩ := hmin j' r hr hrs hri
            exact ⟨h1, fun h => by have := h2 h; omega⟩
    · -- `p` is skipped
      have hscan : stride_scan (p :: ps) i lo sel = stride_scan ps (i + 1) lo sel := by
        rw [stride_scan]
        by_cases hst : p.state = .RUNNABLE
        · have hstr : p.isStride = false := by
            cases h : p.isStride with
            | false => rfl
            | true => exact absurd ⟨hst, h⟩ hel
          rw [if_neg (by simp [hst]), if_pos hstr]
        · rw [if_pos hst]
      rw [hscan]
      constructor
      · intro h
        exact (ih (i + 1) lo sel).1 (fun q hq => h q (List.mem_cons_of_mem _ hq))
      · rintro ⟨q, hq, hqs, hqi, hqlt⟩
        have hq' : q ∈ ps := by
          rcases List.mem_cons.mp hq with rfl | hq'
          · exact absurd ⟨hqs, hqi⟩ hel
          · exact hq'
        obtain ⟨j, w, hj, hw, hws, hwi, hwlt, hmin⟩ :=
          (ih (i + 1) lo sel).2 ⟨q, hq', hqs, hqi, hqlt⟩
        refine ⟨j + 1, w, by rw [hj]; congr 1; omega, by simpa using hw, hws, hwi, hwlt, ?_⟩
        intro j' r hr hrs hri
        cases j' with
        | zero =>
          simp only [List.getElem?_cons_zero, Option.some.injEq] at hr
          subst hr
          exact absurd ⟨hrs, hri⟩ hel
        | succ j' =>
          simp only [List.getElem?_cons_succ] at hr
          obtain ⟨h1, h2⟩ := hmin j' r hr hrs hri
          exact ⟨h1, fun h => by have := h2 h; omega⟩

/-- The selection of an iteration, when there is one, is an eligible slot of the
table below the start value of the scan, of least pass, and the first such. -/
theorem stride_winner_some {k : Kernel} {i : Nat} (h : stride_winner k = some i) :
    ∃ w, k.ptable[i]? = some w ∧ w.state = .RUNNABLE ∧ w.isStride = true ∧
      w.pass < 987654321 ∧
      ∀ j p, k.ptable[j]? = some p → p.state = .RUNNABLE → p.isStride = true →
        w.pass ≤ p.pass ∧ (p.pass = w.pass → i ≤ j) := by
  obtain ⟨hkeep, hsel⟩ := stride_scan_spec k.ptable 0 987654321 none
  by_cases hex : ∃ p ∈ k.ptable, p.state = .RUNNABLE ∧ p.isStride = true ∧ p.pass < 987654321
  · obtain ⟨j, w, hj, hw, hws, hwi, hwlt, hmin⟩ := hsel hex
    unfold stride_winner at h
    rw [hj] at h
    simp only [Nat.zero_add, Option.some.injEq] at h
    subst h
    exact ⟨w, hw, hws, hwi, hwlt, hmin⟩
  · push_neg at hex
    unfold stride_winner at h
    rw [hkeep (fun p hp hs hi => hex p hp hs hi)] at h
    cases h

/-- The scan selects nothing exactly when no eligible slot lies below its start
value. -/
theorem stride_winner_none {k : Kernel} :
    stride_winner k = none ↔
      ∀ p ∈ k.ptable, p.state = .RUNNABLE → p.isStride = true → 987654321 ≤ p.pass := by
  obtain ⟨hkeep, hsel⟩ := stride_scan_spec k.ptable 0 987654321 none
  constructor
  · intro h p hp hs hi
    by_contra hlt
    obtain ⟨j, w, hj, _⟩ := hsel ⟨p, hp, hs, hi, by omega⟩
    unfold stride_winner at h
    rw [hj] at h
    cases h
  · intro h
    exact hkeep h

/-- C6 (counterexample): in `high_pass_state` slot 1 is Runnable and isStride,
with pass 987654321, and the scan selects no task.  With `TOTALTICKET`
987654321 that state is reached from the boot state by one
`set_cpu_share(1)` and one scheduler iteration, which dispatches slot 1; the
next scan then selects nothing. -/
theorem stride_scan_misses_high_pass :
    stride_winner high_pass_state = none ∧
    (∃ p, high_pass_state.ptable[1]? = some p ∧ p.state = .RUNNABLE ∧ p.isStride = true) ∧
    high_pass_run =
      .ok ([Event.stride_run 1], some (.RUNNABLE, true, 987654321), none) :=
  ⟨rfl, ⟨_, rfl, rfl, rfl⟩, rfl⟩

/-- C6 (amended): for every task table in which every Runnable isStride task
has a pass below 987654321, the stride scan returns the Runnable isStride task
with the lowest pass, among ties the one with the smallest table index, and it
returns no task exactly when no task is both Runnable and isStride. -/
theorem stride_winner_lowest (k : Kernel)
    (hb : ∀ p ∈ k.ptable, p.state = .RUNNABLE → p.isStride = true → p.pass < 987654321) :
    (stride_winner k = none ↔
      ∀ p ∈ k.ptable, ¬ (p.state = .RUNNABLE ∧ p.isStride = true)) ∧
    (∀ i, stride_winner k = some i →
      ∃ w, k.ptable[i]? = some w ∧ w.state = .RUNNABLE ∧ w.isStride = true ∧
        ∀ j p, k.ptable[j]? = some p → p.state = .RUNNABLE → p.isStride = true →
          w.pass ≤ p.pass ∧ (p.pass = w.pass → i ≤ j)) := by
  constructor
  · rw [stride_winner_none]
    constructor
    · rintro h p hp ⟨hs, hi⟩
      have h1 := h p hp hs hi
      have h2 := hb p hp hs hi
      omega
    · intro h p hp hs hi
      exact absurd ⟨hs, hi⟩ (h p hp)
  · intro i hi
    obtain ⟨w, hw, hws, hwi, _, hmin⟩ := stride_winner_some hi
    exact ⟨w, hw, hws, hwi, hmin⟩

/-- C6 (amended), at a concrete input: in `tie_state` the slots 2 and 3 are
tied on the lowest pass and the scan returns slot 2. -/
theorem stride_winner_lowest_witness :
    stride_winner tie_state = some 2 ∧
    ((stride_winner tie_state = none ↔
      ∀ p ∈ tie_state.ptable, ¬ (p.state = .RUNNABLE ∧ p.isStride = true)) ∧
    (∀ i, stride_winner tie_state = some i →
      ∃ w, tie_state.ptable[i]? = some w ∧ w.state = .RUNNABLE ∧ w.isStride = true ∧
        ∀ j p, tie_state.ptable[j]? = some p → p.state = .RUNNABLE → p.isStride = true →
          w.pass ≤ p.pass ∧ (p.pass = w.pass → i ≤ j))) :=
  ⟨rfl, stride_winner_lowest tie_state (by decide)⟩

/-! ## The MLFQ branch -/

/-- A dispatch that returns has appended one `mlfq_run` entry to the log and
set `found`. -/
theorem mlfq_dispatch_log {swtch : Nat → Kernel → Kernel} {lvl : Int} {i : Nat} {p : proc}
    {s s' : Sweep} (h : mlfq_dispatch swtch lvl i p s = .ok s') :
    s'.found = true ∧ ∃ q, s'.log = s.log ++ [Event.mlfq_run i p.level q] := by
  unfold mlfq_dispatch at h
  simp only [bind_eq_ok] at h
  obtain ⟨q, _, h⟩ := h
  split at h
  · cases h
  · simp only [bind_eq_ok] at h
    obtain ⟨a, _, h⟩ := h
    simp only [pure, Except.pure, Except.ok.injEq] at h
    subst h
    exact ⟨rfl, q, rfl⟩

/-- A sweep that returns has only appended to the log. -/
theorem mlfq_sweep_log {swtch : Nat → Kernel → Kernel} {lvl : Int} :
    ∀ (n i : Nat) (s s' : Sweep), mlfq_sweep swtch lvl n i s = .ok s' →
      ∃ l, s'.log = s.log ++ l := by
  intro n
  induction n with
  | zero =>
    intro i s s' h
    simp only [mlfq_sweep, Except.ok.injEq] at h
    subst h
    exact ⟨[], by simp⟩
  | succ n ih =>
    intro i s s' h
    unfold mlfq_sweep at h
    split at h
    · exact ih _ _ _ h
    · split at h
      · exact ih _ _ _ h
      · simp only [bind_eq_ok] at h
        obtain ⟨s1, h1, h2⟩ := h
        obtain ⟨_, q, hq⟩ := mlfq_dispatch_log h1
        obtain ⟨l, hl⟩ := ih _ _ _ h2
        rw [hl, hq]
        exact ⟨_, List.append_assoc _ _ _⟩

/-- A guarded sweep that returns has only appended to the log. -/
theorem sweep_unless_found_log {swtch : Nat → Kernel → Kernel} {lvl : Int} {n : Nat}
    {s s' : Sweep} (h : sweep_unless_found swtch lvl n s = .ok s') :
    ∃ l, s'.log = s.log ++ l := by
  unfold sweep_unless_found at h
  split at h
  · exact mlfq_sweep_log _ _ _ _ h
  · cases h
    exact ⟨[], by simp⟩

/-- The log of an MLFQ branch that returns starts with `mlfq_pass`. -/
theorem mlfq_branch_log {swtch : Nat → Kernel → Kernel} {k : Kernel}
    {r : Kernel × List Event} (h : mlfq_branch swtch k = .ok r) :
    ∃ l, r.2 = Event.mlfq_pass :: l := by
  unfold mlfq_branch mlfq_sweeps at h
  simp only [bind_eq_ok] at h
  obtain ⟨s0, h0, s1, h1, s2, h2, h⟩ := h
  simp only [pure, Except.pure, Except.ok.injEq] at h
  subst h
  obtain ⟨l0, hl0⟩ := mlfq_sweep_log _ _ _ _ h0
  obtain ⟨l1, hl1⟩ := sweep_unless_found_log h1
  obtain ⟨l2, hl2⟩ := sweep_unless_found_log h2
  exact ⟨l0 ++ l1 ++ l2, by simp [hl2, hl1, hl0]⟩

/-- The iteration when the scan selected slot `i`, holding `w`. -/
theorem scheduler_of_winner {swtch : Nat → Kernel → Kernel} {k : Kernel} {i : Nat} {w : proc}
    (hi : stride_winner k = some i) (hw : k.ptable[i]? = some w) :
    scheduler swtch k =
      if w.pass > k.mlfq.pass then mlfq_branch swtch k
      else .ok (swtch i (stride_dispatch k i w), [Event.stride_run i]) := by
  unfold scheduler
  rw [hi]
  simp only [hw]

/-- C7: one scheduler iteration takes the MLFQ branch iff the scan selected no
task or the selected task's pass is above `mlfq.pass`.  Otherwise it dispatches
exactly the selected task: at the `swtch`, that slot is RUNNING with its pass
advanced by its stride and nothing else changed in it, and `mlfq` and every
other slot (so their pass, level and ticks) are as before. -/
theorem scheduler_branches (swtch : Nat → Kernel → Kernel) (k : Kernel) :
    (scheduler swtch k = mlfq_branch swtch k ↔
      (stride_winner k = none ∨
        ∃ i w, stride_winner k = some i ∧ k.ptable[i]? = some w ∧ w.pass > k.mlfq.pass)) ∧
    (∀ i w, stride_winner k = some i → k.ptable[i]? = some w → w.pass ≤ k.mlfq.pass →
      scheduler swtch k = .ok (swtch i (stride_dispatch k i w), [Event.stride_run i]) ∧
      (stride_dispatch k i w).mlfq = k.mlfq ∧
      (stride_dispatch k i w).ptable[i]? =
        some { w with state := .RUNNING, pass := w.pass + w.stride } ∧
      (∀ j, j ≠ i → (stride_dispatch k i w).ptable[j]? = k.ptable[j]?)) := by
  have hstride : ∀ i w, stride_winner k = some i → k.ptable[i]? = some w →
      w.pass ≤ k.mlfq.pass →
      scheduler swtch k = .ok (swtch i (stride_dispatch k i w), [Event.stride_run i]) := by
    intro i w hi hw hle
    rw [scheduler_of_winner hi hw, if_neg (by omega)]
  constructor
  · constructor
    · intro heq
      by_contra hcon
      push_neg at hcon
      obtain ⟨hne, hle⟩ := hcon
      cases hi : stride_winner k with
      | none => exact hne hi
      | some i =>
        obtain ⟨w, hw, _⟩ := stride_winner_some hi
        have hs := hstride i w hi hw (hle i w hi hw)
        rw [heq] at hs
        obtain ⟨l, hl⟩ := mlfq_branch_log hs
        simp at hl
    · rintro (hnone | ⟨i, w, hi, hw, hgt⟩)
      · unfold scheduler
        rw [hnone]
      · rw [scheduler_of_winner hi hw, if_pos hgt]
  · intro i w hi hw hle
    have hlen : i < k.ptable.length := (List.getElem?_eq_some_iff.mp hw).1
    refine ⟨hstride i w hi hw hle, rfl, ?_, ?_⟩
    · simp [stride_dispatch, List.getElem?_set, hlen]
    · intro j hj
      simp [stride_dispatch, List.getElem?_set, Ne.symm hj]

/-! ## A single CPU-bound MLFQ task -/

/-- A sweep over a range of slots none of which passes the test of the loop
changes nothing. -/
theorem mlfq_sweep_skip {swtch : Nat → Kernel → Kernel} {lvl : Int} :
    ∀ (n i : Nat) (s : Sweep),
      (∀ j q, i ≤ j → j < i + n → s.k.ptable[j]? = some q →
        (q.state ≠ .RUNNABLE ∨ q.isStride = true ∨ q.level ≠ lvl)) →
      mlfq_sweep swtch lvl n i s = .ok s := by
  intro n
  induction n with
  | zero => intro i s _; rfl
  | succ n ih =>
    intro i s h
    have hrest : mlfq_sweep swtch lvl n (i + 1) s = .ok s :=
      ih (i + 1) s (fun j q h1 h2 hq => h j q (by omega) (by omega) hq)
    rw [mlfq_sweep]
    cases hi : s.k.ptable[i]? with
    | none => simpa using hrest
    | some p =>
      simp only []
      rw [if_pos (h i p (le_refl _) (by omega) hi)]
      exact hrest

/-- One turn of the loop of a sweep. -/
theorem mlfq_sweep_succ (swtch : Nat → Kernel → Kernel) (lvl : Int) (n i : Nat) (s : Sweep) :
    mlfq_sweep swtch lvl (n + 1) i s =
      match s.k.ptable[i]? with
      | none => mlfq_sweep swtch lvl n (i + 1) s
      | some p =>
        if p.state ≠ .RUNNABLE ∨ p.isStride = true ∨ p.level ≠ lvl then
          mlfq_sweep swtch lvl n (i + 1) s
        else mlfq_dispatch swtch lvl i p s >>= fun s1 => mlfq_sweep swtch lvl n (i + 1) s1 := by
  rfl

/-- A sweep over `a + b` slots is the sweep over the first `a` followed by the
sweep over the next `b`. -/
theorem mlfq_sweep_split {swtch : Nat → Kernel → Kernel} {lvl : Int} :
    ∀ (a b i : Nat) (s : Sweep),
      mlfq_sweep swtch lvl (a + b) i s =
        (mlfq_sweep swtch lvl a i s >>= fun s1 => mlfq_sweep swtch lvl b (i + a) s1) := by
  intro a
  induction a with
  | zero =>
    intro b i s
    simp [mlfq_sweep, bind, Except.bind]
  | succ a ih =>
    intro b i s
    have hab : a + 1 + b = (a + b) + 1 := by omega
    have hidx : i + (a + 1) = i + 1 + a := by omega
    rw [hab, mlfq_sweep_succ swtch lvl (a + b) i s, mlfq_sweep_succ swtch lvl a i s, hidx]
    cases hi : s.k.ptable[i]? with
    | none =>
      simp only []
      rw [ih]
    | some p =>
      simp only []
      by_cases hel : p.state ≠ .RUNNABLE ∨ p.isStride = true ∨ p.level ≠ lvl
      · rw [if_pos hel, if_pos hel, ih]
      · rw [if_neg hel, if_neg hel]
        cases hd : mlfq_dispatch swtch lvl i p s with
        | error e => simp [bind, Except.bind]
        | ok s1 =>
          simp only [bind, Except.bind]
          have := ih b (i + 1) s1
          simp only [bind, Except.bind] at this
          rw [this]

/-- Reading the arrays at a level for which `mlfq_account` is defined. -/
theorem mlfq_account_ok {l t q l' t' : Int}
    (h : mlfq_account (l, t) = .ok (q, (l', t'))) :
    ∃ a, cindex time_quantum l = .ok q ∧ cindex time_allotment l = .ok a ∧
      (l', t') = (if t + q ≥ a then (if l = 2 then 0 else l + 1, 0) else (l, t + q)) := by
  unfold mlfq_account at h
  simp only [bind_eq_ok] at h
  obtain ⟨q0, hq, a, ha, h⟩ := h
  simp only [pure, Except.pure, Except.ok.injEq, Prod.mk.injEq] at h
  obtain ⟨rfl, h⟩ := h
  exact ⟨a, hq, ha, h.symm⟩

/-- One dispatch of slot `i` in a sweep of the task's own level, when the task
yields. -/
theorem mlfq_dispatch_yield {i : Nat} {p : proc} {s : Sweep} {q l' t' : Int}
    (hi : i < s.k.ptable.length)
    (hacc : mlfq_account (p.level, p.ticks) = .ok (q, (l', t'))) :
    mlfq_dispatch swtch_yield p.level i p s = .ok
      { k := { s.k with
               ptable := s.k.ptable.set i { p with state := .RUNNABLE, level := l', ticks := t' } }
        found := true
        log := s.log ++ [Event.mlfq_run i p.level q] } := by
  obtain ⟨a, hq, ha, hlt⟩ := mlfq_account_ok hacc
  unfold mlfq_dispatch
  simp only [hq, bind, Except.bind]
  have hy : (swtch_yield i
      { s.k with ptable := s.k.ptable.set i { p with ticks := p.ticks + q, state := .RUNNING } })
      = { s.k with
          ptable := s.k.ptable.set i { p with ticks := p.ticks + q, state := .RUNNABLE } } := by
    simp [swtch_yield, List.getElem?_set, hi]
  rw [hy]
  simp only [List.getElem?_set, hi, if_true, ha, pure, Except.pure]
  by_cases hge : p.ticks + q ≥ a
  · rw [if_pos hge] at hlt
    simp only [Prod.mk.injEq] at hlt
    simp only [ge_iff_le] at hge
    simp [hge, hlt.1, hlt.2]
  · rw [if_neg hge] at hlt
    simp only [Prod.mk.injEq] at hlt
    simp only [ge_iff_le] at hge
    simp [hge, hlt.1, hlt.2]

/-- The levels at which `time_quantum` can be read. -/
theorem cindex_quantum_level {l q : Int} (h : cindex time_quantum l = .ok q) :
    l = 0 ∨ l = 1 ∨ l = 2 := by
  unfold cindex at h
  by_cases hl : l < 0
  · rw [if_pos hl] at h; cases h
  · rw [if_neg hl] at h
    by_cases h3 : l < 3
    · omega
    · have : 3 ≤ l.toNat := by omega
      have hnone : time_quantum[l.toNat]? = none := by
        apply List.getElem?_eq_none
        simp [time_quantum]
        exact this
      rw [hnone] at h
      cases h

/-- In a `Solo` state the only task is in the table. -/
theorem Solo.lt_length {k : Kernel} {i : Nat} {p : proc} (h : Solo k i p) :
    i < k.ptable.length :=
  (List.getElem?_eq_some_iff.mp h.1).1

/-- The sweep of the level of the only runnable task dispatches it once. -/
theorem mlfq_sweep_solo {i : Nat} {p : proc} {s : Sweep} {q l' t' : Int}
    (hsolo : Solo s.k i p) (hst : p.state = .RUNNABLE) (hns : p.isStride = false)
    (hacc : mlfq_account (p.level, p.ticks) = .ok (q, (l', t'))) :
    mlfq_sweep swtch_yield p.level s.k.ptable.length 0 s = .ok
      { k := { s.k with
               ptable := s.k.ptable.set i { p with state := .RUNNABLE, level := l', ticks := t' } }
        found := true
        log := s.log ++ [Event.mlfq_run i p.level q] } := by
  have hi := hsolo.lt_length
  obtain ⟨m, hm⟩ : ∃ m, s.k.ptable.length = i + (m + 1) := ⟨s.k.ptable.length - i - 1, by omega⟩
  rw [hm, mlfq_sweep_split]
  have hpre : mlfq_sweep swtch_yield p.level i 0 s = .ok s :=
    mlfq_sweep_skip i 0 s (fun j r _ hj hr => Or.inl (hsolo.2 j r (by omega) hr))
  rw [hpre]
  simp only [bind, Except.bind, Nat.zero_add]
  rw [mlfq_sweep_succ, hsolo.1]
  simp only []
  rw [if_neg (by simp [hst, hns]), mlfq_dispatch_yield hi hacc]
  simp only [bind, Except.bind]
  apply mlfq_sweep_skip
  intro j r hj _ hr
  simp only [List.getElem?_set] at hr
  rw [if_neg (by omega)] at hr
  exact Or.inl (hsolo.2 j r (by omega) hr)

/-- A sweep of another level than that of the only runnable task does nothing. -/
theorem mlfq_sweep_solo_other {swtch : Nat → Kernel → Kernel} {i : Nat} {p : proc} {s : Sweep}
    {lvl : Int} (n : Nat) (hsolo : Solo s.k i p) (hl : p.level ≠ lvl) :
    mlfq_sweep swtch lvl n 0 s = .ok s := by
  apply mlfq_sweep_skip
  intro j r _ _ hr
  by_cases hj : j = i
  · subst hj
    rw [hsolo.1] at hr
    cases hr
    exact Or.inr (Or.inr hl)
  · exact Or.inl (hsolo.2 j r hj hr)

/-- The pass update and epoch wrap keep a `Solo` state of a non-stride task. -/
theorem mlfq_advance_solo {k : Kernel} {i : Nat} {p : proc} (hsolo : Solo k i p)
    (hns : p.isStride = false) : Solo (mlfq_advance k) i p := by
  unfold mlfq_advance
  simp only []
  split
  · constructor
    · simp [List.getElem?_map, hsolo.1, hns]
    · intro j r hj hr
      simp only [List.getElem?_map] at hr
      cases hq : k.ptable[j]? with
      | none => rw [hq] at hr; cases hr
      | some r0 =>
        rw [hq] at hr
        simp only [Option.map_some', Option.some.injEq] at hr
        have := hsolo.2 j r0 hj hq
        subst hr
        split <;> exact this
  · exact hsolo

/-- No stride task is selected in a `Solo` state of a non-stride task. -/
theorem stride_winner_solo {k : Kernel} {i : Nat} {p : proc} (hsolo : Solo k i p)
    (hns : p.isStride = false) : stride_winner k = none := by
  rw [stride_winner_none]
  intro r hr hrs hri
  obtain ⟨j, hj⟩ := List.mem_iff_getElem?.mp hr
  by_cases hji : j = i
  · subst hji
    rw [hsolo.1] at hj
    cases hj
    rw [hns] at hri
    cases hri
  · exact absurd hrs (hsolo.2 j r hji hj)

/-- One scheduler iteration in a `Solo` state of a runnable MLFQ task: the MLFQ
branch dispatches it once, and the accounting is that of `mlfq_account`. -/
theorem scheduler_solo {k : Kernel} {i : Nat} {p : proc} {q l' t' : Int}
    (hsolo : Solo k i p) (hst : p.state = .RUNNABLE) (hns : p.isStride = false)
    (hacc : mlfq_account (p.level, p.ticks) = .ok (q, (l', t'))) :
    ∃ k', scheduler swtch_yield k = .ok (k', [Event.mlfq_pass, Event.mlfq_run i p.level q]) ∧
      Solo k' i { p with state := .RUNNABLE, level := l', ticks := t' } := by
  have hk0 := mlfq_advance_solo hsolo hns
  have hi := hk0.lt_length
  have hsched : scheduler swtch_yield k = mlfq_sweeps swtch_yield (mlfq_advance k) := by
    unfold scheduler
    rw [stride_winner_solo hsolo hns]
    rfl
  have hsolo' : Solo
      { mlfq_advance k with
        ptable := (mlfq_advance k).ptable.set i
          { p with state := .RUNNABLE, level := l', ticks := t' } } i
      { p with state := .RUNNABLE, level := l', ticks := t' } := by
    constructor
    · simp [List.getElem?_set, hi]
    · intro j r hj hr
      simp only [List.getElem?_set] at hr
      rw [if_neg (Ne.symm hj)] at hr
      exact hk0.2 j r hj hr
  refine ⟨_, ?_, hsolo'⟩
  rw [hsched]
  obtain ⟨a, hq, _, _⟩ := mlfq_account_ok hacc
  have hsw := @mlfq_sweep_solo i p (Sweep.mk (mlfq_advance k) false [Event.mlfq_pass]) q l' t'
    hk0 hst hns hacc
  have hskip : ∀ lvl : Int, p.level ≠ lvl →
      mlfq_sweep swtch_yield lvl (mlfq_advance k).ptable.length 0
        (Sweep.mk (mlfq_advance k) false [Event.mlfq_pass]) =
        .ok (Sweep.mk (mlfq_advance k) false [Event.mlfq_pass]) :=
    fun lvl hl => @mlfq_sweep_solo_other swtch_yield i p
      (Sweep.mk (mlfq_advance k) false [Event.mlfq_pass]) lvl _ hk0 hl
  unfold mlfq_sweeps
  dsimp only
  rcases cindex_quantum_level hq with h0 | h1 | h2
  · rw [h0] at hsw
    simp only [hsw, sweep_unless_found, bind, Except.bind, pure, Except.pure]
    simp [h0]
  · rw [hskip 0 (by omega)]
    rw [h1] at hsw
    simp only [hsw, sweep_unless_found, bind, Except.bind, pure, Except.pure]
    simp [h1]
  · rw [hskip 0 (by omega)]
    simp only [sweep_unless_found, bind, Except.bind, pure, Except.pure, if_true]
    rw [hskip 1 (by omega)]
    rw [h2] at hsw
    simp only [hsw]
    simp [h2]

/-- Ticks charged to a slot by a log that starts with the entries of one
iteration of the MLFQ branch which ran that slot once. -/
theorem charged_ticks_iteration (i : Nat) (l q : Int) (es : List Event) :
    charged_ticks i ([Event.mlfq_pass, Event.mlfq_run i l q] ++ es) = q + charged_ticks i es := by
  simp [charged_ticks]

/-- A run of `n` iterations in a `Solo` state of a runnable MLFQ task: every
iteration dispatches the task once, and the accounting is that of
`mlfq_account_run`. -/
theorem scheduler_run_solo (i : Nat) :
    ∀ (n : Nat) (k : Kernel) (p : proc) (c l' t' : Int),
      Solo k i p → p.state = .RUNNABLE → p.isStride = false →
      mlfq_account_run n (p.level, p.ticks) = .ok (c, (l', t')) →
      ∃ r, scheduler_run swtch_yield n k = .ok r ∧
        Solo r.1 i { p with state := .RUNNABLE, level := l', ticks := t' } ∧
        charged_ticks i r.2 = c := by
  intro n
  induction n with
  | zero =>
    intro k p c l' t' hsolo hst hns hacc
    simp only [mlfq_account_run, Except.ok.injEq, Prod.mk.injEq] at hacc
    obtain ⟨rfl, rfl, rfl⟩ := hacc
    refine ⟨(k, []), rfl, ?_, rfl⟩
    have : ({ p with state := .RUNNABLE, level := p.level, ticks := p.ticks } : proc) = p := by
      cases p
      simp only at hst
      subst hst
      rfl
    rw [this]
    exact hsolo
  | succ n ih =>
    intro k p c l' t' hsolo hst hns hacc
    rw [mlfq_account_run] at hacc
    simp only [bind_eq_ok] at hacc
    obtain ⟨⟨q, l1, t1⟩, h1, ⟨c2, l2, t2⟩, h2, hret⟩ := hacc
    simp only [pure, Except.pure, Except.ok.injEq, Prod.mk.injEq] at hret
    obtain ⟨rfl, rfl, rfl⟩ := hret
    obtain ⟨k1, hk1, hsolo1⟩ := scheduler_solo hsolo hst hns h1
    obtain ⟨r2, hr2, hsolo2, hc2⟩ :=
      ih k1 { p with state := .RUNNABLE, level := l1, ticks := t1 } c2 l2 t2 hsolo1 rfl hns h2
    refine ⟨(r2.1, [Event.mlfq_pass, Event.mlfq_run i p.level q] ++ r2.2), ?_, hsolo2, ?_⟩
    · rw [scheduler_run]
      simp only [hk1, hr2, bind, Except.bind, pure, Except.pure]
    · rw [charged_ticks_iteration, hc2]

/-- The state `solo_state` is a `Solo` state of its slot 1. -/
theorem solo_state_solo :
    Solo solo_state 1
      { proc_zero with sz := 4096, pgdir := 2, kstack := 2, state := .RUNNABLE, pid := 2,
                       parent := some 0 } := by
  refine ⟨rfl, ?_⟩
  intro j q hj hq
  match j, hj, hq with
  | 0, _, hq => cases hq; decide
  | 2, _, hq => cases hq; decide
  | 3, _, hq => cases hq; decide
  | j + 4, _, hq => cases hq

/-! ## The MLFQ sweeps when every dispatched task yields -/

/-- At the levels 0, 1, 2 the accounting of a dispatch is defined. -/
theorem mlfq_account_defined {l : Int} (t : Int) (hl : l = 0 ∨ l = 1 ∨ l = 2) :
    ∃ q l' t', mlfq_account (l, t) = .ok (q, (l', t')) := by
  rcases hl with rfl | rfl | rfl
  · exact ⟨1, _, _, rfl⟩
  · exact ⟨2, _, _, rfl⟩
  · exact ⟨4, _, _, rfl⟩

/-- The frame of the sweeps holds between a state and itself. -/
theorem MlfqFrame.refl (k : Kernel) : MlfqFrame k k :=
  ⟨rfl, rfl, fun _ p hp => ⟨p, hp, fun _ => rfl, fun h => h⟩⟩

/-- The frame of the sweeps composes. -/
theorem MlfqFrame.trans {k1 k2 k3 : Kernel} (h12 : MlfqFrame k1 k2) (h23 : MlfqFrame k2 k3) :
    MlfqFrame k1 k3 := by
  obtain ⟨hm1, hl1, hs1⟩ := h12
  obtain ⟨hm2, hl2, hs2⟩ := h23
  refine ⟨hm2.trans hm1, hl2.trans hl1, ?_⟩
  intro j p hp
  obtain ⟨p2, hp2, ha, hb⟩ := hs1 j p hp
  obtain ⟨p3, hp3, hc, hd⟩ := hs2 j p2 hp2
  refine ⟨p3, hp3, ?_, ?_⟩
  · intro h
    have h2 := ha h
    subst h2
    exact hc h
  · intro h
    exact hd (hb h)

/-- A sweep of level 0, 1 or 2 in which every dispatched task yields returns;
it keeps the frame and logs only `mlfq_run` entries. -/
theorem mlfq_sweep_yield {lvl : Int} (hl : lvl = 0 ∨ lvl = 1 ∨ lvl = 2) :
    ∀ (n i : Nat) (s : Sweep),
      ∃ s', mlfq_sweep swtch_yield lvl n i s = .ok s' ∧ MlfqFrame s.k s'.k ∧
        ∃ l, s'.log = s.log ++ l ∧ OnlyMlfqRuns l := by
  intro n
  induction n with
  | zero =>
    intro i s
    exact ⟨s, rfl, MlfqFrame.refl _, [], by simp, fun e he => absurd he (List.not_mem_nil e)⟩
  | succ n ih =>
    intro i s
    rw [mlfq_sweep_succ]
    cases hi : s.k.ptable[i]? with
    | none => exact ih (i + 1) s
    | some p =>
      simp only []
      by_cases hel : p.state ≠ .RUNNABLE ∨ p.isStride = true ∨ p.level ≠ lvl
      · rw [if_pos hel]
        exact ih (i + 1) s
      · rw [if_neg hel]
        push_neg at hel
        obtain ⟨_, hns, hlv⟩ := hel
        have hns' : p.isStride = false := by
          cases h : p.isStride with
          | false => rfl
          | true => exact absurd h hns
        have hlen : i < s.k.ptable.length := (List.getElem?_eq_some_iff.mp hi).1
        subst hlv
        obtain ⟨q, l', t', hacc⟩ := mlfq_account_defined p.ticks hl
        rw [mlfq_dispatch_yield hlen hacc]
        simp only [bind, Except.bind]
        obtain ⟨s', hs', hframe, l, hlog, honly⟩ := ih (i + 1)
          { k := { s.k with
                   ptable := s.k.ptable.set i
                     { p with state := .RUNNABLE, level := l', ticks := t' } }
            found := true
            log := s.log ++ [Event.mlfq_run i p.level q] }
        refine ⟨s', hs', MlfqFrame.trans ?_ hframe, Event.mlfq_run i p.level q :: l, ?_, ?_⟩
        · refine ⟨rfl, ?_, ?_⟩
          · show (s.k.ptable.set i _).length = s.k.ptable.length
            simp only [List.length_set]
          intro j r hr
          by_cases hji : i = j
          · subst hji
            rw [hi] at hr
            cases hr
            refine ⟨{ p with state := .RUNNABLE, level := l', ticks := t' },
              by simp [List.getElem?_set, hlen], ?_, fun _ => hns'⟩
            intro h
            rw [hns'] at h
            exact absurd h (by decide)
          · exact ⟨r, by simp [List.getElem?_set, hji, hr], fun _ => rfl, fun h => h⟩
        · rw [hlog]
          simp
        · intro e he
          rcases List.mem_cons.mp he with rfl | he
          · exact ⟨_, _, _, rfl⟩
          · exact honly e he

/-- The three sweeps of the MLFQ branch, when every dispatched task yields,
return; they keep the frame, and the log is `mlfq_pass` followed by `mlfq_run`
entries. -/
theorem mlfq_sweeps_yield (k0 : Kernel) :
    ∃ r, mlfq_sweeps swtch_yield k0 = .ok r ∧ MlfqFrame k0 r.1 ∧
      ∃ l, r.2 = Event.mlfq_pass :: l ∧ OnlyMlfqRuns l := by
  obtain ⟨s0, h0, f0, l0, hl0, o0⟩ := mlfq_sweep_yield (Or.inl rfl) k0.ptable.length 0
    (Sweep.mk k0 false [Event.mlfq_pass])
  have hguard : ∀ (lvl : Int) (hl : lvl = 0 ∨ lvl = 1 ∨ lvl = 2) (s : Sweep),
      ∃ s', sweep_unless_found swtch_yield lvl k0.ptable.length s = .ok s' ∧
        MlfqFrame s.k s'.k ∧ ∃ l, s'.log = s.log ++ l ∧ OnlyMlfqRuns l := by
    intro lvl hl s
    unfold sweep_unless_found
    split
    · exact mlfq_sweep_yield hl _ _ _
    · exact ⟨s, rfl, MlfqFrame.refl _, [], by simp,
        fun e he => absurd he (List.not_mem_nil e)⟩
  obtain ⟨s1, h1, f1, l1, hl1, o1⟩ := hguard 1 (Or.inr (Or.inl rfl)) s0
  obtain ⟨s2, h2, f2, l2, hl2, o2⟩ := hguard 2 (Or.inr (Or.inr rfl)) s1
  refine ⟨(s2.k, s2.log), ?_, MlfqFrame.trans (MlfqFrame.trans f0 f1) f2, l0 ++ l1 ++ l2, ?_, ?_⟩
  · unfold mlfq_sweeps
    simp only [h0, h1, h2, bind, Except.bind, pure, Except.pure]
  · simp [hl2, hl1, hl0]
  · intro e he
    simp only [List.mem_append] at he
    rcases he with (he | he) | he
    · exact o0 e he
    · exact o1 e he
    · exact o2 e he

open Finset

/-! ## Stride fairness: bookkeeping -/

/-- A sum over a table is the sum over its slot indices. -/
theorem sum_map_eq_sum_range (g : proc → Int) (ps : List proc) :
    (ps.map g).sum =
      ∑ j in range ps.length, (match ps[j]? with | some p => g p | none => 0) := by
  induction ps with
  | nil => simp
  | cons p ps ih =>
    rw [List.map_cons, List.sum_cons, List.length_cons, sum_range_succ', ih]
    simp only [List.getElem?_cons_succ, List.getElem?_cons_zero]
    ring

/-- The sum of the stride shares, over the slot indices. -/
theorem stride_share_sum_eq (ps : List proc) :
    stride_share_sum ps = ∑ j in range ps.length, slot_share ps j := by
  unfold stride_share_sum
  rw [sum_map_eq_sum_range]
  rfl

/-- The number of stride slots, over the slot indices. -/
theorem stride_count_eq (ps : List proc) :
    stride_count ps = ∑ j in range ps.length, slot_ind ps j := by
  unfold stride_count
  rw [sum_map_eq_sum_range]
  rfl

/-- No dispatch leaves a slot as it is. -/
theorem advanced_zero (p : proc) : advanced p 0 = p := by
  cases p
  simp [advanced]

/-- Dispatches add up. -/
theorem advanced_advanced (p : proc) (a b : Nat) :
    advanced (advanced p a) b = advanced p (a + b) := by
  cases p
  simp only [advanced, Nat.cast_add, proc.mk.injEq, true_and, and_true]
  ring

/-- A stride slot after the sweeps was the same stride slot before. -/
theorem MlfqFrame.stride_mem {k k' : Kernel} (h : MlfqFrame k k') {p' : proc}
    (hp : p' ∈ k'.ptable) (hs : p'.isStride = true) : p' ∈ k.ptable := by
  obtain ⟨_, hlen, hslots⟩ := h
  obtain ⟨j, hj⟩ := List.mem_iff_getElem?.mp hp
  have hjlt : j < k.ptable.length := by
    rw [← hlen]
    exact (List.getElem?_eq_some_iff.mp hj).1
  obtain ⟨p, hpj⟩ : ∃ p, k.ptable[j]? = some p := ⟨_, List.getElem?_eq_getElem hjlt⟩
  obtain ⟨p'', hp'', hsame, hnon⟩ := hslots j p hpj
  rw [hj] at hp''
  cases hp''
  cases hps : p.isStride with
  | true =>
    rw [hsame hps]
    exact List.getElem?_mem hpj
  | false =>
    rw [(hnon hps)] at hs
    cases hs

/-- A stride slot before the sweeps is the same stride slot after. -/
theorem MlfqFrame.mem_stride {k k' : Kernel} (h : MlfqFrame k k') {p : proc}
    (hp : p ∈ k.ptable) (hs : p.isStride = true) : p ∈ k'.ptable := by
  obtain ⟨j, hj⟩ := List.mem_iff_getElem?.mp hp
  obtain ⟨p', hp', hsame, _⟩ := h.2.2 j p hj
  rw [hsame hs] at hp'
  exact List.getElem?_mem hp'

/-- The log of an MLFQ branch has no stride dispatch and one `mlfq_pass`. -/
theorem OnlyMlfqRuns.counts {l : List Event} (h : OnlyMlfqRuns l) :
    l.count Event.mlfq_pass = 0 ∧ ∀ j, stride_runs j l = 0 := by
  constructor
  · apply List.count_eq_zero_of_not_mem
    intro hmem
    obtain ⟨_, _, _, he⟩ := h _ hmem
    cases he
  · intro j
    unfold stride_runs
    apply List.count_eq_zero_of_not_mem
    intro hmem
    obtain ⟨_, _, _, he⟩ := h _ hmem
    cases he

/-- From a bound on the stride-weighted counts of two clients with exact
strides to the bound on their share-weighted counts. -/
theorem pair_share_bound {a b nx ny Sx Sy TT : Int} (ha : a * Sx = TT) (hb : b * Sy = TT)
    (hTT : 0 < TT) (hSx : 0 < Sx) (hSy : 0 < Sy) (h : a * nx - b * ny ≤ a + b) :
    nx * Sy - ny * Sx ≤ Sx + Sy := by
  have hpos : 0 ≤ Sx * Sy := le_of_lt (mul_pos hSx hSy)
  have h1 := mul_le_mul_of_nonneg_right h hpos
  have e1 : (a * nx - b * ny) * (Sx * Sy) = TT * (nx * Sy - ny * Sx) := by
    rw [← ha]
    have : b * Sy = a * Sx := by rw [ha, hb]
    linear_combination (-(ny * Sx)) * this
  have e2 : (a + b) * (Sx * Sy) = TT * (Sx + Sy) := by
    rw [← ha]
    have : b * Sy = a * Sx := by rw [ha, hb]
    linear_combination Sx * this
  rw [e1, e2] at h1
  exact le_of_mul_le_mul_left h1 hTT

open Finset

/-! ## Stride fairness: one iteration -/

/-- The stride branch when the dispatched task yields: the slot is as before
with its pass advanced by one stride. -/
theorem stride_dispatch_yield {k : Kernel} {i : Nat} {w : proc}
    (hw : k.ptable[i]? = some w) (hst : w.state = .RUNNABLE) :
    swtch_yield i (stride_dispatch k i w) = { k with ptable := k.ptable.set i (advanced w 1) } := by
  have hlen : i < k.ptable.length := (List.getElem?_eq_some_iff.mp hw).1
  cases w
  simp only at hst
  subst hst
  simp [swtch_yield, stride_dispatch, List.getElem?_set, hlen, advanced]

/-- A turn of the stride task in slot `i`, which has the least pass of all
clients of the race. -/
theorem race_stride_turn {k : Kernel} {T : Nat} {i : Nat} {w : proc}
    (h : RaceInv k (T + 1)) (hw : k.ptable[i]? = some w) (hws : w.isStride = true)
    (hle : w.pass ≤ k.mlfq.pass)
    (hmin : ∀ p ∈ k.ptable, p.isStride = true → w.pass ≤ p.pass) :
    StrideEffect 1 k { k with ptable := k.ptable.set i (advanced w 1) } [Event.stride_run i] ∧
    RaceInv { k with ptable := k.ptable.set i (advanced w 1) } T := by
  obtain ⟨hrun, hms, ⟨hlagm, hlagp⟩, hnm⟩ := h
  have hlen : i < k.ptable.length := (List.getElem?_eq_some_iff.mp hw).1
  have hwmem : w ∈ k.ptable := List.getElem?_mem hw
  have hwstr : 0 ≤ w.stride := (hrun w hwmem hws).2
  have hmem : ∀ p, p ∈ k.ptable.set i (advanced w 1) → p = advanced w 1 ∨ p ∈ k.ptable := by
    intro p hp
    rcases List.mem_or_eq_of_mem_set hp with h | h
    · exact Or.inr h
    · exact Or.inl h
  constructor
  · refine ⟨by simp, ?_, ?_, ?_, ?_⟩
    · cases hk : k.mlfq
      simp [List.count_cons]
    · intro j p hp
      by_cases hji : i = j
      · subst hji
        rw [hw] at hp
        cases hp
        refine ⟨advanced w 1, by simp [List.getElem?_set, hlen], fun _ => ?_, fun hf => ?_⟩
        · simp [stride_runs]
        · rw [hws] at hf
          cases hf
      · refine ⟨p, by simp [List.getElem?_set, hji, hp], fun _ => ?_, fun hf => ⟨hf, ?_⟩⟩
        · have : stride_runs j [Event.stride_run i] = 0 := by
            simp [stride_runs, List.count_cons, hji]
          rw [this, advanced_zero]
        · simp [stride_runs, List.count_cons, hji]
    · intro j hj
      have : i ≠ j := by omega
      simp [stride_runs, List.count_cons, this]
    · have : ∀ j, (stride_runs j [Event.stride_run i] : Int) = if i = j then 1 else 0 := by
        intro j
        by_cases hji : i = j
        · simp [stride_runs, hji]
        · simp [stride_runs, List.count_cons, hji]
      simp only [this]
      rw [sum_ite_eq (range k.ptable.length) i (fun _ => (1 : Int))]
      simp [hlen]
  · refine ⟨?_, hms, ⟨?_, ?_⟩, ?_⟩
    · intro p hp hps
      rcases hmem p hp with rfl | hp
      · exact hrun w hwmem hws
      · exact hrun p hp hps
    · intro p hp hps
      rcases hmem p hp with rfl | hp
      · have := hlagm w hwmem hws
        simp only [advanced, Nat.cast_one, mul_one]
        constructor <;> omega
      · exact hlagm p hp hps
    · intro p hp hps p' hp' hps'
      rcases hmem p hp with rfl | hp <;> rcases hmem p' hp' with rfl | hp'
      · simp only [advanced, Nat.cast_one, mul_one]
        omega
      · have := hmin p' hp' hps'
        simp only [advanced, Nat.cast_one, mul_one]
        omega
      · have := hlagp p hp hps w hwmem hws
        simp only [advanced, Nat.cast_one, mul_one]
        omega
      · exact hlagp p hp hps p' hp' hps'
    · have : (0 : Int) ≤ k.mlfq.stride := hms
      unfold NoEpochWrap at hnm ⊢
      push_cast at hnm ⊢
      nlinarith

/-- A turn of the MLFQ pseudo-task, whose pass is below that of every stride
slot, when every dispatched task yields. -/
theorem race_mlfq_turn {k : Kernel} {T : Nat} (h : RaceInv k (T + 1))
    (hgt : ∀ p ∈ k.ptable, p.isStride = true → k.mlfq.pass < p.pass) :
    ∃ r, mlfq_branch swtch_yield k = .ok r ∧ StrideEffect 1 k r.1 r.2 ∧ RaceInv r.1 T := by
  obtain ⟨hrun, hms, ⟨hlagm, hlagp⟩, hnm⟩ := h
  unfold NoEpochWrap at hnm
  have hadv : mlfq_advance k =
      { k with mlfq := { k.mlfq with pass := k.mlfq.pass + k.mlfq.stride } } := by
    unfold mlfq_advance
    simp only [ge_iff_le]
    rw [if_neg]
    push_cast at hnm
    nlinarith
  obtain ⟨r, hr, hframe, l, hlog, honly⟩ := mlfq_sweeps_yield (mlfq_advance k)
  rw [hadv] at hr hframe
  obtain ⟨hc0, hs0⟩ := honly.counts
  have hcount : r.2.count Event.mlfq_pass = 1 := by
    rw [hlog, List.count_cons_self, hc0]
  have hruns : ∀ j, stride_runs j r.2 = 0 := by
    intro j
    have := hs0 j
    unfold stride_runs at this ⊢
    rw [hlog, List.count_cons_of_ne (by simp), this]
  have hmfq : r.1.mlfq = { k.mlfq with pass := k.mlfq.pass + k.mlfq.stride } := hframe.1
  refine ⟨r, ?_, ?_, ?_⟩
  · unfold mlfq_branch
    rw [hadv]
    exact hr
  · refine ⟨hframe.2.1, ?_, ?_, fun j _ => hruns j, ?_⟩
    · rw [hmfq, hcount]
      simp
    · intro j p hp
      obtain ⟨p', hp', hsame, hnon⟩ := hframe.2.2 j p hp
      refine ⟨p', hp', fun hs => ?_, fun hs => ⟨hnon hs, hruns j⟩⟩
      rw [hruns j, advanced_zero]
      exact hsame hs
    · rw [hcount]
      simp [hruns]
  · have hback : ∀ p ∈ r.1.ptable, p.isStride = true → p ∈ k.ptable :=
      fun p hp hs => hframe.stride_mem hp hs
    refine ⟨fun p hp hs => hrun p (hback p hp hs) hs, ?_, ⟨?_, ?_⟩, ?_⟩
    · rw [hmfq]
      exact hms
    · intro p hp hs
      have h1 := hlagm p (hback p hp hs) hs
      have h2 := hgt p (hback p hp hs) hs
      rw [hmfq]
      simp only
      constructor <;> omega
    · intro p hp hs p' hp' hs'
      exact hlagp p (hback p hp hs) hs p' (hback p' hp' hs') hs'
    · unfold NoEpochWrap
      rw [hmfq]
      simp only
      push_cast at hnm ⊢
      nlinarith

/-- One scheduler iteration over a static set of stride tasks, when every
dispatched task yields and there is no epoch wrap. -/
theorem scheduler_race_step {k : Kernel} {T : Nat} (h : RaceInv k (T + 1)) :
    ∃ r, scheduler swtch_yield k = .ok r ∧ StrideEffect 1 k r.1 r.2 ∧ RaceInv r.1 T := by
  have hrun := h.1
  have hms := h.2.1
  have hnm : k.mlfq.pass + ((T + 1 : Nat) : Int) * k.mlfq.stride < 100000000 := h.2.2.2
  have hbelow : k.mlfq.pass < 987654321 := by
    push_cast at hnm
    nlinarith
  cases hwin : stride_winner k with
  | none =>
    have hnone := stride_winner_none.mp hwin
    have hgt : ∀ p ∈ k.ptable, p.isStride = true → k.mlfq.pass < p.pass := by
      intro p hp hs
      have h1 := hnone p hp (hrun p hp hs).1 hs
      omega
    obtain ⟨r, hr, heff, hinv⟩ := race_mlfq_turn h hgt
    refine ⟨r, ?_, heff, hinv⟩
    unfold scheduler
    rw [hwin]
    exact hr
  | some i =>
    obtain ⟨w, hw, hwst, hws, _, hmin⟩ := stride_winner_some hwin
    have hmin' : ∀ p ∈ k.ptable, p.isStride = true → w.pass ≤ p.pass := by
      intro p hp hs
      obtain ⟨j, hj⟩ := List.mem_iff_getElem?.mp hp
      exact (hmin j p hj (hrun p hp hs).1 hs).1
    rw [scheduler_of_winner hwin hw]
    by_cases hgtw : w.pass > k.mlfq.pass
    · rw [if_pos hgtw]
      exact race_mlfq_turn h (fun p hp hs => by have := hmin' p hp hs; omega)
    · rw [if_neg hgtw, stride_dispatch_yield hw hwst]
      obtain ⟨heff, hinv⟩ := race_stride_turn h hw hws (by omega) hmin'
      exact ⟨_, rfl, heff, hinv⟩

/-! ## One MLFQ task among others -/

/-- Ticks charged to a slot add up over a log. -/
theorem charged_ticks_append (i : Nat) (l1 l2 : List Event) :
    charged_ticks i (l1 ++ l2) = charged_ticks i l1 + charged_ticks i l2 := by
  induction l1 with
  | nil => simp [charged_ticks]
  | cons e l1 ih =>
    cases e with
    | mlfq_pass => simpa [charged_ticks] using ih
    | mlfq_run j lv q =>
      rw [List.cons_append, charged_ticks, charged_ticks, ih]
      ring
    | stride_run j => simpa [charged_ticks] using ih

/-- A sweep in which every dispatched task yields, seen from slot `i`: when the
sweep starts beyond slot `i` or is not of the level of its task, the slot is
untouched; otherwise the task is dispatched once and `found` is set. -/
theorem mlfq_sweep_track {i : Nat} {lvl : Int} (hl : lvl = 0 ∨ lvl = 1 ∨ lvl = 2) :
    ∀ (n j : Nat) (s : Sweep) (p : proc),
      s.k.ptable[i]? = some p → p.state = .RUNNABLE → p.isStride = false →
      ∃ s', mlfq_sweep swtch_yield lvl n j s = .ok s' ∧
        (s.found = true → s'.found = true) ∧
        ((s'.k.ptable[i]? = some p ∧ charged_ticks i s'.log = charged_ticks i s.log) ∨
         (j ≤ i ∧ s'.found = true ∧ ∃ q l' t',
            mlfq_account (p.level, p.ticks) = .ok (q, (l', t')) ∧
            s'.k.ptable[i]? = some { p with state := .RUNNABLE, level := l', ticks := t' } ∧
            charged_ticks i s'.log = charged_ticks i s.log + q)) := by
  intro n
  induction n with
  | zero =>
    intro j s p hp _ _
    exact ⟨s, rfl, fun h => h, Or.inl ⟨hp, rfl⟩⟩
  | succ n ih =>
    intro j s p hp hst hns
    rw [mlfq_sweep_succ]
    have hskip : ∃ s', mlfq_sweep swtch_yield lvl n (j + 1) s = .ok s' ∧
        (s.found = true → s'.found = true) ∧
        ((s'.k.ptable[i]? = some p ∧ charged_ticks i s'.log = charged_ticks i s.log) ∨
         (j ≤ i ∧ s'.found = true ∧ ∃ q l' t',
            mlfq_account (p.level, p.ticks) = .ok (q, (l', t')) ∧
            s'.k.ptable[i]? = some { p with state := .RUNNABLE, level := l', ticks := t' } ∧
            charged_ticks i s'.log = charged_ticks i s.log + q)) := by
      obtain ⟨s', hs', hf, hcase⟩ := ih (j + 1) s p hp hst hns
      refine ⟨s', hs', hf, ?_⟩
      rcases hcase with h | ⟨hj, h⟩
      · exact Or.inl h
      · exact Or.inr ⟨by omega, h⟩
    cases hj : s.k.ptable[j]? with
    | none => exact hskip
    | some r =>
      simp only []
      by_cases hel : r.state ≠ .RUNNABLE ∨ r.isStride = true ∨ r.level ≠ lvl
      · rw [if_pos hel]
        exact hskip
      · rw [if_neg hel]
        push_neg at hel
        obtain ⟨_, _, hlv⟩ := hel
        have hlen : j < s.k.ptable.length := (List.getElem?_eq_some_iff.mp hj).1
        subst hlv
        obtain ⟨q, l', t', hacc⟩ := mlfq_account_defined r.ticks hl
        rw [mlfq_dispatch_yield hlen hacc]
        simp only [bind, Except.bind]
        by_cases hji : j = i
        · subst hji
          rw [hp] at hj
          cases hj
          obtain ⟨s', hs', hf, hcase⟩ := ih (j + 1)
            (Sweep.mk
              { s.k with
                ptable := s.k.ptable.set j { p with state := .RUNNABLE, level := l', ticks := t' } }
              true (s.log ++ [Event.mlfq_run j p.level q]))
            { p with state := .RUNNABLE, level := l', ticks := t' }
            (by simp [List.getElem?_set, hlen]) rfl hns
          refine ⟨s', hs', fun _ => hf rfl, Or.inr ⟨le_refl _, hf rfl, q, l', t', hacc, ?_⟩⟩
          rcases hcase with ⟨h1, h2⟩ | ⟨hlt, _⟩
          · refine ⟨h1, ?_⟩
            rw [h2, charged_ticks_append]
            simp [charged_ticks]
          · omega
        · obtain ⟨s', hs', hf, hcase⟩ := ih (j + 1)
            (Sweep.mk
              { s.k with
                ptable := s.k.ptable.set j { r with state := .RUNNABLE, level := l', ticks := t' } }
              true (s.log ++ [Event.mlfq_run j r.level q]))
            p (by simp [List.getElem?_set, hji, hp]) hst hns
          have hch : charged_ticks i (s.log ++ [Event.mlfq_run j r.level q]) =
              charged_ticks i s.log := by
            rw [charged_ticks_append]
            simp [charged_ticks, hji]
          refine ⟨s', hs', fun _ => hf rfl, ?_⟩
          rcases hcase with ⟨h1, h2⟩ | ⟨hlt, hfd, q2, l2, t2, ha2, hp2, hc2⟩
          · exact Or.inl ⟨h1, by rw [h2]; exact hch⟩
          · exact Or.inr ⟨by omega, hfd, q2, l2, t2, ha2, hp2, by rw [hc2]; simp only at hch ⊢; rw [hch]⟩

/-- The three sweeps in which every dispatched task yields, seen from slot `i`,
which holds a runnable MLFQ task: the task is dispatched at most once. -/
theorem mlfq_sweeps_track {i : Nat} {p : proc} {k0 : Kernel}
    (hp : k0.ptable[i]? = some p) (hst : p.state = .RUNNABLE) (hns : p.isStride = false) :
    ∃ r, mlfq_sweeps swtch_yield k0 = .ok r ∧ Tracked i p r.1 (charged_ticks i r.2) := by
  -- a guarded sweep, from a state in which the task has not been dispatched yet
  have hguard : ∀ (lvl : Int) (_ : lvl = 0 ∨ lvl = 1 ∨ lvl = 2) (s : Sweep),
      s.k.ptable[i]? = some p → charged_ticks i s.log = 0 →
      ∃ s', sweep_unless_found swtch_yield lvl k0.ptable.length s = .ok s' ∧
        ((s'.k.ptable[i]? = some p ∧ charged_ticks i s'.log = 0) ∨
         (s'.found = true ∧ ∃ q l' t',
            mlfq_account (p.level, p.ticks) = .ok (q, (l', t')) ∧
            s'.k.ptable[i]? = some { p with state := .RUNNABLE, level := l', ticks := t' } ∧
            charged_ticks i s'.log = q)) := by
    intro lvl hl s hs hc
    unfold sweep_unless_found
    split
    · obtain ⟨s', hs', _, hcase⟩ := mlfq_sweep_track hl k0.ptable.length 0 s p hs hst hns
      refine ⟨s', hs', ?_⟩
      rcases hcase with ⟨h1, h2⟩ | ⟨_, hf, q, l', t', ha, h1, h2⟩
      · exact Or.inl ⟨h1, by rw [h2, hc]⟩
      · exact Or.inr ⟨hf, q, l', t', ha, h1, by rw [h2, hc]; ring⟩
    · exact ⟨s, rfl, Or.inl ⟨hs, hc⟩⟩
  -- a guarded sweep, once the task has been dispatched
  have hdone : ∀ (lvl : Int) (s : Sweep), s.found = true →
      sweep_unless_found swtch_yield lvl k0.ptable.length s = .ok s := by
    intro lvl s hf
    unfold sweep_unless_found
    rw [if_neg (by simp [hf])]
  obtain ⟨s0, h0, _, hcase0⟩ := mlfq_sweep_track (Or.inl rfl) k0.ptable.length 0
    (Sweep.mk k0 false [Event.mlfq_pass]) p hp hst hns
  unfold mlfq_sweeps
  simp only [h0, bind, Except.bind, pure, Except.pure]
  rcases hcase0 with ⟨h1, h2⟩ | ⟨_, hf, q, l', t', ha, h1, h2⟩
  · have hc0 : charged_ticks i s0.log = 0 := by rw [h2]; rfl
    obtain ⟨s1, hs1, hcase1⟩ := hguard 1 (Or.inr (Or.inl rfl)) s0 h1 hc0
    simp only [hs1]
    rcases hcase1 with ⟨h1', h2'⟩ | ⟨hf', q, l', t', ha, h1', h2'⟩
    · obtain ⟨s2, hs2, hcase2⟩ := hguard 2 (Or.inr (Or.inr rfl)) s1 h1' h2'
      simp only [hs2]
      refine ⟨_, rfl, ?_⟩
      rcases hcase2 with ⟨h1'', h2''⟩ | ⟨_, q, l', t', ha, h1'', h2''⟩
      · exact Or.inl ⟨h1'', h2''⟩
      · exact Or.inr ⟨q, l', t', ha, h1'', h2''⟩
    · simp only [hdone 2 s1 hf']
      exact ⟨_, rfl, Or.inr ⟨q, l', t', ha, h1', h2'⟩⟩
  · simp only [hdone 1 s0 hf, hdone 2 s0 hf]
    refine ⟨_, rfl, Or.inr ⟨q, l', t', ha, h1, ?_⟩⟩
    rw [h2]
    simp [charged_ticks]

/-- The pass update and epoch wrap leave a slot that is no stride slot as it
is. -/
theorem mlfq_advance_slot {k : Kernel} {i : Nat} {p : proc} (hp : k.ptable[i]? = some p)
    (hns : p.isStride = false) : (mlfq_advance k).ptable[i]? = some p := by
  unfold mlfq_advance
  simp only []
  split
  · simp [List.getElem?_map, hp, hns]
  · exact hp

/-- One scheduler iteration in which every dispatched task yields, seen from
slot `i`, which holds a runnable MLFQ task: the task is dispatched at most
once. -/
theorem scheduler_track {i : Nat} {p : proc} {k : Kernel}
    (hp : k.ptable[i]? = some p) (hst : p.state = .RUNNABLE) (hns : p.isStride = false) :
    ∃ r, scheduler swtch_yield k = .ok r ∧ Tracked i p r.1 (charged_ticks i r.2) := by
  have hmlfq : ∃ r, mlfq_branch swtch_yield k = .ok r ∧ Tracked i p r.1 (charged_ticks i r.2) :=
    mlfq_sweeps_track (mlfq_advance_slot hp hns) hst hns
  cases hwin : stride_winner k with
  | none =>
    unfold scheduler
    rw [hwin]
    exact hmlfq
  | some j =>
    obtain ⟨w, hw, hwst, hws, _, _⟩ := stride_winner_some hwin
    rw [scheduler_of_winner hwin hw]
    by_cases hgt : w.pass > k.mlfq.pass
    · rw [if_pos hgt]
      exact hmlfq
    · rw [if_neg hgt, stride_dispatch_yield hw hwst]
      refine ⟨_, rfl, Or.inl ⟨?_, by simp [charged_ticks]⟩⟩
      have hji : j ≠ i := by
        rintro rfl
        rw [hp] at hw
        cases hw
        rw [hns] at hws
        cases hws
      simp [List.getElem?_set, hji, hp]

/-- A run of `n` iterations in which every dispatched task yields, seen from
slot `i`, which holds a runnable MLFQ task: the task was dispatched some
`m <= n` times, with the accounting of `mlfq_account_run`. -/
theorem scheduler_run_track (i : Nat) :
    ∀ (n : Nat) (k : Kernel) (p : proc),
      k.ptable[i]? = some p → p.state = .RUNNABLE → p.isStride = false →
      ∃ r, scheduler_run swtch_yield n k = .ok r ∧
        ∃ m c l' t', m ≤ n ∧ mlfq_account_run m (p.level, p.ticks) = .ok (c, (l', t')) ∧
          r.1.ptable[i]? = some { p with state := .RUNNABLE, level := l', ticks := t' } ∧
          charged_ticks i r.2 = c := by
  intro n
  induction n with
  | zero =>
    intro k p hp hst hns
    refine ⟨(k, []), rfl, 0, 0, p.level, p.ticks, le_refl _, rfl, ?_, rfl⟩
    have : ({ p with state := .RUNNABLE, level := p.level, ticks := p.ticks } : proc) = p := by
      cases p
      simp only at hst
      subst hst
      rfl
    rw [this]
    exact hp
  | succ n ih =>
    intro k p hp hst hns
    obtain ⟨r1, hr1, htr⟩ := scheduler_track hp hst hns
    rcases htr with ⟨hp1, hc1⟩ | ⟨q, l1, t1, hacc, hp1, hc1⟩
    · obtain ⟨r2, hr2, m, c, l', t', hm, hrun, hp2, hc2⟩ := ih r1.1 p hp1 hst hns
      refine ⟨(r2.1, r1.2 ++ r2.2), ?_, m, c, l', t', by omega, hrun, hp2, ?_⟩
      · rw [scheduler_run]
        simp only [hr1, hr2, bind, Except.bind, pure, Except.pure]
      · rw [charged_ticks_append, hc1, hc2]
        ring
    · obtain ⟨r2, hr2, m, c, l', t', hm, hrun, hp2, hc2⟩ :=
        ih r1.1 { p with state := .RUNNABLE, level := l1, ticks := t1 } hp1 rfl hns
      refine ⟨(r2.1, r1.2 ++ r2.2), ?_, m + 1, q + c, l', t', by omega, ?_, hp2, ?_⟩
      · rw [scheduler_run]
        simp only [hr1, hr2, bind, Except.bind, pure, Except.pure]
      · rw [mlfq_account_run]
        simp only [hacc, bind, Except.bind, pure, Except.pure]
        simp only at hrun
        rw [hrun]
      · rw [charged_ticks_append, hc1, hc2]

/-- Every dispatch charges at least one tick. -/
theorem mlfq_account_run_ge : ∀ (m : Nat) (lt : Int × Int) (c : Int) (r : Int × Int),
    mlfq_account_run m lt = .ok (c, r) → (m : Int) ≤ c := by
  intro m
  induction m with
  | zero =>
    intro lt c r h
    simp only [mlfq_account_run, Except.ok.injEq, Prod.mk.injEq] at h
    omega
  | succ m ih =>
    intro lt c r h
    rw [mlfq_account_run] at h
    simp only [bind_eq_ok] at h
    obtain ⟨⟨q, lt1⟩, h1, ⟨c2, r2⟩, h2, hret⟩ := h
    simp only [pure, Except.pure, Except.ok.injEq, Prod.mk.injEq] at hret
    have hc2 := ih lt1 c2 r2 h2
    obtain ⟨a, hq, _, _⟩ := @mlfq_account_ok lt.1 lt.2 q lt1.1 lt1.2 h1
    have hq1 : 1 ≤ q := by
      rcases cindex_quantum_level hq with h0 | h0 | h0 <;> rw [h0] at hq <;> cases hq <;> decide
    push_cast
    omega

/-- The accounting from (level 0, ticks 0) agrees with `LevelAtTicks` for the
first 115 dispatches. -/
theorem level_at_ticks_checked : ∀ m, m ≤ 115 → level_at_ticks_after m = true := by
  decide!

/-- At every point of the accounting from (level 0, ticks 0), the level is the
one that goes with the ticks charged so far. -/
theorem level_at_ticks {m : Nat} {c l t : Int}
    (h : mlfq_account_run m (0, 0) = .ok (c, (l, t))) : LevelAtTicks c l := by
  have hge := mlfq_account_run_ge m (0, 0) c (l, t) h
  by_cases hm : m ≤ 115
  · have hchk := level_at_ticks_checked m hm
    unfold level_at_ticks_after at hchk
    rw [h] at hchk
    unfold LevelAtTicks
    exact of_decide_eq_true hchk
  · refine ⟨fun h5 => ?_, fun h15 => ?_, fun hlt => ?_, fun h115 => ?_⟩ <;> omega

/-- C8: a non-stride task in slot `i` is RUNNABLE at level 0 with ticks 0, and
every dispatched task yields (so the task is Runnable at every dispatch).
Counting the quantum charged at each of its dispatches as its ticks, at every
point of every run its level is 1 when 5 ticks are charged, 2 when 15 ticks are
charged and never 2 while fewer than 15 are, and 0 again when 115 ticks are
charged.  When no other slot is RUNNABLE each iteration dispatches the task,
and these points are reached after 5, 10 and 35 iterations. -/
theorem mlfq_demotion_and_boost (k : Kernel) (i : Nat) (p : proc)
    (hp : k.ptable[i]? = some p) (hst : p.state = .RUNNABLE) (hns : p.isStride = false)
    (hl : p.level = 0) (ht : p.ticks = 0) :
    (∀ n, ∃ r q, scheduler_run swtch_yield n k = .ok r ∧ r.1.ptable[i]? = some q ∧
      LevelAtTicks (charged_ticks i r.2) q.level) ∧
    ((∀ j q, j ≠ i → k.ptable[j]? = some q → q.state ≠ .RUNNABLE) →
      (∃ r q, scheduler_run swtch_yield 5 k = .ok r ∧ r.1.ptable[i]? = some q ∧
        charged_ticks i r.2 = 5 ∧ q.level = 1) ∧
      (∃ r q, scheduler_run swtch_yield 10 k = .ok r ∧ r.1.ptable[i]? = some q ∧
        charged_ticks i r.2 = 15 ∧ q.level = 2) ∧
      (∃ r q, scheduler_run swtch_yield 35 k = .ok r ∧ r.1.ptable[i]? = some q ∧
        charged_ticks i r.2 = 115 ∧ q.level = 0)) := by
  constructor
  · intro n
    obtain ⟨r, hr, m, c, l', t', _, hrun, hq, hc⟩ := scheduler_run_track i n k p hp hst hns
    rw [hl, ht] at hrun
    refine ⟨r, _, hr, hq, ?_⟩
    rw [hc]
    exact level_at_ticks hrun
  · intro hothers
    have key : ∀ (n : Nat) (c l' t' : Int), mlfq_account_run n (0, 0) = .ok (c, (l', t')) →
        ∃ r q, scheduler_run swtch_yield n k = .ok r ∧ r.1.ptable[i]? = some q ∧
          charged_ticks i r.2 = c ∧ q.level = l' := by
      intro n c l' t' hacc
      have hacc' : mlfq_account_run n (p.level, p.ticks) = .ok (c, (l', t')) := by
        rw [hl, ht]; exact hacc
      obtain ⟨r, hr, hs, hc⟩ := scheduler_run_solo i n k p c l' t' ⟨hp, hothers⟩ hst hns hacc'
      exact ⟨r, _, hr, hs.1, hc, rfl⟩
    exact ⟨key 5 5 1 0 rfl, key 10 15 2 0 rfl, key 35 115 0 0 rfl⟩

/-- C8, at a concrete input: the CPU-bound process of `solo_state`. -/
theorem mlfq_demotion_and_boost_witness :
    (∀ n, ∃ r q, scheduler_run swtch_yield n solo_state = .ok r ∧ r.1.ptable[1]? = some q ∧
      LevelAtTicks (charged_ticks 1 r.2) q.level) ∧
    (∃ r q, scheduler_run swtch_yield 5 solo_state = .ok r ∧ r.1.ptable[1]? = some q ∧
      charged_ticks 1 r.2 = 5 ∧ q.level = 1) ∧
    (∃ r q, scheduler_run swtch_yield 10 solo_state = .ok r ∧ r.1.ptable[1]? = some q ∧
      charged_ticks 1 r.2 = 15 ∧ q.level = 2) ∧
    (∃ r q, scheduler_run swtch_yield 35 solo_state = .ok r ∧ r.1.ptable[1]? = some q ∧
      charged_ticks 1 r.2 = 115 ∧ q.level = 0) :=
  have h := mlfq_demotion_and_boost solo_state 1 _ rfl rfl rfl rfl rfl
  ⟨h.1, h.2 solo_state_solo.2⟩

open Finset

/-! ## Stride fairness: a window of iterations -/

/-- The counting argument behind stride fairness, on plain numbers.  Slots are
`0 .. N-1`; `ind y` is 1 for a stride slot and 0 otherwise, `S y` its share and
`n y` its number of dispatches (both 0 for a slot that is no stride task);
`Sm`, `nm` are share and number of turns of the MLFQ pseudo-task.  If the
counts of any two clients, weighted by the other's share, differ by at most the
two shares, the count of a stride slot `x` is within `K` of `S x * T / 100`. -/
theorem fair_of_pairwise (N : Nat) (ind S n : Nat → Int) (Sm nm T : Int) (x : Nat)
    (hx : x < N) (hindx : ind x = 1) (hind : ∀ y, y < N → 0 ≤ ind y)
    (hS : ∀ y, y < N → 0 ≤ S y) (hSm : 0 < Sm)
    (hpair : ∀ y, y < N → y ≠ x →
      n x * S y - n y * S x ≤ ind y * S x + S y ∧ n y * S x - n x * S y ≤ ind y * S x + S y)
    (hm : n x * Sm - nm * S x ≤ S x + Sm ∧ nm * S x - n x * Sm ≤ S x + Sm)
    (htot : Sm + ∑ y in range N, S y = 100)
    (hT : nm + ∑ y in range N, n y = T) :
    S x * T - 100 * (∑ y in range N, ind y) ≤ 100 * n x ∧
    100 * n x ≤ S x * T + 100 * (∑ y in range N, ind y) := by
  have hxm : x ∈ range N := mem_range.mpr hx
  have eS := add_sum_erase (range N) S hxm
  have en := add_sum_erase (range N) n hxm
  have ei := add_sum_erase (range N) ind hxm
  have hi0 : 0 ≤ ∑ y in (range N).erase x, ind y :=
    sum_nonneg (fun y hy => hind y (mem_range.mp (mem_of_mem_erase hy)))
  have hS0 : 0 ≤ ∑ y in (range N).erase x, S y :=
    sum_nonneg (fun y hy => hS y (mem_range.mp (mem_of_mem_erase hy)))
  have h1 : ∑ y in (range N).erase x, (n x * S y - n y * S x) ≤
      ∑ y in (range N).erase x, (ind y * S x + S y) :=
    sum_le_sum (fun y hy =>
      (hpair y (mem_range.mp (mem_of_mem_erase hy)) (ne_of_mem_erase hy)).1)
  have h2 : ∑ y in (range N).erase x, (n y * S x - n x * S y) ≤
      ∑ y in (range N).erase x, (ind y * S x + S y) :=
    sum_le_sum (fun y hy =>
      (hpair y (mem_range.mp (mem_of_mem_erase hy)) (ne_of_mem_erase hy)).2)
  simp only [sum_sub_distrib, sum_add_distrib, ← mul_sum, ← sum_mul] at h1 h2
  have hSx : 0 ≤ S x := hS x hx
  have hSx100 : S x ≤ 100 := by linarith
  have hprod : (∑ y in (range N).erase x, ind y) * S x ≤
      (∑ y in (range N).erase x, ind y) * 100 :=
    mul_le_mul_of_nonneg_left hSx100 hi0
  generalize (∑ y in (range N).erase x, S y) = ES at *
  generalize (∑ y in (range N).erase x, n y) = EN at *
  generalize (∑ y in (range N).erase x, ind y) = EI at *
  have hES : ES = 100 - Sm - S x := by linarith
  have hEN : EN = T - nm - n x := by linarith
  rw [← ei, hindx]
  subst hES hEN
  obtain ⟨hm1, hm2⟩ := hm
  constructor
  · nlinarith
  · nlinarith

/-- No iteration has no effect. -/
theorem StrideEffect.zero (k : Kernel) : StrideEffect 0 k k [] := by
  refine ⟨rfl, ?_, ?_, fun _ _ => rfl, ?_⟩
  · cases k.mlfq
    simp
  · intro j p hp
    exact ⟨p, hp, fun _ => by simp [stride_runs, advanced_zero], fun h => ⟨h, rfl⟩⟩
  · simp [stride_runs]

/-- The effects of consecutive iterations add up. -/
theorem StrideEffect.append {a b : Nat} {k k1 k2 : Kernel} {l1 l2 : List Event}
    (h1 : StrideEffect a k k1 l1) (h2 : StrideEffect b k1 k2 l2) :
    StrideEffect (a + b) k k2 (l1 ++ l2) := by
  obtain ⟨hl1, hm1, hs1, ho1, hc1⟩ := h1
  obtain ⟨hl2, hm2, hs2, ho2, hc2⟩ := h2
  have hruns : ∀ j, stride_runs j (l1 ++ l2) = stride_runs j l1 + stride_runs j l2 := by
    intro j
    simp [stride_runs, List.count_append]
  refine ⟨hl2.trans hl1, ?_, ?_, ?_, ?_⟩
  · rw [hm2, hm1]
    cases k.mlfq
    simp only [List.count_append, Nat.cast_add, proc.mk.injEq, true_and, and_true]
    ring
  · intro j p hp
    obtain ⟨p1, hp1, hstr1, hnon1⟩ := hs1 j p hp
    obtain ⟨p2, hp2, hstr2, hnon2⟩ := hs2 j p1 hp1
    refine ⟨p2, hp2, fun hs => ?_, fun hs => ?_⟩
    · have e1 := hstr1 hs
      have hs1' : p1.isStride = true := by rw [e1]; exact hs
      rw [hstr2 hs1', e1, advanced_advanced, hruns]
    · obtain ⟨hn1, hr1⟩ := hnon1 hs
      obtain ⟨hn2, hr2⟩ := hnon2 hn1
      exact ⟨hn2, by rw [hruns, hr1, hr2]⟩
  · intro j hj
    rw [hruns, ho1 j hj, ho2 j (by rw [hl1]; exact hj)]
  · rw [hl1] at hc2
    simp only [hruns, List.count_append, Nat.cast_add, sum_add_distrib]
    linarith

/-- A window of `T` iterations over a static set of stride tasks, when every
dispatched task yields and there is no epoch wrap: the run returns,
with the effect of `T` turns, and the passes are again within one stride of
each other. -/
theorem scheduler_run_race : ∀ (T : Nat) (k : Kernel), RaceInv k T →
    ∃ r, scheduler_run swtch_yield T k = .ok r ∧ StrideEffect T k r.1 r.2 ∧ Lag r.1 := by
  intro T
  induction T with
  | zero =>
    intro k h
    exact ⟨(k, []), rfl, StrideEffect.zero k, h.2.2.1⟩
  | succ T ih =>
    intro k h
    obtain ⟨r1, hr1, he1, hi1⟩ := scheduler_race_step h
    obtain ⟨r2, hr2, he2, hlag⟩ := ih r1.1 hi1
    refine ⟨(r2.1, r1.2 ++ r2.2), ?_, ?_, hlag⟩
    · rw [scheduler_run]
      simp only [hr1, hr2, bind, Except.bind, pure, Except.pure]
    · have := StrideEffect.append he1 he2
      rw [Nat.add_comm] at this
      exact this

open Finset

/-- In `truncated_state` a window of 626 iterations returns and dispatches the
stride task at most 168 times: at the end its pass `370 * n` is within one
stride of the pass `136 * (626 - n)` of `mlfq`. -/
theorem truncated_window :
    ∃ r, scheduler_run swtch_yield 626 truncated_state = .ok r ∧ stride_runs 1 r.2 ≤ 168 := by
  have hinv : RaceInv truncated_state 626 := by
    unfold RaceInv Lag NoEpochWrap
    decide
  obtain ⟨r, hr, ⟨_, hmlfq, heff, _, hturns⟩, hlag'⟩ :=
    scheduler_run_race 626 truncated_state hinv
  refine ⟨r, hr, ?_⟩
  obtain ⟨p1, hp1, hadv1, _⟩ :=
    heff 1 _ (show truncated_state.ptable[1]? = some _ from rfl)
  have e1 := hadv1 rfl
  obtain ⟨_, _, _, h0⟩ := heff 0 _ (show truncated_state.ptable[0]? = some _ from rfl)
  obtain ⟨_, _, _, h2⟩ := heff 2 _ (show truncated_state.ptable[2]? = some _ from rfl)
  obtain ⟨_, _, _, h3⟩ := heff 3 _ (show truncated_state.ptable[3]? = some _ from rfl)
  have z0 := (h0 rfl).2
  have z2 := (h2 rfl).2
  have z3 := (h3 rfl).2
  have hl := (hlag'.1 p1 (List.getElem?_mem hp1) (by rw [e1]; rfl)).1
  rw [e1, hmlfq] at hl
  have hlen4 : truncated_state.ptable.length = 4 := rfl
  rw [hlen4] at hturns
  simp only [Finset.sum_range_succ, Finset.sum_range_zero, z0, z2, z3] at hturns
  have hl' : (370 : Int) * (stride_runs 1 r.2 : Int) - 370 ≤
      136 * (r.2.count Event.mlfq_pass : Int) := by
    simpa [advanced, truncated_state, wrap_state, store, proc_zero, mlfq_boot] using hl
  push_cast at hturns
  omega

/-- C9 (counterexample): four static sets of one always-Runnable stride task,
with `TOTALTICKET` 10000 and tasks that run for one tick and yield.
(1) `wrap_state` (share 80, exact strides, passes within one stride): the
window of 3 iterations (3 ticks) contains the epoch wrap and dispatches the
stride task once, while (80 / 100) * 3 - 1 = 1.4.
(2) `shared_turn_state` (share 80, exact strides, equal passes, two runnable
MLFQ tasks): a window of 11 iterations lasts 13 ticks, as each MLFQ turn
dispatches both MLFQ tasks; the stride task is dispatched 9 times, within
(80 / 100) * 11 ± 1 but below (80 / 100) * 13 - 1 = 9.4.
(3) `truncated_state` (share 27, strides 10000 / 27 = 370 and 10000 / 73 = 136,
equal passes): in a window of 626 iterations the stride task is dispatched at
most 168 times, while (27 / 100) * 626 - 1 = 168.02.
(4) `lagging_state` (share 20, exact strides, the stride task 5000 behind): the
window of 10 iterations (10 ticks) dispatches the stride task 10 times, while
(20 / 100) * 10 + 1 = 3. -/
theorem stride_fairness_fails :
    (StaticStride 10000 wrap_state ∧ Lag wrap_state ∧ ¬ NoEpochWrap wrap_state 3 ∧
      ∃ r, scheduler_run swtch_yield 3 wrap_state = .ok r ∧
        r.2 = [Event.mlfq_pass, Event.mlfq_run 2 0 1, Event.stride_run 1,
               Event.mlfq_pass, Event.mlfq_run 2 0 1] ∧
        dispatches r.2 = 3 ∧ stride_runs 1 r.2 = 1 ∧
        ¬ FairCount 80 3 (stride_count wrap_state.ptable) (stride_runs 1 r.2)) ∧
    (StaticStride 10000 shared_turn_state ∧ Lag shared_turn_state ∧
      NoEpochWrap shared_turn_state 11 ∧
      set_cpu_share 10000 (boot_state 10000) 1 80 = .ok (80, shared_turn_state) ∧
      ∃ r, scheduler_run swtch_yield 11 shared_turn_state = .ok r ∧
        dispatches r.2 = 13 ∧ stride_runs 1 r.2 = 9 ∧
        FairCount 80 11 (stride_count shared_turn_state.ptable) (stride_runs 1 r.2) ∧
        ¬ FairCount 80 13 (stride_count shared_turn_state.ptable) (stride_runs 1 r.2)) ∧
    ((∀ p ∈ truncated_state.ptable, p.isStride = true →
        p.state = .RUNNABLE ∧ 0 < p.share ∧ p.stride = Int.tdiv 10000 p.share) ∧
      truncated_state.mlfq.stride = Int.tdiv 10000 truncated_state.mlfq.share ∧
      truncated_state.mlfq.share + stride_share_sum truncated_state.ptable = 100 ∧
      ¬ StaticStride 10000 truncated_state ∧
      Lag truncated_state ∧ NoEpochWrap truncated_state 626 ∧
      ∃ r, scheduler_run swtch_yield 626 truncated_state = .ok r ∧
        stride_runs 1 r.2 ≤ 168 ∧
        ¬ FairCount 27 626 (stride_count truncated_state.ptable) (stride_runs 1 r.2)) ∧
    (StaticStride 10000 lagging_state ∧ ¬ Lag lagging_state ∧ NoEpochWrap lagging_state 10 ∧
      ∃ r, scheduler_run swtch_yield 10 lagging_state = .ok r ∧
        dispatches r.2 = 10 ∧ stride_runs 1 r.2 = 10 ∧
        ¬ FairCount 20 10 (stride_count lagging_state.ptable) (stride_runs 1 r.2)) := by
  refine ⟨?_, ?_, ?_, ?_⟩
  · refine ⟨by unfold StaticStride; decide, by unfold Lag; decide,
      by unfold NoEpochWrap; decide, _, rfl, rfl, rfl, rfl, ?_⟩
    unfold FairCount
    decide
  · refine ⟨by unfold StaticStride; decide, by unfold Lag; decide,
      by unfold NoEpochWrap; decide, rfl, _, rfl, rfl, rfl, ?_, ?_⟩
    · unfold FairCount
      decide
    · unfold FairCount
      decide
  · obtain ⟨r, hr, hle⟩ := truncated_window
    refine ⟨by decide, rfl, by decide, by unfold StaticStride; decide, by unfold Lag; decide,
      by unfold NoEpochWrap; decide, r, hr, hle, ?_⟩
    have hc : stride_count truncated_state.ptable = 1 := by decide
    rw [hc]
    unfold FairCount
    omega
  · refine ⟨by unfold StaticStride; decide, by unfold Lag; decide,
      by unfold NoEpochWrap; decide, _, rfl, rfl, rfl, ?_⟩
    unfold FairCount
    decide

/-- C9 (amended): for a static set of always-Runnable stride tasks whose
strides are exact (`stride * share = TOTALTICKET` for every stride task and for
MLFQ, which holds 100 minus the sum of their shares), in a state whose passes
are within one stride of each other, and for every window of `T` scheduler
iterations (an iteration dispatches one stride task or makes one MLFQ turn)
that contains no epoch wrap (`mlfq.pass + T * mlfq.stride < 100000000`), the
run returns and the number of times stride task `i` is dispatched lies between
(s_i / 100) * T - k and (s_i / 100) * T + k, where `k` is the number of stride
tasks. -/
theorem stride_fairness (TT : Int) (k : Kernel) (T : Nat)
    (hstatic : StaticStride TT k) (hlag : Lag k) (hns : NoEpochWrap k T) :
    ∃ r, scheduler_run swtch_yield T k = .ok r ∧
      ∀ (i : Nat) (p : proc), k.ptable[i]? = some p → p.isStride = true →
        FairCount p.share T (stride_count k.ptable) (stride_runs i r.2) := by
  obtain ⟨hTT, hslots, hSm, hAm, htotal⟩ := hstatic
  have hpos : ∀ {a S : Int}, 0 < S → a * S = TT → 0 < a := by
    intro a S hS ha
    by_contra hcon
    have : a * S ≤ 0 := mul_nonpos_of_nonpos_of_nonneg (by omega) (le_of_lt hS)
    omega
  have hinv : RaceInv k T :=
    ⟨fun p hp hs => ⟨(hslots p hp hs).1,
        le_of_lt (hpos (hslots p hp hs).2.1 (hslots p hp hs).2.2)⟩,
      le_of_lt (hpos hSm hAm), hlag, hns⟩
  obtain ⟨r, hr, ⟨hlen, hmlfq, heff, _, hturns⟩, hlag'⟩ := scheduler_run_race T k hinv
  refine ⟨r, hr, ?_⟩
  intro i p hp hs
  have hi : i < k.ptable.length := (List.getElem?_eq_some_iff.mp hp).1
  have hpm : p ∈ k.ptable := List.getElem?_mem hp
  obtain ⟨p', hp', hadv, _⟩ := heff i p hp
  have hp'e := hadv hs
  subst hp'e
  have hp'm : advanced p (stride_runs i r.2) ∈ r.1.ptable := List.getElem?_mem hp'
  obtain ⟨_, hSp, hAp⟩ := hslots p hpm hs
  have hfair := fair_of_pairwise k.ptable.length (slot_ind k.ptable) (slot_share k.ptable)
    (fun j => (stride_runs j r.2 : Int)) k.mlfq.share (r.2.count Event.mlfq_pass : Int) T i hi
    (by simp [slot_ind, hp, hs]) ?_ ?_ hSm ?_ ?_ ?_ hturns
  · have hshare : slot_share k.ptable i = p.share := by simp [slot_share, hp, hs]
    rw [hshare, ← stride_count_eq] at hfair
    exact hfair
  · intro y _
    unfold slot_ind
    split
    · split_ifs <;> decide
    · decide
  · intro y _
    unfold slot_share
    split
    · rename_i q hq
      split_ifs with hqs
      · exact le_of_lt (hslots q (List.getElem?_mem hq) hqs).2.1
      · exact le_refl _
    · exact le_refl _
  · intro y hy hyx
    obtain ⟨q, hq⟩ : ∃ q, k.ptable[y]? = some q := ⟨_, List.getElem?_eq_getElem hy⟩
    have hqm : q ∈ k.ptable := List.getElem?_mem hq
    obtain ⟨q', hq', hqadv, hqnon⟩ := heff y q hq
    cases hqs : q.isStride with
    | false =>
      obtain ⟨_, hz⟩ := hqnon hqs
      simp [slot_share, slot_ind, hq, hqs, hz]
    | true =>
      have hq'e := hqadv hqs
      subst hq'e
      have hq'm : advanced q (stride_runs y r.2) ∈ r.1.ptable := List.getElem?_mem hq'
      obtain ⟨_, hSq, hAq⟩ := hslots q hqm hqs
      have e1 : slot_share k.ptable y = q.share := by simp [slot_share, hq, hqs]
      have e2 : slot_share k.ptable i = p.share := by simp [slot_share, hp, hs]
      have e3 : slot_ind k.ptable y = 1 := by simp [slot_ind, hq, hqs]
      rw [e1, e2, e3]
      have a1 := hlag'.2 _ hp'm hs _ hq'm hqs
      have a2 := hlag.2 q hqm hqs p hpm hs
      have b1 := hlag'.2 _ hq'm hqs _ hp'm hs
      have b2 := hlag.2 p hpm hs q hqm hqs
      simp only [advanced] at a1 b1
      have c1 : p.stride * (stride_runs i r.2 : Int) - q.stride * (stride_runs y r.2 : Int) ≤
          p.stride + q.stride := by linarith
      have c2 : q.stride * (stride_runs y r.2 : Int) - p.stride * (stride_runs i r.2 : Int) ≤
          q.stride + p.stride := by linarith
      constructor
      · have := pair_share_bound hAp hAq hTT hSp hSq c1
        linarith
      · have := pair_share_bound hAq hAp hTT hSq hSp c2
        linarith
  · have e2 : slot_share k.ptable i = p.share := by simp [slot_share, hp, hs]
    rw [e2]
    have a1 := hlag'.1 _ hp'm hs
    have a2 := hlag.1 p hpm hs
    rw [hmlfq] at a1
    simp only [advanced] at a1
    have c1 : p.stride * (stride_runs i r.2 : Int) -
        k.mlfq.stride * (r.2.count Event.mlfq_pass : Int) ≤ p.stride + k.mlfq.stride := by
      linarith
    have c2 : k.mlfq.stride * (r.2.count Event.mlfq_pass : Int) -
        p.stride * (stride_runs i r.2 : Int) ≤ k.mlfq.stride + p.stride := by
      linarith
    constructor
    · have := pair_share_bound hAp hAm hTT hSp hSm c1
      linarith
    · have := pair_share_bound hAm hAp hTT hSm hSp c2
      linarith
  · rw [← stride_share_sum_eq]
    exact htotal

/-- C9 (amended), at a concrete input: the three stride tasks of `tie_state`
(share 20 each, MLFQ holding 40) over a window of 12 iterations. -/
theorem stride_fairness_witness :
    StaticStride 10000 tie_state ∧ Lag tie_state ∧ NoEpochWrap tie_state 12 ∧
    ∃ r, scheduler_run swtch_yield 12 tie_state = .ok r ∧
      ∀ (i : Nat) (p : proc), tie_state.ptable[i]? = some p → p.isStride = true →
        FairCount p.share 12 (stride_count tie_state.ptable) (stride_runs i r.2) :=
  ⟨by unfold StaticStride; decide, by unfold Lag; decide, by unfold NoEpochWrap; decide,
    stride_fairness 10000 tie_state 12 (by unfold StaticStride; decide) (by unfold Lag; decide)
      (by unfold NoEpochWrap; decide)⟩

/-- C10: the MLFQ branch first advances `mlfq.pass` by `mlfq.stride` and
checks the epoch wrap (`mlfq_advance`), then runs the sweeps on the outcome.
When the advanced value exceeds 100000000 (or equals it: the test is `>=`),
`mlfq.pass` and the pass of every isStride slot are 0 in that state, and
nothing else has changed in any slot;
when the advanced value is below 100000000, `mlfq.pass` is the advanced value
and the table is unchanged, so no task's pass was touched.  The sweeps that
follow in the same iteration (every dispatched task yielding) return and leave
`mlfq` and the stride slots as the wrap check left them: after a wrap
`mlfq.pass` and the pass of every isStride slot are 0 at the end of the
iteration. -/
theorem epoch_wrap (k : Kernel) :
    (∀ swtch, mlfq_branch swtch k = mlfq_sweeps swtch (mlfq_advance k)) ∧
    (k.mlfq.pass + k.mlfq.stride ≥ 100000000 →
      (mlfq_advance k).mlfq.pass = 0 ∧
      (mlfq_advance k).ptable.length = k.ptable.length ∧
      ∀ (j : Nat) (p : proc), k.ptable[j]? = some p →
        (mlfq_advance k).ptable[j]? = some (if p.isStride then { p with pass := 0 } else p)) ∧
    (k.mlfq.pass + k.mlfq.stride < 100000000 →
      (mlfq_advance k).mlfq.pass = k.mlfq.pass + k.mlfq.stride ∧
      (mlfq_advance k).ptable = k.ptable) ∧
    (∃ r, mlfq_branch swtch_yield k = .ok r ∧ r.1.mlfq = (mlfq_advance k).mlfq ∧
      (∀ p ∈ r.1.ptable, p.isStride = true → p ∈ (mlfq_advance k).ptable) ∧
      (k.mlfq.pass + k.mlfq.stride ≥ 100000000 →
        r.1.mlfq.pass = 0 ∧ ∀ p ∈ r.1.ptable, p.isStride = true → p.pass = 0)) := by
  have hwrap : k.mlfq.pass + k.mlfq.stride ≥ 100000000 →
      (mlfq_advance k).mlfq.pass = 0 ∧
      (mlfq_advance k).ptable.length = k.ptable.length ∧
      ∀ (j : Nat) (p : proc), k.ptable[j]? = some p →
        (mlfq_advance k).ptable[j]? =
          some (if p.isStride then { p with pass := 0 } else p) := by
    intro h
    unfold mlfq_advance
    simp only [ge_iff_le]
    rw [if_pos (by omega)]
    refine ⟨rfl, by simp, ?_⟩
    intro j p hp
    simp [List.getElem?_map, hp]
  refine ⟨fun _ => rfl, hwrap, ?_, ?_⟩
  · intro h
    unfold mlfq_advance
    simp only [ge_iff_le]
    rw [if_neg (by omega)]
    exact ⟨rfl, rfl⟩
  · obtain ⟨r, hr, hframe, _⟩ := mlfq_sweeps_yield (mlfq_advance k)
    refine ⟨r, hr, hframe.1, fun p hp hs => hframe.stride_mem hp hs, ?_⟩
    intro h
    obtain ⟨hm0, hlen, hslots⟩ := hwrap h
    refine ⟨by rw [hframe.1]; exact hm0, ?_⟩
    intro p hp hs
    have hmem := hframe.stride_mem hp hs
    obtain ⟨j, hj⟩ := List.mem_iff_getElem?.mp hmem
    have hjlt : j < k.ptable.length := by
      rw [← hlen]
      exact (List.getElem?_eq_some_iff.mp hj).1
    obtain ⟨q, hq⟩ : ∃ q, k.ptable[j]? = some q := ⟨_, List.getElem?_eq_getElem hjlt⟩
    have := hslots j q hq
    rw [hj] at this
    simp only [Option.some.injEq] at this
    subst this
    split_ifs at hs ⊢ with hqs
    · rfl
    · exact absurd hs hqs

/-! ## The bound on `mlfq.pass` -/

/-- After the pass update and epoch wrap, `mlfq.pass` is below 100000000. -/
theorem mlfq_advance_pass_lt (k : Kernel) : (mlfq_advance k).mlfq.pass < 100000000 := by
  unfold mlfq_advance
  simp only [ge_iff_le]
  split
  · show (0 : Int) < 100000000
    decide
  · simp only
    omega

/-- A scheduler iteration in which every dispatched task yields keeps
`mlfq.pass` below 100000000. -/
theorem scheduler_mlfq_pass_lt {k : Kernel} {r : Kernel × List Event}
    (h : scheduler swtch_yield k = .ok r) (hk : k.mlfq.pass < 100000000) :
    r.1.mlfq.pass < 100000000 := by
  have hmlfq : ∀ r', mlfq_branch swtch_yield k = .ok r' → r'.1.mlfq.pass < 100000000 := by
    intro r' hr'
    obtain ⟨r0, hr0, hframe, _⟩ := mlfq_sweeps_yield (mlfq_advance k)
    unfold mlfq_branch at hr'
    rw [hr0] at hr'
    cases hr'
    rw [hframe.1]
    exact mlfq_advance_pass_lt k
  cases hwin : stride_winner k with
  | none =>
    unfold scheduler at h
    rw [hwin] at h
    exact hmlfq r h
  | some j =>
    obtain ⟨w, hw, hwst, _⟩ := stride_winner_some hwin
    rw [scheduler_of_winner hwin hw] at h
    by_cases hgt : w.pass > k.mlfq.pass
    · rw [if_pos hgt] at h
      exact hmlfq r h
    · rw [if_neg hgt, stride_dispatch_yield hw hwst] at h
      cases h
      exact hk

/-- A call of `set_cpu_share` that returns leaves `mlfq.pass` as it is. -/
theorem set_cpu_share_mlfq_pass {TT : Int} {k k' : Kernel} {cur : Nat} {s r : Int}
    (h : set_cpu_share TT k cur s = .ok (r, k')) : k'.mlfq.pass = k.mlfq.pass := by
  by_cases hrej : s ≤ 0 ∨ k.mlfq.share - s < 20
  · rw [set_cpu_share_rejected hrej] at h
    cases h
    rfl
  · push_neg at hrej
    obtain ⟨_, _, _, _, _, _, _, hk'⟩ :=
      set_cpu_share_admitted (not_le.mpr hrej.1) (not_lt.mpr hrej.2) h
    rw [hk']

/-! ## `wakeup` and `kill` -/

/-- The table that `wakeup1` returns, slot by slot. -/
theorem wakeup1_getElem? (chan : Option Chan) (ps : List proc) (i : Nat) :
    (wakeup1 chan ps)[i]? =
      (ps[i]?).map (fun p =>
        if p.state = .SLEEPING ∧ p.chan = chan then { p with state := .RUNNABLE } else p) := by
  unfold wakeup1
  exact List.getElem?_map _ _ _

/-- The table keeps its length in `wakeup1`. -/
theorem wakeup1_length (chan : Option Chan) (ps : List proc) :
    (wakeup1 chan ps).length = ps.length := by
  unfold wakeup1
  exact List.length_map _ _

/-- C11: `wakeup(chan)` leaves `mlfq`, `nextpid`, `initproc` and the length of
the table alone; a slot that is SLEEPING with `chan` as its channel is the same
slot with state RUNNABLE afterwards (no other field differs), and every other
slot is unchanged. -/
theorem wakeup_wakes_sleepers (k : Kernel) (chan : Option Chan) :
    (wakeup k chan).mlfq = k.mlfq ∧ (wakeup k chan).nextpid = k.nextpid ∧
    (wakeup k chan).initproc = k.initproc ∧
    (wakeup k chan).ptable.length = k.ptable.length ∧
    ∀ (i : Nat) (p : proc), k.ptable[i]? = some p →
      ((p.state = .SLEEPING ∧ p.chan = chan) →
        (wakeup k chan).ptable[i]? = some { p with state := .RUNNABLE }) ∧
      (¬ (p.state = .SLEEPING ∧ p.chan = chan) → (wakeup k chan).ptable[i]? = some p) := by
  refine ⟨rfl, rfl, rfl, wakeup1_length chan k.ptable, ?_⟩
  intro i p hp
  have h : (wakeup k chan).ptable[i]? = _ := wakeup1_getElem? chan k.ptable i
  rw [hp] at h
  constructor
  · intro hc
    rw [h]
    simp only [Option.map_some', if_pos hc]
  · intro hc
    rw [h]
    simp only [Option.map_some', if_neg hc]

/-- The loop of `kill` runs to its end exactly when no slot has the pid. -/
theorem kill_scan_none (pid : Int) (ps : List proc) :
    kill_scan pid ps = none ↔ ∀ p ∈ ps, p.pid ≠ pid := by
  induction ps with
  | nil => simp [kill_scan]
  | cons p ps ih =>
    unfold kill_scan
    by_cases hp : p.pid = pid
    · simp [hp]
    · rw [if_neg hp]
      cases hs : kill_scan pid ps with
      | none =>
        have := ih.mp hs
        simp only [true_iff]
        intro q hq
        rcases List.mem_cons.mp hq with rfl | hq
        · exact hp
        · exact this q hq
      | some ps1 =>
        simp only [false_iff, reduceCtorEq]
        intro hall
        have : kill_scan pid ps = none := ih.mpr (fun q hq => hall q (List.mem_cons_of_mem _ hq))
        rw [this] at hs
        cases hs

/-- When the loop of `kill` stops, it has marked the first slot with the pid
and nothing else. -/
theorem kill_scan_some (pid : Int) (ps ps1 : List proc) (h : kill_scan pid ps = some ps1) :
    ∃ (i : Nat) (p : proc), ps[i]? = some p ∧ p.pid = pid ∧
      (∀ (j : Nat) (q : proc), j < i → ps[j]? = some q → q.pid ≠ pid) ∧
      ps1 = ps.set i
        { p with killed := 1, state := if p.state = .SLEEPING then .RUNNABLE else p.state } := by
  induction ps generalizing ps1 with
  | nil => simp [kill_scan] at h
  | cons p ps ih =>
    unfold kill_scan at h
    by_cases hp : p.pid = pid
    · rw [if_pos hp] at h
      refine ⟨0, p, by simp, hp, ?_, ?_⟩
      · intro j q hj; omega
      · simp only [Option.some.injEq] at h
        rw [← h]; rfl
    · rw [if_neg hp] at h
      cases hs : kill_scan pid ps with
      | none => rw [hs] at h; cases h
      | some ps2 =>
        rw [hs] at h
        simp only [Option.some.injEq] at h
        obtain ⟨i, q, hq, hqp, hfirst, hset⟩ := ih ps2 hs
        refine ⟨i + 1, q, by simpa using hq, hqp, ?_, ?_⟩
        · intro j r hj hr
          cases j with
          | zero =>
            simp only [List.getElem?_cons_zero, Option.some.injEq] at hr
            rw [← hr]; exact hp
          | succ j =>
            simp only [List.getElem?_cons_succ] at hr
            exact hfirst j r (by omega) hr
        · rw [← h, hset]; rfl

/-- What `kill(pid)` does: when some slot, whatever its state, has the pid (a
free slot has pid 0), it returns 0 and the first slot with that pid is the
same slot with `killed = 1` and, if it was SLEEPING, state RUNNABLE, every
other slot and global being unchanged; when no slot has the pid, it returns -1
and nothing is changed. -/
theorem kill_marks_task (k : Kernel) (pid : Int) :
    ((∃ p ∈ k.ptable, p.pid = pid) →
      (kill k pid).1 = 0 ∧
      ∃ (i : Nat) (p : proc), k.ptable[i]? = some p ∧ p.pid = pid ∧
        (∀ (j : Nat) (q : proc), j < i → k.ptable[j]? = some q → q.pid ≠ pid) ∧
        (kill k pid).2 =
          { k with ptable := k.ptable.set i { p with killed := 1, state := if p.state = .SLEEPING then .RUNNABLE else p.state } }) ∧
    ((¬ ∃ p ∈ k.ptable, p.pid = pid) → kill k pid = (-1, k)) := by
  constructor
  · rintro ⟨p, hp, hpid⟩
    cases hs : kill_scan pid k.ptable with
    | none => exact absurd hpid ((kill_scan_none pid k.ptable).mp hs p hp)
    | some ps1 =>
      obtain ⟨i, q, hq, hqp, hfirst, hset⟩ := kill_scan_some pid k.ptable ps1 hs
      unfold kill
      rw [hs]
      exact ⟨rfl, i, q, hq, hqp, hfirst, by rw [hset]⟩
  · intro hno
    have hs : kill_scan pid k.ptable = none :=
      (kill_scan_none pid k.ptable).mpr (fun p hp hpid => hno ⟨p, hp, hpid⟩)
    unfold kill
    rw [hs]

/-! ## `allocproc` -/

/-- What the scan of `allocproc` returns when it finds a slot: the slot is
UNUSED and no slot before it is. -/
theorem unused_slot_some (ps : List proc) (b i : Nat) (p : proc)
    (h : unused_slot ps b = some (i, p)) :
    ∃ n, i = b + n ∧ ps[n]? = some p ∧ p.state = .UNUSED ∧
      ∀ (j : Nat) (q : proc), j < n → ps[j]? = some q → q.state ≠ .UNUSED := by
  induction ps generalizing b with
  | nil => simp [unused_slot] at h
  | cons a ps ih =>
    unfold unused_slot at h
    by_cases ha : a.state = .UNUSED
    · rw [if_pos ha] at h
      simp only [Option.some.injEq, Prod.mk.injEq] at h
      obtain ⟨h1, h2⟩ := h
      subst h2
      exact ⟨0, by omega, by simp, ha, fun j q hj => by omega⟩
    · rw [if_neg ha] at h
      obtain ⟨n, hn, hp, hs, hfirst⟩ := ih (b + 1) h
      refine ⟨n + 1, by omega, by simpa using hp, hs, ?_⟩
      intro j q hj hq
      cases j with
      | zero =>
        simp only [List.getElem?_cons_zero, Option.some.injEq] at hq
        rw [← hq]; exact ha
      | succ j =>
        simp only [List.getElem?_cons_succ] at hq
        exact hfirst j q (by omega) hq

/-- The scan of `allocproc` finds the first UNUSED slot. -/
theorem unused_slot_first (ps : List proc) (b i : Nat) (p : proc) (hp : ps[i]? = some p)
    (hs : p.state = .UNUSED)
    (hfirst : ∀ (j : Nat) (q : proc), j < i → ps[j]? = some q → q.state ≠ .UNUSED) :
    unused_slot ps b = some (b + i, p) := by
  induction ps generalizing b i with
  | nil => simp at hp
  | cons a ps ih =>
    unfold unused_slot
    cases i with
    | zero =>
      simp only [List.getElem?_cons_zero, Option.some.injEq] at hp
      subst hp
      rw [if_pos hs]; rfl
    | succ i =>
      have ha : a.state ≠ .UNUSED := hfirst 0 a (by omega) (by simp)
      rw [if_neg ha]
      simp only [List.getElem?_cons_succ] at hp
      rw [ih (b + 1) i hp (fun j q hj hq => hfirst (j + 1) q (by omega) (by simpa using hq))]
      congr 2
      omega

/-- The scan of `allocproc` finds nothing exactly when no slot is UNUSED. -/
theorem unused_slot_none (ps : List proc) (b : Nat) :
    unused_slot ps b = none ↔ ∀ p ∈ ps, p.state ≠ .UNUSED := by
  induction ps generalizing b with
  | nil => simp [unused_slot]
  | cons a ps ih =>
    unfold unused_slot
    by_cases ha : a.state = .UNUSED
    · simp [ha]
    · rw [if_neg ha, ih (b + 1)]
      simp [ha]

/-- What `allocproc` does when slot `i` is the first UNUSED slot. -/
theorem allocproc_of_first_unused (kalloc : Nat) (k : Kernel) (i : Nat) (p : proc)
    (hp : k.ptable[i]? = some p) (hs : p.state = .UNUSED)
    (hfirst : ∀ (j : Nat) (q : proc), j < i → k.ptable[j]? = some q → q.state ≠ .UNUSED) :
    allocproc kalloc k =
      (if kalloc = 0 then none else some i,
        { k with nextpid := k.nextpid + 1, ptable := k.ptable.set i { p with state := if kalloc = 0 then .UNUSED else .EMBRYO, pid := k.nextpid, kstack := kalloc, isMLFQ := false, quantum := 0, ticks := 0, level := 0, isStride := false, share := 0, stride := 0, pass := 0, tid := 0, num_of_threads := 0, sum_of_threads := 0, retval := 0 } }) := by
  have hu := unused_slot_first k.ptable 0 i p hp hs hfirst
  rw [Nat.zero_add] at hu
  unfold allocproc
  rw [hu]
  by_cases hk : kalloc = 0
  · simp only [hk, if_true]
  · simp only [hk, if_false]

/-- C13 (counterexample): in the boot state a slot is UNUSED, and `allocproc`
fails all the same when `kalloc` returns 0. -/
theorem allocproc_fails_without_kstack :
    (∃ p ∈ (boot_state 10000).ptable, p.state = .UNUSED) ∧
    (allocproc 0 (boot_state 10000)).1 = none :=
  ⟨⟨proc_zero, by simp [boot_state], rfl⟩, rfl⟩

/-- C13 (amended): `allocproc` fails exactly when no slot is UNUSED or `kalloc`
returns 0.  With no UNUSED slot nothing is changed.  Otherwise the first UNUSED
slot `i` gets `pid = nextpid`, `nextpid` grows by one, the scheduling and thread
fields of the slot are zeroed and every other slot is unchanged; the slot is
EMBRYO with its kernel stack when `kalloc` succeeded, and UNUSED again when it
did not. -/
theorem allocproc_claims_first_unused (kalloc : Nat) (k : Kernel) :
    ((allocproc kalloc k).1 = none ↔ ((∀ p ∈ k.ptable, p.state ≠ .UNUSED) ∨ kalloc = 0)) ∧
    ((∀ p ∈ k.ptable, p.state ≠ .UNUSED) → allocproc kalloc k = (none, k)) ∧
    (∀ (i : Nat) (p : proc), k.ptable[i]? = some p → p.state = .UNUSED →
      (∀ (j : Nat) (q : proc), j < i → k.ptable[j]? = some q → q.state ≠ .UNUSED) →
      allocproc kalloc k =
        (if kalloc = 0 then none else some i,
          { k with nextpid := k.nextpid + 1, ptable := k.ptable.set i { p with state := if kalloc = 0 then .UNUSED else .EMBRYO, pid := k.nextpid, kstack := kalloc, isMLFQ := false, quantum := 0, ticks := 0, level := 0, isStride := false, share := 0, stride := 0, pass := 0, tid := 0, num_of_threads := 0, sum_of_threads := 0, retval := 0 } })) := by
  have hthird := fun i p => allocproc_of_first_unused kalloc k i p
  have hsecond : (∀ p ∈ k.ptable, p.state ≠ .UNUSED) → allocproc kalloc k = (none, k) := by
    intro hall
    unfold allocproc
    rw [(unused_slot_none k.ptable 0).mpr hall]
  refine ⟨?_, hsecond, hthird⟩
  constructor
  · intro hfail
    by_contra hcon
    rw [not_or] at hcon
    obtain ⟨hex, hk⟩ := hcon
    cases hu : unused_slot k.ptable 0 with
    | none => exact hex ((unused_slot_none k.ptable 0).mp hu)
    | some ip =>
      obtain ⟨i, p⟩ := ip
      obtain ⟨n, hn, hp, hs, hfirst⟩ := unused_slot_some k.ptable 0 i p hu
      rw [hthird n p hp hs hfirst, if_neg hk] at hfail
      cases hfail
  · rintro (hall | hk)
    · rw [hsecond hall]
    · cases hu : unused_slot k.ptable 0 with
      | none => rw [hsecond ((unused_slot_none k.ptable 0).mp hu)]
      | some ip =>
        obtain ⟨i, p⟩ := ip
        obtain ⟨n, hn, hp, hs, hfirst⟩ := unused_slot_some k.ptable 0 i p hu
        rw [hthird n p hp hs hfirst, if_pos hk]

/-! ## `wait` -/

/-- What the scan of `wait` returns when it stops: a ZOMBIE child of the
caller, before which no child of the caller is ZOMBIE. -/
theorem wait_scan_inl (cur : Nat) (ps : List proc) (b : Nat) (hk : Bool) (i : Nat) (p : proc)
    (h : wait_scan cur ps b hk = .inl (i, p)) :
    ∃ n, i = b + n ∧ ps[n]? = some p ∧ p.parent = some cur ∧ p.state = .ZOMBIE ∧
      ∀ (j : Nat) (q : proc), j < n → ps[j]? = some q → q.parent = some cur →
        q.state ≠ .ZOMBIE := by
  induction ps generalizing b hk with
  | nil => simp [wait_scan] at h
  | cons a ps ih =>
    unfold wait_scan at h
    by_cases ha : a.parent ≠ some cur
    · rw [if_pos ha] at h
      obtain ⟨n, hn, hp, hpar, hz, hfirst⟩ := ih (b + 1) hk h
      refine ⟨n + 1, by omega, by simpa using hp, hpar, hz, ?_⟩
      intro j q hj hq hqp
      cases j with
      | zero =>
        simp only [List.getElem?_cons_zero, Option.some.injEq] at hq
        rw [← hq] at hqp
        exact absurd hqp ha
      | succ j =>
        simp only [List.getElem?_cons_succ] at hq
        exact hfirst j q (by omega) hq hqp
    · rw [if_neg ha] at h
      by_cases hz : a.state = .ZOMBIE
      · rw [if_pos hz] at h
        simp only [Sum.inl.injEq, Prod.mk.injEq] at h
        obtain ⟨h1, h2⟩ := h
        subst h2
        exact ⟨0, by omega, by simp, not_not.mp ha, hz, fun j q hj => by omega⟩
      · rw [if_neg hz] at h
        obtain ⟨n, hn, hp, hpar, hzp, hfirst⟩ := ih (b + 1) true h
        refine ⟨n + 1, by omega, by simpa using hp, hpar, hzp, ?_⟩
        intro j q hj hq hqp
        cases j with
        | zero =>
          simp only [List.getElem?_cons_zero, Option.some.injEq] at hq
          rw [← hq]
          exact hz
        | succ j =>
          simp only [List.getElem?_cons_succ] at hq
          exact hfirst j q (by omega) hq hqp

/-- The scan of `wait` stops at the first ZOMBIE child of the caller. -/
theorem wait_scan_first (cur : Nat) (ps : List proc) (b : Nat) (hk : Bool) (i : Nat) (p : proc)
    (hp : ps[i]? = some p) (hpar : p.parent = some cur) (hz : p.state = .ZOMBIE)
    (hfirst : ∀ (j : Nat) (q : proc), j < i → ps[j]? = some q → q.parent = some cur →
      q.state ≠ .ZOMBIE) :
    wait_scan cur ps b hk = .inl (b + i, p) := by
  induction ps generalizing b hk i with
  | nil => simp at hp
  | cons a ps ih =>
    unfold wait_scan
    cases i with
    | zero =>
      simp only [List.getElem?_cons_zero, Option.some.injEq] at hp
      subst hp
      rw [if_neg (not_not.mpr hpar), if_pos hz]; rfl
    | succ i =>
      simp only [List.getElem?_cons_succ] at hp
      have hrest : ∀ hk', wait_scan cur ps (b + 1) hk' = .inl (b + (i + 1), p) := by
        intro hk'
        rw [ih (b + 1) hk' i hp
          (fun j q hj hq => hfirst (j + 1) q (by omega) (by simpa using hq))]
        congr 2
        omega
      by_cases ha : a.parent ≠ some cur
      · rw [if_pos ha]; exact hrest hk
      · rw [if_neg ha]
        have hza : a.state ≠ .ZOMBIE := hfirst 0 a (by omega) (by simp) (not_not.mp ha)
        rw [if_neg hza]; exact hrest true

/-- Without a ZOMBIE child of the caller the scan of `wait` runs to the end of
the table; the flag it ends with is the one it started with when the caller has
no child at all. -/
theorem wait_scan_inr (cur : Nat) (ps : List proc) (b : Nat) (hk : Bool)
    (hno : ∀ p ∈ ps, p.parent = some cur → p.state ≠ .ZOMBIE) :
    ∃ hk', wait_scan cur ps b hk = .inr hk' ∧
      ((∀ p ∈ ps, p.parent ≠ some cur) → hk' = hk) := by
  induction ps generalizing b hk with
  | nil => exact ⟨hk, rfl, fun _ => rfl⟩
  | cons a ps ih =>
    unfold wait_scan
    have hno' : ∀ p ∈ ps, p.parent = some cur → p.state ≠ .ZOMBIE :=
      fun p hp => hno p (List.mem_cons_of_mem _ hp)
    by_cases ha : a.parent ≠ some cur
    · rw [if_pos ha]
      obtain ⟨hk', h1, h2⟩ := ih (b + 1) hk hno'
      exact ⟨hk', h1, fun hall => h2 (fun p hp => hall p (List.mem_cons_of_mem _ hp))⟩
    · rw [if_neg ha, if_neg (hno a (List.mem_cons_self _ _) (not_not.mp ha))]
      obtain ⟨hk', h1, _⟩ := ih (b + 1) true hno'
      exact ⟨hk', h1, fun hall => absurd (hall a (List.mem_cons_self _ _)) ha⟩

/-- A table with a ZOMBIE child of the caller has a first one. -/
theorem first_zombie_child (cur : Nat) (ps : List proc)
    (hz : ∃ p ∈ ps, p.parent = some cur ∧ p.state = .ZOMBIE) :
    ∃ (i : Nat) (c : proc), ps[i]? = some c ∧ c.parent = some cur ∧ c.state = .ZOMBIE ∧
      ∀ (j : Nat) (q : proc), j < i → ps[j]? = some q → q.parent = some cur →
        q.state ≠ .ZOMBIE := by
  cases hs : wait_scan cur ps 0 false with
  | inl ip =>
    obtain ⟨i, p⟩ := ip
    obtain ⟨n, _, hp, hpar, hzp, hfirst⟩ := wait_scan_inl cur ps 0 false i p hs
    exact ⟨n, p, hp, hpar, hzp, hfirst⟩
  | inr hk =>
    obtain ⟨p, hp, hpar, hzp⟩ := hz
    obtain ⟨n, hn⟩ := List.getElem?_of_mem hp
    -- a ZOMBIE child exists, so there is a least index of one
    have hex : ∃ (n : Nat) (q : proc), ps[n]? = some q ∧ q.parent = some cur ∧ q.state = .ZOMBIE :=
      ⟨n, p, hn, hpar, hzp⟩
    classical
    obtain ⟨q, hq, hqpar, hqz⟩ := Nat.find_spec hex
    have hmin := fun j (hj : j < Nat.find hex) => Nat.find_min hex hj
    have := wait_scan_first cur ps 0 false (Nat.find hex) q hq hqpar hqz
      (fun j r hj hr hrp hrz => hmin j hj ⟨r, hr, hrp, hrz⟩)
    rw [this] at hs
    cases hs

/-- The body of `wait` returns when the new `mlfq.share` is not 0. -/
theorem wait_reap_ok (TT : Int) (k : Kernel) (i : Nat) (p : proc)
    (h : k.mlfq.share + p.share ≠ 0) :
    wait_reap TT k i p = .ok (p.pid,
      { k with ptable := k.ptable.set i { p with kstack := 0, pid := 0, parent := none, killed := 0, state := .UNUSED, isMLFQ := false, quantum := 0, ticks := 0, level := 0, isStride := false, share := 0, stride := 0, pass := 0, tid := 0, num_of_threads := 0, sum_of_threads := 0, retval := 0 },
               mlfq := { k.mlfq with share := k.mlfq.share + p.share, stride := Int.tdiv TT (k.mlfq.share + p.share) } },
      [MemCall.kfree p.kstack, MemCall.freevm p.pgdir]) := by
  show (cdiv TT (k.mlfq.share + p.share) >>= _) = _
  rw [cdiv_ok h]
  rfl

/-- C14: when the caller of `wait` (slot `cur`) has a ZOMBIE child, and the
share the reaped child gives back does not bring `mlfq.share` to 0, `wait`
returns the pid of the first such child in the table.  Afterwards its slot is
UNUSED with pid, parent, killed, kstack and the scheduling and thread fields
cleared, `mlfq.share` has grown by the share of the child, `mlfq.stride` is
`TOTALTICKET / mlfq.share` for the new share, and nothing else is changed.
The kernel stack and the page directory of the child were given back. -/
theorem wait_reaps_zombie_child (TT : Int) (k : Kernel) (cur : Nat)
    (hz : ∃ p ∈ k.ptable, p.parent = some cur ∧ p.state = .ZOMBIE)
    (hdiv : ∀ p ∈ k.ptable, p.parent = some cur → p.state = .ZOMBIE →
      k.mlfq.share + p.share ≠ 0) :
    ∃ (i : Nat) (c : proc), k.ptable[i]? = some c ∧ c.parent = some cur ∧ c.state = .ZOMBIE ∧
      (∀ (j : Nat) (q : proc), j < i → k.ptable[j]? = some q → q.parent = some cur →
        q.state ≠ .ZOMBIE) ∧
      wait TT k cur = .ok (Outcome.returned c.pid,
        { k with ptable := k.ptable.set i { c with kstack := 0, pid := 0, parent := none, killed := 0, state := .UNUSED, isMLFQ := false, quantum := 0, ticks := 0, level := 0, isStride := false, share := 0, stride := 0, pass := 0, tid := 0, num_of_threads := 0, sum_of_threads := 0, retval := 0 },
                 mlfq := { k.mlfq with share := k.mlfq.share + c.share, stride := Int.tdiv TT (k.mlfq.share + c.share) } },
        [MemCall.kfree c.kstack, MemCall.freevm c.pgdir]) := by
  obtain ⟨i, c, hc, hpar, hzc, hfirst⟩ := first_zombie_child cur k.ptable hz
  refine ⟨i, c, hc, hpar, hzc, hfirst, ?_⟩
  have hs := wait_scan_first cur k.ptable 0 false i c hc hpar hzc hfirst
  rw [Nat.zero_add] at hs
  have hne : k.mlfq.share + c.share ≠ 0 := hdiv c (List.getElem?_mem hc) hpar hzc
  unfold wait
  rw [hs]
  show (wait_reap TT k i c >>= _) = _
  rw [wait_reap_ok TT k i c hne]
  rfl

/-- C14 (witness): in `zombie_child_state` the caller in slot 1 has the ZOMBIE
child of slot 2. -/
theorem wait_reaps_zombie_child_witness :
    (∃ p ∈ zombie_child_state.ptable, p.parent = some 1 ∧ p.state = .ZOMBIE) ∧
    ∃ (i : Nat) (c : proc) (k' : Kernel) (log : List MemCall),
      zombie_child_state.ptable[i]? = some c ∧ c.state = .ZOMBIE ∧
      wait 10000 zombie_child_state 1 = .ok (Outcome.returned c.pid, k', log) := by
  have hz : ∃ p ∈ zombie_child_state.ptable, p.parent = some 1 ∧ p.state = .ZOMBIE :=
    ⟨_, List.getElem?_mem (show zombie_child_state.ptable[2]? = some _ from rfl), rfl, rfl⟩
  obtain ⟨i, c, hc, _, hzc, _, hw⟩ :=
    wait_reaps_zombie_child 10000 zombie_child_state 1 hz (by decide)
  exact ⟨hz, i, c, _, _, hc, hzc, hw⟩

/-- C15 (counterexample): in `zombie_child_state` process P (slot 1, pid 2) has
a ZOMBIE child with pid 3.  After `kill(2)` P has been killed, and its `wait`
reaps the child and returns 3. -/
theorem wait_of_killed_caller_reaps :
    ((kill zombie_child_state 2).2.ptable[1]?.map (fun p => (p.pid, p.killed))) =
      some (2, 1) ∧
    ∃ k' log, wait 10000 (kill zombie_child_state 2).2 1 =
        .ok (Outcome.returned 3, k', log) ∧
      k' ≠ (kill zombie_child_state 2).2 :=
  ⟨rfl, _, _, rfl, by decide⟩

/-- C15 (amended): `wait` returns -1 and changes nothing when the caller has no
child, and when the caller has been killed and none of its children is
ZOMBIE. -/
theorem wait_fails_unchanged (TT : Int) (k : Kernel) (cur : Nat) :
    ((∀ p ∈ k.ptable, p.parent ≠ some cur) →
      wait TT k cur = .ok (Outcome.returned (-1), k, [])) ∧
    (∀ c : proc, k.ptable[cur]? = some c → c.killed ≠ 0 →
      (∀ p ∈ k.ptable, p.parent = some cur → p.state ≠ .ZOMBIE) →
      wait TT k cur = .ok (Outcome.returned (-1), k, [])) := by
  constructor
  · intro hall
    obtain ⟨hk', h1, h2⟩ := wait_scan_inr cur k.ptable 0 false
      (fun p hp hpar => absurd hpar (hall p hp))
    unfold wait
    rw [h1, h2 hall]
    rfl
  · intro c hc hkilled hno
    obtain ⟨hk', h1, _⟩ := wait_scan_inr cur k.ptable 0 false hno
    unfold wait
    rw [h1]
    cases hk' with
    | false => rfl
    | true =>
      simp only [Bool.true_eq_false, if_false, hc]
      rw [if_pos hkilled]

/-! ## Writes through a pointer -/

/-- The table keeps its length in a write through a pointer. -/
theorem store_length (ps : List proc) (i : Nat) (f : proc → proc) :
    (store ps i f).length = ps.length := by
  unfold store
  cases h : ps[i]? with
  | none => rfl
  | some p => simp

/-- The table after a write through a pointer, slot by slot. -/
theorem store_getElem? (ps : List proc) (i j : Nat) (f : proc → proc) :
    (store ps i f)[j]? = if j = i then (ps[j]?).map f else ps[j]? := by
  unfold store
  cases h : ps[i]? with
  | none =>
    by_cases hj : j = i
    · rw [if_pos hj, hj, h]; rfl
    · rw [if_neg hj]
  | some p =>
    by_cases hj : j = i
    · rw [if_pos hj, hj, h]
      have hlt : i < ps.length := by
        by_contra hcon
        rw [List.getElem?_eq_none (by omega)] at h
        cases h
      simp [List.getElem?_set_self, hlt]
    · rw [if_neg hj]
      exact List.getElem?_set_ne (fun h' => hj h'.symm)

/-- The slot written through a pointer. -/
theorem store_getElem?_self (ps : List proc) (i : Nat) (f : proc → proc) (p : proc)
    (h : ps[i]? = some p) : (store ps i f)[i]? = some (f p) := by
  rw [store_getElem?, if_pos rfl, h]; rfl

/-- A slot other than the one written through a pointer. -/
theorem store_getElem?_ne (ps : List proc) (i j : Nat) (f : proc → proc) (h : j ≠ i) :
    (store ps i f)[j]? = ps[j]? := by
  rw [store_getElem?, if_neg h]

/-- A `set` of a table, slot by slot. -/
theorem set_getElem? (ps : List proc) (i j : Nat) (a : proc) :
    (ps.set i a)[j]? = if j = i then (ps[j]?).map (fun _ => a) else ps[j]? := by
  by_cases hj : j = i
  · rw [if_pos hj, hj]
    by_cases hlt : i < ps.length
    · rw [List.getElem?_set_self hlt, List.getElem?_eq_getElem hlt]; rfl
    · rw [List.getElem?_eq_none (by simp; omega), List.getElem?_eq_none (by omega)]; rfl
  · rw [if_neg hj]
    exact List.getElem?_set_ne (fun h' => hj h'.symm)

/-! ## The reparenting loop -/

/-- The table keeps its length in the reparenting loop. -/
theorem reparent_length (initproc : Option Nat) (cur n i : Nat) (ps : List proc) :
    (reparent initproc cur n i ps).length = ps.length := by
  induction n generalizing i ps with
  | zero => rfl
  | succ n ih =>
    unfold reparent
    cases h : ps[i]? with
    | none => exact ih (i + 1) ps
    | some p =>
      by_cases hp : p.parent = some cur
      · simp only [if_pos hp]
        rw [ih]
        by_cases hz : p.state = .ZOMBIE
        · rw [if_pos hz, wakeup1_length, List.length_set]
        · rw [if_neg hz, List.length_set]
      · simp only [if_neg hp]
        exact ih (i + 1) ps

/-- The reparenting loop changes nothing when the caller has no child. -/
theorem reparent_no_child (initproc : Option Nat) (cur n i : Nat) (ps : List proc)
    (h : ∀ p ∈ ps, p.parent ≠ some cur) : reparent initproc cur n i ps = ps := by
  induction n generalizing i with
  | zero => rfl
  | succ n ih =>
    unfold reparent
    cases hp : ps[i]? with
    | none => exact ih (i + 1)
    | some p =>
      simp only [if_neg (h p (List.getElem?_mem hp))]
      exact ih (i + 1)

/-! ## `thread_exit` and `thread_join` -/

/-- What the scan of `thread_join` returns when it stops: a ZOMBIE child of the
caller with the tid asked for, before which there is no such slot. -/
theorem join_scan_inl (cur : Nat) (thread : Int) (ps : List proc) (b : Nat) (hk : Bool)
    (i : Nat) (p : proc) (h : join_scan cur thread ps b hk = .inl (i, p)) :
    ∃ n, i = b + n ∧ ps[n]? = some p ∧ p.parent = some cur ∧ p.tid = thread ∧
      p.state = .ZOMBIE ∧
      ∀ (j : Nat) (q : proc), j < n → ps[j]? = some q → q.parent = some cur →
        q.tid = thread → q.state ≠ .ZOMBIE := by
  induction ps generalizing b hk with
  | nil => simp [join_scan] at h
  | cons a ps ih =>
    unfold join_scan at h
    by_cases ha : a.parent ≠ some cur ∨ a.tid ≠ thread
    · rw [if_pos ha] at h
      obtain ⟨n, hn, hp, hpar, htid, hz, hfirst⟩ := ih (b + 1) hk h
      refine ⟨n + 1, by omega, by simpa using hp, hpar, htid, hz, ?_⟩
      intro j q hj hq hqp hqt
      cases j with
      | zero =>
        simp only [List.getElem?_cons_zero, Option.some.injEq] at hq
        rw [← hq] at hqp hqt
        rcases ha with ha | ha
        · exact absurd hqp ha
        · exact absurd hqt ha
      | succ j =>
        simp only [List.getElem?_cons_succ] at hq
        exact hfirst j q (by omega) hq hqp hqt
    · rw [if_neg ha] at h
      rw [not_or, not_not, not_not] at ha
      by_cases hz : a.state = .ZOMBIE
      · rw [if_pos hz] at h
        simp only [Sum.inl.injEq, Prod.mk.injEq] at h
        obtain ⟨h1, h2⟩ := h
        subst h2
        exact ⟨0, by omega, by simp, ha.1, ha.2, hz, fun j q hj => by omega⟩
      · rw [if_neg hz] at h
        obtain ⟨n, hn, hp, hpar, htid, hzp, hfirst⟩ := ih (b + 1) true h
        refine ⟨n + 1, by omega, by simpa using hp, hpar, htid, hzp, ?_⟩
        intro j q hj hq hqp hqt
        cases j with
        | zero =>
          simp only [List.getElem?_cons_zero, Option.some.injEq] at hq
          rw [← hq]
          exact hz
        | succ j =>
          simp only [List.getElem?_cons_succ] at hq
          exact hfirst j q (by omega) hq hqp hqt

/-- The scan of `thread_join` stops at the first ZOMBIE child of the caller
with the tid asked for. -/
theorem join_scan_first (cur : Nat) (thread : Int) (ps : List proc) (b : Nat) (hk : Bool)
    (i : Nat) (p : proc) (hp : ps[i]? = some p) (hpar : p.parent = some cur)
    (htid : p.tid = thread) (hz : p.state = .ZOMBIE)
    (hfirst : ∀ (j : Nat) (q : proc), j < i → ps[j]? = some q → q.parent = some cur →
      q.tid = thread → q.state ≠ .ZOMBIE) :
    join_scan cur thread ps b hk = .inl (b + i, p) := by
  induction ps generalizing b hk i with
  | nil => simp at hp
  | cons a ps ih =>
    unfold join_scan
    cases i with
    | zero =>
      simp only [List.getElem?_cons_zero, Option.some.injEq] at hp
      subst hp
      rw [if_neg (by rw [not_or, not_not, not_not]; exact ⟨hpar, htid⟩), if_pos hz]; rfl
    | succ i =>
      simp only [List.getElem?_cons_succ] at hp
      have hrest : ∀ hk', join_scan cur thread ps (b + 1) hk' = .inl (b + (i + 1), p) := by
        intro hk'
        rw [ih (b + 1) hk' i hp
          (fun j q hj hq => hfirst (j + 1) q (by omega) (by simpa using hq))]
        congr 2
        omega
      by_cases ha : a.parent ≠ some cur ∨ a.tid ≠ thread
      · rw [if_pos ha]; exact hrest hk
      · rw [if_neg ha]
        rw [not_or, not_not, not_not] at ha
        have hza : a.state ≠ .ZOMBIE := hfirst 0 a (by omega) (by simp) ha.1 ha.2
        rw [if_neg hza]; exact hrest true

/-- Without a child of the caller that has the tid asked for, the scan of
`thread_join` ends with the flag it started with. -/
theorem join_scan_no_child (cur : Nat) (thread : Int) (ps : List proc) (b : Nat) (hk : Bool)
    (hno : ∀ p ∈ ps, ¬ (p.parent = some cur ∧ p.tid = thread)) :
    join_scan cur thread ps b hk = .inr hk := by
  induction ps generalizing b with
  | nil => rfl
  | cons a ps ih =>
    unfold join_scan
    have ha : a.parent ≠ some cur ∨ a.tid ≠ thread := by
      have := hno a (List.mem_cons_self _ _)
      by_cases h1 : a.parent = some cur
      · exact Or.inr (fun h2 => this ⟨h1, h2⟩)
      · exact Or.inl h1
    rw [if_pos ha]
    exact ih (b + 1) (fun p hp => hno p (List.mem_cons_of_mem _ hp))

/-- A table with a ZOMBIE child of the caller that has the tid asked for has a
first one. -/
theorem first_zombie_thread (cur : Nat) (thread : Int) (ps : List proc)
    (hz : ∃ p ∈ ps, p.parent = some cur ∧ p.tid = thread ∧ p.state = .ZOMBIE) :
    ∃ (i : Nat) (c : proc), ps[i]? = some c ∧ c.parent = some cur ∧ c.tid = thread ∧
      c.state = .ZOMBIE ∧
      ∀ (j : Nat) (q : proc), j < i → ps[j]? = some q → q.parent = some cur →
        q.tid = thread → q.state ≠ .ZOMBIE := by
  obtain ⟨p, hp, hpar, htid, hzp⟩ := hz
  obtain ⟨n, hn⟩ := List.getElem?_of_mem hp
  have hex : ∃ (n : Nat) (q : proc), ps[n]? = some q ∧ q.parent = some cur ∧ q.tid = thread ∧
      q.state = .ZOMBIE := ⟨n, p, hn, hpar, htid, hzp⟩
  classical
  obtain ⟨q, hq, hqpar, hqt, hqz⟩ := Nat.find_spec hex
  have hmin := fun j (hj : j < Nat.find hex) => Nat.find_min hex hj
  exact ⟨Nat.find hex, q, hq, hqpar, hqt, hqz,
    fun j r hj hr hrp hrt hrz => hmin j hj ⟨r, hr, hrp, hrt, hrz⟩⟩

/-- The state in which `thread_exit(retval)` enters the scheduler: the caller
is ZOMBIE and holds `retval`. -/
theorem thread_exit_keeps_retval (k k' : Kernel) (cur : Nat) (retval : Int)
    (h : thread_exit k cur retval = .ok k') :
    ∃ q, k'.ptable[cur]? = some q ∧ q.state = .ZOMBIE ∧ q.retval = retval := by
  unfold thread_exit at h
  by_cases hi : some cur = k.initproc
  · rw [if_pos hi] at h; cases h
  · rw [if_neg hi] at h
    cases hc : k.ptable[cur]? with
    | none => rw [hc] at h; cases h
    | some curproc =>
      rw [hc] at h
      simp only [Except.ok.injEq] at h
      have hlt : cur < k.ptable.length := by
        by_contra hcon
        rw [List.getElem?_eq_none (by omega)] at hc
        cases hc
      have hlen : cur < (reparent k.initproc cur (wakeup1 (chan_of curproc.parent) k.ptable).length 0
          (wakeup1 (chan_of curproc.parent) k.ptable)).length := by
        rw [reparent_length, wakeup1_length]; exact hlt
      rw [← h]
      refine ⟨_, store_getElem?_self _ cur _ _ (List.getElem?_eq_getElem hlen), rfl, rfl⟩

/-- The body of `thread_join` when the shrink of the address space, if there is
one, does not return 0 and the new `mlfq.share` is not 0. -/
theorem join_reap_ok (TT : Int) (env : Env) (k : Kernel) (cur i : Nat) (p pp : proc)
    (hpp : k.ptable[cur]? = some pp)
    (hshrink : pp.num_of_threads - 1 = 0 →
      env.deallocuvm pp.pgdir pp.sz (usub pp.sz (2 * pp.sum_of_threads * env.PGSIZE)) ≠ 0)
    (hdiv : k.mlfq.share + p.share ≠ 0) :
    join_reap TT env k cur i p = .ok (p.pid, some p.retval,
      { k with ptable := store (k.ptable.set cur (if pp.num_of_threads - 1 = 0 then { pp with num_of_threads := pp.num_of_threads - 1, sz := env.deallocuvm pp.pgdir pp.sz (usub pp.sz (2 * pp.sum_of_threads * env.PGSIZE)), sum_of_threads := 0 } else { pp with num_of_threads := pp.num_of_threads - 1 })) i join_cleared,
               mlfq := { k.mlfq with share := k.mlfq.share + p.share, stride := Int.tdiv TT (k.mlfq.share + p.share) } },
      [MemCall.kfree p.kstack]) := by
  unfold join_reap
  rw [hpp]
  have hnot : ¬ (pp.num_of_threads - 1 = 0 ∧
      env.deallocuvm pp.pgdir pp.sz (usub pp.sz (2 * pp.sum_of_threads * env.PGSIZE)) = 0) :=
    fun h => hshrink h.1 h.2
  simp only [if_neg hnot]
  show (cdiv TT (k.mlfq.share + p.share) >>= _) = _
  rw [cdiv_ok hdiv]
  rfl

/-- C16 (counterexample): in `last_thread_state` the caller (slot 1) has a
ZOMBIE child with tid 3 (slot 2, pid 3), it is its last thread and the shrink of
the address space returns 0: `thread_join(3, ..)` returns -1, writes nothing
to `*retval`, and the child is still ZOMBIE. -/
theorem thread_join_fails_on_empty_space :
    (last_thread_state.ptable[2]?.map
      (fun p => (p.parent, p.tid, p.state, p.pid))) = some (some 1, 3, .ZOMBIE, 3) ∧
    ∃ k', thread_join 10000 env_ok last_thread_state 1 3 =
        .ok (Outcome.returned (-1), none, k', []) ∧
      (k'.ptable[2]?.map (fun p => p.state)) = some .ZOMBIE :=
  ⟨rfl, _, rfl, rfl⟩

/-- C16 (amended): `thread_join(thread, retval)` by the task in slot `cur`.
If the caller has a ZOMBIE child with tid `thread`, the shrink of the address
space (made when this was the last thread) does not return 0 and the new
`mlfq.share` is not 0, it returns the pid of the first such child `c` and
writes `c.retval` to `*retval`; the slot of `c` is UNUSED afterwards, the
`num_of_threads` of the caller is one less, and no slot other than these two
is changed.  If the caller has no child with tid `thread`, it returns -1 and
changes nothing.  The `retval` of a slot is what its task passed to
`thread_exit`. -/
theorem thread_join_reaps_zombie_thread (TT : Int) (env : Env) (k : Kernel) (cur : Nat)
    (thread : Int) :
    (∀ pp : proc, k.ptable[cur]? = some pp →
      (∃ p ∈ k.ptable, p.parent = some cur ∧ p.tid = thread ∧ p.state = .ZOMBIE) →
      (pp.num_of_threads - 1 = 0 →
        env.deallocuvm pp.pgdir pp.sz (usub pp.sz (2 * pp.sum_of_threads * env.PGSIZE)) ≠ 0) →
      (∀ p ∈ k.ptable, p.parent = some cur → p.tid = thread → p.state = .ZOMBIE →
        k.mlfq.share + p.share ≠ 0) →
      ∃ (i : Nat) (c : proc) (k' : Kernel),
        k.ptable[i]? = some c ∧ c.parent = some cur ∧ c.tid = thread ∧ c.state = .ZOMBIE ∧
        (∀ (j : Nat) (q : proc), j < i → k.ptable[j]? = some q → q.parent = some cur →
          q.tid = thread → q.state ≠ .ZOMBIE) ∧
        thread_join TT env k cur thread =
          .ok (Outcome.returned c.pid, some c.retval, k', [MemCall.kfree c.kstack]) ∧
        (∃ q, k'.ptable[i]? = some q ∧ q.state = .UNUSED) ∧
        (i ≠ cur → ∃ pp', k'.ptable[cur]? = some pp' ∧
          pp'.num_of_threads = pp.num_of_threads - 1) ∧
        (∀ j, j ≠ i → j ≠ cur → k'.ptable[j]? = k.ptable[j]?)) ∧
    ((∀ p ∈ k.ptable, ¬ (p.parent = some cur ∧ p.tid = thread)) →
      thread_join TT env k cur thread = .ok (Outcome.returned (-1), none, k, [])) ∧
    (∀ (t : Nat) (rv : Int) (k2 : Kernel), thread_exit k t rv = .ok k2 →
      ∃ q, k2.ptable[t]? = some q ∧ q.state = .ZOMBIE ∧ q.retval = rv) := by
  refine ⟨?_, ?_, fun t rv k2 h => thread_exit_keeps_retval k k2 t rv h⟩
  · intro pp hpp hz hshrink hdiv
    obtain ⟨i, c, hc, hpar, htid, hzc, hfirst⟩ := first_zombie_thread cur thread k.ptable hz
    have hs := join_scan_first cur thread k.ptable 0 false i c hc hpar htid hzc hfirst
    rw [Nat.zero_add] at hs
    have hne : k.mlfq.share + c.share ≠ 0 := hdiv c (List.getElem?_mem hc) hpar htid hzc
    have hjoin := join_reap_ok TT env k cur i c pp hpp hshrink hne
    have hth : thread_join TT env k cur thread = .ok (Outcome.returned c.pid, some c.retval,
        { k with ptable := store (k.ptable.set cur (if pp.num_of_threads - 1 = 0 then { pp with num_of_threads := pp.num_of_threads - 1, sz := env.deallocuvm pp.pgdir pp.sz (usub pp.sz (2 * pp.sum_of_threads * env.PGSIZE)), sum_of_threads := 0 } else { pp with num_of_threads := pp.num_of_threads - 1 })) i join_cleared,
                 mlfq := { k.mlfq with share := k.mlfq.share + c.share, stride := Int.tdiv TT (k.mlfq.share + c.share) } },
        [MemCall.kfree c.kstack]) := by
      unfold thread_join
      rw [hs]
      show (join_reap TT env k cur i c >>= _) = _
      rw [hjoin]
      rfl
    refine ⟨i, c, _, hc, hpar, htid, hzc, hfirst, hth, ?_, ?_, ?_⟩
    · show ∃ q, (store _ i join_cleared)[i]? = some q ∧ q.state = .UNUSED
      rw [store_getElem?, if_pos rfl, set_getElem?]
      by_cases hic : i = cur
      · rw [if_pos hic, hic, hpp]
        exact ⟨_, rfl, rfl⟩
      · rw [if_neg hic, hc]
        exact ⟨_, rfl, rfl⟩
    · intro hic
      show ∃ pp', (store _ i join_cleared)[cur]? = some pp' ∧ _
      rw [store_getElem?, if_neg (fun h => hic h.symm), set_getElem?, if_pos rfl, hpp]
      by_cases h0 : pp.num_of_threads - 1 = 0
      · rw [if_pos h0]; exact ⟨_, rfl, rfl⟩
      · rw [if_neg h0]; exact ⟨_, rfl, rfl⟩
    · intro j hji hjc
      show (store _ i join_cleared)[j]? = _
      rw [store_getElem?, if_neg hji, set_getElem?, if_neg hjc]
  · intro hno
    unfold thread_join
    rw [join_scan_no_child cur thread k.ptable 0 false hno]
    rfl

/-- C16 (witness): in `zombie_thread_state` the caller in slot 1 joins its
thread with tid 3, which has exited with `retval` 11. -/
theorem thread_join_reaps_zombie_thread_witness :
    ∃ (i : Nat) (c : proc) (k' : Kernel),
      zombie_thread_state.ptable[i]? = some c ∧ c.pid = 3 ∧ c.retval = 11 ∧
      thread_join 10000 env_ok zombie_thread_state 1 3 =
        .ok (Outcome.returned c.pid, some c.retval, k', [MemCall.kfree c.kstack]) ∧
      (∃ q, k'.ptable[i]? = some q ∧ q.state = .UNUSED) := by
  obtain ⟨i, c, k', hc, hpar, htid, hzc, hfirst, hj, hu, _, _⟩ :=
    (thread_join_reaps_zombie_thread 10000 env_ok zombie_thread_state 1 3).1 _ rfl
      ⟨_, List.getElem?_mem (show zombie_thread_state.ptable[2]? = some _ from rfl),
        rfl, rfl, rfl⟩
      (by decide) (by decide)
  have h2 : zombie_thread_state.ptable[2]? = some c := by
    have hs := join_scan_first 1 3 zombie_thread_state.ptable 0 false i c hc hpar htid hzc hfirst
    have hs2 : join_scan 1 3 zombie_thread_state.ptable 0 false = .inl (2, _) := rfl
    rw [hs2] at hs
    simp only [Sum.inl.injEq, Prod.mk.injEq] at hs
    rw [← hs.2]
    rfl
  simp only [show zombie_thread_state.ptable[2]? = some _ from rfl, Option.some.injEq] at h2
  exact ⟨i, c, k', hc, by rw [← h2]; rfl, by rw [← h2]; rfl, hj, hu⟩

/-! ## The round trip `fork`, `exit`, `wait` -/

/-- Tables that agree slot by slot on being UNUSED have the same number of
UNUSED slots. -/
theorem unused_count_congr (ps ps' : List proc)
    (h : ps.map (fun p => decide (p.state = .UNUSED)) =
      ps'.map (fun p => decide (p.state = .UNUSED))) :
    unused_count ps = unused_count ps' := by
  have h2 := congrArg (List.countP (fun b => b)) h
  rw [List.countP_map, List.countP_map] at h2
  exact h2

/-- A successful `fork`: slot `c` is the first UNUSED slot, the caller is in
another slot, and `kalloc` and `copyuvm` do not return 0. -/
theorem fork_ok (env : Env) (k : Kernel) (P c : Nat) (pP p0 : proc)
    (hP : k.ptable[P]? = some pP) (hc : k.ptable[c]? = some p0) (hcs : p0.state = .UNUSED)
    (hcfirst : ∀ (j : Nat) (q : proc), j < c → k.ptable[j]? = some q → q.state ≠ .UNUSED)
    (hPc : P ≠ c) (hka : env.kalloc ≠ 0) (hcp : env.copyuvm pP.pgdir pP.sz ≠ 0) :
    fork env k P = .ok (k.nextpid,
      { k with nextpid := k.nextpid + 1, ptable := k.ptable.set c (forked p0 k.nextpid env.kalloc (env.copyuvm pP.pgdir pP.sz) pP.sz P) },
      []) := by
  unfold fork
  rw [allocproc_of_first_unused env.kalloc k c p0 hc hcs hcfirst, if_neg hka]
  simp only [if_neg hka]
  rw [set_getElem?, if_neg hPc, hP]
  simp only []
  rw [set_getElem?, if_pos rfl, hc]
  simp only [Option.map_some', if_neg hcp, List.set_set]
  rfl

/-- A slot of the table that `wakeup1` returns is a slot of the table it was
given, with the same parent, and it is ZOMBIE or UNUSED only if that one is. -/
theorem wakeup1_getElem?_some (chan : Option Chan) (ps : List proc) (j : Nat) (q : proc)
    (h : (wakeup1 chan ps)[j]? = some q) :
    ∃ q0, ps[j]? = some q0 ∧ q.parent = q0.parent ∧ (q.state = .ZOMBIE → q0.state = .ZOMBIE) ∧
      (q.state = .UNUSED ↔ q0.state = .UNUSED) := by
  rw [wakeup1_getElem?] at h
  cases h0 : ps[j]? with
  | none => rw [h0] at h; cases h
  | some q0 =>
    rw [h0] at h
    simp only [Option.map_some', Option.some.injEq] at h
    refine ⟨q0, rfl, ?_⟩
    by_cases hw : q0.state = .SLEEPING ∧ q0.chan = chan
    · rw [if_pos hw] at h
      rw [← h]
      refine ⟨rfl, (fun hz => by cases hz), ?_⟩
      constructor
      · intro hu; cases hu
      · intro hu; rw [hw.1] at hu; cases hu
    · rw [if_neg hw] at h
      rw [← h]
      exact ⟨rfl, fun hz => hz, Iff.rfl⟩

/-- The exit of a process without threads and without children: its parent is
woken and the process is ZOMBIE. -/
theorem exit_childless (TT : Int) (env : Env) (k : Kernel) (c : Nat) (p : proc)
    (hc : k.ptable[c]? = some p) (htid : p.tid = 0) (hnum : p.num_of_threads = 0)
    (hinit : k.initproc ≠ some c) (hno : ∀ q ∈ k.ptable, q.parent ≠ some c) :
    exit TT env k c = .ok
      ({ k with ptable := store (wakeup1 (chan_of p.parent) k.ptable) c (fun x => { x with state := .ZOMBIE }) },
        []) := by
  unfold exit
  rw [if_neg (fun h => hinit h.symm), hc]
  simp only [if_pos (And.intro htid hnum)]
  unfold exitProcAndProc
  have hno' : ∀ q ∈ wakeup1 (chan_of p.parent) k.ptable, q.parent ≠ some c := by
    intro q hq
    obtain ⟨j, hj⟩ := List.getElem?_of_mem hq
    obtain ⟨q0, hq0, hpar, _, _⟩ := wakeup1_getElem?_some _ _ j q hj
    rw [hpar]
    exact hno q0 (List.getElem?_mem hq0)
  simp only [reparent_no_child _ _ _ _ _ hno']

/-- C17 (counterexample): in `zombie_child_state` process P (slot 1) already has
an exited child (slot 2, pid 3).  P forks (the child gets slot 3 and pid 4, and
`fork` returns 4), the child exits, P calls `wait`: `wait` returns 3, the
pid of the older child, not the 4 that `fork` returned. -/
theorem wait_returns_older_zombie :
    (∃ k1 log, fork env_ok zombie_child_state 1 = .ok (4, k1, log) ∧
      slot_view k1 3 = some (.RUNNABLE, 4, 0, some 1, 9)) ∧
    ∃ ps, fork_exit_wait 10000 env_ok zombie_child_state 1 3 =
      .ok (4, Outcome.returned 3, ps) :=
  ⟨⟨_, _, rfl, rfl⟩, _, rfl⟩

/-- C17 (amended): the boot-and-exit round trip from a state in which process P
(slot `P`) has no ZOMBIE child in a slot before the first UNUSED slot `c`.  P
forks successfully (`kalloc` and `copyuvm` do not return 0), so that the child
gets slot `c`; the child, which is not init and to which no slot points as its
parent, exits; P calls `wait`.  Then `fork` returned the pid of the child,
`wait` returns that same pid, and the number of UNUSED slots is what it was
before the fork. -/
theorem fork_exit_wait_round_trip (TT : Int) (env : Env) (k : Kernel) (P c : Nat)
    (pP p0 : proc) (hP : k.ptable[P]? = some pP) (hPs : pP.state ≠ .UNUSED)
    (hc : k.ptable[c]? = some p0) (hcs : p0.state = .UNUSED)
    (hcfirst : ∀ (j : Nat) (q : proc), j < c → k.ptable[j]? = some q → q.state ≠ .UNUSED)
    (hka : env.kalloc ≠ 0) (hcp : env.copyuvm pP.pgdir pP.sz ≠ 0)
    (hinit : k.initproc ≠ some c) (hnochild : ∀ q ∈ k.ptable, q.parent ≠ some c)
    (hnoz : ∀ (j : Nat) (q : proc), j < c → k.ptable[j]? = some q → q.parent = some P →
      q.state ≠ .ZOMBIE)
    (hm : k.mlfq.share ≠ 0) :
    ∃ (pid : Int) (k1 k2 k3 : Kernel) (log1 log2 log3 : List MemCall),
      fork env k P = .ok (pid, k1, log1) ∧
      (∃ child, k1.ptable[c]? = some child ∧ child.pid = pid ∧ child.parent = some P ∧
        child.state = .RUNNABLE) ∧
      exit TT env k1 c = .ok (k2, log2) ∧
      wait TT k2 P = .ok (Outcome.returned pid, k3, log3) ∧
      unused_count k3.ptable = unused_count k.ptable := by
  have hPc : P ≠ c := by
    intro h
    rw [h, hc] at hP
    simp only [Option.some.injEq] at hP
    rw [hP] at hcs
    exact hPs hcs
  have hfork := fork_ok env k P c pP p0 hP hc hcs hcfirst hPc hka hcp
  generalize hchild : forked p0 k.nextpid env.kalloc (env.copyuvm pP.pgdir pP.sz) pP.sz P = child
    at hfork
  have hchpid : child.pid = k.nextpid := by rw [← hchild]; rfl
  have hchpar : child.parent = some P := by rw [← hchild]; rfl
  have hchst : child.state = .RUNNABLE := by rw [← hchild]; rfl
  have hchtid : child.tid = 0 := by rw [← hchild]; rfl
  have hchnum : child.num_of_threads = 0 := by rw [← hchild]; rfl
  have hchsh : child.share = 0 := by rw [← hchild]; rfl
  generalize hk1 : ({ k with nextpid := k.nextpid + 1, ptable := k.ptable.set c child } : Kernel) = k1
    at hfork
  have hk1t : k1.ptable = k.ptable.set c child := by rw [← hk1]
  have hk1i : k1.initproc = k.initproc := by rw [← hk1]
  have hk1m : k1.mlfq = k.mlfq := by rw [← hk1]
  have hc1 : k1.ptable[c]? = some child := by
    rw [hk1t, set_getElem?, if_pos rfl, hc]; rfl
  have hno1 : ∀ q ∈ k1.ptable, q.parent ≠ some c := by
    intro q hq
    rw [hk1t] at hq
    rcases List.mem_or_eq_of_mem_set hq with hq | hq
    · exact hnochild q hq
    · rw [hq, hchpar]
      intro h
      exact hPc (Option.some.inj h)
  have hexit := exit_childless TT env k1 c child hc1 hchtid hchnum (by rw [hk1i]; exact hinit) hno1
  generalize hk2 : ({ k1 with ptable := store (wakeup1 (chan_of child.parent) k1.ptable) c (fun x => { x with state := .ZOMBIE }) } : Kernel) = k2
    at hexit
  have hk2t : k2.ptable = store (wakeup1 (chan_of child.parent) k1.ptable) c (fun x => { x with state := .ZOMBIE }) := by
    rw [← hk2]
  have hk2m : k2.mlfq = k.mlfq := by rw [← hk2, ← hk1m]
  have hwc : (wakeup1 (chan_of child.parent) k1.ptable)[c]? = some child := by
    rw [wakeup1_getElem?, hc1]
    simp only [Option.map_some', Option.some.injEq]
    rw [if_neg]
    rw [hchst]
    intro h
    cases h.1
  have hc2 : k2.ptable[c]? = some { child with state := .ZOMBIE } := by
    rw [hk2t]
    exact store_getElem?_self _ c _ child hwc
  have hother : ∀ (j : Nat), j ≠ c → ∀ q, k2.ptable[j]? = some q →
      ∃ q0, k.ptable[j]? = some q0 ∧ q.parent = q0.parent ∧
        (q.state = .ZOMBIE → q0.state = .ZOMBIE) ∧ (q.state = .UNUSED ↔ q0.state = .UNUSED) := by
    intro j hj q hq
    rw [hk2t, store_getElem?_ne _ _ _ _ hj] at hq
    obtain ⟨q0, hq0, h1, h2, h3⟩ := wakeup1_getElem?_some _ _ j q hq
    rw [hk1t, set_getElem?, if_neg hj] at hq0
    exact ⟨q0, hq0, h1, h2, h3⟩
  have hscan := wait_scan_first P k2.ptable 0 false c _ hc2 hchpar rfl
    (by
      intro j q hj hq hqp hqz
      obtain ⟨q0, hq0, h1, h2, _⟩ := hother j (by omega) q hq
      exact hnoz j q0 hj hq0 (by rw [← h1]; exact hqp) (h2 hqz))
  rw [Nat.zero_add] at hscan
  have hne : k2.mlfq.share + ({ child with state := .ZOMBIE } : proc).share ≠ 0 := by
    show k2.mlfq.share + child.share ≠ 0
    rw [hk2m, hchsh]
    omega
  have hreap := wait_reap_ok TT k2 c { child with state := .ZOMBIE } hne
  have hwait : wait TT k2 P = .ok (Outcome.returned k.nextpid,
      { k2 with ptable := k2.ptable.set c { ({ child with state := .ZOMBIE } : proc) with kstack := 0, pid := 0, parent := none, killed := 0, state := .UNUSED, isMLFQ := false, quantum := 0, ticks := 0, level := 0, isStride := false, share := 0, stride := 0, pass := 0, tid := 0, num_of_threads := 0, sum_of_threads := 0, retval := 0 },
                mlfq := { k2.mlfq with share := k2.mlfq.share + child.share, stride := Int.tdiv TT (k2.mlfq.share + child.share) } },
      [MemCall.kfree child.kstack, MemCall.freevm child.pgdir]) := by
    unfold wait
    rw [hscan]
    show (wait_reap TT k2 c _ >>= _) = _
    rw [hreap]
    show Except.ok (Outcome.returned child.pid, _, _) = _
    rw [hchpid]
  refine ⟨k.nextpid, k1, k2, _, [], [], _, hfork, ⟨child, hc1, hchpid, hchpar, hchst⟩, hexit,
    hwait, ?_⟩
  apply unused_count_congr
  apply List.ext_getElem?
  intro j
  rw [List.getElem?_map, List.getElem?_map]
  show Option.map _ (k2.ptable.set c _)[j]? = _
  rw [set_getElem?]
  by_cases hj : j = c
  · rw [if_pos hj, hj, hc2, hc]
    simp only [Option.map_some', Option.some.injEq, decide_eq_decide]
    exact ⟨fun _ => hcs, fun _ => trivial⟩
  · rw [if_neg hj]
    cases hq : k2.ptable[j]? with
    | none =>
      have hlen : k2.ptable.length = k.ptable.length := by
        rw [hk2t, store_length, wakeup1_length, hk1t, List.length_set]
      have : k.ptable[j]? = none := by
        rw [List.getElem?_eq_none_iff] at hq ⊢
        omega
      rw [this]
    | some q =>
      obtain ⟨q0, hq0, _, _, h3⟩ := hother j hj q hq
      rw [hq0]
      simp only [Option.map_some', Option.some.injEq, decide_eq_decide]
      exact h3

/-- C17 (witness): in the boot state process A (slot 1) forks; the child gets
slot 4. -/
theorem fork_exit_wait_round_trip_witness :
    ∃ (pid : Int) (k1 k2 k3 : Kernel) (log1 log2 log3 : List MemCall),
      fork env_ok (boot_state 10000) 1 = .ok (pid, k1, log1) ∧
      (∃ child, k1.ptable[4]? = some child ∧ child.pid = pid ∧ child.parent = some 1 ∧
        child.state = .RUNNABLE) ∧
      exit 10000 env_ok k1 4 = .ok (k2, log2) ∧
      wait 10000 k2 1 = .ok (Outcome.returned pid, k3, log3) ∧
      unused_count k3.ptable = unused_count (boot_state 10000).ptable :=
  fork_exit_wait_round_trip 10000 env_ok (boot_state 10000) 1 4 _ _ rfl (by decide) rfl rfl
    (by
      intro j q hj hq
      interval_cases j <;> (injection hq with hq; rw [← hq]; decide))
    (by decide) (by decide) (by decide) (by decide)
    (by
      intro j q hj hq
      interval_cases j <;> (injection hq with hq; rw [← hq]; decide))
    (by decide)

/-! ## Failure paths and thread groups -/

/-- The failure paths of `fork` give the claimed slot back: in the boot state
the call by process A (slot 1) returns -1 when `kalloc` or `copyuvm` returns 0,
and slot 4, the slot it claimed, is UNUSED afterwards. -/
theorem fork_rolls_back :
    (∃ k', fork env_no_kstack (boot_state 10000) 1 = .ok (-1, k', []) ∧
      (k'.ptable[4]?.map (fun p => p.state)) = some .UNUSED) ∧
    (∃ k', fork env_no_copy (boot_state 10000) 1 = .ok (-1, k', [MemCall.kfree 9]) ∧
      (k'.ptable[4]?.map (fun p => p.state)) = some .UNUSED) :=
  ⟨⟨_, rfl, rfl⟩, ⟨_, rfl, rfl⟩⟩

/-- C18 (failing input): in the boot state process A (slot 1, size 4096, no
threads) calls `thread_create`.  When `allocuvm` returns 0 the call returns -1,
slot 4, which it claimed, is left EMBRYO, and the size of A is 0.  When
`copyout` fails the call returns -1, slot 4 is left EMBRYO, and A has size
12288 and thread counters 1. -/
theorem thread_create_failure_leaves_embryo :
    ((boot_state 10000).ptable[1]?.map
      (fun p => (p.sz, p.num_of_threads, p.sum_of_threads))) = some (4096, 0, 0) ∧
    ((boot_state 10000).ptable[4]?.map (fun p => p.state)) = some .UNUSED ∧
    (∃ k', thread_create 10000 env_no_pages (boot_state 10000) 1 = .ok (-1, none, k') ∧
      (k'.ptable[4]?.map (fun p => p.state)) = some .EMBRYO ∧
      (k'.ptable[1]?.map (fun p => (p.sz, p.num_of_threads, p.sum_of_threads))) =
        some (0, 0, 0)) ∧
    (∃ k', thread_create 10000 env_no_copyout (boot_state 10000) 1 = .ok (-1, some 5, k') ∧
      (k'.ptable[4]?.map (fun p => p.state)) = some .EMBRYO ∧
      (k'.ptable[1]?.map (fun p => (p.sz, p.num_of_threads, p.sum_of_threads))) =
        some (12288, 1, 1)) :=
  ⟨rfl, rfl, ⟨_, rfl, rfl, rfl⟩, ⟨_, rfl, rfl, rfl⟩⟩

/-- C19 (failing input): the boot state satisfies invariant I1; process A
(slot 1) calls `thread_create`, which gives the thread of slot 4 (tid 5, parent
slot 1), and I1 still holds; that thread calls `thread_create`, which gives the
thread of slot 5 (tid 6) whose parent is slot 4, a slot with tid 5: I1 does not
hold any more. -/
theorem thread_of_thread_breaks_invariant :
    ThreadGroupInv (boot_state 10000) ∧
    ∃ k1 k2, nested_threads = .ok (k1, k2) ∧ ThreadGroupInv k1 ∧
      slot_view k2 4 = some (.RUNNABLE, 5, 5, some 1, 2) ∧
      slot_view k2 5 = some (.RUNNABLE, 6, 6, some 4, 2) ∧
      ¬ ThreadGroupInv k2 :=
  ⟨by unfold ThreadGroupInv; decide, _, _, rfl, by unfold ThreadGroupInv; decide, rfl, rfl,
    by unfold ThreadGroupInv; decide⟩

/-- C20 (failing input): from the boot state process A (slot 1, page directory
2) creates a thread (slot 4, tid 5, the same page directory), the thread calls
`thread_exit`, and A calls `wait`.  `wait` returns the pid 5 of the thread:
it has set the slot of the thread, whose tid is 5, to UNUSED and has called
`freevm` on page directory 2, which A itself still runs on. -/
theorem wait_reaps_zombie_thread :
    ∃ k2 k3, wait_for_thread =
        .ok (k2, Outcome.returned 5, k3, [MemCall.kfree 9, MemCall.freevm 2]) ∧
      slot_view k2 4 = some (.ZOMBIE, 5, 5, some 1, 2) ∧
      slot_view k2 1 = some (.RUNNABLE, 2, 0, some 0, 2) ∧
      slot_view k3 4 = some (.UNUSED, 0, 0, none, 2) ∧
      slot_view k3 1 = some (.RUNNABLE, 2, 0, some 0, 2) :=
  ⟨_, _, rfl, rfl, rfl, rfl, rfl⟩

/-- In the boot state `kill(1)` returns 0 and marks init (slot 0,
asleep), which is RUNNABLE afterwards; `kill(99)` returns -1 and changes
nothing. -/
theorem kill_marks_task_witness :
    (kill (boot_state 10000) 1).1 = 0 ∧
    (((kill (boot_state 10000) 1).2.ptable[0]?).map (fun p => (p.killed, p.state))) =
      some (1, .RUNNABLE) ∧
    kill (boot_state 10000) 99 = (-1, boot_state 10000) :=
  ⟨((kill_marks_task (boot_state 10000) 1).1
      ⟨_, List.getElem?_mem (show (boot_state 10000).ptable[0]? = some _ from rfl), rfl⟩).1,
    rfl, (kill_marks_task (boot_state 10000) 99).2 (by decide)⟩

/-- C13 (witness): in the boot state, with a kernel stack at address 9,
`allocproc` claims slot 4, the first UNUSED slot, and gives it pid 5. -/
theorem allocproc_claims_first_unused_witness :
    (allocproc 9 (boot_state 10000)).1 = some 4 ∧
    ((allocproc 9 (boot_state 10000)).2.ptable[4]?.map (fun p => (p.state, p.pid))) =
      some (.EMBRYO, 5) ∧
    (allocproc 9 (boot_state 10000)).2.nextpid = 6 := by
  have h := (allocproc_claims_first_unused 9 (boot_state 10000)).2.2 4 _ rfl rfl
    (by
      intro j q hj hq
      interval_cases j <;> (injection hq with hq; rw [← hq]; decide))
  rw [h]
  exact ⟨rfl, rfl, rfl⟩

/-- C15 (witness): in the boot state process A (slot 1) has no child, and its
`wait` returns -1; after `kill(1)` init (slot 0) is killed and has three live
children, and its `wait` returns -1.  Nothing is changed in either case. -/
theorem wait_fails_unchanged_witness :
    wait 10000 (boot_state 10000) 1 = .ok (Outcome.returned (-1), boot_state 10000, []) ∧
    wait 10000 (kill (boot_state 10000) 1).2 0 =
      .ok (Outcome.returned (-1), (kill (boot_state 10000) 1).2, []) :=
  ⟨(wait_fails_unchanged 10000 (boot_state 10000) 1).1 (by decide),
    (wait_fails_unchanged 10000 (kill (boot_state 10000) 1).2 0).2 _ rfl (by decide)
      (by decide)⟩

/-! ## Exit with threads, stale stride slots, division by zero -/

/-- C23 (failing input): from the boot state process A (slot 1, child of init
in slot 0) creates a thread (slot 4) and forks a child process (slot 5), and
calls `exit`.  Afterwards the thread slot is UNUSED, A is ZOMBIE and init has
been woken, but the parent of the child process is still slot 1: it has not
been passed to init. -/
theorem exit_with_threads_keeps_children :
    ∃ k2 k3, exit_with_thread_and_child = .ok (k2, k3) ∧
      slot_view k2 1 = some (.RUNNABLE, 2, 0, some 0, 2) ∧
      slot_view k2 4 = some (.RUNNABLE, 5, 5, some 1, 2) ∧
      slot_view k2 5 = some (.RUNNABLE, 6, 0, some 1, 11) ∧
      k3.initproc = some 0 ∧
      slot_view k3 0 = some (.RUNNABLE, 1, 0, none, 1) ∧
      slot_view k3 1 = some (.ZOMBIE, 2, 0, some 0, 2) ∧
      slot_view k3 4 = some (.UNUSED, 0, 0, none, 2) ∧
      slot_view k3 5 = some (.RUNNABLE, 6, 0, some 1, 11) :=
  ⟨_, _, rfl, rfl, rfl, rfl, rfl, rfl, rfl, rfl, rfl⟩

/-- C26 (failing input): in `thread_state 10000` process P (slot 1) has two
threads and `mlfq.share` is 100.  Its request `set_cpu_share(1)` passes both
admission checks; the share of each task is 1 / 2 = 0, and the division
`TOTALTICKET / share` that follows has the divisor 0. -/
theorem set_cpu_share_divides_by_zero :
    ((thread_state 10000).ptable[1]?.map (fun p => (p.tid, p.num_of_threads))) = some (0, 2) ∧
    (0 : Int) < 1 ∧ (20 : Int) ≤ (thread_state 10000).mlfq.share - 1 ∧
    cdiv 1 2 = .ok 0 ∧ cdiv 10000 0 = .error .divide_error ∧
    set_cpu_share 10000 (thread_state 10000) 1 1 = .error .divide_error :=
  ⟨rfl, by decide, by decide, rfl, rfl, rfl⟩

/-- C28 (failing input): in `thread_state 10000` no UNUSED slot is in the stride
set.  Process P (slot 1) asks for a share of 40, which makes its threads (slots
2 and 3) stride tasks, and the scheduler runs them: their pass is 500.  After
`thread_exit` by the thread of slot 2 and `thread_join` by P, slot 2 is UNUSED
with `isStride` still set and pass 500; after `exit` by P instead, the slots 2
and 3 are UNUSED with `isStride` still set and pass 500. -/
theorem reaped_thread_stays_in_stride_set :
    UnusedOutOfStride (thread_state 10000) ∧
    ∃ k2 k4 k5, reap_stride_threads = .ok (k2, k4, k5) ∧
      UnusedOutOfStride k2 ∧
      stride_view k2 2 = some (.RUNNABLE, true, 500) ∧
      stride_view k4 2 = some (.UNUSED, true, 500) ∧ ¬ UnusedOutOfStride k4 ∧
      stride_view k5 2 = some (.UNUSED, true, 500) ∧
      stride_view k5 3 = some (.UNUSED, true, 500) ∧ ¬ UnusedOutOfStride k5 :=
  ⟨by unfold UnusedOutOfStride; decide, _, _, _, rfl, by unfold UnusedOutOfStride; decide, rfl,
    rfl, by unfold UnusedOutOfStride; decide, rfl, rfl, by unfold UnusedOutOfStride; decide⟩

/-! ## `exit` of a process without threads -/

/-- A slot of the table that `wakeup1` returns: the slot it was given, with
state RUNNABLE if that one was SLEEPING on the channel. -/
theorem wakeup1_slot (chan : Option Chan) (ps : List proc) (j : Nat) (p : proc)
    (h : ps[j]? = some p) :
    ∃ p', (wakeup1 chan ps)[j]? = some p' ∧ p' = { p with state := p'.state } ∧
      (p.state = .SLEEPING → p.chan = chan → p'.state = .RUNNABLE) ∧
      (p'.state = p.state ∨ (p.state = .SLEEPING ∧ p.chan = chan ∧ p'.state = .RUNNABLE)) := by
  rw [wakeup1_getElem?, h]
  by_cases hw : p.state = .SLEEPING ∧ p.chan = chan
  · refine ⟨{ p with state := .RUNNABLE }, by simp [hw], rfl, fun _ _ => rfl,
      Or.inr ⟨hw.1, hw.2, rfl⟩⟩
  · refine ⟨p, by simp [hw], rfl, fun h1 h2 => absurd ⟨h1, h2⟩ hw, Or.inl rfl⟩

/-- What the reparenting loop over the slots `i`, ..., `i + n - 1` does to a
slot: its parent becomes `initproc` if the slot is in that range and its parent
was the caller; its state becomes RUNNABLE at most, and only if it was SLEEPING
on `initproc`, which it does when a slot of the range is a ZOMBIE child of the
caller; no other field changes. -/
theorem reparent_slot (initproc : Option Nat) (cur n i : Nat) (ps : List proc) (j : Nat)
    (p : proc) (h : ps[j]? = some p) :
    ∃ p', (reparent initproc cur n i ps)[j]? = some p' ∧
      p'.parent = (if i ≤ j ∧ j < i + n ∧ p.parent = some cur then initproc else p.parent) ∧
      p' = { p with parent := p'.parent, state := p'.state } ∧
      (p'.state = p.state ∨
        (p.state = .SLEEPING ∧ p.chan = chan_of initproc ∧ p'.state = .RUNNABLE)) ∧
      ((∃ (m : Nat) (q : proc), i ≤ m ∧ m < i + n ∧ ps[m]? = some q ∧ q.parent = some cur ∧
          q.state = .ZOMBIE) →
        p.state = .SLEEPING → p.chan = chan_of initproc → p'.state = .RUNNABLE) := by
  induction n generalizing i ps p with
  | zero =>
    refine ⟨p, h, ?_, rfl, Or.inl rfl, ?_⟩
    · rw [if_neg]; omega
    · rintro ⟨m, q, h1, h2, _⟩; omega
  | succ n ih =>
    unfold reparent
    -- the loop continues on the same table
    have hsame : (ps[i]? = none ∨ ∃ a, ps[i]? = some a ∧ a.parent ≠ some cur) →
        ∃ p', (reparent initproc cur n (i + 1) ps)[j]? = some p' ∧
          p'.parent =
            (if i ≤ j ∧ j < i + (n + 1) ∧ p.parent = some cur then initproc else p.parent) ∧
          p' = { p with parent := p'.parent, state := p'.state } ∧
          (p'.state = p.state ∨
            (p.state = .SLEEPING ∧ p.chan = chan_of initproc ∧ p'.state = .RUNNABLE)) ∧
          ((∃ (m : Nat) (q : proc), i ≤ m ∧ m < i + (n + 1) ∧ ps[m]? = some q ∧
              q.parent = some cur ∧ q.state = .ZOMBIE) →
            p.state = .SLEEPING → p.chan = chan_of initproc → p'.state = .RUNNABLE) := by
      intro hi
      obtain ⟨p', h1, h2, h3, h4, h5⟩ := ih (i + 1) ps p h
      have hji : j = i → p.parent ≠ some cur := by
        intro hj
        rcases hi with hi | ⟨a, ha, hap⟩
        · rw [hj, hi] at h; cases h
        · rw [hj, ha] at h
          simp only [Option.some.injEq] at h
          rw [← h]; exact hap
      refine ⟨p', h1, ?_, h3, h4, ?_⟩
      · rw [h2]
        by_cases hp : p.parent = some cur
        · have hne : j ≠ i := fun hj => hji hj hp
          by_cases hr : i + 1 ≤ j ∧ j < i + 1 + n ∧ p.parent = some cur
          · rw [if_pos hr, if_pos ⟨by omega, by omega, hp⟩]
          · rw [if_neg hr, if_neg]
            intro hc
            exact hr ⟨by omega, by omega, hp⟩
        · rw [if_neg (fun hc => hp hc.2.2), if_neg (fun hc => hp hc.2.2)]
      · rintro ⟨m, q, hm1, hm2, hq, hqp, hqz⟩
        apply h5
        refine ⟨m, q, ?_, by omega, hq, hqp, hqz⟩
        by_contra hcon
        have hmi : m = i := by omega
        rcases hi with hi | ⟨a, ha, hap⟩
        · rw [hmi, hi] at hq; cases hq
        · rw [hmi, ha] at hq
          simp only [Option.some.injEq] at hq
          rw [← hq] at hqp; exact hap hqp
    cases ha : ps[i]? with
    | none => exact hsame (Or.inl ha)
    | some a =>
      by_cases hap : a.parent = some cur
      · simp only [if_pos hap]
        -- the table on which the loop continues
        generalize hps2 : (if a.state = .ZOMBIE
            then wakeup1 (chan_of initproc) (ps.set i { a with parent := initproc })
            else ps.set i { a with parent := initproc }) = ps2
        -- the slot `j` of that table
        have hset : (ps.set i { a with parent := initproc })[j]? =
            some (if j = i then { a with parent := initproc } else p) := by
          rw [set_getElem?]
          by_cases hj : j = i
          · rw [if_pos hj, if_pos hj, h]; rfl
          · rw [if_neg hj, if_neg hj, h]
        have hmid : ∃ p2, ps2[j]? = some p2 ∧
            p2.parent = (if j = i then initproc else p.parent) ∧
            p2 = { p with parent := p2.parent, state := p2.state } ∧
            (p2.state = p.state ∨
              (p.state = .SLEEPING ∧ p.chan = chan_of initproc ∧ p2.state = .RUNNABLE)) ∧
            (a.state = .ZOMBIE → p.state = .SLEEPING → p.chan = chan_of initproc →
              p2.state = .RUNNABLE) := by
          have hpa : j = i → p = a := by
            intro hj
            rw [hj, ha] at h
            exact (Option.some.inj h).symm
          by_cases hz : a.state = .ZOMBIE
          · rw [if_pos hz] at hps2
            obtain ⟨p2, g1, g2, g3, g4⟩ := wakeup1_slot (chan_of initproc) _ j _ hset
            rw [hps2] at g1
            by_cases hj : j = i
            · rw [if_pos hj] at g2 g3 g4
              rw [← hpa hj] at g2 g3 g4
              refine ⟨p2, g1, ?_, ?_, g4, fun _ => g3⟩
              · rw [if_pos hj, g2]
              · rw [g2]
            · rw [if_neg hj] at g2 g3 g4
              refine ⟨p2, g1, ?_, ?_, g4, fun _ => g3⟩
              · rw [if_neg hj, g2]
              · rw [g2]
          · rw [if_neg hz] at hps2
            rw [hps2] at hset
            by_cases hj : j = i
            · rw [if_pos hj] at hset
              rw [← hpa hj] at hset
              exact ⟨_, hset, by rw [if_pos hj], rfl, Or.inl rfl, fun h' => absurd h' hz⟩
            · rw [if_neg hj] at hset
              exact ⟨_, hset, by rw [if_neg hj], rfl, Or.inl rfl, fun h' => absurd h' hz⟩
        obtain ⟨p2, hp2, m1, m2, m3, m4⟩ := hmid
        obtain ⟨p', h1, h2, h3, h4, h5⟩ := ih (i + 1) ps2 p2 hp2
        have hstate : p'.state = p.state ∨
            (p.state = .SLEEPING ∧ p.chan = chan_of initproc ∧ p'.state = .RUNNABLE) := by
          have hchan : p2.chan = p.chan := by rw [m2]
          rcases m3 with m3 | ⟨s1, s2, s3⟩
          · rcases h4 with h4 | ⟨t1, t2, t3⟩
            · exact Or.inl (h4.trans m3)
            · exact Or.inr ⟨m3 ▸ t1, hchan ▸ t2, t3⟩
          · rcases h4 with h4 | ⟨t1, _, _⟩
            · exact Or.inr ⟨s1, s2, h4.trans s3⟩
            · rw [s3] at t1; cases t1
        refine ⟨p', h1, ?_, ?_, hstate, ?_⟩
        · rw [h2, m1]
          by_cases hj : j = i
          · rw [if_pos hj, if_neg (by omega), if_pos]
            refine ⟨by omega, by omega, ?_⟩
            have : p = a := by rw [hj, ha] at h; exact (Option.some.inj h).symm
            rw [this]; exact hap
          · rw [if_neg hj]
            by_cases hr : i + 1 ≤ j ∧ j < i + 1 + n ∧ p.parent = some cur
            · rw [if_pos hr, if_pos ⟨by omega, by omega, hr.2.2⟩]
            · rw [if_neg hr, if_neg]
              intro hc
              exact hr ⟨by omega, by omega, hc.2.2⟩
        · rw [h3, m2]
        · rintro ⟨m, q, hm1, hm2, hq, hqp, hqz⟩ hs hch
          rcases hstate with hst | ⟨_, _, hst⟩
          · -- the slot is still SLEEPING at the end only if nothing woke it
            by_cases hmi : m = i
            · have hqa : q = a := by rw [hmi, ha] at hq; exact (Option.some.inj hq).symm
              have h2r := m4 (hqa ▸ hqz) hs hch
              rcases h4 with h4 | ⟨t1, _, _⟩
              · exact h4.trans h2r
              · rw [h2r] at t1; cases t1
            · rcases m3 with m3 | ⟨_, _, s3⟩
              · -- the table of the rest of the loop still has the ZOMBIE child
                have hq2 : ∃ q2, ps2[m]? = some q2 ∧ q2.parent = some cur ∧
                    q2.state = .ZOMBIE := by
                  have hsetm : (ps.set i { a with parent := initproc })[m]? = some q := by
                    rw [set_getElem?, if_neg hmi, hq]
                  by_cases hz : a.state = .ZOMBIE
                  · rw [if_pos hz] at hps2
                    obtain ⟨q2, g1, g2, _, g4⟩ := wakeup1_slot (chan_of initproc) _ m _ hsetm
                    rw [hps2] at g1
                    refine ⟨q2, g1, by rw [g2]; exact hqp, ?_⟩
                    rcases g4 with g4 | ⟨g5, _, _⟩
                    · exact g4.trans hqz
                    · rw [hqz] at g5; cases g5
                  · rw [if_neg hz] at hps2
                    rw [hps2] at hsetm
                    exact ⟨q, hsetm, hqp, hqz⟩
                obtain ⟨q2, hq2, hq2p, hq2z⟩ := hq2
                exact h5 ⟨m, q2, by omega, by omega, hq2, hq2p, hq2z⟩ (m3.trans hs)
                  (by rw [m2]; exact hch)
              · rcases h4 with h4 | ⟨t1, _, _⟩
                · exact h4.trans s3
                · rw [s3] at t1; cases t1
          · exact hst
      · simp only [if_neg hap]
        exact hsame (Or.inr ⟨a, ha, hap⟩)

/-- C21: `exit` by a process without threads (slot `cur`, not init, `tid == 0`,
`num_of_threads == 0`) enters the scheduler in a state in which the caller is
ZOMBIE; every slot whose parent was the caller has `initproc` as its parent,
and every other slot has the parent it had; every other slot that was SLEEPING
on the parent of the caller is RUNNABLE; if a child of the caller was ZOMBIE,
every other slot that was SLEEPING on `initproc` is RUNNABLE; a slot that is
UNUSED afterwards was UNUSED before; and nothing but the parent and the state
of a slot has changed.  No memory is given back. -/
theorem exit_of_process_without_threads (TT : Int) (env : Env) (k : Kernel) (cur : Nat)
    (c : proc) (hc : k.ptable[cur]? = some c) (hinit : k.initproc ≠ some cur)
    (htid : c.tid = 0) (hnum : c.num_of_threads = 0) :
    ∃ k', exit TT env k cur = .ok (k', []) ∧
      k'.mlfq = k.mlfq ∧ k'.nextpid = k.nextpid ∧ k'.initproc = k.initproc ∧
      k'.ptable.length = k.ptable.length ∧
      (∃ c', k'.ptable[cur]? = some c' ∧ c'.state = .ZOMBIE) ∧
      ∀ (j : Nat) (p : proc), k.ptable[j]? = some p →
        ∃ p', k'.ptable[j]? = some p' ∧
          (p.parent = some cur → p'.parent = k.initproc) ∧
          (p.parent ≠ some cur → p'.parent = p.parent) ∧
          (j ≠ cur → p.state = .SLEEPING → p.chan = chan_of c.parent →
            p'.state = .RUNNABLE) ∧
          (j ≠ cur → (∃ q ∈ k.ptable, q.parent = some cur ∧ q.state = .ZOMBIE) →
            p.state = .SLEEPING → p.chan = chan_of k.initproc → p'.state = .RUNNABLE) ∧
          (p'.state = .UNUSED → p.state = .UNUSED) ∧
          p' = { p with parent := p'.parent, state := p'.state } := by
  have hex : exit TT env k cur = .ok (exitProcAndProc k cur c, []) := by
    unfold exit
    rw [if_neg (fun h => hinit h.symm), hc]
    simp only [if_pos (And.intro htid hnum)]
  -- every slot, through the three steps of `exitProcAndProc`
  have hslot : ∀ (j : Nat) (p : proc), k.ptable[j]? = some p →
      ∃ p1 p2, (wakeup1 (chan_of c.parent) k.ptable)[j]? = some p1 ∧
        p1 = { p with state := p1.state } ∧
        (p.state = .SLEEPING → p.chan = chan_of c.parent → p1.state = .RUNNABLE) ∧
        (p1.state = p.state ∨ p1.state = .RUNNABLE) ∧
        (reparent k.initproc cur (wakeup1 (chan_of c.parent) k.ptable).length 0
          (wakeup1 (chan_of c.parent) k.ptable))[j]? = some p2 ∧
        p2.parent = (if p.parent = some cur then k.initproc else p.parent) ∧
        p2 = { p with parent := p2.parent, state := p2.state } ∧
        (p2.state = p1.state ∨ p2.state = .RUNNABLE) ∧
        ((∃ q ∈ k.ptable, q.parent = some cur ∧ q.state = .ZOMBIE) →
          p.state = .SLEEPING → p.chan = chan_of k.initproc → p2.state = .RUNNABLE) := by
    intro j p hp
    have hj : j < k.ptable.length := by
      by_contra hcon
      rw [List.getElem?_eq_none (by omega)] at hp
      cases hp
    obtain ⟨p1, g1, g2, g3, g4⟩ := wakeup1_slot (chan_of c.parent) k.ptable j p hp
    obtain ⟨p2, r1, r2, r3, r4, r5⟩ := reparent_slot k.initproc cur
      (wakeup1 (chan_of c.parent) k.ptable).length 0 _ j p1 g1
    have hpar1 : p1.parent = p.parent := by rw [g2]
    have hchan1 : p1.chan = p.chan := by rw [g2]
    refine ⟨p1, p2, g1, g2, g3, ?_, r1, ?_, ?_, ?_, ?_⟩
    · rcases g4 with g4 | ⟨_, _, g4⟩
      · exact Or.inl g4
      · exact Or.inr g4
    · rw [r2, hpar1]
      by_cases hpc : p.parent = some cur
      · rw [if_pos hpc, if_pos ⟨by omega, by rw [wakeup1_length]; omega, hpc⟩]
      · rw [if_neg hpc, if_neg (fun h => hpc h.2.2)]
    · rw [r3, g2]
    · rcases r4 with r4 | ⟨_, _, r4⟩
      · exact Or.inl r4
      · exact Or.inr r4
    · rintro ⟨q, hq, hqp, hqz⟩ hs hch
      obtain ⟨m, hm⟩ := List.getElem?_of_mem hq
      have hm' : m < k.ptable.length := by
        by_contra hcon
        rw [List.getElem?_eq_none (by omega)] at hm
        cases hm
      obtain ⟨q1, e1, e2, _, e4⟩ := wakeup1_slot (chan_of c.parent) k.ptable m q hm
      have hq1z : q1.state = .ZOMBIE := by
        rcases e4 with e4 | ⟨e5, _, _⟩
        · exact e4.trans hqz
        · rw [hqz] at e5; cases e5
      have hq1p : q1.parent = some cur := by rw [e2]; exact hqp
      rcases g4 with g4 | ⟨_, _, g4⟩
      · exact r5 ⟨m, q1, by omega, by rw [wakeup1_length]; omega, e1, hq1p, hq1z⟩
          (g4.trans hs) (hchan1.trans hch)
      · rcases r4 with r4 | ⟨t1, _, _⟩
        · exact r4.trans g4
        · rw [g4] at t1; cases t1
  have hlen : (exitProcAndProc k cur c).ptable.length = k.ptable.length := by
    show (store _ cur _).length = _
    rw [store_length, reparent_length, wakeup1_length]
  refine ⟨_, hex, rfl, rfl, rfl, hlen, ?_, ?_⟩
  · obtain ⟨p1, p2, _, _, _, _, r1, _⟩ := hslot cur c hc
    exact ⟨_, store_getElem?_self _ cur _ p2 r1, rfl⟩
  · intro j p hp
    obtain ⟨p1, p2, g1, g2, g3, g4, r1, r2, r3, r4, r5⟩ := hslot j p hp
    have hst2 : p2.state = p.state ∨ p2.state = .RUNNABLE := by
      rcases r4 with r4 | r4
      · rcases g4 with g4 | g4
        · exact Or.inl (r4.trans g4)
        · exact Or.inr (r4.trans g4)
      · exact Or.inr r4
    by_cases hjc : j = cur
    · have hget : (exitProcAndProc k cur c).ptable[j]? = some { p2 with state := .ZOMBIE } := by
        rw [hjc] at r1 ⊢
        exact store_getElem?_self _ cur _ p2 r1
      refine ⟨_, hget, ?_, ?_, fun h => absurd hjc h, fun h => absurd hjc h, ?_, ?_⟩
      · intro hpc
        show p2.parent = _
        rw [r2, if_pos hpc]
      · intro hpc
        show p2.parent = _
        rw [r2, if_neg hpc]
      · intro h; cases h
      · show ({ p2 with state := .ZOMBIE } : proc) = { p with parent := p2.parent, state := .ZOMBIE }
        rw [r3]
    · have hget : (exitProcAndProc k cur c).ptable[j]? = some p2 := by
        show (store _ cur _)[j]? = _
        rw [store_getElem?_ne _ _ _ _ hjc]
        exact r1
      refine ⟨p2, hget, ?_, ?_, ?_, ?_, ?_, r3⟩
      · intro hpc; rw [r2, if_pos hpc]
      · intro hpc; rw [r2, if_neg hpc]
      · intro _ hs hch
        have h1 := g3 hs hch
        rcases r4 with r4 | r4
        · exact r4.trans h1
        · exact r4
      · intro _ hz hs hch
        exact r5 hz hs hch
      · intro hu
        rcases hst2 with h | h
        · exact h ▸ hu
        · rw [h] at hu; cases hu

/-- C21 (witness): in `zombie_child_state` process P (slot 1, child of init) has
a ZOMBIE child in slot 2 and calls `exit`. -/
theorem exit_of_process_without_threads_witness :
    ∃ k', exit 10000 env_ok zombie_child_state 1 = .ok (k', []) ∧
      (∃ c', k'.ptable[1]? = some c' ∧ c'.state = .ZOMBIE) ∧
      (∃ p', k'.ptable[2]? = some p' ∧ p'.parent = some 0) ∧
      (∃ p', k'.ptable[0]? = some p' ∧ p'.state = .RUNNABLE) := by
  obtain ⟨k', h, _, _, _, _, hz, hall⟩ :=
    exit_of_process_without_threads 10000 env_ok zombie_child_state 1 _ rfl (by decide) rfl rfl
  obtain ⟨p2, g1, g2, _⟩ := hall 2 _ rfl
  obtain ⟨p0, e1, _, _, e2, _⟩ := hall 0 _ rfl
  exact ⟨k', h, hz, ⟨p2, g1, g2 rfl⟩, ⟨p0, e1, e2 (by decide) rfl rfl⟩⟩

/-! ## `exit` of a process with threads -/

/-- The caller of `exitProcAndLWP` after `m` of its threads have been torn
down: `num_of_threads` is `m` less; if the counter has passed 0 on the way, the
size is what `deallocuvm` returned for a shrink by `2 * sum_of_threads` pages
and `sum_of_threads` is 0; nothing else has changed. -/
theorem drop_thread_iterate (env : Env) (c : proc) (m : Nat) :
    ((drop_thread env)^[m] c).num_of_threads = c.num_of_threads - m ∧
    (drop_thread env)^[m] c =
      { c with num_of_threads := ((drop_thread env)^[m] c).num_of_threads,
               sz := ((drop_thread env)^[m] c).sz,
               sum_of_threads := ((drop_thread env)^[m] c).sum_of_threads } ∧
    ((1 ≤ c.num_of_threads ∧ c.num_of_threads ≤ m) →
      ((drop_thread env)^[m] c).sz =
        env.deallocuvm c.pgdir c.sz (usub c.sz (2 * c.sum_of_threads * env.PGSIZE)) ∧
      ((drop_thread env)^[m] c).sum_of_threads = 0) ∧
    (¬ (1 ≤ c.num_of_threads ∧ c.num_of_threads ≤ m) →
      ((drop_thread env)^[m] c).sz = c.sz ∧
      ((drop_thread env)^[m] c).sum_of_threads = c.sum_of_threads) := by
  induction m with
  | zero =>
    refine ⟨by simp, rfl, fun h => by omega, fun _ => ⟨rfl, rfl⟩⟩
  | succ m ih =>
    rw [Function.iterate_succ_apply']
    generalize (drop_thread env)^[m] c = d at ih
    obtain ⟨h1, h2, h3, h4⟩ := ih
    have hpg : d.pgdir = c.pgdir := by rw [h2]
    unfold drop_thread
    by_cases h0 : d.num_of_threads - 1 = 0
    · simp only [h0, if_true]
      have hnot : ¬ (1 ≤ c.num_of_threads ∧ c.num_of_threads ≤ (m : Int)) := by omega
      obtain ⟨h5, h6⟩ := h4 hnot
      refine ⟨by push_cast; omega, ?_, fun _ => ⟨by rw [hpg, h5, h6], trivial⟩,
        fun h => by push_cast at h; omega⟩
      rw [h2]
    · simp only [h0, if_false]
      refine ⟨by show d.num_of_threads - 1 = _; push_cast; omega, ?_, ?_, ?_⟩
      · show ({ d with num_of_threads := d.num_of_threads - 1 } : proc) = _
        rw [h2]
      · intro h
        exact h3 ⟨h.1, by push_cast at h; omega⟩
      · intro h
        exact h4 (fun h' => h ⟨h'.1, by push_cast; omega⟩)

/-- The thread children among the first `i + 1` slots. -/
theorem take_succ_threads (cur : Nat) (ps : List proc) (i : Nat) (p : proc)
    (h : ps[i]? = some p) :
    (ps.take (i + 1)).filter (is_thread_of cur) =
      (ps.take i).filter (is_thread_of cur) ++ (if is_thread_of cur p = true then [p] else []) := by
  rw [List.take_succ, h, List.filter_append]
  congr 1
  by_cases hp : is_thread_of cur p = true
  · simp [hp]
  · simp [hp]

/-- One more slot in the count of thread shares. -/
theorem thread_share_sum_succ (cur : Nat) (ps : List proc) (i : Nat) (p : proc)
    (h : ps[i]? = some p) :
    thread_share_sum cur (ps.take (i + 1)) =
      thread_share_sum cur (ps.take i) + (if is_thread_of cur p = true then p.share else 0) := by
  unfold thread_share_sum
  rw [take_succ_threads cur ps i p h, List.map_append, List.sum_append]
  by_cases hp : is_thread_of cur p = true
  · simp [hp]
  · simp [hp]

/-- The first loop of `exitProcAndLWP` returns and keeps `TeardownInv`, when
`mlfq.share` is positive and no thread of the caller has a negative share. -/
theorem exitProcAndLWP_loop_spec (TT : Int) (env : Env) (cur : Nat) (k0 : Kernel) (c : proc)
    (hc : k0.ptable[cur]? = some c) (htid : c.tid = 0) (hm : 0 < k0.mlfq.share)
    (hsh : ∀ p ∈ k0.ptable, is_thread_of cur p = true → 0 ≤ p.share)
    (n i : Nat) (s : Kernel × List MemCall) (hin : i + n = k0.ptable.length)
    (hinv : TeardownInv env cur k0 c i s) :
    ∃ s', exitProcAndLWP_loop TT env cur n i s = .ok s' ∧
      TeardownInv env cur k0 c (i + n) s' := by
  induction n generalizing i s with
  | zero => exact ⟨s, rfl, hinv⟩
  | succ n ih =>
    obtain ⟨hlen, hslots, hcur, hshare, hpos, hini⟩ := hinv
    have hi : i < k0.ptable.length := by omega
    have hp0 : k0.ptable[i]? = some (k0.ptable[i]) := List.getElem?_eq_getElem hi
    generalize k0.ptable[i] = p at hp0
    -- the invariant at `i + 1` when slot `i` is passed over
    have hskip : is_thread_of cur p = false → TeardownInv env cur k0 c (i + 1) s := by
      intro hnt
      refine ⟨hlen, ?_, ?_, ?_, ?_, hini⟩
      · intro j q hq hj
        rw [hslots j q hq hj]
        by_cases hji : j = i
        · have : q = p := by rw [hji, hp0] at hq; exact (Option.some.inj hq).symm
          rw [this, hnt]
          simp
        · by_cases hq' : is_thread_of cur q = true
          · by_cases hlt : j < i
            · rw [if_pos ⟨hlt, hq'⟩, if_pos ⟨by omega, hq'⟩]
            · rw [if_neg (fun h => hlt h.1), if_neg (fun h => hlt (by omega))]
          · rw [if_neg (fun h => hq' h.2), if_neg (fun h => hq' h.2)]
      · rw [take_succ_threads cur k0.ptable i p hp0, hnt]
        simpa using hcur
      · rw [thread_share_sum_succ cur k0.ptable i p hp0, hnt]
        simpa using hshare
      · rw [thread_share_sum_succ cur k0.ptable i p hp0, hnt]
        simpa using hpos
    have hnext : ∀ s1, TeardownInv env cur k0 c (i + 1) s1 →
        ∃ s', exitProcAndLWP_loop TT env cur n (i + 1) s1 = .ok s' ∧
          TeardownInv env cur k0 c (i + (n + 1)) s' := by
      intro s1 h1
      obtain ⟨s', g1, g2⟩ := ih (i + 1) s1 (by omega) h1
      refine ⟨s', g1, ?_⟩
      have : i + 1 + n = i + (n + 1) := by omega
      rw [← this]; exact g2
    unfold exitProcAndLWP_loop
    by_cases hic : i = cur
    · -- the slot of the caller: its tid is 0
      subst hic
      have hpc : p = c := by rw [hc] at hp0; exact (Option.some.inj hp0).symm
      have hnt : is_thread_of i p = false := by
        rw [hpc]; unfold is_thread_of; simp [htid]
      rw [hcur]
      have hd := (drop_thread_iterate env c
        ((k0.ptable.take i).filter (is_thread_of i)).length).2.1
      have hdt : ((drop_thread env)^[((k0.ptable.take i).filter (is_thread_of i)).length] c).tid
          = 0 := by rw [hd]; exact htid
      simp only []
      rw [if_neg (fun h => by have h2 := h.2; rw [hdt] at h2; exact lt_irrefl _ h2)]
      exact hnext s (hskip hnt)
    · have hsi : s.1.ptable[i]? = some p := by
        rw [hslots i p hp0 hic, if_neg (fun h => by omega)]
      rw [hsi]
      by_cases ht : p.parent = some cur ∧ p.tid > 0
      · have hth : is_thread_of cur p = true := by unfold is_thread_of; simp [ht]
        simp only [if_pos ht, hcur]
        have hps : 0 ≤ p.share := hsh p (List.getElem?_mem hp0) hth
        have hne : s.1.mlfq.share + p.share ≠ 0 := by rw [hshare]; omega
        rw [cdiv_ok hne]
        apply hnext
        refine ⟨?_, ?_, ?_, ?_, ?_, hini⟩
        · show (store (store s.1.ptable cur (drop_thread env)) i thread_cleared).length = _
          rw [store_length, store_length, hlen]
        · intro j q hq hj
          show (store (store s.1.ptable cur (drop_thread env)) i thread_cleared)[j]? = _
          rw [store_getElem?]
          by_cases hji : j = i
          · have hqp : q = p := by rw [hji, hp0] at hq; exact (Option.some.inj hq).symm
            rw [if_pos hji, hji, store_getElem?_ne _ _ _ _ hic, hsi, hqp,
              if_pos ⟨by omega, hth⟩]
            rfl
          · rw [if_neg hji, store_getElem?_ne _ _ _ _ hj, hslots j q hq hj]
            by_cases hq' : is_thread_of cur q = true
            · by_cases hlt : j < i
              · rw [if_pos ⟨hlt, hq'⟩, if_pos ⟨by omega, hq'⟩]
              · rw [if_neg (fun h => hlt h.1), if_neg (fun h => hlt (by omega))]
            · rw [if_neg (fun h => hq' h.2), if_neg (fun h => hq' h.2)]
        · show (store (store s.1.ptable cur (drop_thread env)) i thread_cleared)[cur]? = _
          rw [store_getElem?_ne _ _ _ _ (fun h => hic h.symm),
            store_getElem?_self _ cur _ _ hcur, take_succ_threads cur k0.ptable i p hp0, hth]
          simp only [if_true, List.length_append, List.length_singleton]
          rw [Function.iterate_succ_apply']
        · show s.1.mlfq.share + p.share = _
          rw [thread_share_sum_succ cur k0.ptable i p hp0, hth, hshare]
          simp only [if_true]
          omega
        · rw [thread_share_sum_succ cur k0.ptable i p hp0, hth]
          simp only [if_true]
          omega
      · have hnt : is_thread_of cur p = false := by unfold is_thread_of; simp [ht]
        simp only [if_neg ht]
        exact hnext s (hskip hnt)

/-- C22 (amended): `exit` by a process with threads (slot `cur`, not init,
`tid == 0`, `num_of_threads > 0`), in a state with a positive `mlfq.share` in
which no thread of the caller has a negative share.  The call enters the
scheduler in a state in which every slot that was a thread child of the caller
(`parent == caller`, `tid > 0`) is UNUSED with share 0 and stride 0;
`mlfq.share` has grown by the sum of the shares of these slots; the
`num_of_threads` of the caller is less by their number.  If the counter has
reached 0 on the way, `sum_of_threads` is 0 and the size of the caller is what
`deallocuvm` returned for the target `sz - 2 * sum_of_threads * PGSIZE` taken
modulo 2^32; with a `deallocuvm` that returns the new size when it is smaller
and the old size otherwise, that is `sz - 2 * sum_of_threads * PGSIZE` when the
size is at least `2 * sum_of_threads` pages, and the unchanged `sz` when it is
less (the target wraps).  If the counter has not reached 0, size and
`sum_of_threads` are as they were. -/
theorem exit_of_process_with_threads (TT : Int) (env : Env) (k : Kernel) (cur : Nat)
    (c : proc) (hc : k.ptable[cur]? = some c) (hinit : k.initproc ≠ some cur)
    (htid : c.tid = 0) (hnum : c.num_of_threads > 0) (hm : 0 < k.mlfq.share)
    (hsh : ∀ p ∈ k.ptable, p.parent = some cur → p.tid > 0 → 0 ≤ p.share) :
    ∃ k' log, exit TT env k cur = .ok (k', log) ∧
      (∀ (j : Nat) (p : proc), k.ptable[j]? = some p → p.parent = some cur → p.tid > 0 →
        ∃ p', k'.ptable[j]? = some p' ∧ p'.state = .UNUSED ∧ p'.share = 0 ∧ p'.stride = 0) ∧
      k'.mlfq.share = k.mlfq.share + thread_share_sum cur k.ptable ∧
      ∃ c', k'.ptable[cur]? = some c' ∧ c'.state = .ZOMBIE ∧
        c'.num_of_threads = c.num_of_threads - thread_count cur k.ptable ∧
        (c.num_of_threads ≤ thread_count cur k.ptable →
          c'.sz = env.deallocuvm c.pgdir c.sz (usub c.sz (2 * c.sum_of_threads * env.PGSIZE)) ∧
          c'.sum_of_threads = 0) ∧
        (thread_count cur k.ptable < c.num_of_threads →
          c'.sz = c.sz ∧ c'.sum_of_threads = c.sum_of_threads) ∧
        ((∀ (d : Nat) (a b : Int), env.deallocuvm d a b = if b ≥ a then a else b) →
          c.num_of_threads ≤ thread_count cur k.ptable →
          0 ≤ 2 * c.sum_of_threads * env.PGSIZE → 0 ≤ c.sz → c.sz < 4294967296 →
          (2 * c.sum_of_threads * env.PGSIZE ≤ c.sz →
            c'.sz = c.sz - 2 * c.sum_of_threads * env.PGSIZE) ∧
          (c.sz < 2 * c.sum_of_threads * env.PGSIZE →
            2 * c.sum_of_threads * env.PGSIZE ≤ 4294967296 → c'.sz = c.sz)) := by
  have hsh' : ∀ p ∈ k.ptable, is_thread_of cur p = true → 0 ≤ p.share := by
    intro p hp ht
    unfold is_thread_of at ht
    simp only [decide_eq_true_eq] at ht
    exact hsh p hp ht.1 ht.2
  have hinv0 : TeardownInv env cur k c 0 (k, []) := by
    refine ⟨rfl, ?_, ?_, ?_, ?_, rfl⟩
    · intro j p hp _
      rw [hp, if_neg (fun h => by omega)]
    · simpa using hc
    · simp [thread_share_sum]
    · simp [thread_share_sum]
  obtain ⟨s, hloop, hlen, hslots, hcur, hshare, _, _⟩ :=
    exitProcAndLWP_loop_spec TT env cur k c hc htid hm hsh' k.ptable.length 0 (k, [])
      (by omega) hinv0
  rw [Nat.zero_add, List.take_length] at hcur hshare
  generalize hd : (drop_thread env)^[(k.ptable.filter (is_thread_of cur)).length] c = d at hcur
  obtain ⟨d1, d2, d3, d4⟩ := drop_thread_iterate env c (k.ptable.filter (is_thread_of cur)).length
  rw [hd] at d1 d2 d3 d4
  have hex : exit TT env k cur = .ok
      ({ s.1 with ptable := store (wakeup1 (chan_of d.parent) s.1.ptable) cur (fun x => { x with state := .ZOMBIE }) },
        s.2) := by
    unfold exit
    rw [if_neg (fun h => hinit h.symm), hc]
    simp only [if_neg (fun h : c.tid = 0 ∧ c.num_of_threads = 0 => by omega),
      if_pos (show c.tid = 0 ∧ c.num_of_threads ≠ 0 from ⟨htid, by omega⟩)]
    unfold exitProcAndLWP
    rw [hloop]
    show (match s.1.ptable[cur]? with
      | none => Except.error Fault.null_proc
      | some curproc => _) = _
    rw [hcur]
    rfl
  refine ⟨_, _, hex, ?_, hshare, ?_⟩
  · intro j p hp hpar hpt
    have hjc : j ≠ cur := by
      intro h
      rw [h, hc] at hp
      rw [← Option.some.inj hp, htid] at hpt
      exact lt_irrefl _ hpt
    have hj : j < k.ptable.length := by
      by_contra hcon
      rw [List.getElem?_eq_none (by omega)] at hp
      cases hp
    have hth : is_thread_of cur p = true := by unfold is_thread_of; simp [hpar, hpt]
    have hsj := hslots j p hp hjc
    rw [Nat.zero_add, if_pos ⟨hj, hth⟩] at hsj
    refine ⟨thread_cleared p, ?_, rfl, rfl, rfl⟩
    show (store (wakeup1 (chan_of d.parent) s.1.ptable) cur _)[j]? = _
    rw [store_getElem?_ne _ _ _ _ hjc, wakeup1_getElem?, hsj]
    simp only [Option.map_some', Option.some.injEq]
    rw [if_neg]
    intro h
    cases h.1
  · obtain ⟨d', g1, g2, _, _⟩ := wakeup1_slot (chan_of d.parent) s.1.ptable cur d hcur
    refine ⟨{ d' with state := .ZOMBIE }, store_getElem?_self _ cur _ d' g1, rfl, ?_, ?_, ?_, ?_⟩
    · show d'.num_of_threads = _
      rw [g2]
      show d.num_of_threads = _
      rw [d1]
      rfl
    · intro hle
      have hcond : 1 ≤ c.num_of_threads ∧
          c.num_of_threads ≤ ((k.ptable.filter (is_thread_of cur)).length : Int) :=
        ⟨by omega, hle⟩
      obtain ⟨e1, e2⟩ := d3 hcond
      constructor
      · show d'.sz = _
        rw [g2]; exact e1
      · show d'.sum_of_threads = _
        rw [g2]; exact e2
    · intro hlt
      have hcond : ¬ (1 ≤ c.num_of_threads ∧
          c.num_of_threads ≤ ((k.ptable.filter (is_thread_of cur)).length : Int)) := by
        intro h
        unfold thread_count at hlt
        omega
      obtain ⟨e1, e2⟩ := d4 hcond
      constructor
      · show d'.sz = _
        rw [g2]; exact e1
      · show d'.sum_of_threads = _
        rw [g2]; exact e2
    · intro hdealloc hle hx0 hsz0 hsz
      have hcond : 1 ≤ c.num_of_threads ∧
          c.num_of_threads ≤ ((k.ptable.filter (is_thread_of cur)).length : Int) :=
        ⟨by omega, hle⟩
      obtain ⟨e1, _⟩ := d3 hcond
      have hsz' : d'.sz = env.deallocuvm c.pgdir c.sz
          (usub c.sz (2 * c.sum_of_threads * env.PGSIZE)) := by
        rw [g2]; exact e1
      rw [hdealloc] at hsz'
      unfold usub at hsz'
      generalize 2 * c.sum_of_threads * env.PGSIZE = x at hsz' hx0 ⊢
      constructor
      · intro hfit
        show d'.sz = _
        rw [hsz']
        split <;> omega
      · intro hless hx
        show d'.sz = _
        rw [hsz']
        split <;> omega

/-- C22 (amended), at a concrete input: in `thread_state 10000` process P (slot
1, size 20480, `sum_of_threads = 2`) has the two threads of the slots 2 and 3
and calls `exit`; its size is 20480 - 2 * 2 * 4096 = 4096 afterwards. -/
theorem exit_of_process_with_threads_witness :
    thread_count 1 (thread_state 10000).ptable = 2 ∧
    ∃ k' log, exit 10000 env_ok (thread_state 10000) 1 = .ok (k', log) ∧
      (∃ p', k'.ptable[2]? = some p' ∧ p'.state = .UNUSED ∧ p'.share = 0 ∧ p'.stride = 0) ∧
      (∃ p', k'.ptable[3]? = some p' ∧ p'.state = .UNUSED ∧ p'.share = 0 ∧ p'.stride = 0) ∧
      ∃ c', k'.ptable[1]? = some c' ∧ c'.state = .ZOMBIE ∧ c'.num_of_threads = 0 ∧
        c'.sz = 20480 - 2 * 2 * 4096 ∧ c'.sum_of_threads = 0 := by
  have hcount : thread_count 1 (thread_state 10000).ptable = 2 := rfl
  obtain ⟨k', log, h, hthreads, _, c', g1, g2, g3, g4, _, g6⟩ :=
    exit_of_process_with_threads 10000 env_ok (thread_state 10000) 1 _ rfl (by decide) rfl
      (by decide) (by decide) (by decide)
  rw [hcount] at g3 g4 g6
  obtain ⟨_, e2⟩ := g4 (by decide)
  have e1 := (g6 (fun _ _ _ => rfl) (by decide) (by decide) (by decide) (by decide)).1
    (by decide)
  exact ⟨hcount, k', log, h, hthreads 2 _ rfl rfl (by decide), hthreads 3 _ rfl rfl (by decide),
    c', g1, g2, g3, e1, e2⟩

/-! ## The batched sweep of the MLFQ branch -/

/-- The test of a sweep, on the content of a slot. -/
theorem passes_of_slot (lvl : Int) (ps : List proc) (i : Nat) (p : proc) (h : ps[i]? = some p) :
    passes lvl ps i = true ↔ ¬ (p.state ≠ .RUNNABLE ∨ p.isStride = true ∨ p.level ≠ lvl) := by
  unfold passes
  rw [h]
  simp only [decide_eq_true_eq, not_or, not_not]
  constructor
  · rintro ⟨h1, h2, h3⟩
    exact ⟨h1, by simp [h2], h3⟩
  · rintro ⟨h1, h2, h3⟩
    exact ⟨h1, by simpa using h2, h3⟩

/-- The entries in the time tables for the three levels. -/
theorem cindex_levels (l : Int) (h0 : 0 ≤ l) (h2 : l ≤ 2) :
    (∃ q, cindex time_quantum l = .ok q ∧
      ((l = 0 ∧ q = 1) ∨ (l = 1 ∧ q = 2) ∨ (l = 2 ∧ q = 4))) ∧
    ∃ a, cindex time_allotment l = .ok a := by
  have h : l = 0 ∨ l = 1 ∨ l = 2 := by omega
  rcases h with h | h | h <;> subst h
  · exact ⟨⟨1, rfl, Or.inl ⟨rfl, rfl⟩⟩, 5, rfl⟩
  · exact ⟨⟨2, rfl, Or.inr (Or.inl ⟨rfl, rfl⟩)⟩, 10, rfl⟩
  · exact ⟨⟨4, rfl, Or.inr (Or.inr ⟨rfl, rfl⟩)⟩, 100, rfl⟩

/-- A dispatch with a local `swtch`: it returns, sets `found`, logs the slot
with the quantum of its level, and changes no other slot. -/
theorem mlfq_dispatch_local {swtch : Nat → Kernel → Kernel} (hloc : LocalSwtch swtch)
    (lvl q : Int) (hq : (lvl = 0 ∧ q = 1) ∨ (lvl = 1 ∧ q = 2) ∨ (lvl = 2 ∧ q = 4))
    (i : Nat) (p : proc) (s : Sweep) (hp : s.k.ptable[i]? = some p) (hl : p.level = lvl) :
    ∃ s', mlfq_dispatch swtch lvl i p s = .ok s' ∧ s'.found = true ∧
      s'.log = s.log ++ [Event.mlfq_run i lvl q] ∧
      s'.k.ptable.length = s.k.ptable.length ∧
      ∀ j, j ≠ i → s'.k.ptable[j]? = s.k.ptable[j]? := by
  have hi : i < s.k.ptable.length := by
    by_contra hcon
    rw [List.getElem?_eq_none (by omega)] at hp
    cases hp
  have hq0 : cindex time_quantum p.level = .ok q := by
    rw [hl]
    rcases hq with ⟨h1, h2⟩ | ⟨h1, h2⟩ | ⟨h1, h2⟩ <;> subst h1 <;> subst h2 <;> rfl
  obtain ⟨hlen, hoth, hlev⟩ := hloc i
    { s.k with ptable := s.k.ptable.set i { p with ticks := p.ticks + q, state := .RUNNING } }
  simp only [List.length_set] at hlen
  have hi2 : i < (swtch i { s.k with ptable := s.k.ptable.set i { p with ticks := p.ticks + q, state := .RUNNING } }).ptable.length := by
    rw [hlen]; exact hi
  have hp2 := List.getElem?_eq_getElem hi2
  generalize (swtch i { s.k with ptable := s.k.ptable.set i { p with ticks := p.ticks + q, state := .RUNNING } }).ptable[i] = p2 at hp2
  have hlev2 : p2.level = lvl ∨ p2.level = 0 := by
    have := hlev { p with ticks := p.ticks + q, state := .RUNNING } p2
      (by show (s.k.ptable.set i _)[i]? = _; rw [set_getElem?, if_pos rfl, hp]; rfl) hp2
    rcases this with h | h
    · exact Or.inl (h.trans hl)
    · exact Or.inr h
  have hrange : 0 ≤ p2.level ∧ p2.level ≤ 2 := by
    rcases hq with ⟨h1, _⟩ | ⟨h1, _⟩ | ⟨h1, _⟩ <;> rcases hlev2 with h | h <;> omega
  obtain ⟨_, a, ha⟩ := cindex_levels p2.level hrange.1 hrange.2
  have hdis : mlfq_dispatch swtch lvl i p s = .ok
      { k := if p2.ticks ≥ a then
          { swtch i { s.k with ptable := s.k.ptable.set i { p with ticks := p.ticks + q, state := .RUNNING } } with
            ptable := (swtch i { s.k with ptable := s.k.ptable.set i { p with ticks := p.ticks + q, state := .RUNNING } }).ptable.set i { p2 with ticks := 0, level := if lvl = 2 then 0 else p2.level + 1 } }
          else swtch i { s.k with ptable := s.k.ptable.set i { p with ticks := p.ticks + q, state := .RUNNING } },
        found := true, log := s.log ++ [Event.mlfq_run i p.level q] } := by
    unfold mlfq_dispatch
    rw [hq0]
    show (match (swtch i _).ptable[i]? with
      | none => Except.error Fault.null_proc
      | some p2 => _) = _
    rw [hp2]
    show (cindex time_allotment p2.level >>= _) = _
    rw [ha]
    rfl
  refine ⟨_, hdis, rfl, by rw [hl], ?_, ?_⟩
  · show (if p2.ticks ≥ a then _ else _ : Kernel).ptable.length = _
    split
    · simp only [List.length_set]; exact hlen
    · exact hlen
  · intro j hj
    show (if p2.ticks ≥ a then _ else _ : Kernel).ptable[j]? = _
    split
    · show (List.set _ i _)[j]? = _
      rw [set_getElem?, if_neg hj, hoth j hj]
      show (s.k.ptable.set i _)[j]? = _
      rw [set_getElem?, if_neg hj]
    · rw [hoth j hj]
      show (s.k.ptable.set i _)[j]? = _
      rw [set_getElem?, if_neg hj]

/-- A sweep does not reset `found`. -/
theorem mlfq_sweep_found (swtch : Nat → Kernel → Kernel) (lvl : Int) (n i : Nat) (s s' : Sweep)
    (h : mlfq_sweep swtch lvl n i s = .ok s') (hf : s.found = true) : s'.found = true := by
  induction n generalizing i s with
  | zero =>
    simp only [mlfq_sweep, Except.ok.injEq] at h
    rw [← h]; exact hf
  | succ n ih =>
    rw [mlfq_sweep_succ] at h
    split at h
    · exact ih _ _ h hf
    · split at h
      · exact ih _ _ h hf
      · simp only [bind_eq_ok] at h
        obtain ⟨s1, h1, h2⟩ := h
        exact ih _ _ h2 (mlfq_dispatch_log h1).1

/-- A sweep with a local `swtch` over the slots `i`, ..., `i + n - 1` up to the
end of the table: it returns, and it has dispatched the slots of that range
that passed the test at the start, in index order. -/
theorem mlfq_sweep_local {swtch : Nat → Kernel → Kernel} (hloc : LocalSwtch swtch)
    (lvl q : Int) (hq : (lvl = 0 ∧ q = 1) ∨ (lvl = 1 ∧ q = 2) ∨ (lvl = 2 ∧ q = 4))
    (n i : Nat) (s : Sweep) (hn : i + n = s.k.ptable.length) :
    ∃ s', mlfq_sweep swtch lvl n i s = .ok s' ∧
      s'.log = s.log ++
        ((List.range' i n).filter (passes lvl s.k.ptable)).map
          (fun j => Event.mlfq_run j lvl q) ∧
      ((List.range' i n).filter (passes lvl s.k.ptable) = [] → s' = s) ∧
      ((List.range' i n).filter (passes lvl s.k.ptable) ≠ [] → s'.found = true) := by
  induction n generalizing i s with
  | zero => exact ⟨s, rfl, by simp, fun _ => rfl, fun h => absurd rfl h⟩
  | succ n ih =>
    have hi : i < s.k.ptable.length := by omega
    have hp := List.getElem?_eq_getElem hi
    generalize s.k.ptable[i] = p at hp
    rw [mlfq_sweep_succ, hp, List.range'_succ, List.filter_cons]
    by_cases ht : p.state ≠ .RUNNABLE ∨ p.isStride = true ∨ p.level ≠ lvl
    · have hpass : passes lvl s.k.ptable i = false := by
        rw [← Bool.not_eq_true, passes_of_slot lvl _ i p hp]
        exact fun h => h ht
      simp only [if_pos ht, hpass, Bool.false_eq_true, if_false]
      exact ih (i + 1) s (by omega)
    · have hpass : passes lvl s.k.ptable i = true := (passes_of_slot lvl _ i p hp).mpr ht
      have hlv : p.level = lvl := by
        by_contra h
        exact ht (Or.inr (Or.inr h))
      simp only [if_neg ht, hpass, if_true]
      obtain ⟨s1, hd, hf1, hl1, hlen1, hoth1⟩ := mlfq_dispatch_local hloc lvl q hq i p s hp hlv
      rw [hd]
      obtain ⟨s', hs', hlog', _, _⟩ := ih (i + 1) s1 (by rw [hlen1]; omega)
      have hsame : (List.range' (i + 1) n).filter (passes lvl s1.k.ptable) =
          (List.range' (i + 1) n).filter (passes lvl s.k.ptable) := by
        apply List.filter_congr
        intro j hj
        rw [List.mem_range'_1] at hj
        unfold passes
        rw [hoth1 j (by omega)]
      rw [hsame] at hlog'
      refine ⟨s', hs', ?_, (fun h => by cases h), fun _ => ?_⟩
      · rw [hlog', hl1]
        simp
      · exact mlfq_sweep_found swtch lvl n (i + 1) s1 s' hs' hf1

/-- A sweep of level `lvl` that returns, with any `swtch`: the entries it
logged are dispatches at level `lvl`; if it logged none, it changed nothing and
no slot of its range passed the test; if it logged one, `found` is set. -/
theorem mlfq_sweep_events (swtch : Nat → Kernel → Kernel) (lvl : Int) (n i : Nat)
    (s s' : Sweep) (h : mlfq_sweep swtch lvl n i s = .ok s') :
    ∃ l, s'.log = s.log ++ l ∧ (∀ e ∈ l, ∃ j q, e = Event.mlfq_run j lvl q) ∧
      (l = [] → s' = s ∧ ∀ j, i ≤ j → j < i + n → passes lvl s.k.ptable j = false) ∧
      (l ≠ [] → s'.found = true) := by
  induction n generalizing i s with
  | zero =>
    simp only [mlfq_sweep, Except.ok.injEq] at h
    subst h
    exact ⟨[], by simp, by simp, fun _ => ⟨rfl, fun j h1 h2 => by omega⟩, fun h => absurd rfl h⟩
  | succ n ih =>
    rw [mlfq_sweep_succ] at h
    -- the case in which slot `i` is passed over
    have hskip : passes lvl s.k.ptable i = false → mlfq_sweep swtch lvl n (i + 1) s = .ok s' →
        ∃ l, s'.log = s.log ++ l ∧ (∀ e ∈ l, ∃ j q, e = Event.mlfq_run j lvl q) ∧
          (l = [] → s' = s ∧ ∀ j, i ≤ j → j < i + (n + 1) → passes lvl s.k.ptable j = false) ∧
          (l ≠ [] → s'.found = true) := by
      intro hpi hrest
      obtain ⟨l, h1, h2, h3, h4⟩ := ih (i + 1) s hrest
      refine ⟨l, h1, h2, fun hl => ⟨(h3 hl).1, ?_⟩, h4⟩
      intro j hj1 hj2
      by_cases hji : j = i
      · rw [hji]; exact hpi
      · exact (h3 hl).2 j (by omega) (by omega)
    cases hp : s.k.ptable[i]? with
    | none =>
      rw [hp] at h
      exact hskip (by unfold passes; rw [hp]) h
    | some p =>
      rw [hp] at h
      by_cases ht : p.state ≠ .RUNNABLE ∨ p.isStride = true ∨ p.level ≠ lvl
      · simp only [if_pos ht] at h
        have hpass : passes lvl s.k.ptable i = false := by
          rw [← Bool.not_eq_true, passes_of_slot lvl _ i p hp]
          exact fun h => h ht
        exact hskip hpass h
      · simp only [if_neg ht, bind_eq_ok] at h
        obtain ⟨s1, h1, h2⟩ := h
        have hlv : p.level = lvl := by
          by_contra h
          exact ht (Or.inr (Or.inr h))
        obtain ⟨hf1, q, hq⟩ := mlfq_dispatch_log h1
        obtain ⟨l, g1, g2, _, _⟩ := ih (i + 1) s1 h2
        refine ⟨Event.mlfq_run i lvl q :: l, ?_, ?_, (fun h => by cases h), fun _ => ?_⟩
        · rw [g1, hq, hlv]; simp
        · intro e he
          rcases List.mem_cons.mp he with he | he
          · exact ⟨i, q, he⟩
          · exact g2 e he
        · exact mlfq_sweep_found swtch lvl n (i + 1) s1 s' h2 hf1

/-- The pass update and epoch wrap leave the test of the sweeps as it is. -/
theorem passes_advance (lvl : Int) (k : Kernel) (j : Nat) :
    passes lvl (mlfq_advance k).ptable j = passes lvl k.ptable j := by
  unfold mlfq_advance
  simp only []
  split
  · unfold passes
    simp only [List.getElem?_map]
    cases hp : k.ptable[j]? with
    | none => rfl
    | some p =>
      simp only [Option.map_some']
      by_cases hs : p.isStride = true
      · simp [hs]
      · simp [hs]
  · rfl

/-- The pass update and epoch wrap keep the length of the table. -/
theorem mlfq_advance_length (k : Kernel) :
    (mlfq_advance k).ptable.length = k.ptable.length := by
  unfold mlfq_advance
  simp only []
  split
  · simp
  · rfl

/-- The slots that pass the test, after the pass update and epoch wrap. -/
theorem eligible_slots_advance (lvl : Int) (k : Kernel) :
    (List.range' 0 (mlfq_advance k).ptable.length).filter (passes lvl (mlfq_advance k).ptable) =
      eligible_slots lvl k.ptable := by
  unfold eligible_slots
  rw [mlfq_advance_length, List.range_eq_range']
  apply List.filter_congr
  intro j _
  exact passes_advance lvl k j

/-- A guarded sweep of level `lvl` that returns: the entries it logged are
dispatches at level `lvl`; if it logged one, `found` was not set before and is
set now; if it logged none, it changed nothing, and no slot passed the test
unless `found` was set. -/
theorem sweep_unless_found_events (swtch : Nat → Kernel → Kernel) (lvl : Int) (n : Nat)
    (s s' : Sweep) (h : sweep_unless_found swtch lvl n s = .ok s') :
    ∃ l, s'.log = s.log ++ l ∧ (∀ e ∈ l, ∃ j q, e = Event.mlfq_run j lvl q) ∧
      (l = [] → s' = s ∧ (s.found = false → ∀ j, j < n → passes lvl s.k.ptable j = false)) ∧
      (l ≠ [] → s.found = false ∧ s'.found = true) := by
  unfold sweep_unless_found at h
  by_cases hf : s.found = false
  · rw [if_pos hf] at h
    obtain ⟨l, h1, h2, h3, h4⟩ := mlfq_sweep_events swtch lvl n 0 s s' h
    refine ⟨l, h1, h2, fun hl => ⟨(h3 hl).1, fun _ j hj => (h3 hl).2 j (by omega) (by omega)⟩,
      fun hl => ⟨hf, h4 hl⟩⟩
  · rw [if_neg hf] at h
    simp only [Except.ok.injEq] at h
    subst h
    exact ⟨[], by simp, by simp, fun _ => ⟨rfl, fun h => absurd h hf⟩, fun h => absurd rfl h⟩

/-- No slot beyond the end of the table passes a test. -/
theorem passes_beyond (lvl : Int) (ps : List proc) (j : Nat) (h : ps.length ≤ j) :
    passes lvl ps j = false := by
  unfold passes
  rw [List.getElem?_eq_none (by omega)]

/-- C25: one MLFQ branch of the scheduler, from state `k`.  With any `swtch`,
if the branch returns: a task at level 1 was dispatched only if no slot passed
the test of the level-0 sweep (RUNNABLE, not stride, level 0) and nothing was
dispatched at level 0; a task at level 2 was dispatched only if no slot passed
the test of the level-0 sweep or of the level-1 sweep and nothing was
dispatched at these levels.  With a `swtch` in which the dispatched task
touches no slot but its own, the branch returns and has dispatched, in
table-index order, every slot that passed the test of level 0 if there is one,
else every slot that passed the test of level 1 if there is one, else every
slot that passed the test of level 2. -/
theorem batched_sweep (swtch : Nat → Kernel → Kernel) (k : Kernel) :
    (∀ r, mlfq_branch swtch k = .ok r →
      ((∃ j q, Event.mlfq_run j 1 q ∈ r.2) →
        (∀ j q, Event.mlfq_run j 0 q ∉ r.2) ∧ ∀ j, passes 0 k.ptable j = false) ∧
      ((∃ j q, Event.mlfq_run j 2 q ∈ r.2) →
        (∀ j q, Event.mlfq_run j 0 q ∉ r.2 ∧ Event.mlfq_run j 1 q ∉ r.2) ∧
        ∀ j, passes 0 k.ptable j = false ∧ passes 1 k.ptable j = false)) ∧
    (LocalSwtch swtch →
      ∃ k', mlfq_branch swtch k = .ok (k',
        Event.mlfq_pass ::
          (if eligible_slots 0 k.ptable ≠ [] then sweep_events 0 1 k.ptable
           else if eligible_slots 1 k.ptable ≠ [] then sweep_events 1 2 k.ptable
           else sweep_events 2 4 k.ptable))) := by
  constructor
  · intro r h
    unfold mlfq_branch mlfq_sweeps at h
    simp only [bind_eq_ok] at h
    obtain ⟨s0, h0, s1, h1, s2, h2, h⟩ := h
    simp only [pure, Except.pure, Except.ok.injEq] at h
    subst h
    obtain ⟨l0, a1, a2, a3, a4⟩ := mlfq_sweep_events swtch 0 _ 0 _ s0 h0
    obtain ⟨l1, b1, b2, b3, b4⟩ := sweep_unless_found_events swtch 1 _ s0 s1 h1
    obtain ⟨l2, c1, c2, c3, c4⟩ := sweep_unless_found_events swtch 2 _ s1 s2 h2
    have hlog : s2.log = Event.mlfq_pass :: (l0 ++ l1 ++ l2) := by
      rw [c1, b1, a1]; simp
    -- where an entry of a given level can be
    have hmem : ∀ (j : Nat) (lv q : Int), Event.mlfq_run j lv q ∈ s2.log →
        (lv = 0 ∧ l0 ≠ []) ∨ (lv = 1 ∧ l1 ≠ []) ∨ (lv = 2 ∧ l2 ≠ []) := by
      intro j lv q he
      rw [hlog] at he
      simp only [List.mem_cons, List.mem_append, reduceCtorEq, false_or] at he
      rcases he with (he | he) | he
      · obtain ⟨j', q', e⟩ := a2 _ he
        simp only [Event.mlfq_run.injEq] at e
        exact Or.inl ⟨e.2.1, List.ne_nil_of_mem he⟩
      · obtain ⟨j', q', e⟩ := b2 _ he
        simp only [Event.mlfq_run.injEq] at e
        exact Or.inr (Or.inl ⟨e.2.1, List.ne_nil_of_mem he⟩)
      · obtain ⟨j', q', e⟩ := c2 _ he
        simp only [Event.mlfq_run.injEq] at e
        exact Or.inr (Or.inr ⟨e.2.1, List.ne_nil_of_mem he⟩)
    -- nothing was found at level 0
    have hzero : s0.found = false → l0 = [] ∧ ∀ j, passes 0 k.ptable j = false := by
      intro hf
      have hl0 : l0 = [] := by
        by_contra hne
        rw [a4 hne] at hf
        cases hf
      refine ⟨hl0, fun j => ?_⟩
      rw [← passes_advance 0 k j]
      by_cases hj : j < (mlfq_advance k).ptable.length
      · exact (a3 hl0).2 j (by omega) (by omega)
      · exact passes_beyond 0 _ j (by omega)
    constructor
    · rintro ⟨j, q, he⟩
      have hl1 : l1 ≠ [] := by
        rcases hmem j 1 q he with h | h | h
        · omega
        · exact h.2
        · omega
      obtain ⟨hl0, hp0⟩ := hzero (b4 hl1).1
      refine ⟨fun j' q' he' => ?_, hp0⟩
      rcases hmem j' 0 q' he' with h | h | h
      · exact h.2 hl0
      · omega
      · omega
    · rintro ⟨j, q, he⟩
      have hl2 : l2 ≠ [] := by
        rcases hmem j 2 q he with h | h | h
        · omega
        · omega
        · exact h.2
      have hf1 : s1.found = false := (c4 hl2).1
      have hl1 : l1 = [] := by
        by_contra hne
        rw [(b4 hne).2] at hf1
        cases hf1
      have hs1 : s1 = s0 := (b3 hl1).1
      have hf0 : s0.found = false := by rw [← hs1]; exact hf1
      obtain ⟨hl0, hp0⟩ := hzero hf0
      have hs0 := (a3 hl0).1
      refine ⟨fun j' q' => ⟨fun he' => ?_, fun he' => ?_⟩, fun j' => ⟨hp0 j', ?_⟩⟩
      · rcases hmem j' 0 q' he' with h | h | h
        · exact h.2 hl0
        · omega
        · omega
      · rcases hmem j' 1 q' he' with h | h | h
        · omega
        · exact h.2 hl1
        · omega
      · rw [← passes_advance 1 k j']
        by_cases hj : j' < (mlfq_advance k).ptable.length
        · have := (b3 hl1).2 hf0 j' hj
          rw [hs0] at this
          exact this
        · exact passes_beyond 1 _ j' (by omega)
  · intro hloc
    unfold mlfq_branch mlfq_sweeps
    simp only []
    obtain ⟨s0, h0, g0, e0, f0⟩ := mlfq_sweep_local hloc 0 1 (Or.inl ⟨rfl, rfl⟩)
      (mlfq_advance k).ptable.length 0
      { k := mlfq_advance k, found := false, log := [Event.mlfq_pass] } (by simp)
    simp only [eligible_slots_advance] at g0 e0 f0
    rw [h0]
    by_cases hE0 : eligible_slots 0 k.ptable = []
    · have hs0 := e0 hE0
      subst hs0
      obtain ⟨s1, h1, g1, e1, f1⟩ := mlfq_sweep_local hloc 1 2 (Or.inr (Or.inl ⟨rfl, rfl⟩))
        (mlfq_advance k).ptable.length 0
        { k := mlfq_advance k, found := false, log := [Event.mlfq_pass] } (by simp)
      simp only [eligible_slots_advance] at g1 e1 f1
      have hu1 : sweep_unless_found swtch 1 (mlfq_advance k).ptable.length
          { k := mlfq_advance k, found := false, log := [Event.mlfq_pass] } = .ok s1 := by
        unfold sweep_unless_found
        rw [if_pos rfl]; exact h1
      by_cases hE1 : eligible_slots 1 k.ptable = []
      · have hs1 := e1 hE1
        subst hs1
        obtain ⟨s2, h2, g2, _, _⟩ := mlfq_sweep_local hloc 2 4 (Or.inr (Or.inr ⟨rfl, rfl⟩))
          (mlfq_advance k).ptable.length 0
          { k := mlfq_advance k, found := false, log := [Event.mlfq_pass] } (by simp)
        simp only [eligible_slots_advance] at g2
        have hu2 : sweep_unless_found swtch 2 (mlfq_advance k).ptable.length
            { k := mlfq_advance k, found := false, log := [Event.mlfq_pass] } = .ok s2 := by
          unfold sweep_unless_found
          rw [if_pos rfl]; exact h2
        refine ⟨s2.k, ?_⟩
        show (sweep_unless_found swtch 1 _ _ >>= _) = _
        rw [hu1]
        show (sweep_unless_found swtch 2 _ _ >>= _) = _
        rw [hu2]
        show Except.ok (s2.k, s2.log) = _
        rw [g2, if_neg (not_not.mpr hE0), if_neg (not_not.mpr hE1)]
        rfl
      · have hf1 := f1 hE1
        have hu2 : sweep_unless_found swtch 2 (mlfq_advance k).ptable.length s1 = .ok s1 := by
          unfold sweep_unless_found
          rw [if_neg (by rw [hf1]; simp)]
        refine ⟨s1.k, ?_⟩
        show (sweep_unless_found swtch 1 _ _ >>= _) = _
        rw [hu1]
        show (sweep_unless_found swtch 2 _ _ >>= _) = _
        rw [hu2]
        show Except.ok (s1.k, s1.log) = _
        rw [g1, if_neg (not_not.mpr hE0), if_pos hE1]
        rfl
    · have hf0 := f0 hE0
      have hu : ∀ lvl, sweep_unless_found swtch lvl (mlfq_advance k).ptable.length s0 = .ok s0 := by
        intro lvl
        unfold sweep_unless_found
        rw [if_neg (by rw [hf0]; simp)]
      refine ⟨s0.k, ?_⟩
      show (sweep_unless_found swtch 1 _ _ >>= _) = _
      rw [hu 1]
      show (sweep_unless_found swtch 2 _ _ >>= _) = _
      rw [hu 2]
      show Except.ok (s0.k, s0.log) = _
      rw [g0, if_pos hE0]
      rfl

/-- A task that only yields touches no slot but its own and keeps its level. -/
theorem swtch_yield_local : LocalSwtch swtch_yield := by
  intro i k
  unfold swtch_yield
  cases hi : k.ptable[i]? with
  | none => exact ⟨rfl, fun _ _ => rfl, fun p _ h => by cases h⟩
  | some p0 =>
    refine ⟨by simp, fun j hj => ?_, fun p p' h h' => ?_⟩
    · show (k.ptable.set i _)[j]? = _
      rw [List.getElem?_set_ne (fun h => hj h.symm)]
    · have hlt : i < k.ptable.length := by
        by_contra hge
        rw [List.getElem?_eq_none (by omega)] at hi
        cases hi
      have e : (k.ptable.set i { p0 with state := .RUNNABLE })[i]? =
          some { p0 with state := .RUNNABLE } := by
        rw [List.getElem?_set_self hlt]
      simp only [Option.some.injEq] at h
      change (k.ptable.set i { p0 with state := .RUNNABLE })[i]? = some p' at h'
      rw [e] at h'
      simp only [Option.some.injEq] at h'
      subst h h'
      exact Or.inl rfl

/-- In `demoted_state` with tasks that yield, the MLFQ branch returns, and
dispatches the two level-1 tasks in slot order and nothing else; no slot passes
the test of level 0. -/
theorem batched_sweep_witness :
    LocalSwtch swtch_yield ∧
    (∃ k', mlfq_branch swtch_yield demoted_state =
      .ok (k', [Event.mlfq_pass, Event.mlfq_run 1 1 2, Event.mlfq_run 3 1 2])) ∧
    ∀ j, passes 0 demoted_state.ptable j = false := by
  obtain ⟨k', h⟩ := (batched_sweep swtch_yield demoted_state).2 swtch_yield_local
  have h' : mlfq_branch swtch_yield demoted_state =
      .ok (k', [Event.mlfq_pass, Event.mlfq_run 1 1 2, Event.mlfq_run 3 1 2]) := h
  exact ⟨swtch_yield_local, ⟨k', h'⟩,
    (((batched_sweep swtch_yield demoted_state).1 _ h').1
      ⟨1, 2, by simp⟩).2⟩

/-! ## Slot-by-slot relations -/

/-- A reflexive relation relates a table to itself. -/
theorem pointwise_refl {R : proc → proc → Prop} (hR : ∀ p, R p p) (ps : List proc) :
    Pointwise R ps ps :=
  ⟨rfl, fun j p p' h h' => by rw [h] at h'; cases h'; exact hR p⟩

/-- Slot-by-slot relations compose. -/
theorem pointwise_trans {R : proc → proc → Prop} (hR : ∀ p q r, R p q → R q r → R p r)
    {a b c : List proc} (h1 : Pointwise R a b) (h2 : Pointwise R b c) : Pointwise R a c := by
  refine ⟨h2.1.trans h1.1, fun j p p'' hp hp'' => ?_⟩
  have hj : j < b.length := by
    rw [h1.1]
    by_contra hge
    rw [List.getElem?_eq_none (by omega)] at hp
    cases hp
  exact hR p _ p'' (h1.2 j p _ hp (List.getElem?_eq_getElem hj))
    (h2.2 j _ p'' (List.getElem?_eq_getElem hj) hp'')

/-- Writing a related value into a slot. -/
theorem pointwise_set {R : proc → proc → Prop} (hR : ∀ p, R p p) (ps : List proc) (i : Nat)
    (a : proc) (h : ∀ p, ps[i]? = some p → R p a) : Pointwise R ps (ps.set i a) := by
  refine ⟨by simp, fun j p p' hp hp' => ?_⟩
  rw [set_getElem?] at hp'
  by_cases hc : j = i
  · rw [if_pos hc, hp] at hp'
    simp only [Option.map_some', Option.some.injEq] at hp'
    subst hp'
    exact h p (hc ▸ hp)
  · rw [if_neg hc, hp] at hp'
    simp only [Option.some.injEq] at hp'
    subst hp'
    exact hR p

/-- Changing the fields of a slot in a related way. -/
theorem pointwise_store {R : proc → proc → Prop} (hR : ∀ p, R p p) (ps : List proc) (i : Nat)
    (f : proc → proc) (h : ∀ p, ps[i]? = some p → R p (f p)) : Pointwise R ps (store ps i f) := by
  unfold store
  cases hi : ps[i]? with
  | none => exact pointwise_refl hR ps
  | some p =>
    refine pointwise_set hR ps i (f p) (fun q hq => ?_)
    rw [hi] at hq
    simp only [Option.some.injEq] at hq
    subst hq
    exact h p hi

/-- Changing every slot in a related way. -/
theorem pointwise_map {R : proc → proc → Prop} (ps : List proc) (f : proc → proc)
    (h : ∀ p, R p (f p)) : Pointwise R ps (ps.map f) := by
  refine ⟨by simp, fun j p p' hp hp' => ?_⟩
  rw [List.getElem?_map, hp] at hp'
  cases hp'
  exact h p

/-- A related head on related tails. -/
theorem pointwise_cons {R : proc → proc → Prop} {a b : proc} {ps ps' : List proc}
    (hab : R a b) (h : Pointwise R ps ps') : Pointwise R (a :: ps) (b :: ps') := by
  refine ⟨by simp [h.1], fun j p p' hp hp' => ?_⟩
  cases j with
  | zero =>
    simp only [List.getElem?_cons_zero, Option.some.injEq] at hp hp'
    subst hp hp'
    exact hab
  | succ j =>
    simp only [List.getElem?_cons_succ] at hp hp'
    exact h.2 j p p' hp hp'

/-- The last loop of `thread_create` relates the tables by every reflexive
relation that holds between a slot and the slot with new stride fields. -/
theorem thread_shares_pointwise {R : proc → proc → Prop} (hR : ∀ p, R p p)
    (hS : ∀ (p : proc) (sh st pa : Int),
      R p { p with isStride := true, share := sh, stride := st, pass := pa })
    (TT : Int) (cur : Nat) (share pass : Int) (ps ps' : List proc)
    (h : thread_shares TT cur share pass ps = .ok ps') : Pointwise R ps ps' := by
  induction ps generalizing ps' with
  | nil =>
    simp only [thread_shares, Except.ok.injEq] at h
    subst h
    exact pointwise_refl hR []
  | cons a ps ih =>
    unfold thread_shares at h
    by_cases hc : a.parent = some cur ∧ a.tid > 0
    · rw [if_pos hc] at h
      simp only [bind_eq_ok] at h
      obtain ⟨st, _, rest, hrest, h⟩ := h
      simp only [pure, Except.pure, Except.ok.injEq] at h
      subst h
      exact pointwise_cons (hS a _ _ _) (ih rest hrest)
    · rw [if_neg hc] at h
      simp only [bind_eq_ok] at h
      obtain ⟨rest, hrest, h⟩ := h
      simp only [pure, Except.pure, Except.ok.injEq] at h
      subst h
      exact pointwise_cons (hR a) (ih rest hrest)

/-- The second loop of `set_cpu_share`, likewise. -/
theorem share_threads_pointwise {R : proc → proc → Prop} (hR : ∀ p, R p p)
    (hS : ∀ (p : proc) (sh st pa : Int),
      R p { p with isStride := true, share := sh, stride := st, pass := pa })
    (TT share num : Int) (cur : Nat) (pass : Int) (ps ps' : List proc)
    (h : share_threads TT share num cur pass ps = .ok ps') : Pointwise R ps ps' := by
  induction ps generalizing ps' with
  | nil =>
    simp only [share_threads, Except.ok.injEq] at h
    subst h
    exact pointwise_refl hR []
  | cons a ps ih =>
    unfold share_threads at h
    by_cases hc : a.parent = some cur ∧ a.tid ≠ 0
    · rw [if_pos hc] at h
      simp only [bind_eq_ok] at h
      obtain ⟨sh, _, st, _, rest, hrest, h⟩ := h
      simp only [pure, Except.pure, Except.ok.injEq] at h
      subst h
      exact pointwise_cons (hS a _ _ _) (ih rest hrest)
    · rw [if_neg hc] at h
      simp only [bind_eq_ok] at h
      obtain ⟨rest, hrest, h⟩ := h
      simp only [pure, Except.pure, Except.ok.injEq] at h
      subst h
      exact pointwise_cons (hR a) (ih rest hrest)

/-- The end of `thread_create` for a stride parent, likewise. -/
theorem thread_create_shares_pointwise {R : proc → proc → Prop} (hR : ∀ p, R p p)
    (hT : ∀ p q r, R p q → R q r → R p r)
    (hS : ∀ (p : proc) (sh st pa : Int),
      R p { p with isStride := true, share := sh, stride := st, pass := pa })
    (hP : ∀ (p : proc) (sh st : Int), R p { p with share := sh, stride := st })
    (TT : Int) (ps : List proc) (cur : Nat) (par : proc) (hpar : ps[cur]? = some par)
    (ps' : List proc) (h : thread_create_shares TT ps cur par = .ok ps') :
    Pointwise R ps ps' := by
  have h' : ∃ sh st, thread_shares TT cur sh par.pass
      (ps.set cur { par with share := sh, stride := st }) = .ok ps' := by
    unfold thread_create_shares at h
    by_cases hc : par.num_of_threads > 0
    · simp only [hc, if_true, bind_eq_ok] at h
      obtain ⟨sh, _, st, _, h⟩ := h
      exact ⟨sh, st, h⟩
    · simp only [hc, if_false, bind_eq_ok] at h
      obtain ⟨sh, _, st, _, h⟩ := h
      exact ⟨sh, st, h⟩
  obtain ⟨sh, st, h⟩ := h'
  refine pointwise_trans hT (pointwise_set hR ps cur _ (fun q hq => ?_))
    (thread_shares_pointwise hR hS TT cur sh par.pass _ ps' h)
  rw [hpar] at hq
  simp only [Option.some.injEq] at hq
  subst hq
  exact hP par sh st

/-! ## The thread stack round trip -/

/-- Keeping size and counters is reflexive. -/
theorem size_kept_refl (p : proc) : size_kept p p := ⟨rfl, rfl, rfl⟩

/-- Keeping size and counters is transitive. -/
theorem size_kept_trans (p q r : proc) (h1 : size_kept p q) (h2 : size_kept q r) :
    size_kept p r :=
  ⟨h2.1.trans h1.1, h2.2.1.trans h1.2.1, h2.2.2.trans h1.2.2⟩

/-- What `allocproc` does to the table when it returns a slot: the slot was
UNUSED, and no other slot is changed. -/
theorem allocproc_some_slot (kalloc : Nat) (k k1 : Kernel) (np : Nat)
    (h : allocproc kalloc k = (some np, k1)) :
    (∃ p, k.ptable[np]? = some p ∧ p.state = .UNUSED) ∧
    ∀ j, j ≠ np → k1.ptable[j]? = k.ptable[j]? := by
  unfold allocproc at h
  cases hu : unused_slot k.ptable 0 with
  | none =>
    rw [hu] at h
    simp at h
  | some ip =>
    obtain ⟨i, p⟩ := ip
    rw [hu] at h
    obtain ⟨n, hn, hp, hs, _⟩ := unused_slot_some k.ptable 0 i p hu
    rw [Nat.zero_add] at hn
    subst hn
    by_cases hk : kalloc = 0
    · simp [hk] at h
    · simp only [hk, if_false, Prod.mk.injEq, Option.some.injEq] at h
      obtain ⟨h1, h2⟩ := h
      subst h1 h2
      exact ⟨⟨p, hp, hs⟩, fun j hj => List.getElem?_set_ne (fun h' => hj h'.symm)⟩

/-- A call of `thread_create` that returns 0, made by a task whose slot is not
UNUSED: the size of the caller is what `allocuvm` returned for two more pages
above the rounded size, and is not 0; both thread counters are one more. -/
theorem thread_create_size (TT : Int) (env : Env) (k : Kernel) (cur : Nat) (c : proc)
    (hc : k.ptable[cur]? = some c) (hs : c.state ≠ .UNUSED) (t : Option Int) (k' : Kernel)
    (h : thread_create TT env k cur = .ok (0, t, k')) :
    ∃ c', k'.ptable[cur]? = some c' ∧
      c'.sz = env.allocuvm c.pgdir (env.PGROUNDUP c.sz) (env.PGROUNDUP c.sz + 2 * env.PGSIZE) ∧
      c'.sz ≠ 0 ∧ c'.num_of_threads = c.num_of_threads + 1 ∧
      c'.sum_of_threads = c.sum_of_threads + 1 := by
  unfold thread_create at h
  cases hal : allocproc env.kalloc k with
  | mk o k1 =>
    rw [hal] at h
    cases o with
    | none => simp at h
    | some np =>
      obtain ⟨⟨p0, hp0, hp0s⟩, hother⟩ := allocproc_some_slot env.kalloc k k1 np hal
      have hne : cur ≠ np := by
        intro e
        rw [e, hp0] at hc
        simp only [Option.some.injEq] at hc
        rw [hc] at hp0s
        exact hs hp0s
      have hc1 : k1.ptable[cur]? = some c := by rw [hother cur hne, hc]
      simp only [hc1] at h
      generalize hsz : env.allocuvm c.pgdir (env.PGROUNDUP c.sz)
        (env.PGROUNDUP c.sz + 2 * env.PGSIZE) = sz at h
      by_cases hz : sz = 0
      · simp [hz] at h
      · simp only [hz, if_false] at h
        have hcur4 : ∀ (f g : proc → proc),
            (store (store (store (k1.ptable.set cur { c with sz := sz }) np f) cur
              (fun c => { c with num_of_threads := c.num_of_threads + 1, sum_of_threads := c.sum_of_threads + 1 })) np g)[cur]? =
            some { c with sz := sz, num_of_threads := c.num_of_threads + 1, sum_of_threads := c.sum_of_threads + 1 } := by
          intro f g
          have hlt : cur < k1.ptable.length := by
            by_contra hge
            rw [List.getElem?_eq_none (by omega)] at hc1
            cases hc1
          rw [store_getElem?_ne _ _ _ _ hne]
          rw [store_getElem?_self _ _ _ { c with sz := sz }]
          rw [store_getElem?_ne _ _ _ _ hne, List.getElem?_set_self hlt]
        split at h
        · cases h
        · split at h
          · simp at h
          · rw [hcur4] at h
            simp only at h
            split at h
            · simp only [bind_eq_ok] at h
              obtain ⟨ps5, h5, h⟩ := h
              simp only [pure, Except.pure, Except.ok.injEq, Prod.mk.injEq] at h
              obtain ⟨_, _, h⟩ := h
              subst h
              have hpw := thread_create_shares_pointwise size_kept_refl size_kept_trans
                (fun p sh st pa => ⟨rfl, rfl, rfl⟩) (fun p sh st => ⟨rfl, rfl, rfl⟩)
                TT _ cur _ (hcur4 _ _) ps5 h5
              have hlt5 : cur < ps5.length := by
                rw [hpw.1]
                by_contra hge
                have := hcur4 (fun n => { n with pgdir := c.pgdir, sz := sz, parent := some cur, tid := n.pid }) (fun q => { q with state := .RUNNABLE })
                rw [List.getElem?_eq_none (by omega)] at this
                cases this
              obtain ⟨e1, e2, e3⟩ := hpw.2 cur _ _ (hcur4 _ _) (List.getElem?_eq_getElem hlt5)
              exact ⟨_, List.getElem?_eq_getElem hlt5, e1, by rw [e1]; exact hz, e2, e3⟩
            · simp only [Except.ok.injEq, Prod.mk.injEq] at h
              obtain ⟨_, _, h⟩ := h
              subst h
              exact ⟨_, hcur4 _ _, rfl, hz, rfl, rfl⟩

/-- A call of `thread_join` that reaps a thread, made by a task whose slot is
not ZOMBIE: the thread counter of the caller is one less; if it is still not 0
the size is kept, and if it is 0 the size is what `deallocuvm` returned for
`2 * sum_of_threads` pages less, it is not 0, and `sum_of_threads` is 0. -/
theorem thread_join_size (TT : Int) (env : Env) (k : Kernel) (cur : Nat) (c : proc)
    (hc : k.ptable[cur]? = some c) (hs : c.state ≠ .ZOMBIE) (thread v : Int)
    (rv : Option Int) (ks : Nat) (k' : Kernel)
    (h : thread_join TT env k cur thread =
      .ok (Outcome.returned v, rv, k', [MemCall.kfree ks])) :
    ∃ c', k'.ptable[cur]? = some c' ∧ c'.num_of_threads = c.num_of_threads - 1 ∧
      (c.num_of_threads - 1 ≠ 0 → c'.sz = c.sz ∧ c'.sum_of_threads = c.sum_of_threads) ∧
      (c.num_of_threads - 1 = 0 →
        c'.sz = env.deallocuvm c.pgdir c.sz (usub c.sz (2 * c.sum_of_threads * env.PGSIZE)) ∧
        c'.sz ≠ 0 ∧ c'.sum_of_threads = 0) := by
  have hlt : cur < k.ptable.length := by
    by_contra hge
    rw [List.getElem?_eq_none (by omega)] at hc
    cases hc
  unfold thread_join at h
  cases hscan : join_scan cur thread k.ptable 0 false with
  | inr hk =>
    rw [hscan] at h
    simp only at h
    split at h
    · simp at h
    · rw [hc] at h
      simp only at h
      split at h <;> simp at h
  | inl ip =>
    obtain ⟨i, p⟩ := ip
    rw [hscan] at h
    obtain ⟨n, hn, hp, _, _, hpz, _⟩ := join_scan_inl cur thread k.ptable 0 false i p hscan
    rw [Nat.zero_add] at hn
    subst hn
    have hne : cur ≠ i := by
      intro e
      rw [e, hp] at hc
      simp only [Option.some.injEq] at hc
      rw [hc] at hpz
      exact hs hpz
    simp only [bind_eq_ok] at h
    obtain ⟨r, hr, h⟩ := h
    simp only [pure, Except.pure, Except.ok.injEq, Prod.mk.injEq] at h
    obtain ⟨_, _, hk', hm⟩ := h
    unfold join_reap at hr
    rw [hc] at hr
    simp only at hr
    split at hr
    · simp only [Except.ok.injEq] at hr
      rw [← hr] at hm
      simp at hm
    · rename_i hcond
      simp only [bind_eq_ok] at hr
      obtain ⟨st, _, hr⟩ := hr
      simp only [pure, Except.pure, Except.ok.injEq] at hr
      rw [← hr] at hk'
      simp only at hk'
      subst hk'
      by_cases h0 : c.num_of_threads - 1 = 0
      · simp only [h0, if_true]
        rw [store_getElem?_ne _ _ _ _ hne, List.getElem?_set_self hlt]
        refine ⟨_, rfl, rfl, fun hcon => absurd rfl hcon, fun _ => ⟨rfl, ?_, rfl⟩⟩
        intro hz
        exact hcond ⟨h0, hz⟩
      · simp only [h0, if_false]
        rw [store_getElem?_ne _ _ _ _ hne, List.getElem?_set_self hlt]
        exact ⟨_, rfl, rfl, fun _ => ⟨rfl, rfl⟩, fun hcon => hcon.elim⟩

/-- After `n` successful calls of `thread_create`: both counters have grown
by `n`, and the size is the rounded size plus `2 * n` pages (for `n ≥ 1`). -/
theorem creates_size (TT : Int) (env : Env) (cur : Nat)
    (hP : 0 < env.PGSIZE)
    (hmul : ∀ x, ∃ q, env.PGROUNDUP x = q * env.PGSIZE)
    (hfix : ∀ q, env.PGROUNDUP (q * env.PGSIZE) = q * env.PGSIZE)
    (ha : ∀ (d : Nat) (a b : Int), a < b → env.allocuvm d a b = b ∨ env.allocuvm d a b = 0)
    (n : Nat) (k0 k1 : Kernel) (h : Creates TT env cur n k0 k1) (c0 : proc)
    (hc0 : k0.ptable[cur]? = some c0) :
    ∃ c1, k1.ptable[cur]? = some c1 ∧ c1.num_of_threads = c0.num_of_threads + n ∧
      c1.sum_of_threads = c0.sum_of_threads + n ∧ (n = 0 → c1.sz = c0.sz) ∧
      (1 ≤ n → c1.sz = env.PGROUNDUP c0.sz + 2 * n * env.PGSIZE) := by
  induction h with
  | zero k => exact ⟨c0, hc0, by simp, by simp, fun _ => rfl, fun h => by omega⟩
  | create n k ka kb kc t _ hkept halive hcall ih =>
    obtain ⟨c1, hc1, hnum, hsum, hsz0, hszn⟩ := ih hc0
    obtain ⟨a, b, ha1, hb1, e1, e2, e3⟩ := hkept
    rw [hc1] at ha1
    simp only [Option.some.injEq] at ha1
    subst ha1
    obtain ⟨b', hb', hbs, _⟩ := halive
    rw [hb1] at hb'
    simp only [Option.some.injEq] at hb'
    subst hb'
    obtain ⟨c3, hc3, hsz3, hnz, hn3, hs3⟩ := thread_create_size TT env kb cur b hb1 hbs t kc hcall
    have hround : env.PGROUNDUP b.sz = env.PGROUNDUP c0.sz + 2 * n * env.PGSIZE := by
      rw [e1]
      by_cases hn : n = 0
      · rw [hsz0 hn, hn]; simp
      · rw [hszn (by omega)]
        obtain ⟨q, hq⟩ := hmul c0.sz
        rw [hq]
        have : q * env.PGSIZE + 2 * (n : Int) * env.PGSIZE = (q + 2 * n) * env.PGSIZE := by ring
        rw [this, hfix]
    have hgrow : c3.sz = env.PGROUNDUP b.sz + 2 * env.PGSIZE := by
      rcases ha b.pgdir (env.PGROUNDUP b.sz) (env.PGROUNDUP b.sz + 2 * env.PGSIZE) (by omega)
        with h1 | h1
      · rw [hsz3, h1]
      · rw [hsz3] at hnz
        exact absurd h1 hnz
    refine ⟨c3, hc3, ?_, ?_, fun h => by omega, fun _ => ?_⟩
    · rw [hn3, e2, hnum]; push_cast; ring
    · rw [hs3, e3, hsum]; push_cast; ring
    · rw [hgrow, hround]; push_cast; ring

/-- After `m` calls of `thread_join` that reap a thread, `m` being at most the
thread counter, when the size less `2 * sum_of_threads` pages is a `uint`
value: the counter is `m` less; while it is not 0 the size and
`sum_of_threads` are kept, and when it reaches 0 the size is
`2 * sum_of_threads` pages less and `sum_of_threads` is 0. -/
theorem joins_size (TT : Int) (env : Env) (cur : Nat)
    (hP : 0 < env.PGSIZE)
    (hd : ∀ (d : Nat) (a b : Int), b < a → env.deallocuvm d a b = b)
    (m : Nat) (k1 k2 : Kernel) (h : Joins TT env cur m k1 k2) (c1 : proc)
    (hc1 : k1.ptable[cur]? = some c1) (hm : (m : Int) ≤ c1.num_of_threads)
    (hsum : 0 < c1.sum_of_threads)
    (hu : 0 ≤ c1.sz - 2 * c1.sum_of_threads * env.PGSIZE ∧
      c1.sz - 2 * c1.sum_of_threads * env.PGSIZE < 4294967296) :
    ∃ c2, k2.ptable[cur]? = some c2 ∧ c2.num_of_threads = c1.num_of_threads - m ∧
      ((m : Int) < c1.num_of_threads ∨ m = 0 →
        c2.sz = c1.sz ∧ c2.sum_of_threads = c1.sum_of_threads) ∧
      ((m : Int) = c1.num_of_threads → 1 ≤ m →
        c2.sz = c1.sz - 2 * c1.sum_of_threads * env.PGSIZE ∧ c2.sum_of_threads = 0) := by
  induction h with
  | zero k => exact ⟨c1, hc1, by simp, fun _ => ⟨rfl, rfl⟩, fun _ h => by omega⟩
  | join m k ka kb kc thread v rv ks _ hkept halive hcall ih =>
    have hm' : (m : Int) < c1.num_of_threads := by push_cast at hm; omega
    obtain ⟨c, hc, hnum, hkeep, _⟩ := ih hc1 (by omega)
    obtain ⟨hsz, hs⟩ := hkeep (Or.inl hm')
    obtain ⟨a, b, ha1, hb1, e1, e2, e3⟩ := hkept
    rw [hc] at ha1
    simp only [Option.some.injEq] at ha1
    subst ha1
    obtain ⟨b', hb', _, hbz⟩ := halive
    rw [hb1] at hb'
    simp only [Option.some.injEq] at hb'
    subst hb'
    obtain ⟨c3, hc3, hn3, hne, heq⟩ :=
      thread_join_size TT env kb cur b hb1 hbz thread v rv ks kc hcall
    refine ⟨c3, hc3, by rw [hn3, e2, hnum]; push_cast; ring, fun hlt => ?_, fun he _ => ?_⟩
    · have hlt' : ((m : Int) + 1) < c1.num_of_threads := by
        rcases hlt with h | h
        · push_cast at h; exact h
        · omega
      obtain ⟨h1, h2⟩ := hne (by rw [e2, hnum]; omega)
      exact ⟨by rw [h1, e1, hsz], by rw [h2, e3, hs]⟩
    · push_cast at he
      obtain ⟨h1, _, h3⟩ := heq (by rw [e2, hnum]; omega)
      refine ⟨?_, h3⟩
      rw [h1, e1, e3, hsz, hs]
      have hwrap : usub c1.sz (2 * c1.sum_of_threads * env.PGSIZE) =
          c1.sz - 2 * c1.sum_of_threads * env.PGSIZE := Int.emod_eq_of_lt hu.1 hu.2
      rw [hwrap]
      apply hd
      have : 0 < c1.sum_of_threads * env.PGSIZE := mul_pos hsum hP
      linarith

/-- C27: the thread stack round trip.  With pages of a positive size, a
`PGROUNDUP` that returns multiples of the page size and leaves them as they
are, an `allocuvm` that returns the new size or 0 and a `deallocuvm` that
returns the new size when it is smaller, and `PGROUNDUP(sz0)` a `uint` value:
if a task (slot `cur`) with
`num_of_threads = sum_of_threads = 0` and size `sz0` makes `n ≥ 1` calls of
`thread_create` that return 0 and then `n` calls of `thread_join` that reap a
thread, and nothing else changes its size or its counters in between, then
afterwards its `num_of_threads` and `sum_of_threads` are 0 and its size is
`PGROUNDUP(sz0)`. -/
theorem thread_stack_round_trip (TT : Int) (env : Env) (cur n : Nat) (k0 k1 k2 : Kernel)
    (c0 : proc)
    (hP : 0 < env.PGSIZE)
    (hmul : ∀ x, ∃ q, env.PGROUNDUP x = q * env.PGSIZE)
    (hfix : ∀ q, env.PGROUNDUP (q * env.PGSIZE) = q * env.PGSIZE)
    (ha : ∀ (d : Nat) (a b : Int), a < b → env.allocuvm d a b = b ∨ env.allocuvm d a b = 0)
    (hd : ∀ (d : Nat) (a b : Int), b < a → env.deallocuvm d a b = b)
    (hc0 : k0.ptable[cur]? = some c0) (hnum : c0.num_of_threads = 0)
    (hsum : c0.sum_of_threads = 0) (hn : 1 ≤ n)
    (hu : 0 ≤ env.PGROUNDUP c0.sz ∧ env.PGROUNDUP c0.sz < 4294967296)
    (hcreate : Creates TT env cur n k0 k1) (hjoin : Joins TT env cur n k1 k2) :
    ∃ c2, k2.ptable[cur]? = some c2 ∧ c2.num_of_threads = 0 ∧ c2.sum_of_threads = 0 ∧
      c2.sz = env.PGROUNDUP c0.sz := by
  obtain ⟨c1, hc1, hn1, hs1, _, hsz1⟩ :=
    creates_size TT env cur hP hmul hfix ha n k0 k1 hcreate c0 hc0
  rw [hnum, zero_add] at hn1
  rw [hsum, zero_add] at hs1
  have he : c1.sz - 2 * c1.sum_of_threads * env.PGSIZE = env.PGROUNDUP c0.sz := by
    rw [hsz1 hn, hs1]; ring
  obtain ⟨c2, hc2, hn2, _, hlast⟩ :=
    joins_size TT env cur hP hd n k1 k2 hjoin c1 hc1 (by rw [hn1])
      (by rw [hs1]; exact_mod_cast hn) (by rw [he]; exact hu)
  obtain ⟨hsz2, hs2⟩ := hlast hn1.symm hn
  refine ⟨c2, hc2, by rw [hn2, hn1]; ring, hs2, ?_⟩
  rw [hsz2, hsz1 hn, hs1]
  ring

/-- The environment `env_ok` meets the hypotheses of the round trip, and in
`two_threads_round_trip` process A (size 5000) ends with both counters 0 and
the size 8192. -/
theorem thread_stack_round_trip_witness :
    ∃ ka kb kc kd ke, two_threads_round_trip = .ok (ka, kb, kc, kd, ke) ∧
      Creates 10000 env_ok 1 2 round_trip_start kb ∧ Joins 10000 env_ok 1 2 kb ke ∧
      ∃ c2, ke.ptable[1]? = some c2 ∧ c2.num_of_threads = 0 ∧ c2.sum_of_threads = 0 ∧
        c2.sz = 8192 := by
  have hrun : ∃ ka kb kc kd ke, two_threads_round_trip = .ok (ka, kb, kc, kd, ke) ∧
      thread_create 10000 env_ok round_trip_start 1 = .ok (0, some 5, ka) ∧
      thread_create 10000 env_ok ka 1 = .ok (0, some 6, kb) ∧
      thread_join 10000 env_ok kc 1 5 =
        .ok (Outcome.returned 5, some 7, kd, [MemCall.kfree 9]) ∧
      thread_join 10000 env_ok kd 1 6 =
        .ok (Outcome.returned 6, some 8, ke, [MemCall.kfree 9]) ∧
      SizeKept 1 round_trip_start round_trip_start ∧ Alive 1 round_trip_start ∧
      SizeKept 1 ka ka ∧ Alive 1 ka ∧ SizeKept 1 kb kc ∧ Alive 1 kc ∧
      SizeKept 1 kd kd ∧ Alive 1 kd :=
    ⟨_, _, _, _, _, rfl, rfl, rfl, rfl, rfl,
      ⟨_, _, rfl, rfl, rfl, rfl, rfl⟩, ⟨_, rfl, by decide, by decide⟩,
      ⟨_, _, rfl, rfl, rfl, rfl, rfl⟩, ⟨_, rfl, by decide, by decide⟩,
      ⟨_, _, rfl, rfl, rfl, rfl, rfl⟩, ⟨_, rfl, by decide, by decide⟩,
      ⟨_, _, rfl, rfl, rfl, rfl, rfl⟩, ⟨_, rfl, by decide, by decide⟩⟩
  obtain ⟨ka, kb, kc, kd, ke, hrun, hc1, hc2, hj1, hj2, s0, a0, s1, a1, s2, a2, s3, a3⟩ := hrun
  have hcr : Creates 10000 env_ok 1 2 round_trip_start kb :=
    Creates.create 1 _ ka ka kb (some 6)
      (Creates.create 0 _ round_trip_start round_trip_start ka (some 5) (Creates.zero _)
        s0 a0 hc1) s1 a1 hc2
  have hj : Joins 10000 env_ok 1 2 kb ke :=
    Joins.join 1 _ kd kd ke 6 6 (some 8) 9
      (Joins.join 0 _ kb kc kd 5 5 (some 7) 9 (Joins.zero _) s2 a2 hj1) s3 a3 hj2
  obtain ⟨c2, h1, h2, h3, h4⟩ :=
    thread_stack_round_trip 10000 env_ok 1 2 round_trip_start kb ke _ (by decide)
      (fun x => ⟨(x + 4095) / 4096, rfl⟩)
      (fun q => by show (q * 4096 + 4095) / 4096 * 4096 = q * 4096; omega)
      (fun d a b _ => Or.inl rfl)
      (fun d a b h => by show (if b ≥ a then a else b) = b; rw [if_neg (by omega)])
      (show round_trip_start.ptable[1]? = some _ from rfl) rfl rfl (by decide)
      ⟨by decide, by decide⟩ hcr hj
  exact ⟨ka, kb, kc, kd, ke, hrun, hcr, hj, c2, h1, h2, h3, h4.trans (by decide)⟩

/-! ## No lifecycle operation raises a level -/

/-- Keeping the level or resetting it is reflexive. -/
theorem level_kept_refl (p : proc) : level_kept p p := Or.inl rfl

/-- Keeping the level or resetting it is transitive. -/
theorem level_kept_trans (p q r : proc) (h1 : level_kept p q) (h2 : level_kept q r) :
    level_kept p r := by
  unfold level_kept at *
  rcases h2 with h2 | h2
  · rcases h1 with h1 | h1
    · exact Or.inl (h2.trans h1)
    · exact Or.inr (h2.trans h1)
  · exact Or.inr h2

/-- Composition of two steps that keep or reset the levels. -/
theorem levels_trans {a b c : List proc} (h1 : Pointwise level_kept a b)
    (h2 : Pointwise level_kept b c) : Pointwise level_kept a c :=
  pointwise_trans level_kept_trans h1 h2

/-- A `set` with a value of the same level as the slot, or of level 0. -/
theorem levels_set (ps : List proc) (i : Nat) (a : proc)
    (h : ∀ p, ps[i]? = some p → a.level = p.level ∨ a.level = 0) :
    Pointwise level_kept ps (ps.set i a) :=
  pointwise_set level_kept_refl ps i a h

/-- A write through a pointer that keeps or resets the level. -/
theorem levels_store (ps : List proc) (i : Nat) (f : proc → proc)
    (h : ∀ p, (f p).level = p.level ∨ (f p).level = 0) :
    Pointwise level_kept ps (store ps i f) :=
  pointwise_store level_kept_refl ps i f (fun p _ => h p)

/-- The loop of `wakeup1` keeps every level. -/
theorem wakeup1_levels (chan : Option Chan) (ps : List proc) :
    Pointwise level_kept ps (wakeup1 chan ps) := by
  unfold wakeup1
  refine pointwise_map ps _ (fun p => ?_)
  unfold level_kept
  split
  · exact Or.inl rfl
  · exact Or.inl rfl

/-- The reparenting loop keeps every level. -/
theorem reparent_levels (initproc : Option Nat) (cur : Nat) (n i : Nat) (ps : List proc) :
    Pointwise level_kept ps (reparent initproc cur n i ps) := by
  induction n generalizing i ps with
  | zero => exact pointwise_refl level_kept_refl ps
  | succ n ih =>
    unfold reparent
    cases hi : ps[i]? with
    | none => exact ih (i + 1) ps
    | some p =>
      simp only
      by_cases hp : p.parent = some cur
      · rw [if_pos hp]
        have h1 : Pointwise level_kept ps (ps.set i { p with parent := initproc }) :=
          levels_set ps i _ (fun q hq => by
            rw [hi] at hq
            simp only [Option.some.injEq] at hq
            subst hq
            exact Or.inl rfl)
        by_cases hz : p.state = .ZOMBIE
        · rw [if_pos hz]
          exact levels_trans (levels_trans h1 (wakeup1_levels _ _)) (ih (i + 1) _)
        · rw [if_neg hz]
          exact levels_trans h1 (ih (i + 1) _)
      · rw [if_neg hp]
        exact ih (i + 1) ps

/-- The loop of `kill` keeps every level. -/
theorem kill_scan_levels (pid : Int) (ps ps' : List proc) (h : kill_scan pid ps = some ps') :
    Pointwise level_kept ps ps' := by
  induction ps generalizing ps' with
  | nil => simp [kill_scan] at h
  | cons a ps ih =>
    unfold kill_scan at h
    by_cases ha : a.pid = pid
    · rw [if_pos ha] at h
      simp only [Option.some.injEq] at h
      subst h
      exact pointwise_cons (Or.inl rfl) (pointwise_refl level_kept_refl ps)
    · rw [if_neg ha] at h
      cases hr : kill_scan pid ps with
      | none => rw [hr] at h; simp at h
      | some ps1 =>
        rw [hr] at h
        simp only [Option.some.injEq] at h
        subst h
        exact pointwise_cons (Or.inl rfl) (ih ps1 hr)

/-- The call `kill` keeps every level. -/
theorem kill_levels (k : Kernel) (pid : Int) :
    Pointwise level_kept k.ptable (kill k pid).2.ptable := by
  unfold kill
  cases hr : kill_scan pid k.ptable with
  | none => exact pointwise_refl level_kept_refl _
  | some ps1 => exact kill_scan_levels pid _ _ hr

/-- The call `allocproc` keeps every level but that of the slot it claims,
which it sets to 0. -/
theorem allocproc_levels (kalloc : Nat) (k : Kernel) :
    Pointwise level_kept k.ptable (allocproc kalloc k).2.ptable := by
  unfold allocproc
  cases hu : unused_slot k.ptable 0 with
  | none => exact pointwise_refl level_kept_refl _
  | some ip =>
    obtain ⟨i, p⟩ := ip
    simp only
    by_cases hk : kalloc = 0
    · rw [if_pos hk]
      exact levels_set _ _ _ (fun _ _ => Or.inr rfl)
    · rw [if_neg hk]
      exact levels_set _ _ _ (fun _ _ => Or.inr rfl)

/-- The function `userinit` keeps or resets every level. -/
theorem userinit_levels (TT : Int) (env : Env) (setupkvm : Nat) (k k' : Kernel)
    (h : userinit TT env setupkvm k = .ok k') : Pointwise level_kept k.ptable k'.ptable := by
  unfold userinit at h
  have hal := allocproc_levels env.kalloc k
  cases ha : allocproc env.kalloc k with
  | mk o k1 =>
    rw [ha] at h hal
    cases o with
    | none => simp at h
    | some np =>
      simp only at h
      split at h
      · simp at h
      · simp only [bind_eq_ok] at h
        obtain ⟨st, _, h⟩ := h
        simp only [pure, Except.pure, Except.ok.injEq] at h
        subst h
        exact levels_trans hal (levels_store _ _ _ (fun _ => Or.inr rfl))

/-- The call `fork` keeps or resets every level. -/
theorem fork_levels (env : Env) (k : Kernel) (cur : Nat) (r : Int × Kernel × List MemCall)
    (h : fork env k cur = .ok r) : Pointwise level_kept k.ptable r.2.1.ptable := by
  unfold fork at h
  have hal := allocproc_levels env.kalloc k
  cases ha : allocproc env.kalloc k with
  | mk o k1 =>
    rw [ha] at h hal
    cases o with
    | none =>
      simp only [Except.ok.injEq] at h
      subst h
      exact hal
    | some np =>
      simp only at h
      split at h
      · simp at h
      · split at h
        · simp at h
        · rename_i n hn
          split at h
          · simp only [Except.ok.injEq] at h
            subst h
            refine levels_trans hal (levels_set _ _ _ (fun q hq => ?_))
            rw [hn] at hq
            simp only [Option.some.injEq] at hq
            subst hq
            exact Or.inl rfl
          · simp only [Except.ok.injEq] at h
            subst h
            refine levels_trans hal (levels_set _ _ _ (fun q hq => ?_))
            rw [hn] at hq
            simp only [Option.some.injEq] at hq
            subst hq
            exact Or.inl rfl

/-- The function `yield` keeps every level. -/
theorem yield_levels (k : Kernel) (cur : Nat) (k' : Kernel) (h : yield k cur = .ok k') :
    Pointwise level_kept k.ptable k'.ptable := by
  unfold yield at h
  split at h
  · simp at h
  · rename_i p hp
    simp only [Except.ok.injEq] at h
    subst h
    refine levels_set _ _ _ (fun q hq => ?_)
    rw [hp] at hq
    simp only [Option.some.injEq] at hq
    subst hq
    exact Or.inl rfl

/-- The function `sleep` keeps every level. -/
theorem sleep_levels (k : Kernel) (cur : Nat) (chan : Option Chan) (lk : Nat) (k' : Kernel)
    (h : sleep k cur chan lk = .ok k') : Pointwise level_kept k.ptable k'.ptable := by
  unfold sleep at h
  split at h
  · simp at h
  · rename_i p hp
    split at h
    · simp at h
    · simp only [Except.ok.injEq] at h
      subst h
      refine levels_set _ _ _ (fun q hq => ?_)
      rw [hp] at hq
      simp only [Option.some.injEq] at hq
      subst hq
      exact Or.inl rfl

/-- The call `wait` keeps every level but that of the slot it reaps, which it
sets to 0. -/
theorem wait_levels (TT : Int) (k : Kernel) (cur : Nat) (r : Outcome × Kernel × List MemCall)
    (h : wait TT k cur = .ok r) : Pointwise level_kept k.ptable r.2.1.ptable := by
  unfold wait at h
  split at h
  · simp only [bind_eq_ok] at h
    obtain ⟨r1, hr1, h⟩ := h
    simp only [pure, Except.pure, Except.ok.injEq] at h
    subst h
    unfold wait_reap at hr1
    simp only [bind_eq_ok] at hr1
    obtain ⟨st, _, hr1⟩ := hr1
    simp only [pure, Except.pure, Except.ok.injEq] at hr1
    subst hr1
    exact levels_set _ _ _ (fun _ _ => Or.inr rfl)
  · split at h
    · simp only [Except.ok.injEq] at h
      subst h
      exact pointwise_refl level_kept_refl _
    · split at h
      · simp at h
      · rename_i p hp
        split at h
        · simp only [Except.ok.injEq] at h
          subst h
          exact pointwise_refl level_kept_refl _
        · simp only [Except.ok.injEq] at h
          subst h
          refine levels_set _ _ _ (fun q hq => ?_)
          rw [hp] at hq
          simp only [Option.some.injEq] at hq
          subst hq
          exact Or.inl rfl

/-- The call `thread_exit` keeps every level. -/
theorem thread_exit_levels (k : Kernel) (cur : Nat) (retval : Int) (k' : Kernel)
    (h : thread_exit k cur retval = .ok k') : Pointwise level_kept k.ptable k'.ptable := by
  unfold thread_exit at h
  split at h
  · simp at h
  · split at h
    · simp at h
    · simp only [Except.ok.injEq] at h
      subst h
      exact levels_trans (levels_trans (wakeup1_levels _ _) (reparent_levels _ _ _ _ _))
        (levels_store _ _ _ (fun _ => Or.inl rfl))

/-- The call `thread_join` keeps every level but that of the slot it reaps,
which it sets to 0. -/
theorem thread_join_levels (TT : Int) (env : Env) (k : Kernel) (cur : Nat) (thread : Int)
    (r : Outcome × Option Int × Kernel × List MemCall)
    (h : thread_join TT env k cur thread = .ok r) :
    Pointwise level_kept k.ptable r.2.2.1.ptable := by
  unfold thread_join at h
  split at h
  · simp only [bind_eq_ok] at h
    obtain ⟨r1, hr1, h⟩ := h
    simp only [pure, Except.pure, Except.ok.injEq] at h
    subst h
    unfold join_reap at hr1
    split at hr1
    · simp at hr1
    · rename_i pp hpp
      simp only at hr1
      split at hr1
      · simp only [Except.ok.injEq] at hr1
        subst hr1
        refine levels_set _ _ _ (fun q hq => ?_)
        rw [hpp] at hq
        simp only [Option.some.injEq] at hq
        subst hq
        exact Or.inl rfl
      · simp only [bind_eq_ok] at hr1
        obtain ⟨st, _, hr1⟩ := hr1
        simp only [pure, Except.pure, Except.ok.injEq] at hr1
        subst hr1
        refine levels_trans (levels_set _ _ _ (fun q hq => ?_))
          (levels_store _ _ _ (fun _ => Or.inr rfl))
        rw [hpp] at hq
        simp only [Option.some.injEq] at hq
        subst hq
        split
        · exact Or.inl rfl
        · exact Or.inl rfl
  · split at h
    · simp only [Except.ok.injEq] at h
      subst h
      exact pointwise_refl level_kept_refl _
    · split at h
      · simp at h
      · rename_i p hp
        split at h
        · simp only [Except.ok.injEq] at h
          subst h
          exact pointwise_refl level_kept_refl _
        · simp only [Except.ok.injEq] at h
          subst h
          refine levels_set _ _ _ (fun q hq => ?_)
          rw [hp] at hq
          simp only [Option.some.injEq] at hq
          subst hq
          exact Or.inl rfl

/-- The function `exitProcAndProc` keeps every level. -/
theorem exitProcAndProc_levels (k : Kernel) (cur : Nat) (curproc : proc) :
    Pointwise level_kept k.ptable (exitProcAndProc k cur curproc).ptable := by
  unfold exitProcAndProc
  exact levels_trans (levels_trans (wakeup1_levels _ _) (reparent_levels _ _ _ _ _))
    (levels_store _ _ _ (fun _ => Or.inl rfl))

/-- Clearing a thread slot resets its level. -/
theorem thread_cleared_level (p : proc) :
    (thread_cleared p).level = p.level ∨ (thread_cleared p).level = 0 := Or.inr rfl

/-- The statements of `exitProcAndLWP` on the parent keep its level. -/
theorem drop_thread_level (env : Env) (p : proc) :
    (drop_thread env p).level = p.level ∨ (drop_thread env p).level = 0 := by
  unfold drop_thread
  simp only
  split
  · exact Or.inl rfl
  · exact Or.inl rfl

/-- The statements of `exitLWPAndLWP` on the parent keep its level. -/
theorem drop_caller_level (env : Env) (p : proc) :
    (drop_caller env p).level = p.level ∨ (drop_caller env p).level = 0 := by
  unfold drop_caller
  simp only
  split
  · exact Or.inl rfl
  · exact Or.inl rfl

/-- The first loop of `exitProcAndLWP` keeps or resets every level. -/
theorem exitProcAndLWP_loop_levels (TT : Int) (env : Env) (cur : Nat) (n i : Nat)
    (s s' : Kernel × List MemCall) (h : exitProcAndLWP_loop TT env cur n i s = .ok s') :
    Pointwise level_kept s.1.ptable s'.1.ptable := by
  induction n generalizing i s with
  | zero =>
    simp only [exitProcAndLWP_loop, Except.ok.injEq] at h
    subst h
    exact pointwise_refl level_kept_refl _
  | succ n ih =>
    unfold exitProcAndLWP_loop at h
    split at h
    · exact ih _ _ h
    · split at h
      · split at h
        · simp at h
        · simp only [bind_eq_ok] at h
          obtain ⟨st, _, h⟩ := h
          exact levels_trans
            (levels_trans (levels_store _ _ _ (drop_thread_level env))
              (levels_store _ _ _ thread_cleared_level))
            (ih _ _ h)
      · exact ih _ _ h

/-- The function `exitProcAndLWP` keeps or resets every level. -/
theorem exitProcAndLWP_levels (TT : Int) (env : Env) (k : Kernel) (cur : Nat)
    (r : Kernel × List MemCall) (h : exitProcAndLWP TT env k cur = .ok r) :
    Pointwise level_kept k.ptable r.1.ptable := by
  unfold exitProcAndLWP at h
  simp only [bind_eq_ok] at h
  obtain ⟨s, hs, h⟩ := h
  have h1 := exitProcAndLWP_loop_levels TT env cur _ _ _ _ hs
  split at h
  · simp at h
  · simp only [pure, Except.pure, Except.ok.injEq] at h
    subst h
    exact levels_trans h1
      (levels_trans (wakeup1_levels _ _) (levels_store _ _ _ (fun _ => Or.inl rfl)))

/-- The first loop of `exitLWPAndLWP` keeps or resets every level. -/
theorem exitLWPAndLWP_loop_levels (TT : Int) (cur : Nat) (pp : Option Nat) (n i : Nat)
    (s s' : Kernel × List MemCall) (h : exitLWPAndLWP_loop TT cur pp n i s = .ok s') :
    Pointwise level_kept s.1.ptable s'.1.ptable := by
  induction n generalizing i s with
  | zero =>
    simp only [exitLWPAndLWP_loop, Except.ok.injEq] at h
    subst h
    exact pointwise_refl level_kept_refl _
  | succ n ih =>
    unfold exitLWPAndLWP_loop at h
    split at h
    · exact ih _ _ h
    · split at h
      · split at h
        · simp at h
        · split at h
          · simp at h
          · simp only [bind_eq_ok] at h
            obtain ⟨st, _, h⟩ := h
            refine levels_trans
              (levels_trans (levels_store _ _ _ ?_) (levels_store _ _ _ thread_cleared_level))
              (ih _ _ h)
            exact fun _ => Or.inl rfl
      · exact ih _ _ h

/-- The function `exitLWPAndLWP` keeps or resets every level. -/
theorem exitLWPAndLWP_levels (TT : Int) (env : Env) (k : Kernel) (cur : Nat) (curproc : proc)
    (r : Kernel × List MemCall) (h : exitLWPAndLWP TT env k cur curproc = .ok r) :
    Pointwise level_kept k.ptable r.1.ptable := by
  unfold exitLWPAndLWP at h
  simp only [bind_eq_ok] at h
  obtain ⟨s, hs, h⟩ := h
  have h1 := exitLWPAndLWP_loop_levels TT cur _ _ _ _ _ hs
  split at h
  · simp at h
  · split at h
    · simp at h
    · split at h
      · simp at h
      · simp only [pure, Except.pure, Except.ok.injEq] at h
        subst h
        refine levels_trans h1 ?_
        refine levels_trans ?_ (levels_store _ _ _ ?_)
        · refine levels_trans ?_ (wakeup1_levels _ _)
          refine levels_trans (levels_store _ _ _ (drop_caller_level env)) (levels_store _ _ _ ?_)
          exact fun _ => Or.inl rfl
        · exact fun _ => Or.inl rfl

/-- The call `exit` keeps or resets every level. -/
theorem exit_levels (TT : Int) (env : Env) (k : Kernel) (cur : Nat)
    (r : Kernel × List MemCall) (h : exit TT env k cur = .ok r) :
    Pointwise level_kept k.ptable r.1.ptable := by
  unfold exit at h
  split at h
  · simp at h
  · split at h
    · simp at h
    · split at h
      · simp only [Except.ok.injEq] at h
        subst h
        exact exitProcAndProc_levels _ _ _
      · split at h
        · exact exitProcAndLWP_levels TT env k cur r h
        · exact exitLWPAndLWP_levels TT env k cur _ r h

/-- The call `thread_create` keeps every level but that of the slot it
claims, which it sets to 0. -/
theorem thread_create_levels (TT : Int) (env : Env) (k : Kernel) (cur : Nat)
    (r : Int × Option Int × Kernel) (h : thread_create TT env k cur = .ok r) :
    Pointwise level_kept k.ptable r.2.2.ptable := by
  unfold thread_create at h
  have hal := allocproc_levels env.kalloc k
  cases ha : allocproc env.kalloc k with
  | mk o k1 =>
    rw [ha] at h hal
    cases o with
    | none =>
      simp only [Except.ok.injEq] at h
      subst h
      exact hal
    | some np =>
      simp only at h
      split at h
      · simp at h
      · rename_i curproc hcur
        have h1 : Pointwise level_kept k1.ptable
            (k1.ptable.set cur { curproc with sz := env.allocuvm curproc.pgdir (env.PGROUNDUP curproc.sz) (env.PGROUNDUP curproc.sz + 2 * env.PGSIZE) }) := by
          refine levels_set _ _ _ (fun q hq => ?_)
          rw [hcur] at hq
          simp only [Option.some.injEq] at hq
          subst hq
          exact Or.inl rfl
        split at h
        · simp only [Except.ok.injEq] at h
          subst h
          exact levels_trans hal h1
        · have h2 := levels_trans (levels_trans hal h1)
            (levels_store (k1.ptable.set cur { curproc with sz := env.allocuvm curproc.pgdir (env.PGROUNDUP curproc.sz) (env.PGROUNDUP curproc.sz + 2 * env.PGSIZE) }) np
              (fun n => { n with pgdir := curproc.pgdir, sz := env.allocuvm curproc.pgdir (env.PGROUNDUP curproc.sz) (env.PGROUNDUP curproc.sz + 2 * env.PGSIZE), parent := some cur, tid := n.pid })
              (fun _ => Or.inl rfl))
          split at h
          · simp at h
          · have h3 := levels_trans h2
              (levels_store _ cur
                (fun c => { c with num_of_threads := c.num_of_threads + 1, sum_of_threads := c.sum_of_threads + 1 })
                (fun _ => Or.inl rfl))
            split at h
            · simp only [Except.ok.injEq] at h
              subst h
              exact h3
            · have h4 := levels_trans h3
                (levels_store _ np (fun q => { q with state := .RUNNABLE }) (fun _ => Or.inl rfl))
              split at h
              · simp at h
              · rename_i par hpar
                split at h
                · simp only [bind_eq_ok] at h
                  obtain ⟨ps5, h5, h⟩ := h
                  simp only [pure, Except.pure, Except.ok.injEq] at h
                  subst h
                  exact levels_trans h4
                    (thread_create_shares_pointwise level_kept_refl level_kept_trans
                      (fun _ _ _ _ => Or.inl rfl) (fun _ _ _ => Or.inl rfl) TT _ cur par hpar ps5 h5)
                · simp only [Except.ok.injEq] at h
                  subst h
                  exact h4

/-- The middle part of `set_cpu_share` keeps every level. -/
theorem share_tasks_levels (TT : Int) (ps : List proc) (cur : Nat) (curproc : proc)
    (hcur : ps[cur]? = some curproc) (share pass : Int) (ps' : List proc)
    (h : share_tasks TT ps cur curproc share pass = .ok ps') : Pointwise level_kept ps ps' := by
  have hset : ∀ (sh st : Int), Pointwise level_kept ps
      (ps.set cur { curproc with isStride := true, share := sh, stride := st, pass := pass }) := by
    intro sh st
    refine levels_set _ _ _ (fun q hq => ?_)
    rw [hcur] at hq
    simp only [Option.some.injEq] at hq
    subst hq
    exact Or.inl rfl
  unfold share_tasks at h
  split at h
  · split at h
    · simp only [bind_eq_ok] at h
      obtain ⟨sh, _, st, _, h⟩ := h
      exact levels_trans (hset sh st)
        (share_threads_pointwise level_kept_refl (fun _ _ _ _ => Or.inl rfl) TT share _ cur _ _ ps' h)
    · simp only [bind_eq_ok] at h
      obtain ⟨st, _, h⟩ := h
      simp only [pure, Except.pure, Except.ok.injEq] at h
      subst h
      exact hset _ _
  · simp only [bind_eq_ok] at h
    obtain ⟨st, _, h⟩ := h
    simp only [pure, Except.pure, Except.ok.injEq] at h
    subst h
    exact hset _ _

/-- The call `set_cpu_share` keeps every level. -/
theorem set_cpu_share_levels (TT : Int) (k : Kernel) (cur : Nat) (share : Int)
    (r : Int × Kernel) (h : set_cpu_share TT k cur share = .ok r) :
    Pointwise level_kept k.ptable r.2.ptable := by
  unfold set_cpu_share at h
  split at h
  · simp only [Except.ok.injEq] at h
    subst h
    exact pointwise_refl level_kept_refl _
  · split at h
    · simp only [Except.ok.injEq] at h
      subst h
      exact pointwise_refl level_kept_refl _
    · split at h
      · simp at h
      · rename_i curproc hcur
        simp only [bind_eq_ok] at h
        obtain ⟨ps1, h1, st, _, h⟩ := h
        simp only [pure, Except.pure, Except.ok.injEq] at h
        subst h
        exact share_tasks_levels TT _ cur curproc hcur share _ ps1 h1

/-- No lifecycle operation changes the length of the table, and none changes a
level except to reset it to 0. -/
theorem lifecycle_levels (TT : Int) (k k' : Kernel) (h : Lifecycle TT k k') :
    Pointwise level_kept k.ptable k'.ptable := by
  cases h with
  | userinit_op env setupkvm _ _ h => exact userinit_levels TT env setupkvm k k' h
  | allocproc_op kalloc => exact allocproc_levels kalloc k
  | fork_op env _ cur r h => exact fork_levels env k cur r h
  | exit_op env _ cur r h => exact exit_levels TT env k cur r h
  | wait_op _ cur r h => exact wait_levels TT k cur r h
  | kill_op _ pid => exact kill_levels k pid
  | yield_op _ cur _ h => exact yield_levels k cur k' h
  | sleep_op _ cur chan lk _ h => exact sleep_levels k cur chan lk k' h
  | wakeup_op _ chan => exact wakeup1_levels chan k.ptable
  | thread_create_op env _ cur r h => exact thread_create_levels TT env k cur r h
  | thread_exit_op _ cur retval _ h => exact thread_exit_levels k cur retval k' h
  | thread_join_op env _ cur thread r h => exact thread_join_levels TT env k cur thread r h
  | set_cpu_share_op _ cur share r h => exact set_cpu_share_levels TT k cur share r h

/-- Sequences of lifecycle operations, likewise. -/
theorem lifecycles_levels (TT : Int) (k k' : Kernel)
    (h : Relation.ReflTransGen (Lifecycle TT) k k') :
    Pointwise level_kept k.ptable k'.ptable := by
  induction h with
  | refl => exact pointwise_refl level_kept_refl _
  | tail _ hstep ih => exact levels_trans ih (lifecycle_levels TT _ _ hstep)

/-! ## The level range -/

/-- A table whose levels are those of a table in range, or 0, is in range. -/
theorem levels_in_range_of_kept {ps ps' : List proc} (h : Pointwise level_kept ps ps')
    (hr : LevelsInRange ps) : LevelsInRange ps' := by
  intro p' hp'
  obtain ⟨j, hj, hjp⟩ := List.getElem_of_mem hp'
  have hj2 : j < ps.length := by rw [← h.1]; exact hj
  have hk := h.2 j ps[j] p' (List.getElem?_eq_getElem hj2)
    (by rw [List.getElem?_eq_getElem hj, hjp])
  have hin := hr ps[j] (List.getElem_mem hj2)
  rcases hk with hk | hk
  · rw [hk]; exact hin
  · exact Or.inl hk

/-- Writing a slot with a level in range keeps a table in range. -/
theorem levels_in_range_set {ps : List proc} (hr : LevelsInRange ps) (i : Nat) (a : proc)
    (ha : a.level = 0 ∨ a.level = 1 ∨ a.level = 2) : LevelsInRange (ps.set i a) := by
  intro p hp
  rcases List.mem_or_eq_of_mem_set hp with h | h
  · exact hr p h
  · rw [h]; exact ha

/-- The pass update and epoch wrap keep every level. -/
theorem mlfq_advance_levels (k : Kernel) :
    Pointwise level_kept k.ptable (mlfq_advance k).ptable := by
  unfold mlfq_advance
  simp only []
  split
  · refine pointwise_map _ _ (fun p => ?_)
    unfold level_kept
    split
    · exact Or.inl rfl
    · exact Or.inl rfl
  · exact pointwise_refl level_kept_refl _

/-- A dispatch from a table in range, with a legal `swtch`: both array reads
are in bounds, the dispatch returns, and the table is in range afterwards. -/
theorem mlfq_dispatch_in_range (TT : Int) {swtch : Nat → Kernel → Kernel}
    (hleg : Legal TT swtch) (lvl : Int) (hlvl : lvl = 0 ∨ lvl = 1 ∨ lvl = 2)
    (i : Nat) (p : proc) (s : Sweep) (hp : s.k.ptable[i]? = some p) (hl : p.level = lvl)
    (hr : LevelsInRange s.k.ptable) :
    ∃ s', mlfq_dispatch swtch lvl i p s = .ok s' ∧ LevelsInRange s'.k.ptable ∧
      s'.k.ptable.length = s.k.ptable.length := by
  have hi : i < s.k.ptable.length := by
    by_contra hcon
    rw [List.getElem?_eq_none (by omega)] at hp
    cases hp
  obtain ⟨⟨q, hq0, _⟩, _⟩ := cindex_levels p.level (by omega) (by omega)
  have hkept := lifecycles_levels TT _ _ (hleg i
    { s.k with ptable := s.k.ptable.set i { p with ticks := p.ticks + q, state := .RUNNING } })
  have hr1 : LevelsInRange (s.k.ptable.set i { p with ticks := p.ticks + q, state := .RUNNING }) :=
    levels_in_range_set hr i _ (by rw [← hl] at hlvl; exact hlvl)
  have hr2 := levels_in_range_of_kept hkept hr1
  have hlen := hkept.1
  simp only [List.length_set] at hlen
  have hi2 : i < (swtch i { s.k with ptable := s.k.ptable.set i { p with ticks := p.ticks + q, state := .RUNNING } }).ptable.length := by
    rw [hlen]; exact hi
  have hp2 := List.getElem?_eq_getElem hi2
  have hlev2 := hkept.2 i { p with ticks := p.ticks + q, state := .RUNNING } _
    (by show (s.k.ptable.set i _)[i]? = _; rw [set_getElem?, if_pos rfl, hp]; rfl) hp2
  generalize (swtch i { s.k with ptable := s.k.ptable.set i { p with ticks := p.ticks + q, state := .RUNNING } }).ptable[i] = p2 at hp2 hlev2
  have hlev2' : p2.level = lvl ∨ p2.level = 0 := by
    rcases hlev2 with h | h
    · exact Or.inl (h.trans hl)
    · exact Or.inr h
  obtain ⟨_, a, ha⟩ := cindex_levels p2.level (by omega) (by omega)
  have hdis : mlfq_dispatch swtch lvl i p s = .ok
      { k := if p2.ticks ≥ a then
          { swtch i { s.k with ptable := s.k.ptable.set i { p with ticks := p.ticks + q, state := .RUNNING } } with
            ptable := (swtch i { s.k with ptable := s.k.ptable.set i { p with ticks := p.ticks + q, state := .RUNNING } }).ptable.set i { p2 with ticks := 0, level := if lvl = 2 then 0 else p2.level + 1 } }
          else swtch i { s.k with ptable := s.k.ptable.set i { p with ticks := p.ticks + q, state := .RUNNING } },
        found := true, log := s.log ++ [Event.mlfq_run i p.level q] } := by
    unfold mlfq_dispatch
    rw [hq0]
    show (match (swtch i _).ptable[i]? with
      | none => Except.error Fault.null_proc
      | some p2 => _) = _
    rw [hp2]
    show (cindex time_allotment p2.level >>= _) = _
    rw [ha]
    rfl
  refine ⟨_, hdis, ?_, ?_⟩
  · show LevelsInRange (if p2.ticks ≥ a then _ else _ : Kernel).ptable
    split
    · refine levels_in_range_set hr2 i _ ?_
      show (if lvl = 2 then 0 else p2.level + 1) = 0 ∨ (if lvl = 2 then 0 else p2.level + 1) = 1 ∨
        (if lvl = 2 then 0 else p2.level + 1) = 2
      by_cases h2 : lvl = 2
      · rw [if_pos h2]; exact Or.inl rfl
      · rw [if_neg h2]; omega
    · exact hr2
  · show (if p2.ticks ≥ a then _ else _ : Kernel).ptable.length = _
    split
    · simp only [List.length_set]; exact hlen
    · exact hlen

/-- A sweep from a table in range, with a legal `swtch`: it returns, and the
table is in range afterwards. -/
theorem mlfq_sweep_in_range (TT : Int) {swtch : Nat → Kernel → Kernel}
    (hleg : Legal TT swtch) (lvl : Int) (hlvl : lvl = 0 ∨ lvl = 1 ∨ lvl = 2)
    (n i : Nat) (s : Sweep) (hr : LevelsInRange s.k.ptable) :
    ∃ s', mlfq_sweep swtch lvl n i s = .ok s' ∧ LevelsInRange s'.k.ptable ∧
      s'.k.ptable.length = s.k.ptable.length := by
  induction n generalizing i s with
  | zero => exact ⟨s, rfl, hr, rfl⟩
  | succ n ih =>
    rw [mlfq_sweep_succ]
    cases hp : s.k.ptable[i]? with
    | none => exact ih (i + 1) s hr
    | some p =>
      simp only
      by_cases hc : p.state ≠ .RUNNABLE ∨ p.isStride = true ∨ p.level ≠ lvl
      · rw [if_pos hc]
        exact ih (i + 1) s hr
      · rw [if_neg hc]
        have hl : p.level = lvl := by
          by_contra hne
          exact hc (Or.inr (Or.inr hne))
        obtain ⟨s1, h1, hr1, hlen1⟩ := mlfq_dispatch_in_range TT hleg lvl hlvl i p s hp hl hr
        obtain ⟨s2, h2, hr2, hlen2⟩ := ih (i + 1) s1 hr1
        refine ⟨s2, ?_, hr2, hlen2.trans hlen1⟩
        rw [h1]
        exact h2

/-- A guarded sweep, likewise. -/
theorem sweep_unless_found_in_range (TT : Int) {swtch : Nat → Kernel → Kernel}
    (hleg : Legal TT swtch) (lvl : Int) (hlvl : lvl = 0 ∨ lvl = 1 ∨ lvl = 2)
    (n : Nat) (s : Sweep) (hr : LevelsInRange s.k.ptable) :
    ∃ s', sweep_unless_found swtch lvl n s = .ok s' ∧ LevelsInRange s'.k.ptable ∧
      s'.k.ptable.length = s.k.ptable.length := by
  unfold sweep_unless_found
  split
  · exact mlfq_sweep_in_range TT hleg lvl hlvl n 0 s hr
  · exact ⟨s, rfl, hr, rfl⟩

/-- The MLFQ branch from a table in range, with a legal `swtch`: it returns,
and the table is in range afterwards. -/
theorem mlfq_branch_in_range (TT : Int) {swtch : Nat → Kernel → Kernel}
    (hleg : Legal TT swtch) (k : Kernel) (hr : LevelsInRange k.ptable) :
    ∃ r, mlfq_branch swtch k = .ok r ∧ LevelsInRange r.1.ptable ∧
      r.1.ptable.length = k.ptable.length := by
  have hr0 := levels_in_range_of_kept (mlfq_advance_levels k) hr
  obtain ⟨s0, h0, hr0', hl0⟩ := mlfq_sweep_in_range TT hleg 0 (Or.inl rfl)
    (mlfq_advance k).ptable.length 0
    { k := mlfq_advance k, found := false, log := [Event.mlfq_pass] } hr0
  obtain ⟨s1, h1, hr1, hl1⟩ := sweep_unless_found_in_range TT hleg 1 (Or.inr (Or.inl rfl))
    (mlfq_advance k).ptable.length s0 hr0'
  obtain ⟨s2, h2, hr2, hl2⟩ := sweep_unless_found_in_range TT hleg 2 (Or.inr (Or.inr rfl))
    (mlfq_advance k).ptable.length s1 hr1
  refine ⟨(s2.k, s2.log), ?_, hr2, ?_⟩
  · unfold mlfq_branch mlfq_sweeps
    simp only []
    rw [h0]
    show (sweep_unless_found swtch 1 _ _ >>= _) = _
    rw [h1]
    show (sweep_unless_found swtch 2 _ _ >>= _) = _
    rw [h2]
    rfl
  · show s2.k.ptable.length = _
    rw [hl2, hl1, hl0]
    exact mlfq_advance_length k

/-- One scheduler iteration from a table in range, with a legal `swtch`: it
returns, and the table is in range afterwards. -/
theorem scheduler_in_range (TT : Int) {swtch : Nat → Kernel → Kernel}
    (hleg : Legal TT swtch) (k : Kernel) (hr : LevelsInRange k.ptable) :
    ∃ r, scheduler swtch k = .ok r ∧ LevelsInRange r.1.ptable := by
  cases hw : stride_winner k with
  | none =>
    obtain ⟨r, h, hr', _⟩ := mlfq_branch_in_range TT hleg k hr
    refine ⟨r, ?_, hr'⟩
    unfold scheduler
    rw [hw]
    exact h
  | some i =>
    obtain ⟨w, hwi, _⟩ := stride_winner_some hw
    rw [scheduler_of_winner hw hwi]
    split
    · obtain ⟨r, h, hr', _⟩ := mlfq_branch_in_range TT hleg k hr
      exact ⟨r, h, hr'⟩
    · refine ⟨_, rfl, ?_⟩
      refine levels_in_range_of_kept (lifecycles_levels TT _ _ (hleg i _)) ?_
      unfold stride_dispatch
      exact levels_in_range_set hr i _ (hr w (List.getElem?_mem hwi))

/-- Every state reached by lifecycle operations and scheduler iterations has
its levels in range. -/
theorem reachable_in_range (TT : Int) (k : Kernel) (h : Reachable TT k) :
    LevelsInRange k.ptable := by
  induction h with
  | boot NPROC =>
    intro p hp
    unfold initial_state at hp
    rw [List.eq_of_mem_replicate hp]
    exact Or.inl rfl
  | op k k' _ hstep ih => exact levels_in_range_of_kept (lifecycle_levels TT k k' hstep) ih
  | sched swtch k r _ hleg hs ih =>
    obtain ⟨r', h', hr'⟩ := scheduler_in_range TT hleg k ih
    rw [hs] at h'
    simp only [Except.ok.injEq] at h'
    rw [h']
    exact hr'

/-- A run of scheduler iterations from a reachable state, with a legal `swtch`,
ends in a reachable state. -/
theorem reachable_scheduler_run (TT : Int) {swtch : Nat → Kernel → Kernel}
    (hleg : Legal TT swtch) (n : Nat) (k : Kernel) (r : Kernel × List Event)
    (hk : Reachable TT k) (h : scheduler_run swtch n k = .ok r) : Reachable TT r.1 := by
  induction n generalizing k r with
  | zero =>
    simp only [scheduler_run, Except.ok.injEq] at h
    rw [← h]
    exact hk
  | succ n ih =>
    unfold scheduler_run at h
    simp only [bind_eq_ok] at h
    obtain ⟨r1, h1, r2, h2, h⟩ := h
    simp only [pure, Except.pure, Except.ok.injEq] at h
    rw [← h]
    exact ih r1.1 r2 (Reachable.sched swtch k r1 hk hleg h1) h2

/-- A task that only yields is legal. -/
theorem swtch_yield_legal (TT : Int) : Legal TT swtch_yield := by
  intro i k
  unfold swtch_yield
  cases hi : k.ptable[i]? with
  | none => exact Relation.ReflTransGen.refl
  | some p =>
    refine Relation.ReflTransGen.single (Lifecycle.yield_op k i _ ?_)
    unfold yield
    rw [hi]

/-- C24: the MLFQ level range.  In every state reached from the start of the
kernel by lifecycle operations (`userinit`, `allocproc`, `fork`, `exit`,
`wait`, `kill`, `yield`, `sleep`, `wakeup`, `thread_create`, `thread_exit`,
`thread_join`, `set_cpu_share`) and scheduler iterations in which the
dispatched tasks do lifecycle operations: every slot has level 0, 1 or 2;
`getlev` returns 0, 1 or 2 for every slot; the reads of `time_quantum` and
`time_allotment` at the level of any slot are in bounds; and the next
scheduler iteration returns (no array read in it is out of bounds). -/
theorem mlfq_level_range (TT : Int) (k : Kernel) (h : Reachable TT k) :
    (∀ p ∈ k.ptable, p.level = 0 ∨ p.level = 1 ∨ p.level = 2) ∧
    (∀ cur, cur < k.ptable.length →
      ∃ v, getlev k cur = .ok v ∧ (v = 0 ∨ v = 1 ∨ v = 2)) ∧
    (∀ p ∈ k.ptable, (∃ q, cindex time_quantum p.level = .ok q) ∧
      ∃ a, cindex time_allotment p.level = .ok a) ∧
    (∀ swtch, Legal TT swtch → ∃ r, scheduler swtch k = .ok r) := by
  have hr := reachable_in_range TT k h
  refine ⟨hr, fun cur hcur => ?_, fun p hp => ?_, fun swtch hleg => ?_⟩
  · refine ⟨k.ptable[cur].level, ?_, hr _ (List.getElem_mem hcur)⟩
    unfold getlev
    rw [List.getElem?_eq_getElem hcur]
  · have := hr p hp
    obtain ⟨⟨q, hq, _⟩, a, ha⟩ := cindex_levels p.level (by omega) (by omega)
    exact ⟨⟨q, hq⟩, a, ha⟩
  · obtain ⟨r, h1, _⟩ := scheduler_in_range TT hleg k hr
    exact ⟨r, h1⟩

/-- The state at the end of `small_run` is reachable; init (slot 0) has been
demoted to level 1 there, every level is in range and the next scheduler
iteration returns. -/
theorem mlfq_level_range_witness :
    ∃ k1 k2 k3, small_run = .ok (k1, k2, k3) ∧ Reachable 10000 k3 ∧
      getlev k3 0 = .ok 1 ∧
      (∀ p ∈ k3.ptable, p.level = 0 ∨ p.level = 1 ∨ p.level = 2) ∧
      ∃ r, scheduler swtch_yield k3 = .ok r := by
  have hrun : ∃ k1 k2 k3 r2 r3, small_run = .ok (k1, k2, k3) ∧
      userinit 10000 env_ok 1 (initial_state 8) = .ok k1 ∧
      fork env_ok k1 0 = .ok r2 ∧ r2.2.1 = k2 ∧
      scheduler_run swtch_yield 6 k2 = .ok r3 ∧ r3.1 = k3 ∧ getlev k3 0 = .ok 1 :=
    ⟨_, _, _, _, _, rfl, rfl, rfl, rfl, rfl, rfl, rfl⟩
  obtain ⟨k1, k2, k3, r2, r3, hrun, h1, h2, e2, h3, e3, hlev⟩ := hrun
  have hk1 : Reachable 10000 k1 :=
    Reachable.op _ _ (Reachable.boot 8) (Lifecycle.userinit_op env_ok 1 _ _ h1)
  have hk2 : Reachable 10000 k2 := by
    rw [← e2]
    exact Reachable.op _ _ hk1 (Lifecycle.fork_op env_ok k1 0 r2 h2)
  have hk3 : Reachable 10000 k3 := by
    rw [← e3]
    exact reachable_scheduler_run 10000 (swtch_yield_legal 10000) 6 k2 r3 hk2 h3
  exact ⟨k1, k2, k3, hrun, hk3, hlev, (mlfq_level_range 10000 k3 hk3).1,
    (mlfq_level_range 10000 k3 hk3).2.2.2 swtch_yield (swtch_yield_legal 10000)⟩

/-! ## Calls that meet a free slot -/

/-- C2 (failing input): after process P of `thread_state` has taken a share,
run, exited and been reaped, no slot holds a stride task, but the slots 2 and 3
(its threads, torn down by `exit`) are UNUSED with `isStride` still set and pass
500, and `mlfq.pass` is 664.  The caller, init (slot 0), has no threads; its
`set_cpu_share(10)` returns 10 and gives it the pass 500 of the dead slots, not
664. -/
theorem set_cpu_share_enters_at_dead_pass :
    ∃ k4 k5, request_after_reap = .ok (k4, k5) ∧
      (∀ p ∈ k4.ptable, is_stride_task p = false) ∧
      k4.mlfq.pass = 664 ∧
      stride_view k4 2 = some (.UNUSED, true, 500) ∧
      stride_view k4 3 = some (.UNUSED, true, 500) ∧
      (k4.ptable[0]?.map (fun p => (p.tid, p.num_of_threads))) = some (0, 0) ∧
      set_cpu_share 10000 k4 0 10 = .ok (10, k5) ∧
      (k5.ptable[0]?.map (fun p => (p.isStride, p.share, p.stride, p.pass))) =
        some (true, 10, 1000, 500) :=
  ⟨_, _, rfl, by decide, rfl, rfl, rfl, rfl, rfl, rfl⟩

/-- C5 (failing input): in the same state init (slot 0) has created a thread
(slot 1); no slot holds a stride task, the slots 2 and 3 are UNUSED with
`isStride` set and pass 500, and `mlfq.pass` is 664.  The caller is a process
with one thread; its `set_cpu_share(10)` returns 10 and gives the caller and
its thread the share 10 and the common pass 500 of the dead slots, not 664. -/
theorem set_cpu_share_shares_dead_pass :
    ∃ k5 k6, threaded_request_after_reap = .ok (k5, k6) ∧
      (∀ p ∈ k5.ptable, is_stride_task p = false) ∧
      k5.mlfq.pass = 664 ∧
      stride_view k5 2 = some (.UNUSED, true, 500) ∧
      stride_view k5 3 = some (.UNUSED, true, 500) ∧
      (k5.ptable[0]?.map (fun p => (p.tid, p.num_of_threads))) = some (0, 1) ∧
      (k5.ptable[1]?.map (fun p => (p.parent, p.tid))) = some (some 0, 5) ∧
      set_cpu_share 10000 k5 0 10 = .ok (10, k6) ∧
      (k6.ptable[0]?.map (fun p => (p.isStride, p.share, p.stride, p.pass))) =
        some (true, 10, 1000, 500) ∧
      (k6.ptable[1]?.map (fun p => (p.isStride, p.share, p.stride, p.pass))) =
        some (true, 10, 1000, 500) :=
  ⟨_, _, rfl, by decide, rfl, rfl, rfl, rfl, rfl, rfl, rfl, rfl⟩

/-- C12 (failing input): in the boot state the only slots with pid 0 are the
free ones (4 to 7).  `kill(0)` returns 0 and sets `killed` in the free slot 4;
the process that the next `fork` puts into that slot (pid 5) has `killed = 1`
from its start. -/
theorem kill_zero_marks_free_slot :
    (∀ p ∈ (boot_state 10000).ptable, p.pid = 0 → p.state = .UNUSED) ∧
    ((boot_state 10000).ptable[4]?.map (fun p => (p.state, p.pid, p.killed))) =
      some (.UNUSED, 0, 0) ∧
    ∃ k1 k2, kill_zero_then_fork = .ok (0, k1, k2) ∧
      kill (boot_state 10000) 0 = (0, k1) ∧ k1 ≠ boot_state 10000 ∧
      (k1.ptable[4]?.map (fun p => (p.state, p.pid, p.killed))) = some (.UNUSED, 0, 1) ∧
      (k2.ptable[4]?.map (fun p => (p.state, p.pid, p.killed))) = some (.RUNNABLE, 5, 1) :=
  ⟨by decide, rfl, _, _, rfl, rfl, by decide, rfl, rfl⟩

/-- C22 (counterexample): process A (slot 1) has one thread and, after a
`thread_create` that found no memory, the size 0; its `exit` tears the thread
down and the counter reaches 0, but the shrink target `0 - 2 * 1 * 4096` wraps
and `deallocuvm` leaves the size as it is.  Likewise in `cramped_state`, where
process P has the size 12288 and `sum_of_threads = 2`: after `exit` its size is
still 12288, not 16384 less. -/
theorem exit_keeps_size_below_stacks :
    (∃ k2 k3, failed_create_then_exit = .ok (-1, k2, k3) ∧
      size_view k2 1 = some (0, 1, 1) ∧
      usub 0 (2 * 1 * env_ok.PGSIZE) = 4294959104 ∧
      size_view k3 1 = some (0, 0, 0) ∧
      (k3.ptable[1]?.map (fun p => p.state)) = some .ZOMBIE ∧
      (k3.ptable[4]?.map (fun p => p.state)) = some .UNUSED) ∧
    size_view cramped_state 1 = some (12288, 2, 2) ∧
    usub 12288 (2 * 2 * env_ok.PGSIZE) = 4294963200 ∧
    ∃ k', exit 10000 env_ok cramped_state 1 = .ok (k', [MemCall.kfree 3, MemCall.kfree 4]) ∧
      size_view k' 1 = some (12288, 0, 0) ∧
      (k'.ptable[1]?.map (fun p => p.state)) = some .ZOMBIE :=
  ⟨⟨_, _, rfl, rfl, by decide, rfl, rfl, rfl⟩, rfl, by decide, _, rfl, rfl, rfl⟩

end Xv6
